import Mathlib

/-!
# A verification development for the `rgaus/blockchain` node

The definitions below are a shallow embedding of the Go sources
(`block.go`, `lazyblock.go`, `transaction.go`, `keypair.go`, `blockchain.go`,
`mempool.go`, `peer.go`, `main.go`).

Conventions of the embedding.

* A Go `*Block` is an address (`Nat`) into a heap `State.blocks`; a nil pointer
  is `none`.  Every address holds a block, as every non-nil Go pointer does.
* A `*BlockHash` is `Option BlockHash`.  Every block owns the cell its `Hash`
  field points to (the sources only ever store a freshly allocated cell there:
  `HexToBlockHash`, `VerifyHash`), so the Go comparison `x.Hash == y.Hash` of two
  such pointers is decided by `sameHashPointer`.
* A `*LazyBlock` is stored inside the block that holds it; its `chain` handle is
  the one chain of the node (`State.chain`).  `Unwrap` writes its cache, so the
  functions that call it pass the memory along.
* The appendage records and the transactions are stored in the lists that
  point to them.
* Go `uint` is 64 bits wide: arithmetic on it is taken modulo `2 ^ 64`.
* A function returning `(T, error)` returns an `Outcome T`; a nil dereference is
  `Outcome.panic`.
* `time.Now()` is an argument, `now`.
* The standard library (SHA-256, RSA, JSON, base64) is a parameter: `Lib` for what
  the encoders call, `DecodeLib` for what the decoders call.  `hex.DecodeString` and
  `strings.Split` are written out.
* A Go map is an association list (`AList`); the order of its entries stands for the
  order in which `range` visits them.
* The only loop without a bound, the backward walk over previous references,
  takes a `fuel`; a result `none` is a walk that has not ended yet.  What is
  proved of a call that walks is proved for all fuel above a bound.

The file has four parts: the embedding, small concrete instances for the
examples, lemmas, and the theorems `C1` to `C32` with their examples.
-/

namespace BC

/-! ## Bytes, hashes, hexadecimal text -/

abbrev Byte := Fin 256

/-- Go `[]byte` and `string`: a sequence of bytes. -/
abbrev Bytes := List Byte

/-- Go `type BlockHash [32]byte`. -/
abbrev BlockHash := { l : List Byte // l.length = 32 }

/-- Go `const HASH_ZERO_PREFIX_LENGTH = 4`. -/
def HASH_ZERO_PREFIX_LENGTH : Nat := 4

/-- The ASCII character `'0'`. -/
def asciiZero : Byte := 48

/-- The ASCII character `'.'`. -/
def asciiDot : Byte := 46

/-- One lowercase hexadecimal digit, as `%x` prints it: `0-9` then `a-f`. -/
def hexDigit (d : Nat) : Byte :=
  if d < 10 then ⟨(48 + d) % 256, Nat.mod_lt _ (by decide)⟩
  else ⟨(87 + d) % 256, Nat.mod_lt _ (by decide)⟩

/-- The two hexadecimal digits of one byte, high nibble first. -/
def hexByte (b : Byte) : Bytes := [hexDigit (b.val / 16), hexDigit (b.val % 16)]

/-- Go `fmt.Sprintf("%x", bs)` on a byte array or slice. -/
def sprintfHex (bs : Bytes) : Bytes := bs.flatMap hexByte

/-- Go `TestHash`: the first `HASH_ZERO_PREFIX_LENGTH` characters of the
lowercase hex text of the hash are all `'0'`. -/
def TestHash (hash : BlockHash) : Bool :=
  let hashHex := sprintfHex hash.val
  (List.range HASH_ZERO_PREFIX_LENGTH).all fun i => hashHex[i]? == some asciiZero

/-! ## Outcomes, time, machine integers -/

/-- What a call of a Go function returning `(T, error)` does: it returns a value
with a nil error, it returns a non-nil error, or it panics. -/
inductive Outcome (α : Type) where
  | ok (value : α)
  | error
  | panic
  deriving DecidableEq, Repr

/-- Go `time.Time` without a monotonic reading: the instant (nanoseconds since
the Unix epoch) and the location pointer (`0` is UTC, `1` is `time.Local`).
The Go operator `==` on two times compares both fields; `After` compares the
instants only. -/
structure Time where
  instant : Int
  loc : Nat
  deriving DecidableEq, Repr

/-- Go `t.After(u)`. -/
def Time.After (t u : Time) : Bool := decide (u.instant < t.instant)

/-- Go `time.Unix(0, 0)`: the epoch, in the local location. -/
def Time.unixEpoch : Time := ⟨0, 1⟩

/-- The number of values of a Go `uint` (64-bit platform). -/
def UINT_MOD : Nat := 2 ^ 64

/-- Go `a + b` on `uint`. -/
def uintAdd (a b : Nat) : Nat := (a + b) % UINT_MOD

/-- Go `a - b` on `uint`. -/
def uintSub (a b : Nat) : Nat := (a + UINT_MOD - b % UINT_MOD) % UINT_MOD

/-! ## Transactions (`transaction.go`, `keypair.go`) -/

/-- Go `uuid.UUID`, a `[16]byte`. -/
abbrev UUID := { l : List Byte // l.length = 16 }

/-- Go `type PublicKey rsa.PublicKey`. -/
structure PublicKey where
  N : Int
  E : Int
  deriving DecidableEq, Repr

/-- Go `rsa.PrivateKey`. -/
structure PrivateKey where
  PublicKey : PublicKey
  D : Int
  deriving DecidableEq, Repr

/-- Go `type Currency uint`. -/
abbrev Currency := Nat

/-- Go `struct Transaction`; `Signature` is a slice that may be nil, the two
keys are pointers that may be nil. -/
structure Transaction where
  Id : UUID
  Signature : Option Bytes
  SenderPrivateKey : Option PrivateKey
  SenderPublicKey : Option PublicKey
  Cost : Currency
  Data : Bytes
  deriving DecidableEq

/-- A value of a JSON object as `encoding/json` writes and reads it for the structs of
the sources: `null`, an integer, a string, or the JSON text of a value that belongs to a
type with its own `MarshalJSON` and `UnmarshalJSON` methods (written by the one, handed
to the other). -/
inductive JsonValue where
  | null
  | number (n : Int)
  | string (s : Bytes)
  | raw (text : Bytes)
  deriving DecidableEq, Repr

/-- The fields of a JSON object, by name, in the order in which they are written. -/
abbrev JsonObject := List (Bytes × JsonValue)

/-- The field name `id`. -/
def jsonKeyId : Bytes := [105, 100]

/-- The field name `public_key`. -/
def jsonKeyPublicKey : Bytes := [112, 117, 98, 108, 105, 99, 95, 107, 101, 121]

/-- The field name `cost`. -/
def jsonKeyCost : Bytes := [99, 111, 115, 116]

/-- The field name `data`. -/
def jsonKeyData : Bytes := [100, 97, 116, 97]

/-- The field name `n`. -/
def jsonKeyN : Bytes := [110]

/-- The field name `e`. -/
def jsonKeyE : Bytes := [101]

/-- The functions of the Go standard library and of `github.com/google/uuid` that the
encoders of the sources call. `marshalObject` is `json.Marshal` of a value whose JSON form
is the given object; `bigIntString` is `(*big.Int).String`; `uuidMarshalText` is the text
that `json.Marshal` writes for a `uuid.UUID`; `marshalBlockPayload` is `json.Marshal` of
the map built by `Block.SerializePayload` from `created_at`, `previous_hash`,
`transactions` and `number`.  `none` is a non-nil error. -/
structure Lib where
  sha256Sum256 : Bytes → BlockHash
  signPKCS1v15 : PrivateKey → BlockHash → Option Bytes
  verifyPKCS1v15 : PublicKey → BlockHash → Option Bytes → Bool
  marshalObject : JsonObject → Option Bytes
  bigIntString : Int → Bytes
  uuidMarshalText : UUID → Bytes
  marshalBlockPayload : Time → Bytes → List Bytes → Nat → Option Bytes
  base64EncodeToString : Bytes → Bytes

/-- Go `PublicKey.MarshalJSON` (`keypair.go`): `json.Marshal` of the map with the keys
`n` (the decimal text of `p.N`) and `e`; `json.Marshal` writes the keys of a map in sorted
order. -/
def PublicKey.MarshalJSON (lib : Lib) (p : PublicKey) : Option Bytes :=
  lib.marshalObject [(jsonKeyE, .number p.E), (jsonKeyN, .string (lib.bigIntString p.N))]

/-- The value that `json.Marshal` writes for a field of type `*PublicKey`: `null` for a nil
pointer, otherwise the text that `PublicKey.MarshalJSON` returns (and its error). -/
def marshalPublicKeyField (lib : Lib) (publicKey : Option PublicKey) : Option JsonValue :=
  match publicKey with
  | none => some .null
  | some p =>
    match PublicKey.MarshalJSON lib p with
    | none => none
    | some text => some (.raw text)

/-- Go `json.Marshal(t)` for a `Transaction`: the four fields that carry a JSON name, in
the order of the struct (`Signature` and `SenderPrivateKey` are tagged `json:"-"`). A nil
`SenderPublicKey` is written as `null`, another one as the text that its `MarshalJSON`
returns; `Data` is written as the base64 text of its bytes. -/
def Lib.marshalTransaction (lib : Lib) (id : UUID) (publicKey : Option PublicKey)
    (cost : Currency) (data : Bytes) : Option Bytes :=
  match marshalPublicKeyField lib publicKey with
  | none => none
  | some key =>
    lib.marshalObject
      [(jsonKeyId, .string (lib.uuidMarshalText id)), (jsonKeyPublicKey, key),
        (jsonKeyCost, .number cost), (jsonKeyData, .string (lib.base64EncodeToString data))]

/-- Go `Transaction.SerializePayload`. -/
def Transaction.SerializePayload (lib : Lib) (t : Transaction) : Outcome Bytes :=
  match lib.marshalTransaction t.Id t.SenderPublicKey t.Cost t.Data with
  | none => .error
  | some result => .ok (lib.base64EncodeToString result)

/-- Go `Transaction.Sign`: the outcome and the transaction afterwards. -/
def Transaction.Sign (lib : Lib) (t : Transaction) : Outcome Unit × Transaction :=
  match t.SenderPrivateKey with
  | none => (.error, t)
  | some key =>
    match t.SerializePayload lib with
    | .ok payload =>
      match lib.signPKCS1v15 key (lib.sha256Sum256 payload) with
      | none => (.error, t)
      | some signature => (.ok (), { t with Signature := some signature })
    | .error => (.error, t)
    | .panic => (.panic, t)

/-- Go `Transaction.Serialize`: signs the transaction first when it carries no
signature; the result is `payload ++ "." ++ hex(signature)`. -/
def Transaction.Serialize (lib : Lib) (t : Transaction) : Outcome Bytes × Transaction :=
  let signed : Outcome Unit × Transaction :=
    match t.Signature with
    | none => t.Sign lib
    | some _ => (.ok (), t)
  match signed with
  | (.ok _, t1) =>
    match t1.SerializePayload lib with
    | .ok payload => (.ok (payload ++ [asciiDot] ++ sprintfHex (t1.Signature.getD [])), t1)
    | .error => (.error, t1)
    | .panic => (.panic, t1)
  | (.error, t1) => (.error, t1)
  | (.panic, t1) => (.panic, t1)

/-- Go `Transaction.Verify`: `(true, nil)` or `(false, err)`; the conversion of a
nil `SenderPublicKey` is dereferenced by `rsa.VerifyPKCS1v15`. -/
def Transaction.Verify (lib : Lib) (t : Transaction) : Outcome Bool :=
  match t.SerializePayload lib with
  | .ok payload =>
    match t.SenderPublicKey with
    | none => .panic
    | some key =>
      if lib.verifyPKCS1v15 key (lib.sha256Sum256 payload) t.Signature then .ok true
      else .error
  | .error => .error
  | .panic => .panic

/-! ## Blocks, lazy references, the chain (`block.go`, `lazyblock.go`, `blockchain.go`) -/

/-- Go `struct LazyBlock`: the hash of the referenced block and the cached
resolution (an address). -/
structure LazyBlock where
  Hash : Option BlockHash
  resolvedBlock : Option Nat
  deriving DecidableEq

/-- Go `struct Block`. -/
structure Block where
  CreatedAt : Time
  Previous : Option LazyBlock
  Data : List Transaction
  Number : Nat
  Hash : Option BlockHash
  deriving DecidableEq

/-- Go `struct BlockchainAppendage`; `Genesis` and `Head` are addresses. -/
structure BlockchainAppendage where
  Genesis : Option Nat
  Head : Option Nat
  Length : Nat
  UpdatedAt : Time
  deriving DecidableEq, Repr

/-- Go `struct Blockchain`: the appendage list and the map from hash to block. -/
structure Blockchain where
  Appendages : List BlockchainAppendage
  index : BlockHash → Option Nat

/-- The memory of the node: the blocks by address, and the chain. -/
structure State where
  blocks : Nat → Block
  chain : Blockchain

/-- Writes block `b` at address `p`. -/
def State.setBlock (s : State) (p : Nat) (b : Block) : State :=
  { s with blocks := fun q => if q = p then b else s.blocks q }

/-- The assignment `b.Number = n` for the block at address `b`. -/
def State.setNumber (s : State) (b n : Nat) : State :=
  s.setBlock b { s.blocks b with Number := n }

/-- The assignment `b.Hash = hash` for the block at address `b`. -/
def State.setHash (s : State) (b : Nat) (hash : Option BlockHash) : State :=
  s.setBlock b { s.blocks b with Hash := hash }

/-- Go `NewBlockchain`. -/
def NewBlockchain : Blockchain := { Appendages := [], index := fun _ => none }

/-- Go `Blockchain.GetBlockWithHash`. -/
def Blockchain.GetBlockWithHash (c : Blockchain) (hash : BlockHash) : Option Nat :=
  c.index hash

/-- Go `LazyBlock.Unwrap`: the resolved block and the reference afterwards (the
lookup is cached). -/
def LazyBlock.Unwrap (c : Blockchain) (l : LazyBlock) : Option Nat × LazyBlock :=
  match l.resolvedBlock with
  | some r => (some r, l)
  | none =>
    match l.Hash with
    | none => (none, l)
    | some hash =>
      let r := c.GetBlockWithHash hash
      (r, { l with resolvedBlock := r })

/-- What the previous reference of block `b` resolves to against chain `c`:
nothing when `b.Previous` is nil, else the result of `b.Previous.Unwrap()`. -/
def resolvePrevious (c : Blockchain) (b : Block) : Option Nat :=
  match b.Previous with
  | none => none
  | some l => (l.Unwrap c).1

/-- Go `x.Hash == y.Hash` for the blocks at addresses `x` and `y`: a comparison
of two `*BlockHash` pointers.  Both are nil, or both point to a cell; a cell
belongs to one block. -/
def sameHashPointer (s : State) (x y : Nat) : Bool :=
  match (s.blocks x).Hash, (s.blocks y).Hash with
  | none, none => true
  | some _, some _ => x == y
  | _, _ => false

/-- The loop of `Block.SerializePayload` over `b.Data`: the serialized
transactions (or the first error) and the transactions afterwards. -/
def serializeTransactions (lib : Lib) :
    List Transaction → Outcome (List Bytes) × List Transaction
  | [] => (.ok [], [])
  | t :: ts =>
    match t.Serialize lib with
    | (.ok serializedBytes, t1) =>
      match serializeTransactions lib ts with
      | (.ok rest, ts1) => (.ok (serializedBytes :: rest), t1 :: ts1)
      | (.error, ts1) => (.error, t1 :: ts1)
      | (.panic, ts1) => (.panic, t1 :: ts1)
    | (.error, t1) => (.error, t1 :: ts)
    | (.panic, t1) => (.panic, t1 :: ts)

/-- The end of `Block.SerializePayload`: `json.Marshal` of the map, then base64. -/
def marshalPayload (lib : Lib) (s : State) (b : Nat) (previousHash : Bytes)
    (serializedTransactions : List Bytes) : Outcome Bytes × State :=
  match lib.marshalBlockPayload (s.blocks b).CreatedAt previousHash serializedTransactions
      (s.blocks b).Number with
  | none => (.error, s)
  | some result => (.ok (lib.base64EncodeToString result), s)

/-- Go `Block.SerializePayload` for the block at address `b`. -/
def Block.SerializePayload (lib : Lib) (s : State) (b : Nat) : Outcome Bytes × State :=
  match serializeTransactions lib (s.blocks b).Data with
  | (.ok serializedTransactions, data1) =>
    let s1 := s.setBlock b { s.blocks b with Data := data1 }
    match (s1.blocks b).Previous with
    | none => marshalPayload lib s1 b [] serializedTransactions
    | some l =>
      let (unwrapped, l1) := l.Unwrap s1.chain
      let s2 := s1.setBlock b { s1.blocks b with Previous := some l1 }
      match unwrapped with
      | none => marshalPayload lib s2 b [] serializedTransactions
      | some u =>
        match (s2.blocks u).Hash with
        | none => (.panic, s2)
        | some hash => marshalPayload lib s2 b (sprintfHex hash.val) serializedTransactions
  | (.error, data1) => (.error, s.setBlock b { s.blocks b with Data := data1 })
  | (.panic, data1) => (.panic, s.setBlock b { s.blocks b with Data := data1 })

/-- The loop of `Block.VerifyData`. -/
def verifyTransactions (lib : Lib) : List Transaction → Outcome Bool
  | [] => .ok true
  | t :: ts =>
    match t.Verify lib with
    | .ok true => verifyTransactions lib ts
    | .ok false => .ok false
    | .error => .error
    | .panic => .panic

/-- Go `Block.VerifyData`. -/
def Block.VerifyData (lib : Lib) (s : State) (b : Nat) : Outcome Bool :=
  verifyTransactions lib (s.blocks b).Data

/-- Go `Block.VerifyHash`: the digest of the payload when `TestHash` accepts it,
nil otherwise. -/
def Block.VerifyHash (lib : Lib) (s : State) (b : Nat) : Outcome (Option BlockHash) × State :=
  match Block.SerializePayload lib s b with
  | (.ok serialized, s1) =>
    let hash := lib.sha256Sum256 serialized
    if TestHash hash then (.ok (some hash), s1) else (.ok none, s1)
  | (.error, s1) => (.error, s1)
  | (.panic, s1) => (.panic, s1)

/-- Go `Block.Verify`. -/
def Block.Verify (lib : Lib) (s : State) (b : Nat) : Outcome Bool × State :=
  match Block.VerifyData lib s b with
  | .error => (.error, s)
  | .panic => (.panic, s)
  | .ok false => (.ok false, s)
  | .ok true =>
    match Block.VerifyHash lib s b with
    | (.error, s1) => (.error, s1)
    | (.panic, s1) => (.panic, s1)
    | (.ok none, s1) => (.ok false, s1)
    | (.ok (some _), s1) => (.ok true, s1)

/-- The loop of `Block.Mine`, with `remaining = MaxUint - n` iterations left:
errors of `VerifyHash` are skipped, the first accepted digest is stored. -/
def mineLoop (lib : Lib) (b : Nat) : Nat → Nat → State → Outcome Unit × State
  | 0, _, s => (.ok (), s)
  | remaining + 1, n, s =>
    let s1 := s.setNumber b n
    match Block.VerifyHash lib s1 b with
    | (.ok (some hash), s2) => (.ok (), s2.setHash b (some hash))
    | (.ok none, s2) => mineLoop lib b remaining (n + 1) s2
    | (.error, s2) => mineLoop lib b remaining (n + 1) s2
    | (.panic, s2) => (.panic, s2)

/-- Go `Block.Mine`; `MaxUint` is the bound of the nonce loop (the constant is
declared outside the given sources). -/
def Block.Mine (lib : Lib) (MaxUint : Nat) (s : State) (b : Nat) : Outcome Unit × State :=
  mineLoop lib b MaxUint 0 s

/-- Go `Blockchain.InsertBlock` for the block at address `block`. -/
def Blockchain.InsertBlock (s : State) (block : Nat) : Bool × State :=
  match (s.blocks block).Hash with
  | none => (false, s)
  | some hash =>
    match s.chain.index hash with
    | some _ => (false, s)
    | none =>
      (true, { s with chain := { s.chain with
        index := fun k => if k = hash then some block else s.chain.index k } })

/-- The first loop of `InsertBlockAndPlaceIntoAppendage`: the appendage list
with the first appendage whose head has the hash pointer of `blockPrevious`
extended by `block`, or `none` when no appendage fits. -/
def extendAppendage (s : State) (block blockPrevious : Nat) (now : Time) :
    List BlockchainAppendage → Option (List BlockchainAppendage)
  | [] => none
  | a :: rest =>
    match a.Head with
    | none => (extendAppendage s block blockPrevious now rest).map (a :: ·)
    | some head =>
      if sameHashPointer s head blockPrevious then
        some ({ a with Head := some block, Length := uintAdd a.Length 1, UpdatedAt := now } :: rest)
      else (extendAppendage s block blockPrevious now rest).map (a :: ·)

/-- The inner loop of the second search, `for currentBlock != nil`: the depth
at which the hash pointer of `blockPrevious` is met (`none` when the walk ends
without meeting it), and the memory afterwards.  The outer `none` is a walk
that has not ended within `fuel` steps. -/
def ancestorWalk (blockPrevious : Nat) : Nat → State → Nat → Nat → Option (Option Nat × State)
  | 0, _, _, _ => none
  | fuel + 1, s, currentBlock, depth =>
    if sameHashPointer s currentBlock blockPrevious then some (some depth, s)
    else
      match (s.blocks currentBlock).Previous with
      | none => some (none, s)
      | some l =>
        let (next, l1) := l.Unwrap s.chain
        let s1 := s.setBlock currentBlock { s.blocks currentBlock with Previous := some l1 }
        match next with
        | none => some (none, s1)
        | some nextBlock => ancestorWalk blockPrevious fuel s1 nextBlock (uintAdd depth 1)

/-- The second loop of `InsertBlockAndPlaceIntoAppendage`: the first appendage
whose backward walk meets `blockPrevious`, with the depth of the hit. -/
def forkSearch (fuel : Nat) (blockPrevious : Nat) :
    State → List BlockchainAppendage → Option (Option (BlockchainAppendage × Nat) × State)
  | s, [] => some (none, s)
  | s, a :: rest =>
    match a.Head with
    | none => forkSearch fuel blockPrevious s rest
    | some head =>
      match (s.blocks head).Previous with
      | none => forkSearch fuel blockPrevious s rest
      | some l =>
        let (current, l1) := l.Unwrap s.chain
        let s1 := s.setBlock head { s.blocks head with Previous := some l1 }
        match current with
        | none => forkSearch fuel blockPrevious s1 rest
        | some currentBlock =>
          match ancestorWalk blockPrevious fuel s1 currentBlock 0 with
          | none => none
          | some (some depth, s2) => some (some (a, depth), s2)
          | some (none, s2) => forkSearch fuel blockPrevious s2 rest

/-- Appends an appendage record to the chain of `s`. -/
def State.appendAppendage (s : State) (a : BlockchainAppendage) : State :=
  { s with chain := { s.chain with Appendages := s.chain.Appendages ++ [a] } }

/-- Go `Blockchain.InsertBlockAndPlaceIntoAppendage` for the block at address
`block`; `now` is the value of `time.Now().UTC()`.  The result is `none` when a
backward walk has not ended within `fuel` steps. -/
def Blockchain.InsertBlockAndPlaceIntoAppendage (fuel : Nat) (now : Time) (s : State)
    (block : Nat) : Option (Bool × State) :=
  match Blockchain.InsertBlock s block with
  | (false, s0) => some (false, s0)
  | (true, s0) =>
    match (s0.blocks block).Previous with
    | none => some (true, s0.appendAppendage ⟨some block, some block, 1, now⟩)
    | some l =>
      let (unwrapped, l1) := l.Unwrap s0.chain
      let s1 := s0.setBlock block { s0.blocks block with Previous := some l1 }
      match unwrapped with
      | none => some (true, s1.appendAppendage ⟨some block, some block, 1, now⟩)
      | some blockPrevious =>
        match extendAppendage s1 block blockPrevious now s1.chain.Appendages with
        | some appendages =>
          some (true, { s1 with chain := { s1.chain with Appendages := appendages } })
        | none =>
          match forkSearch fuel blockPrevious s1 s1.chain.Appendages with
          | none => none
          | some (some (a, depth), s2) =>
            some (true, s2.appendAppendage ⟨a.Genesis, some block, uintSub a.Length depth, now⟩)
          | some (none, s2) =>
            some (true, s2.appendAppendage ⟨some block, some block, 1, now⟩)

/-! ### Backward walks, stated without the cache -/

/-- The block reached from `q` by following `k` previous references, each
resolved as `Unwrap` resolves it. -/
def ancestor (s : State) : Nat → Nat → Option Nat
  | 0, q => some q
  | k + 1, q =>
    match resolvePrevious s.chain (s.blocks q) with
    | none => none
    | some p => ancestor s k p

/-- The backward walk from the predecessor of the head of `a` ends (at a block
whose predecessor is absent or does not resolve) without meeting the hash
pointer of `P`.  An appendage without head has no walk. -/
def walkMisses (s : State) (P : Nat) (a : BlockchainAppendage) : Prop :=
  ∀ H, a.Head = some H → ∃ n : Nat, ancestor s (n + 1) H = none ∧
    ∀ k : Nat, k < n → ∀ q, ancestor s (k + 1) H = some q → sameHashPointer s q P = false

/-- The backward walk from the predecessor of the head of `a` meets the hash
pointer of `P` after `d` steps, and not before. -/
def walkMeets (s : State) (P : Nat) (a : BlockchainAppendage) (d : Nat) : Prop :=
  ∃ H q, a.Head = some H ∧ ancestor s (d + 1) H = some q ∧ sameHashPointer s q P = true ∧
    ∀ k : Nat, k < d → ∀ q', ancestor s (k + 1) H = some q' → sameHashPointer s q' P = false

/-- Two memories that differ only in the cached resolutions of lazy
references: the chain is the same, and every block has the same fields and a
previous reference that resolves to the same block. -/
def SameUpToCache (s s' : State) : Prop :=
  s'.chain = s.chain ∧ ∀ q,
    (s'.blocks q).Hash = (s.blocks q).Hash ∧
    (s'.blocks q).CreatedAt = (s.blocks q).CreatedAt ∧
    (s'.blocks q).Data = (s.blocks q).Data ∧
    (s'.blocks q).Number = (s.blocks q).Number ∧
    resolvePrevious s.chain (s'.blocks q) = resolvePrevious s.chain (s.blocks q)

/-- The value of the depth counter after `d` increments. -/
def walkDepth (depth : Nat) : Nat → Nat
  | 0 => depth
  | d + 1 => walkDepth (uintAdd depth 1) d

/-! ### Serialization, stated without the mutation -/

/-- The text that `Block.SerializePayload` puts under `previous_hash`: empty
when the previous reference is absent or does not resolve; the dereference of
the `Hash` of an unmined predecessor panics. -/
def previousHashText (s : State) (b : Nat) : Outcome Bytes :=
  match resolvePrevious s.chain (s.blocks b) with
  | none => .ok []
  | some u =>
    match (s.blocks u).Hash with
    | none => .panic
    | some hash => .ok (sprintfHex hash.val)

/-- The outcome of `Block.SerializePayload`. -/
def payloadOutcome (lib : Lib) (s : State) (b : Nat) : Outcome Bytes :=
  match (serializeTransactions lib (s.blocks b).Data).1 with
  | .ok serializedTransactions =>
    match previousHashText s b with
    | .ok previousHash =>
      match lib.marshalBlockPayload (s.blocks b).CreatedAt previousHash serializedTransactions
          (s.blocks b).Number with
      | none => .error
      | some result => .ok (lib.base64EncodeToString result)
    | .error => .error
    | .panic => .panic
  | .error => .error
  | .panic => .panic

/-- The memory that `Block.SerializePayload` leaves: the transactions signed
on the way, and (when they all serialized) the previous reference resolved. -/
def settled (lib : Lib) (s : State) (b : Nat) : State :=
  s.setBlock b
    { CreatedAt := (s.blocks b).CreatedAt
      Previous :=
        match (serializeTransactions lib (s.blocks b).Data).1 with
        | .ok _ => (s.blocks b).Previous.map fun l => (l.Unwrap s.chain).2
        | _ => (s.blocks b).Previous
      Data := (serializeTransactions lib (s.blocks b).Data).2
      Number := (s.blocks b).Number
      Hash := (s.blocks b).Hash }

/-- Go `Blockchain.longestAppendageLength`. -/
def Blockchain.longestAppendageLength (c : Blockchain) : Nat :=
  c.Appendages.foldl (fun length a => if a.Length > length then a.Length else length) 0

/-- Go `Blockchain.LongestAppendages`. -/
def Blockchain.LongestAppendages (c : Blockchain) : List BlockchainAppendage :=
  c.Appendages.filter fun a => a.Length == c.longestAppendageLength

/-- The first loop of `PrimaryAppendage`: the newest `UpdatedAt`, starting from
`time.Unix(0, 0)`. -/
def newestTimestamp (appendages : List BlockchainAppendage) : Time :=
  appendages.foldl (fun timestamp a => if a.UpdatedAt.After timestamp then a.UpdatedAt
    else timestamp) Time.unixEpoch

/-- Go `Blockchain.PrimaryAppendage`. -/
def Blockchain.PrimaryAppendage (c : Blockchain) : Option BlockchainAppendage :=
  match c.LongestAppendages with
  | [] => none
  | [a] => some a
  | appendages =>
    let timestamp := newestTimestamp appendages
    match appendages.filter fun a => a.UpdatedAt == timestamp with
    | [] => none
    | a :: _ => some a

/-- One iteration of the loop of `CullAppendagesShorterThan`, at position `i` of
the slice: `st` is the slice and the write position `index`. -/
def cullStep (minimumLength : Nat) (st : List BlockchainAppendage × Nat) (i : Nat) :
    List BlockchainAppendage × Nat :=
  match st.1[i]? with
  | none => st
  | some appendage =>
    if appendage.Length > minimumLength then (st.1.set st.2 appendage, st.2 + 1) else st

/-- Go `Blockchain.CullAppendagesShorterThan`: the survivors are written to the
front of the slice, which is then cut to `c.Appendages[:index]`. -/
def Blockchain.CullAppendagesShorterThan (c : Blockchain) (minimumLength : Nat) : Blockchain :=
  let st := (List.range c.Appendages.length).foldl (cullStep minimumLength) (c.Appendages, 0)
  { c with Appendages := st.1.take st.2 }

/-! ### Sequences of calls on the chain -/

/-- The memory `s'` differs from `s` in the cached resolutions of lazy references
only, and no block has gained a previous reference. -/
def CacheOnly (s s' : State) : Prop :=
  SameUpToCache s s' ∧ ∀ q, (s.blocks q).Previous = none → (s'.blocks q).Previous = none

/-- The block at address `p` is a value of the hash index. -/
def Indexed (c : Blockchain) (p : Nat) : Prop := ∃ hash, c.index hash = some p

/-- Every appendage head is a value of the hash index. -/
def HeadsIndexed (s : State) : Prop :=
  ∀ A ∈ s.chain.Appendages, ∀ H, A.Head = some H → Indexed s.chain H

/-- Every block that the previous reference of an indexed block resolves to is a value
of the hash index. -/
def IndexClosed (s : State) : Prop :=
  ∀ q p, Indexed s.chain q → resolvePrevious s.chain (s.blocks q) = some p → Indexed s.chain p

/-- Following previous references from an indexed block never revisits a block. -/
def Acyclic (s : State) : Prop :=
  ∀ q, Indexed s.chain q → ∀ (j k : Nat) x, j < k → ancestor s j q = some x →
    ancestor s k q ≠ some x

/-- The backward walk from the predecessor of the head of `a` never meets the hash
pointer of `P`, however far it goes. -/
def walkNeverMeets (s : State) (P : Nat) (a : BlockchainAppendage) : Prop :=
  ∀ H, a.Head = some H → ∀ (k : Nat) q, ancestor s (k + 1) H = some q →
    sameHashPointer s q P = false

/-- The pointer `p` is not nil, the block it points to is mined, and
`GetBlockWithHash` of the hash of that block returns the block. -/
def MinedAndIndexed (s : State) (p : Option Nat) : Prop :=
  ∃ q hash, p = some q ∧ (s.blocks q).Hash = some hash ∧
    s.chain.GetBlockWithHash hash = some q

/-- The calls `InsertBlockAndPlaceIntoAppendage(block)` for the pairs of `calls` in turn
(address of the block, time of the call); `none` when a call has not returned within
`fuel` steps. -/
def placeAll (fuel : Nat) : State → List (Nat × Time) → Option State
  | s, [] => some s
  | s, (block, now) :: rest =>
    match Blockchain.InsertBlockAndPlaceIntoAppendage fuel now s block with
    | none => none
    | some (_, s1) => placeAll fuel s1 rest

/-- The states that calls of `InsertBlock`, `InsertBlockAndPlaceIntoAppendage` and
`CullAppendagesShorterThan` that return build from `NewBlockchain()`, over a memory that
holds the blocks `blocks0`. -/
inductive ChainReachable (blocks0 : Nat → Block) : State → Prop where
  | start : ChainReachable blocks0 { blocks := blocks0, chain := NewBlockchain }
  | insertBlock (s : State) (block : Nat) :
      ChainReachable blocks0 s → ChainReachable blocks0 (Blockchain.InsertBlock s block).2
  | place (s : State) (block fuel : Nat) (now : Time) (r : Bool) (s1 : State) :
      ChainReachable blocks0 s →
      Blockchain.InsertBlockAndPlaceIntoAppendage fuel now s block = some (r, s1) →
      ChainReachable blocks0 s1
  | cull (s : State) (minimumLength : Nat) :
      ChainReachable blocks0 s →
      ChainReachable blocks0
        { s with chain := s.chain.CullAppendagesShorterThan minimumLength }

/-- The block at `block` arrives after its predecessor: its previous reference is
absent, or resolves to a block that is in the hash index. -/
def PredecessorPresent (s : State) (block : Nat) : Prop :=
  (s.blocks block).Previous = none ∨
    ∃ P, resolvePrevious s.chain (s.blocks block) = some P ∧ Indexed s.chain P

/-- What holds of a chain that at most `n` placements built in order: a block is
indexed under its own hash; every appendage has a head `H` and a genesis `G`, a length
between 1 and `n`, `G` is reached from `H` by `Length - 1` previous references and has no
previous reference; and every indexed block is reached from the head of an appendage. -/
def InOrderInvariant (n : Nat) (s : State) : Prop :=
  (∀ h p, s.chain.index h = some p → (s.blocks p).Hash = some h) ∧
  (∀ a ∈ s.chain.Appendages, ∃ H G, a.Head = some H ∧ a.Genesis = some G ∧
    1 ≤ a.Length ∧ a.Length ≤ n ∧ ancestor s (a.Length - 1) H = some G ∧
    (s.blocks G).Previous = none) ∧
  (∀ p, Indexed s.chain p → ∃ a ∈ s.chain.Appendages, ∃ H k, a.Head = some H ∧
    ancestor s k H = some p)

/-- The states that `n` calls of `InsertBlockAndPlaceIntoAppendage` that return build
from `NewBlockchain()`, each on a mined block whose hash is not yet in the index and
whose predecessor is present. -/
inductive InOrderReachable (blocks0 : Nat → Block) : Nat → State → Prop where
  | start : InOrderReachable blocks0 0 { blocks := blocks0, chain := NewBlockchain }
  | place (n : Nat) (s : State) (block fuel : Nat) (now : Time) (r : Bool) (s1 : State)
      (hash : BlockHash) :
      InOrderReachable blocks0 n s →
      (s.blocks block).Hash = some hash → s.chain.index hash = none →
      PredecessorPresent s block →
      Blockchain.InsertBlockAndPlaceIntoAppendage fuel now s block = some (r, s1) →
      InOrderReachable blocks0 (n + 1) s1

/-! ## The mempool (`mempool.go`) -/

/-- Go `struct MemPool`. -/
structure MemPool where
  Transactions : List Transaction
  deriving DecidableEq

/-- Go `NewMemPool`. -/
def NewMemPool : MemPool := { Transactions := [] }

/-- Go `MemPool.Submit`: refused when an entry has the `Id` of `txn`, else
`txn` is appended. -/
def MemPool.Submit (m : MemPool) (txn : Transaction) : Bool × MemPool :=
  if m.Transactions.any (fun t => t.Id == txn.Id) then (false, m)
  else (true, { Transactions := m.Transactions ++ [txn] })

/-- Go `MemPool.Clear`. -/
def MemPool.Clear (_m : MemPool) : MemPool := { Transactions := [] }

/-- The mempools that `Submit` and `Clear` calls build from `NewMemPool`. -/
inductive MemPool.Reachable : MemPool → Prop where
  | start : MemPool.Reachable NewMemPool
  | submit (m : MemPool) (txn : Transaction) :
      MemPool.Reachable m → MemPool.Reachable (m.Submit txn).2
  | clear (m : MemPool) : MemPool.Reachable m → MemPool.Reachable m.Clear

/-! ## The peer set (`peer.go`) -/

/-- Go `type PeerId uuid.UUID`. -/
abbrev PeerId := UUID

/-- Go `struct Peer`; the address string is its byte sequence. -/
structure Peer where
  Id : PeerId
  Address : Bytes
  deriving DecidableEq

/-- Go `type PeerRanking uint`: a natural number below `UINT_MOD`. -/
abbrev PeerRanking := Nat

/-- Go constant `NODE_DEFAULT_PEER_RANKING`. -/
def NODE_DEFAULT_PEER_RANKING : PeerRanking := 10

/-- Go constant `NODE_PEER_OFFLINE_DECREMENT`. -/
def NODE_PEER_OFFLINE_DECREMENT : PeerRanking := 1

/-- Go constant `NODE_PEER_INVALID_REQUEST_DECREMENT`. -/
def NODE_PEER_INVALID_REQUEST_DECREMENT : PeerRanking := 1

/-- Go constant `NODE_PEER_NEW_VALID_PEER_INCREMENT`. -/
def NODE_PEER_NEW_VALID_PEER_INCREMENT : PeerRanking := 2

/-- A Go `map[PeerId]ν`: an association list with pairwise distinct keys. The order of
the entries stands for the order in which a `range` loop visits the map, which Go
leaves open; `m[k] = v` is `AList.insert`, `delete(m, k)` is `AList.erase`, and the
two-valued read `v, ok := m[k]` is `AList.lookup`. -/
abbrev PeerMap (ν : Type) := AList (fun _ : PeerId => ν)

/-- Go `struct PeerSet`. -/
structure PeerSet where
  Me : Peer
  peers : PeerMap Peer
  rankings : PeerMap PeerRanking
  untrusted : List PeerId
  deriving DecidableEq

/-- Go `NewPeerSet`; `newId` is the identifier that `uuid.New()` draws. -/
def NewPeerSet (newId : UUID) (address : Bytes) : PeerSet :=
  let me : Peer := { Id := newId, Address := address }
  { Me := me
    peers := AList.singleton me.Id me
    rankings := AList.singleton me.Id NODE_DEFAULT_PEER_RANKING
    untrusted := [] }

/-- Go `PeerSet.Has`. -/
def PeerSet.Has (ps : PeerSet) (id : PeerId) : Bool :=
  match ps.peers.lookup id with
  | some _ => true
  | none => false

/-- Go `PeerSet.Untrusted`: the loop over the untrusted list. -/
def PeerSet.Untrusted (ps : PeerSet) (id : PeerId) : Bool :=
  ps.untrusted.any (fun pId => pId == id)

/-- Go `PeerSet.MarkUntrusted`. -/
def PeerSet.MarkUntrusted (ps : PeerSet) (id : PeerId) : PeerSet :=
  { ps with untrusted := ps.untrusted ++ [id] }

/-- Go `PeerSet.Count`. -/
def PeerSet.Count (ps : PeerSet) : Nat := ps.rankings.entries.length

/-- Go `PeerSet.Insert`. -/
def PeerSet.Insert (ps : PeerSet) (peer : Peer) : Bool × PeerSet :=
  if ps.Has peer.Id then (false, ps)
  else if ps.Untrusted peer.Id then (false, ps)
  else if peer.Id = ps.Me.Id then (false, ps)
  else
    (true, { ps with
      peers := ps.peers.insert peer.Id peer
      rankings := ps.rankings.insert peer.Id NODE_DEFAULT_PEER_RANKING })

/-- The Go read `ps.rankings[id]`: the zero value when the key is absent. -/
def PeerSet.rankingAt (ps : PeerSet) (id : PeerId) : PeerRanking :=
  (ps.rankings.lookup id).getD 0

/-- One round of the loop of `PeerSet.Rank`, at the map entry `e`. -/
def rankStep (ps : PeerSet) (e : Sigma fun _ : PeerId => PeerRanking) : PeerSet :=
  if e.2 = 0 then
    { ps with
      untrusted := ps.untrusted ++ [e.1]
      rankings := ps.rankings.erase e.1 }
  else ps

/-- Go `PeerSet.Rank`: the loop visits every entry the map has when it starts (an entry
is only deleted while it is the one being visited). -/
def PeerSet.Rank (ps : PeerSet) : PeerSet :=
  ps.rankings.entries.foldl rankStep ps

/-- Go `PeerSet.Increment`: `ps.rankings[id] += change`, then `Rank`. -/
def PeerSet.Increment (ps : PeerSet) (id : PeerId) (change : PeerRanking) : PeerSet :=
  PeerSet.Rank { ps with rankings := ps.rankings.insert id (uintAdd (ps.rankingAt id) change) }

/-- Go `PeerSet.Decrement`: `ps.rankings[id] -= change` when the ranking read is
positive, then `Rank`. -/
def PeerSet.Decrement (ps : PeerSet) (id : PeerId) (change : PeerRanking) : PeerSet :=
  PeerSet.Rank
    (if ps.rankingAt id > 0 then
      { ps with rankings := ps.rankings.insert id (uintSub (ps.rankingAt id) change) }
    else ps)

/-- Go `PeerSet.Remove`. -/
def PeerSet.Remove (ps : PeerSet) (id : PeerId) : PeerSet :=
  { ps with
    peers := ps.peers.erase id
    rankings := ps.rankings.erase id }

/-- Go `struct Pair`. -/
structure Pair where
  Key : Peer
  Value : PeerRanking
  deriving DecidableEq

/-- The zero value of `Pair`, with which `make(PairList, n)` fills the slice. -/
def Pair.zero : Pair :=
  { Key := { Id := ⟨List.replicate 16 0, by simp⟩, Address := [] }, Value := 0 }

/-- Go `sort.Sort(p)` with `Less(i, j) = p[i].Value < p[j].Value`: the pairs in
ascending order of `Value`. The order of pairs of equal value, which `sort.Sort`
leaves open, is here the one of an insertion sort. -/
def sortPairs (p : List Pair) : List Pair :=
  p.insertionSort (fun a b => a.Value ≤ b.Value)

/-- One round of the filling loop of `PeerSet.List`, at the entry `e` of `ps.peers`;
`none` is the index-out-of-range panic of `p[i] = ...`. -/
def listStep (rankings : PeerMap PeerRanking) (st : Option (List Pair × Nat))
    (e : Sigma fun _ : PeerId => Peer) : Option (List Pair × Nat) :=
  match st with
  | none => none
  | some (p, i) =>
    match rankings.lookup e.2.Id with
    | some rank => if i < p.length then some (p.set i { Key := e.2, Value := rank }, i + 1) else none
    | none => some (p, i)

/-- Go `[]Peer`. -/
abbrev PeerList := List Peer

/-- Go `PeerSet.List`; `none` is a run-time panic. -/
def PeerSet.List (ps : PeerSet) : Option PeerList :=
  match ps.peers.entries.foldl (listStep ps.rankings)
      (some (List.replicate ps.rankings.entries.length Pair.zero, 0)) with
  | none => none
  | some (p, _) => some ((sortPairs p).map fun item => item.Key)

/-- Go `PeerSet.ListOthers`. -/
def PeerSet.ListOthers (ps : PeerSet) : Option PeerList :=
  match ps.List with
  | none => none
  | some l => some (l.filter fun peer => peer != ps.Me)

/-- A call of one of the mutators of a peer set. -/
inductive PeerCall where
  | insert (peer : Peer)
  | increment (id : PeerId) (change : PeerRanking)
  | decrement (id : PeerId) (change : PeerRanking)
  | rank
  | remove (id : PeerId)

/-- The peer set after a call. -/
def applyCall (ps : PeerSet) : PeerCall → PeerSet
  | .insert peer => (ps.Insert peer).2
  | .increment id change => ps.Increment id change
  | .decrement id change => ps.Decrement id change
  | .rank => ps.Rank
  | .remove id => ps.Remove id

/-- The peer set after a sequence of calls. -/
def applyCalls (ps : PeerSet) (cs : List PeerCall) : PeerSet :=
  cs.foldl applyCall ps

/-- The calls `Decrement(id, 1)`, `k` times in a row. -/
def unitDecrements (id : PeerId) (k : Nat) : List PeerCall :=
  List.replicate k (PeerCall.decrement id 1)

/-- Whether a call leaves the entries of `me` alone: it is not an `Increment`, a
`Decrement` or a `Remove` of that id. -/
def PeerCall.spares (me : PeerId) : PeerCall → Bool
  | .insert _ => true
  | .increment id _ => id != me
  | .decrement id _ => id != me
  | .rank => true
  | .remove id => id != me

/-- The pairs that the filling loop of `PeerSet.List` writes, in the order of the visit:
one for each visited peer whose id has a ranking. -/
def filledPairs (rankings : PeerMap PeerRanking) (l : List (Sigma fun _ : PeerId => Peer)) :
    List Pair :=
  l.filterMap fun e => (rankings.lookup e.2.Id).map fun rank => { Key := e.2, Value := rank }

/-! ## Decoding (`HexToBlockHash`, `NewTransactionFromBytes`, `NewBlockFromBytes`) -/

/-- The value of one hexadecimal digit as `encoding/hex` reads it (`0-9`, `a-f`,
`A-F`); `none` for any other character. -/
def fromHexChar (c : Byte) : Option Nat :=
  if 48 ≤ c.val ∧ c.val ≤ 57 then some (c.val - 48)
  else if 97 ≤ c.val ∧ c.val ≤ 102 then some (c.val - 97 + 10)
  else if 65 ≤ c.val ∧ c.val ≤ 70 then some (c.val - 65 + 10)
  else none

/-- Go `hex.DecodeString`; `none` is a non-nil error (a character that is no
hexadecimal digit, or an odd length). -/
def hexDecodeString : Bytes → Option Bytes
  | [] => some []
  | [_] => none
  | a :: b :: rest =>
    match fromHexChar a, fromHexChar b with
    | some x, some y =>
      match hexDecodeString rest with
      | some decoded => some (Fin.ofNat (x * 16 + y) :: decoded)
      | none => none
    | _, _ => none

/-- The zero value of `BlockHash`. -/
def zeroHash : BlockHash := ⟨List.replicate 32 0, by simp⟩

/-- The assignment `rawHashCopy[index] = byt` on a `BlockHash`, for `index < 32`. -/
def setHashByte (hash : BlockHash) (index : Nat) (byt : Byte) : BlockHash :=
  ⟨hash.val.set index byt, by rw [List.length_set]; exact hash.2⟩

/-- The loop of `HexToBlockHash` over the decoded bytes, from position `index`:
`none` is the run-time panic of an index out of the range of the array. -/
def copyRawHash : Bytes → Nat → BlockHash → Option BlockHash
  | [], _, rawHashCopy => some rawHashCopy
  | byt :: rest, index, rawHashCopy =>
    if index < 32 then copyRawHash rest (index + 1) (setHashByte rawHashCopy index byt)
    else none

/-- Go `HexToBlockHash`: on success the pointer returned is never nil. -/
def HexToBlockHash (hexHash : Bytes) : Outcome BlockHash :=
  match hexDecodeString hexHash with
  | none => .error
  | some rawHash =>
    match copyRawHash rawHash 0 zeroHash with
    | none => .panic
    | some rawHashCopy => .ok rawHashCopy

/-- Go `strings.Split(s, ".")`. -/
def stringsSplit : Bytes → List Bytes
  | [] => [[]]
  | c :: rest =>
    if c = asciiDot then [] :: stringsSplit rest
    else
      match stringsSplit rest with
      | [] => [[c]]
      | first :: more => (c :: first) :: more

/-- Go `struct BlockRawData` of `NewBlockFromBytes`. -/
structure BlockRawData where
  CreatedAt : Time
  PreviousHashHex : Bytes
  TransactionsRaw : List Bytes
  Number : Nat
  deriving DecidableEq

/-- The decoders of the Go standard library and of `github.com/google/uuid` that the
sources call; `none` is a non-nil error. `unmarshalObject` is the part of `json.Unmarshal`
into a struct that reads the JSON text: it gives the fields of the object, one entry for
each name, a field of a type with an `UnmarshalJSON` method as the text of its value.
`bigIntSetString` is `(*big.Int).SetString(s, 10)` and `uuidUnmarshalText` the reading of
a `uuid.UUID` from its text. `unmarshalBlockJSON` is the part of `json.Unmarshal` into a
`BlockRawData` that reads the JSON values: for `transactions` it gives the strings of the
JSON array, which `json.Unmarshal` then decodes as base64 to store them in the `[]byte`
elements of `TransactionsRaw`. -/
structure DecodeLib where
  base64DecodeString : Bytes → Option Bytes
  unmarshalObject : Bytes → Option JsonObject
  bigIntSetString : Bytes → Option Int
  uuidUnmarshalText : Bytes → Option UUID
  unmarshalBlockJSON : Bytes → Option BlockRawData

/-- What `json.Unmarshal` stores in a field of type `string`: nothing (the field keeps its
zero value) for a name that the object lacks or gives as `null`, the string for a string,
and an error for another value. -/
def jsonStringField (fields : JsonObject) (name : Bytes) : Option Bytes :=
  match fields.lookup name with
  | none => some []
  | some .null => some []
  | some (.string s) => some s
  | some _ => none

/-- What `json.Unmarshal` stores in a field of type `int` (64 bits). -/
def jsonIntField (fields : JsonObject) (name : Bytes) : Option Int :=
  match fields.lookup name with
  | none => some 0
  | some .null => some 0
  | some (.number n) =>
    if -9223372036854775808 ≤ n ∧ n < 9223372036854775808 then some n else none
  | some _ => none

/-- What `json.Unmarshal` stores in a field of type `uint` (64 bits). -/
def jsonUintField (fields : JsonObject) (name : Bytes) : Option Nat :=
  match fields.lookup name with
  | none => some 0
  | some .null => some 0
  | some (.number n) => if 0 ≤ n ∧ n < 18446744073709551616 then some n.toNat else none
  | some _ => none

/-- What `json.Unmarshal` stores in a field of type `[]byte`: the base64 decoding of a
string. -/
def jsonBytesField (dlib : DecodeLib) (fields : JsonObject) (name : Bytes) : Option Bytes :=
  match fields.lookup name with
  | none => some []
  | some .null => some []
  | some (.string s) => dlib.base64DecodeString s
  | some _ => none

/-- What `json.Unmarshal` stores in a field of type `uuid.UUID`: the identifier read
from a string. -/
def jsonUUIDField (dlib : DecodeLib) (fields : JsonObject) (name : Bytes) : Option UUID :=
  match fields.lookup name with
  | none => some ⟨List.replicate 16 0, by simp⟩
  | some .null => some ⟨List.replicate 16 0, by simp⟩
  | some (.string s) => dlib.uuidUnmarshalText s
  | some _ => none

/-- Go `PublicKey.UnmarshalJSON` (`keypair.go`): `json.Unmarshal` into the struct with the
fields `n` (a string) and `e` (an int), then `SetString(temp.N, 10)`, whose failure is the
error `Cannot convert ... to bigint!`. -/
def PublicKey.UnmarshalJSON (dlib : DecodeLib) (byt : Bytes) : Option PublicKey :=
  match dlib.unmarshalObject byt with
  | none => none
  | some fields =>
    match jsonStringField fields jsonKeyN, jsonIntField fields jsonKeyE with
    | some tempN, some tempE =>
      match dlib.bigIntSetString tempN with
      | none => none
      | some n => some { N := n, E := tempE }
    | _, _ => none

/-- What `json.Unmarshal` stores in the field `SenderPublicKey` of type `*PublicKey`: nil
for a name that the object lacks or gives as `null`, and otherwise a new `PublicKey` on
which `UnmarshalJSON` is called with the text of the value (a number or a string is no
object, and `UnmarshalJSON` returns the error of `json.Unmarshal`). -/
def jsonPublicKeyField (dlib : DecodeLib) (fields : JsonObject) (name : Bytes) :
    Option (Option PublicKey) :=
  match fields.lookup name with
  | none => some none
  | some .null => some none
  | some (.raw text) =>
    match PublicKey.UnmarshalJSON dlib text with
    | none => none
    | some p => some (some p)
  | some _ => none

/-- Go `json.Unmarshal(payload, &transaction)` into a zero `Transaction`: the four fields
that carry a JSON name. -/
def DecodeLib.unmarshalTransaction (dlib : DecodeLib) (payload : Bytes) :
    Option (UUID × Option PublicKey × Currency × Bytes) :=
  match dlib.unmarshalObject payload with
  | none => none
  | some fields =>
    match jsonUUIDField dlib fields jsonKeyId, jsonPublicKeyField dlib fields jsonKeyPublicKey,
        jsonUintField fields jsonKeyCost, jsonBytesField dlib fields jsonKeyData with
    | some id, some publicKey, some cost, some data => some (id, publicKey, cost, data)
    | _, _, _, _ => none

/-- The JSON decoder reads back the object `fields` from the text that the JSON encoder
writes for it. -/
def ReadsBack (lib : Lib) (dlib : DecodeLib) (fields : JsonObject) : Prop :=
  ∀ text, lib.marshalObject fields = some text → dlib.unmarshalObject text = some fields

/-- The base64 decoding of the strings of a JSON array into `[]byte` elements; the
first string that is no base64 text is an error. -/
def decodeByteSlices (dlib : DecodeLib) : List Bytes → Option (List Bytes)
  | [] => some []
  | text :: rest =>
    match dlib.base64DecodeString text with
    | none => none
    | some raw =>
      match decodeByteSlices dlib rest with
      | none => none
      | some raws => some (raw :: raws)

/-- Go `json.Unmarshal(payload, &blockRawData)`. -/
def unmarshalBlockRawData (dlib : DecodeLib) (payload : Bytes) : Option BlockRawData :=
  match dlib.unmarshalBlockJSON payload with
  | none => none
  | some values =>
    match decodeByteSlices dlib values.TransactionsRaw with
    | none => none
    | some raws => some { values with TransactionsRaw := raws }

/-- Go `NewTransactionFromBytes`. -/
def NewTransactionFromBytes (dlib : DecodeLib) (bytes : Bytes) : Outcome Transaction :=
  match stringsSplit bytes with
  | [section0, section1] =>
    match dlib.base64DecodeString section0 with
    | none => .error
    | some payload =>
      match hexDecodeString section1 with
      | none => .error
      | some signature =>
        match dlib.unmarshalTransaction payload with
        | none => .error
        | some (id, publicKey, cost, data) =>
          .ok { Id := id, Signature := some signature, SenderPrivateKey := none,
                SenderPublicKey := publicKey, Cost := cost, Data := data }
  | _ => .error

/-- The loop of `NewBlockFromBytes` over `blockRawData.TransactionsRaw`. -/
def decodeTransactions (dlib : DecodeLib) : List Bytes → Outcome (List Transaction)
  | [] => .ok []
  | byt :: rest =>
    match NewTransactionFromBytes dlib byt with
    | .ok transaction =>
      match decodeTransactions dlib rest with
      | .ok transactions => .ok (transaction :: transactions)
      | .error => .error
      | .panic => .panic
    | .error => .error
    | .panic => .panic

/-- Go `NewLazyBlockFromHash`. -/
def NewLazyBlockFromHash (hash : Option BlockHash) : LazyBlock :=
  { Hash := hash, resolvedBlock := none }

/-- Go `NewBlockFromBytes`: the block it allocates. -/
def NewBlockFromBytes (dlib : DecodeLib) (bytes : Bytes) : Outcome Block :=
  match stringsSplit bytes with
  | [section0, section1] =>
    match dlib.base64DecodeString section0 with
    | none => .error
    | some payload =>
      match HexToBlockHash section1 with
      | .error => .error
      | .panic => .panic
      | .ok hash =>
        match unmarshalBlockRawData dlib payload with
        | none => .error
        | some blockRawData =>
          match HexToBlockHash blockRawData.PreviousHashHex with
          | .error => .error
          | .panic => .panic
          | .ok previousHash =>
            match decodeTransactions dlib blockRawData.TransactionsRaw with
            | .error => .error
            | .panic => .panic
            | .ok transactions =>
              .ok { CreatedAt := blockRawData.CreatedAt
                    Number := blockRawData.Number
                    Previous := some (NewLazyBlockFromHash (some previousHash))
                    Data := transactions
                    Hash := some hash }
  | _ => .error

/-- Go `Block.Serialize` for the block at address `b`. -/
def Block.Serialize (lib : Lib) (s : State) (b : Nat) : Outcome Bytes × State :=
  match (s.blocks b).Hash with
  | none => (.error, s)
  | some _ =>
    match Block.SerializePayload lib s b with
    | (.ok payload, s1) =>
      match (s1.blocks b).Hash with
      | none => (.panic, s1)
      | some hash => (.ok (payload ++ [asciiDot] ++ sprintfHex hash.val), s1)
    | (.error, s1) => (.error, s1)
    | (.panic, s1) => (.panic, s1)

/-! ## The transaction-ingest step (`main.go`, `POST /v1/transactions`) -/

/-- What `http.Post` to a peer gives: an error, or a response with a status code. -/
inductive PostResult where
  | failed
  | status (code : Nat)
  deriving DecidableEq

/-- The loop that posts the bytes to the peers of `targets`: a peer that cannot be
reached or does not answer 200 is decremented. The result is the peer set afterwards
and the peers the bytes were posted to. -/
def postToPeers (post : Peer → Bytes → PostResult) (byt : Bytes) :
    PeerList → PeerSet → PeerList → PeerSet × PeerList
  | [], ps, posted => (ps, posted)
  | peer :: rest, ps, posted =>
    match post peer byt with
    | .failed =>
      postToPeers post byt rest (ps.Decrement peer.Id NODE_PEER_OFFLINE_DECREMENT)
        (posted ++ [peer])
    | .status code =>
      if code ≠ 200 then
        postToPeers post byt rest (ps.Decrement peer.Id NODE_PEER_INVALID_REQUEST_DECREMENT)
          (posted ++ [peer])
      else postToPeers post byt rest ps (posted ++ [peer])

/-- What the handler of `POST /v1/transactions` does once the body is read. -/
inductive TransactionResponse where
  | errorParsing
  | done
  deriving DecidableEq

/-- The handler of `POST /v1/transactions` for the body `byt`: the answer, the
mempool and the peer set afterwards, and the peers the bytes were posted to. -/
def postTransaction (dlib : DecodeLib) (post : Peer → Bytes → PostResult) (memPool : MemPool)
    (peerSet : PeerSet) (byt : Bytes) :
    Outcome TransactionResponse × MemPool × PeerSet × PeerList :=
  match NewTransactionFromBytes dlib byt with
  | .error => (.ok .errorParsing, memPool, peerSet, [])
  | .panic => (.panic, memPool, peerSet, [])
  | .ok transaction =>
    match memPool.Submit transaction with
    | (true, memPool1) =>
      match peerSet.ListOthers with
      | none => (.panic, memPool1, peerSet, [])
      | some others =>
        let (peerSet1, posted) := postToPeers post byt others peerSet []
        (.ok .done, memPool1, peerSet1, posted)
    | (false, memPool1) => (.ok .done, memPool1, peerSet, [])

/-! ## The block-ingest step (`main.go`, `POST /v1/blocks`) -/

/-- What the handler of `POST /v1/blocks` answers once the body is decoded. -/
inductive BlockResponse where
  | errorVerifying
  | rejected
  | statusOk (propagated : Bool)
  deriving DecidableEq, Repr

/-- The handler of `POST /v1/blocks` from `newBlock.Verify()` on, for the
decoded block at address `newBlock`: the block is inserted and placed only when
`Verify` returns `(true, nil)`, and propagated only when the insertion
succeeds. -/
def postBlock (lib : Lib) (fuel : Nat) (now : Time) (s : State) (newBlock : Nat) :
    Option (Outcome BlockResponse × State) :=
  match Block.Verify lib s newBlock with
  | (.error, s1) => some (.ok .errorVerifying, s1)
  | (.panic, s1) => some (.panic, s1)
  | (.ok false, s1) => some (.ok .rejected, s1)
  | (.ok true, s1) =>
    match Blockchain.InsertBlockAndPlaceIntoAppendage fuel now s1 newBlock with
    | none => none
    | some (ok, s2) => some (.ok (.statusOk ok), s2)

/-! ## The chain sync (`main.go`, the goroutine that manages peers) -/

/-- The statement that ends the loop body over `response.Appendages` (`main.go`,
332-337): the appendage is recorded with the decoded genesis and head blocks, the
number of blocks counted on the way from the head to the genesis, and the `UpdatedAt`
that the peer's chain response carries. -/
def appendSyncedAppendage (s : State) (genesisBlock headBlock : Nat) (chainLength : Nat)
    (updatedAt : Time) : State :=
  s.appendAppendage ⟨some genesisBlock, some headBlock, chainLength, updatedAt⟩
/-! ## Concrete instances used by the examples -/

/-- A hash with a zero prefix, told apart by its third byte. -/
def acceptedHash (k : Byte) : BlockHash := ⟨0 :: 0 :: k :: List.replicate 29 0, by simp⟩

/-- A hash without the zero prefix. -/
def rejectedHash (k : Byte) : BlockHash := ⟨0 :: 1 :: k :: List.replicate 29 0, by simp⟩

/-- A small instance of `Lib`: the block payload is the nonce followed by the
number of transactions, the JSON text of an object is the string of its field `data`
(the empty text without one), base64 is the identity, the digest of a payload is
accepted exactly when the payload starts with the byte `2`, every signature is
`[1]` and only that signature verifies. -/
def exampleLib : Lib where
  sha256Sum256 := fun bs =>
    if bs.head? = some 2 then acceptedHash (bs.getD 1 0) else rejectedHash (bs.getD 1 0)
  signPKCS1v15 := fun _ _ => some [1]
  verifyPKCS1v15 := fun _ _ signature => signature == some [1]
  marshalObject := fun fields =>
    match fields.lookup jsonKeyData with
    | some (.string text) => some text
    | _ => some []
  bigIntString := fun _ => []
  uuidMarshalText := fun _ => []
  marshalBlockPayload := fun _ _ transactions number =>
    some [Fin.ofNat number, Fin.ofNat transactions.length]
  base64EncodeToString := fun bs => bs

/-- A time in UTC. -/
def utc (instant : Int) : Time := ⟨instant, 0⟩

/-- A block without transactions. -/
def plainBlock (previous : Option LazyBlock) (number : Nat) (hash : Option BlockHash) : Block :=
  { CreatedAt := utc 1, Previous := previous, Data := [], Number := number, Hash := hash }

/-- A chain of three mined blocks `0 <- 1 <- 2` (hashes `acceptedHash 0, 1, 2`),
all indexed, with one appendage of length 3 whose head is block `2`, and an
indexed block `7` that belongs to no appendage.  Not indexed yet: block `3`,
mined on top of block `2`; block `4`, on top of block `0`; block `6`, whose
predecessor `acceptedHash 9` is unknown; block `8`, on top of block `7`.
Block `5` is unmined. -/
def chainState : State where
  blocks := fun p =>
    match p with
    | 0 => plainBlock none 2 (some (acceptedHash 0))
    | 1 => plainBlock (some ⟨some (acceptedHash 0), none⟩) 2 (some (acceptedHash 1))
    | 2 => plainBlock (some ⟨some (acceptedHash 1), none⟩) 2 (some (acceptedHash 2))
    | 3 => plainBlock (some ⟨some (acceptedHash 2), none⟩) 2 (some (acceptedHash 3))
    | 4 => plainBlock (some ⟨some (acceptedHash 0), none⟩) 2 (some (acceptedHash 4))
    | 6 => plainBlock (some ⟨some (acceptedHash 9), none⟩) 2 (some (acceptedHash 6))
    | 7 => plainBlock none 2 (some (acceptedHash 7))
    | 8 => plainBlock (some ⟨some (acceptedHash 7), none⟩) 2 (some (acceptedHash 8))
    | _ => plainBlock none 0 none
  chain :=
    { Appendages := [⟨some 0, some 2, 3, utc 5⟩]
      index := fun k =>
        if k = acceptedHash 0 then some 0
        else if k = acceptedHash 1 then some 1
        else if k = acceptedHash 2 then some 2
        else if k = acceptedHash 7 then some 7
        else none }

/-- A chain with three appendages: two of the maximal length 4, the second of
them the newer one, and a shorter one. -/
def forkedChain : Blockchain :=
  { Appendages := [⟨some 0, some 1, 4, utc 5⟩, ⟨some 0, some 2, 4, utc 7⟩, ⟨some 0, some 3, 2, utc 9⟩]
    index := fun _ => none }

/-- A memory with a cycle of previous references: block `0` is indexed under
the hash that its own previous reference names (a block decoded from
`<payload>.<hash>` where the payload names `hash` as `previous_hash`), block `1`
is mined on top of it, blocks `3` and `4` are mined on top of the block `2`,
which has no predecessor.  All but block `3` are indexed. -/
def cyclicState (appendages : List BlockchainAppendage) : State where
  blocks := fun p =>
    match p with
    | 0 => plainBlock (some ⟨some (acceptedHash 0), none⟩) 2 (some (acceptedHash 0))
    | 1 => plainBlock (some ⟨some (acceptedHash 0), none⟩) 2 (some (acceptedHash 1))
    | 2 => plainBlock none 2 (some (acceptedHash 2))
    | 3 => plainBlock (some ⟨some (acceptedHash 2), none⟩) 2 (some (acceptedHash 3))
    | 4 => plainBlock (some ⟨some (acceptedHash 2), none⟩) 2 (some (acceptedHash 4))
    | _ => plainBlock none 0 none
  chain :=
    { Appendages := appendages
      index := fun k =>
        if k = acceptedHash 0 then some 0
        else if k = acceptedHash 1 then some 1
        else if k = acceptedHash 2 then some 2
        else if k = acceptedHash 4 then some 4
        else none }

/-- The appendage of `cyclicState` whose head is block `1`. -/
def cyclicAppendage : BlockchainAppendage := ⟨some 0, some 1, 2, utc 5⟩

/-- The appendage of `cyclicState` whose head is block `4`, on top of block `2`. -/
def soundAppendage : BlockchainAppendage := ⟨some 2, some 4, 2, utc 6⟩

/-- A transaction whose signature is `signature` (under `exampleLib` only the
signature `[1]` verifies). -/
def exampleTransaction (signature : Bytes) : Transaction :=
  { Id := ⟨List.replicate 16 0, by simp⟩, Signature := some signature, SenderPrivateKey := none,
    SenderPublicKey := some ⟨33, 3⟩, Cost := 0, Data := [104, 105] }

/-- A memory with a fresh chain and three blocks without predecessor: block
`0` is unmined and holds a transaction that verifies, block `1` is unmined and
holds a transaction that does not verify, block `2` has the accepted nonce `2`
and stores a hash that is not the digest of its payload. -/
def candidateState : State where
  blocks := fun p =>
    match p with
    | 0 => { CreatedAt := utc 1, Previous := none, Data := [exampleTransaction [1]],
             Number := 0, Hash := none }
    | 1 => { CreatedAt := utc 1, Previous := none, Data := [exampleTransaction [9]],
             Number := 0, Hash := none }
    | 2 => plainBlock none 2 (some (acceptedHash 9))
    | _ => plainBlock none 0 none
  chain := NewBlockchain

/-- The identifier whose first byte is `k` and whose other bytes are zero. -/
def uuidOf (k : Byte) : UUID := ⟨k :: List.replicate 15 0, by simp⟩

/-- A fresh peer set of the node with identifier `uuidOf 1`. -/
def freshPeerSet : PeerSet := NewPeerSet (uuidOf 1) [104]

/-- A peer other than the node of `freshPeerSet`. -/
def otherPeer : Peer := { Id := uuidOf 2, Address := [105] }

/-- A memory of five mined blocks: the root `0`; `1` on top of `0`; `2` on top of `1`;
`3` on top of `0`; `4` on top of `2`. No reference is resolved yet. -/
def orphanBlocks : Nat → Block := fun p =>
  match p with
  | 0 => plainBlock none 2 (some (acceptedHash 0))
  | 1 => plainBlock (some ⟨some (acceptedHash 0), none⟩) 2 (some (acceptedHash 1))
  | 2 => plainBlock (some ⟨some (acceptedHash 1), none⟩) 2 (some (acceptedHash 2))
  | 3 => plainBlock (some ⟨some (acceptedHash 0), none⟩) 2 (some (acceptedHash 3))
  | 4 => plainBlock (some ⟨some (acceptedHash 2), none⟩) 2 (some (acceptedHash 4))
  | _ => plainBlock none 0 none

/-- The memory `orphanBlocks` with a fresh chain. -/
def orphanState : State := { blocks := orphanBlocks, chain := NewBlockchain }

/-- The chain after the blocks `2`, `0`, `1`, `3` of `orphanBlocks` were placed in this
order: block `2` arrives before its predecessor `1`. -/
def lateState : State :=
  (placeAll 3 orphanState [(2, utc 1), (0, utc 2), (1, utc 3), (3, utc 4)]).getD orphanState

/-- A check of `PredecessorPresent`: the previous reference is absent, or resolves to a
block that the index holds under the hash of that block. -/
def predecessorPresent (s : State) (block : Nat) : Bool :=
  match (s.blocks block).Previous with
  | none => true
  | some _ =>
    match resolvePrevious s.chain (s.blocks block) with
    | none => false
    | some P =>
      match (s.blocks P).Hash with
      | none => false
      | some hash => s.chain.index hash == some P

/-- A check that the placements of `calls` from `s` all return within `fuel` steps and
are in order: each block is mined, its hash is not yet indexed, and its predecessor is
present. -/
def inOrderRun (fuel : Nat) : State → List (Nat × Time) → Bool
  | _, [] => true
  | s, (block, now) :: rest =>
    (match (s.blocks block).Hash with
      | none => false
      | some hash => (s.chain.index hash).isNone) &&
    predecessorPresent s block &&
    match Blockchain.InsertBlockAndPlaceIntoAppendage fuel now s block with
    | none => false
    | some (_, s1) => inOrderRun fuel s1 rest

/-- The chain after the blocks `0`, `1`, `2`, `3` of `orphanBlocks` were placed in this
order: every block arrives after its predecessor. -/
def inOrderState : State :=
  (placeAll 3 orphanState [(0, utc 1), (1, utc 2), (2, utc 3), (3, utc 4)]).getD orphanState

/-- A small instance of `Lib` that writes the previous hash into the payload: the block
payload is the nonce, the number of transactions, then the text of the previous hash;
the JSON text of an object is the string of its field `data`, so that the payload of a
transaction is its data; base64 is the identity; the digest of a
payload is told by its length and is accepted exactly when the payload starts with the
byte `2`; every signature is `[1]` and only that signature verifies. -/
def frameLib : Lib where
  sha256Sum256 := fun bs =>
    if bs.head? = some 2 then acceptedHash (Fin.ofNat bs.length)
    else rejectedHash (Fin.ofNat bs.length)
  signPKCS1v15 := fun _ _ => some [1]
  verifyPKCS1v15 := fun _ _ signature => signature == some [1]
  marshalObject := fun fields =>
    match fields.lookup jsonKeyData with
    | some (.string text) => some text
    | _ => some []
  bigIntString := fun _ => []
  uuidMarshalText := fun _ => []
  marshalBlockPayload := fun _ previousHash transactions number =>
    some (Fin.ofNat number :: Fin.ofNat transactions.length :: previousHash)
  base64EncodeToString := fun bs => bs

/-- The zero value of `time.Time`: the first instant of the year 1, in UTC. -/
def zeroTime : Time := ⟨-62135596800000000000, 0⟩

/-- The decoders that go with `frameLib`. Base64 is the identity on the texts without
a dot. The JSON text `{}` is the object without fields, and gives the zero values of a
block; the text `.` is the object of the key of the sender of `exampleTransaction`; any
other text is read as the object with that key and with the text as `data`; any other
block payload is read as nonce, number of transactions (each the text of
`exampleTransaction [1]`) and previous hash. -/
def frameDecodeLib : DecodeLib where
  base64DecodeString := fun text => if asciiDot ∈ text then none else some text
  unmarshalObject := fun payload =>
    if payload = [123, 125] then some []
    else if payload = [asciiDot] then
      some [(jsonKeyE, .number 3), (jsonKeyN, .string [51, 51])]
    else some [(jsonKeyPublicKey, .raw [asciiDot]), (jsonKeyData, .string payload)]
  bigIntSetString := fun text => if text = [51, 51] then some 33 else none
  uuidUnmarshalText := fun _ => none
  unmarshalBlockJSON := fun payload =>
    if payload = [123, 125] then some ⟨zeroTime, [], [], 0⟩
    else
      match payload with
      | number :: count :: previousHash =>
        some ⟨utc 1, previousHash, List.replicate count.val [104, 105, 46, 48, 49], number.val⟩
      | _ => none

/-- A chain of two mined blocks under `frameLib`: the root `0` and block `1` on top of
it, both indexed; block `2` is a mined root that holds the transaction
`exampleTransaction [1]`. -/
def frameState : State where
  blocks := fun p =>
    match p with
    | 0 => plainBlock none 2 (some (acceptedHash 2))
    | 1 => plainBlock (some ⟨some (acceptedHash 2), some 0⟩) 2 (some (acceptedHash 66))
    | 2 => { CreatedAt := utc 1, Previous := none, Data := [exampleTransaction [1]],
             Number := 2, Hash := some (acceptedHash 2) }
    | _ => plainBlock none 0 none
  chain :=
    { Appendages := [⟨some 0, some 1, 2, utc 5⟩]
      index := fun k =>
        if k = acceptedHash 2 then some 0
        else if k = acceptedHash 66 then some 1
        else none }

/-- The memory of a node with a fresh chain that has received the block `decoded` and
holds it at address `9`. -/
def receiverState (decoded : Block) : State where
  blocks := fun p =>
    match p with
    | 9 => decoded
    | _ => plainBlock none 0 none
  chain := NewBlockchain

/-- What `NewBlockFromBytes` makes of the bytes of block `1` of `frameState`. -/
def decodedFrameBlock : Block :=
  { CreatedAt := utc 1
    Previous := some ⟨some (acceptedHash 2), none⟩
    Data := []
    Number := 2
    Hash := some (acceptedHash 66) }

/-- A memory in which a miner has built the blocks `0 <- 1 <- 2 <- 3` with resolved
previous references (as `NewLazyBlock` makes them) and has inserted the block `3` only:
the index holds the block `3`, the head of the one appendage. Block `5` is built in
the same way on top of the block `4`, and neither is inserted yet. -/
def cachedState : State where
  blocks := fun p =>
    match p with
    | 0 => plainBlock none 2 (some (acceptedHash 0))
    | 1 => plainBlock (some ⟨some (acceptedHash 0), some 0⟩) 2 (some (acceptedHash 1))
    | 2 => plainBlock (some ⟨some (acceptedHash 1), some 1⟩) 2 (some (acceptedHash 2))
    | 3 => plainBlock (some ⟨some (acceptedHash 2), some 2⟩) 2 (some (acceptedHash 3))
    | 4 => plainBlock none 2 (some (acceptedHash 4))
    | 5 => plainBlock (some ⟨some (acceptedHash 4), some 4⟩) 2 (some (acceptedHash 5))
    | _ => plainBlock none 0 none
  chain :=
    { Appendages := [⟨some 3, some 3, 1, utc 5⟩]
      index := fun k => if k = acceptedHash 3 then some 3 else none }

/-- The blocks decoded during the sync of a chain response that names two appendages of
one block each: the head and the genesis of the first (addresses `0` and `1`, two decoded
copies of one block), the head and the genesis of the second (`2` and `3`). -/
def syncedBlocks : Nat → Block := fun p =>
  match p with
  | 0 => plainBlock (some ⟨some zeroHash, none⟩) 2 (some (acceptedHash 0))
  | 1 => plainBlock (some ⟨some zeroHash, none⟩) 2 (some (acceptedHash 0))
  | 2 => plainBlock (some ⟨some zeroHash, none⟩) 2 (some (acceptedHash 7))
  | 3 => plainBlock (some ⟨some zeroHash, none⟩) 2 (some (acceptedHash 7))
  | _ => plainBlock none 0 none

/-- The node after that sync on a fresh chain, when the response gives the first
appendage the timestamp `first` and the second the timestamp `second`: each head is
inserted, the walk to the genesis takes no step, and the appendage is recorded with the
length 1. -/
def syncedState (first second : Time) : State :=
  appendSyncedAppendage
    (Blockchain.InsertBlock
      (appendSyncedAppendage
        (Blockchain.InsertBlock { blocks := syncedBlocks, chain := NewBlockchain } 0).2
        1 0 1 first) 2).2
    3 2 1 second

/-- The text of a JSON value in a small format: a tag, then the value; a string and a
text carry their length in one byte, a number its sign and its size in one byte. -/
def codecValue : JsonValue → Bytes
  | .null => [0]
  | .number n => [1, if n < 0 then 1 else 0, Fin.ofNat n.natAbs]
  | .string s => 2 :: Fin.ofNat s.length :: s
  | .raw text => 3 :: Fin.ofNat text.length :: text

/-- The text of a JSON object in that format: each field as the length of its name, the
name and the value. -/
def codecObject : JsonObject → Bytes
  | [] => []
  | (name, value) :: rest =>
    Fin.ofNat name.length :: name ++ codecValue value ++ codecObject rest

/-- The reading of an object from a text of that format; `fuel` bounds the number of
fields. -/
def codecParse : Nat → Bytes → Option JsonObject
  | _, [] => some []
  | 0, _ :: _ => none
  | fuel + 1, nameLength :: rest =>
    let name := rest.take nameLength.val
    match rest.drop nameLength.val with
    | tag :: more =>
      if tag = 0 then (codecParse fuel more).map fun fields => (name, JsonValue.null) :: fields
      else if tag = 1 then
        match more with
        | sign :: size :: others =>
          (codecParse fuel others).map fun fields =>
            (name, JsonValue.number (if sign = 1 then -(size.val : Int) else (size.val : Int))) ::
              fields
        | _ => none
      else if tag = 2 then
        match more with
        | length :: others =>
          (codecParse fuel (others.drop length.val)).map fun fields =>
            (name, JsonValue.string (others.take length.val)) :: fields
        | _ => none
      else if tag = 3 then
        match more with
        | length :: others =>
          (codecParse fuel (others.drop length.val)).map fun fields =>
            (name, JsonValue.raw (others.take length.val)) :: fields
        | _ => none
      else none
    | [] => none

/-- The decimal digits of a natural number; `fuel` bounds their number. -/
def decimalDigits : Nat → Nat → Bytes
  | 0, _ => []
  | fuel + 1, n =>
    if n < 10 then [Fin.ofNat (48 + n)]
    else decimalDigits fuel (n / 10) ++ [Fin.ofNat (48 + n % 10)]

/-- The decimal text of an integer. -/
def decimalText (n : Int) : Bytes :=
  (if n < 0 then [45] else []) ++ decimalDigits (n.natAbs + 1) n.natAbs

/-- The number that a text of decimal digits denotes, after the digits read so far. -/
def readDigits : Bytes → Nat → Option Nat
  | [], value => some value
  | c :: rest, value =>
    if 48 ≤ c.val ∧ c.val ≤ 57 then readDigits rest (value * 10 + (c.val - 48)) else none

/-- The integer that a decimal text denotes. -/
def readDecimal : Bytes → Option Int
  | [] => none
  | c :: rest =>
    if c = 45 then
      if rest = [] then none else (readDigits rest 0).map fun n => -(n : Int)
    else (readDigits (c :: rest) 0).map fun n => (n : Int)

/-- An instance of `Lib` that writes what it is given: an object in the format of
`codecObject`, an integer in decimal digits, an identifier and the bytes of a base64 text
in hexadecimal digits. Digests and signatures are those of `frameLib`. -/
def codecLib : Lib where
  sha256Sum256 := frameLib.sha256Sum256
  signPKCS1v15 := frameLib.signPKCS1v15
  verifyPKCS1v15 := frameLib.verifyPKCS1v15
  marshalObject := fun fields => some (codecObject fields)
  bigIntString := decimalText
  uuidMarshalText := fun id => sprintfHex id.val
  marshalBlockPayload := frameLib.marshalBlockPayload
  base64EncodeToString := sprintfHex

/-- The decoders that go with `codecLib`. -/
def codecDecodeLib : DecodeLib where
  base64DecodeString := hexDecodeString
  unmarshalObject := fun text => codecParse text.length text
  bigIntSetString := readDecimal
  uuidUnmarshalText := fun text =>
    match hexDecodeString text with
    | none => none
    | some raw => if h : raw.length = 16 then some ⟨raw, h⟩ else none
  unmarshalBlockJSON := frameDecodeLib.unmarshalBlockJSON

/-- A signed transaction of the sender with the key `(3233, 17)`. -/
def signedTransaction : Transaction :=
  { Id := uuidOf 7
    Signature := some [171, 205]
    SenderPrivateKey := some ⟨⟨3233, 17⟩, 2753⟩
    SenderPublicKey := some ⟨3233, 17⟩
    Cost := 5
    Data := [104, 105] }

/-- The blocks decoded during the sync of a chain response that names the appendages
`g <- x <- y` (head `y`) and `g <- x` (head `x`), in the order of their decoding: the head
`y` (address `0`) and the genesis (`1`) of the first appendage, the fetched blocks `x` (`2`)
and `g` (`3`); the head `x` (`4`, a second decoded copy) and the genesis (`5`) of the second
appendage and the fetched block `g` (`6`). Block `7` is decoded later: it is mined on top
of `x`. -/
def copiedHeadBlocks : Nat → Block := fun p =>
  match p with
  | 0 => plainBlock (some ⟨some (acceptedHash 1), none⟩) 2 (some (acceptedHash 2))
  | 1 => plainBlock (some ⟨some zeroHash, none⟩) 2 (some (acceptedHash 0))
  | 2 => plainBlock (some ⟨some (acceptedHash 0), none⟩) 2 (some (acceptedHash 1))
  | 3 => plainBlock (some ⟨some zeroHash, none⟩) 2 (some (acceptedHash 0))
  | 4 => plainBlock (some ⟨some (acceptedHash 0), none⟩) 2 (some (acceptedHash 1))
  | 5 => plainBlock (some ⟨some zeroHash, none⟩) 2 (some (acceptedHash 0))
  | 6 => plainBlock (some ⟨some zeroHash, none⟩) 2 (some (acceptedHash 0))
  | 7 => plainBlock (some ⟨some (acceptedHash 1), none⟩) 2 (some (acceptedHash 3))
  | _ => plainBlock none 0 none

/-- The node after that sync on a fresh chain: for each appendage the head is inserted,
then each fetched block, and the appendage is recorded with the number of blocks counted.
The index refuses the second copy of `x` and of `g`, whose hashes it holds. -/
def copiedHeadState : State :=
  appendSyncedAppendage
    (Blockchain.InsertBlock
      (Blockchain.InsertBlock
        (appendSyncedAppendage
          (Blockchain.InsertBlock
            (Blockchain.InsertBlock
              (Blockchain.InsertBlock { blocks := copiedHeadBlocks, chain := NewBlockchain }
                0).2
              2).2
            3).2
          1 0 3 (utc 5))
        4).2
      6).2
    5 4 2 (utc 6)

/-- The memory `orphanBlocks` with one more mined block, `5` on top of `3`. -/
def wrappedBlocks : Nat → Block := fun p =>
  if p = 5 then plainBlock (some ⟨some (acceptedHash 3), none⟩) 2 (some (acceptedHash 5))
  else orphanBlocks p

/-- The chain after the blocks `4`, `0`, `1`, `2`, `3` of `wrappedBlocks` were placed in
this order: the appendage of head `3` has the length `2 ^ 64 - 1`. -/
def wrappedState : State :=
  (placeAll 3 { blocks := wrappedBlocks, chain := NewBlockchain }
    [(4, utc 1), (0, utc 2), (1, utc 3), (2, utc 4), (3, utc 5)]).getD
    { blocks := wrappedBlocks, chain := NewBlockchain }
/-! ## Lemmas on hexadecimal text -/

theorem hexDigit_eq_zero_iff (d : Nat) (hd : d < 16) : hexDigit d = asciiZero ↔ d = 0 := by
  unfold hexDigit asciiZero
  constructor
  · intro h
    split at h
    · have := congrArg Fin.val h
      simp at this
      omega
    · have := congrArg Fin.val h
      simp at this
      omega
  · rintro rfl
    rfl

theorem hexByte_eq_zeros_iff (b : Byte) :
    (hexDigit (b.val / 16) = asciiZero ∧ hexDigit (b.val % 16) = asciiZero) ↔ b = 0 := by
  have hb := b.isLt
  rw [hexDigit_eq_zero_iff _ (by omega), hexDigit_eq_zero_iff _ (by omega)]
  constructor
  · rintro ⟨h1, h2⟩
    apply Fin.ext
    show b.val = 0
    omega
  · rintro rfl
    exact ⟨rfl, rfl⟩

/-! ## Lemmas on `InsertBlock` -/

theorem InsertBlock_unmined (s : State) (block : Nat) (h : (s.blocks block).Hash = none) :
    Blockchain.InsertBlock s block = (false, s) := by
  simp [Blockchain.InsertBlock, h]

theorem InsertBlock_indexed (s : State) (block : Nat) (hash : BlockHash)
    (h : (s.blocks block).Hash = some hash) (hi : s.chain.index hash ≠ none) :
    Blockchain.InsertBlock s block = (false, s) := by
  unfold Blockchain.InsertBlock
  rw [h]
  cases hx : s.chain.index hash with
  | none => exact absurd hx hi
  | some x => simp only [hx]

theorem InsertBlock_fresh (s : State) (block : Nat) (hash : BlockHash)
    (h : (s.blocks block).Hash = some hash) (hi : s.chain.index hash = none) :
    Blockchain.InsertBlock s block =
      (true, { s with chain := { s.chain with
        index := fun k => if k = hash then some block else s.chain.index k } }) := by
  unfold Blockchain.InsertBlock
  rw [h]
  simp only [hi]

theorem InsertBlock_refused (s : State) (block : Nat)
    (h : (s.blocks block).Hash = none ∨
      ∃ hash, (s.blocks block).Hash = some hash ∧ s.chain.index hash ≠ none) :
    Blockchain.InsertBlock s block = (false, s) := by
  rcases h with h | ⟨hash, hh, hi⟩
  · exact InsertBlock_unmined s block h
  · exact InsertBlock_indexed s block hash hh hi


/-! ## Lemmas on the primary appendage -/

theorem foldl_longest_ge (l : List BlockchainAppendage) (init : Nat) :
    init ≤ l.foldl (fun length a => if a.Length > length then a.Length else length) init ∧
    ∀ a ∈ l, a.Length ≤
      l.foldl (fun length a => if a.Length > length then a.Length else length) init := by
  induction l generalizing init with
  | nil => simp
  | cons x xs ih =>
    simp only [List.foldl_cons, List.mem_cons, forall_eq_or_imp]
    obtain ⟨h1, h2⟩ := ih (if x.Length > init then x.Length else init)
    refine ⟨?_, ?_, h2⟩
    · by_cases hx : x.Length > init
      · rw [if_pos hx] at h1 ⊢; omega
      · rw [if_neg hx] at h1 ⊢; omega
    · by_cases hx : x.Length > init
      · rw [if_pos hx] at h1 ⊢; omega
      · rw [if_neg hx] at h1 ⊢; omega

theorem longestAppendageLength_ge (c : Blockchain) (a : BlockchainAppendage)
    (h : a ∈ c.Appendages) : a.Length ≤ c.longestAppendageLength :=
  (foldl_longest_ge c.Appendages 0).2 a h

theorem foldl_newest_ge (l : List BlockchainAppendage) (init : Time) :
    init.instant ≤ (l.foldl (fun timestamp a => if a.UpdatedAt.After timestamp then a.UpdatedAt
      else timestamp) init).instant ∧
    ∀ a ∈ l, a.UpdatedAt.instant ≤ (l.foldl (fun timestamp a =>
      if a.UpdatedAt.After timestamp then a.UpdatedAt else timestamp) init).instant := by
  induction l generalizing init with
  | nil => simp
  | cons x xs ih =>
    simp only [List.foldl_cons, List.mem_cons, forall_eq_or_imp]
    obtain ⟨h1, h2⟩ := ih (if x.UpdatedAt.After init then x.UpdatedAt else init)
    refine ⟨?_, ?_, h2⟩
    · by_cases hx : x.UpdatedAt.After init = true
      · rw [if_pos hx] at h1 ⊢
        simp [Time.After] at hx; omega
      · rw [if_neg hx] at h1 ⊢
        exact h1
    · by_cases hx : x.UpdatedAt.After init = true
      · rw [if_pos hx] at h1 ⊢
        exact h1
      · rw [if_neg hx] at h1 ⊢
        simp [Time.After] at hx; omega

theorem newestTimestamp_ge (l : List BlockchainAppendage) (a : BlockchainAppendage)
    (h : a ∈ l) : a.UpdatedAt.instant ≤ (newestTimestamp l).instant :=
  (foldl_newest_ge l Time.unixEpoch).2 a h

/-- The head of a filtered list is the first element of the list that passes. -/
theorem filter_head_first {α : Type} (p : α → Bool) (l : List α) (a : α) (rest : List α)
    (h : l.filter p = a :: rest) :
    p a = true ∧ ∃ i : Nat, l[i]? = some a ∧ ∀ j : Nat, j < i → ∀ x, l[j]? = some x → p x = false := by
  induction l with
  | nil => simp at h
  | cons y ys ih =>
    by_cases hy : p y = true
    · rw [List.filter_cons_of_pos hy] at h
      injection h with h1 h2
      subst h1
      exact ⟨hy, 0, by simp, fun j hj => absurd hj (Nat.not_lt_zero j)⟩
    · rw [List.filter_cons_of_neg hy] at h
      obtain ⟨pa, i, hi, hfirst⟩ := ih h
      refine ⟨pa, i + 1, by simpa using hi, ?_⟩
      intro j hj x hx
      cases j with
      | zero =>
        simp at hx
        subst hx
        simpa using hy
      | succ j =>
        exact hfirst j (by omega) x (by simpa using hx)

/-- What `PrimaryAppendage` returns is the head of the longest appendages
filtered by its own `UpdatedAt`, and no longest appendage is newer. -/
theorem PrimaryAppendage_some (c : Blockchain) (a : BlockchainAppendage)
    (h : c.PrimaryAppendage = some a) :
    (∃ rest, c.Appendages.filter (fun x => x.UpdatedAt == a.UpdatedAt &&
        x.Length == c.longestAppendageLength) = a :: rest) ∧
    ∀ x ∈ c.Appendages, x.Length = c.longestAppendageLength →
      x.UpdatedAt.instant ≤ a.UpdatedAt.instant := by
  unfold Blockchain.PrimaryAppendage at h
  have hL : c.LongestAppendages =
      c.Appendages.filter fun x => x.Length == c.longestAppendageLength := rfl
  split at h
  · exact absurd h (by simp)
  · rename_i a0 heq
    injection h with h
    subst h
    rw [hL] at heq
    constructor
    · refine ⟨[], ?_⟩
      rw [← List.filter_filter, heq]
      simp
    · intro x hx hlen
      have : x ∈ c.Appendages.filter fun x => x.Length == c.longestAppendageLength := by
        simp [List.mem_filter, hx, hlen]
      rw [heq] at this
      simp at this
      rw [this]
  · rename_i l hne1 hne2
    simp only at h
    split at h
    · exact absurd h (by simp)
    · rename_i m rest heq
      injection h with h
      subst h
      have hm : m ∈ c.LongestAppendages.filter fun x =>
          x.UpdatedAt == newestTimestamp c.LongestAppendages := by
        rw [heq]; simp
      have hts : m.UpdatedAt = newestTimestamp c.LongestAppendages := by
        simpa using (List.mem_filter.mp hm).2
      constructor
      · refine ⟨rest, ?_⟩
        rw [← List.filter_filter, ← hL, hts]
        exact heq
      · intro x hx hlen
        have : x ∈ c.LongestAppendages := by
          rw [hL]; simp [List.mem_filter, hx, hlen]
        rw [hts]
        exact newestTimestamp_ge _ x this

theorem filter_unique {α : Type} (p : α → Bool) (l1 l2 : List α) (a : α)
    (h1 : ∀ x ∈ l1, p x = false) (h2 : ∀ x ∈ l2, p x = false) (ha : p a = true) :
    (l1 ++ a :: l2).filter p = [a] := by
  rw [List.filter_append, List.filter_cons_of_pos ha]
  have e1 : l1.filter p = [] := by
    rw [List.filter_eq_nil_iff]; intro x hx; simp [h1 x hx]
  have e2 : l2.filter p = [] := by
    rw [List.filter_eq_nil_iff]; intro x hx; simp [h2 x hx]
  rw [e1, e2]; rfl

theorem longestAppendageLength_unique (c : Blockchain) (l1 l2 : List BlockchainAppendage)
    (a : BlockchainAppendage) (hc : c.Appendages = l1 ++ a :: l2)
    (h1 : ∀ x ∈ l1, x.Length < a.Length) (h2 : ∀ x ∈ l2, x.Length < a.Length) :
    c.longestAppendageLength = a.Length := by
  have hmem : a ∈ c.Appendages := by rw [hc]; simp
  have hge := longestAppendageLength_ge c a hmem
  have hle : ∀ (l : List BlockchainAppendage) (init : Nat), init ≤ a.Length →
      (∀ x ∈ l, x.Length ≤ a.Length) →
      l.foldl (fun length a => if a.Length > length then a.Length else length) init
        ≤ a.Length := by
    intro l
    induction l with
    | nil => intro init hi _; simpa using hi
    | cons y ys ih =>
      intro init hi hall
      simp only [List.foldl_cons]
      apply ih
      · have := hall y (by simp)
        split <;> omega
      · intro x hx; exact hall x (by simp [hx])
  have := hle c.Appendages 0 (Nat.zero_le _) (by
    intro x hx
    rw [hc] at hx
    simp only [List.mem_append, List.mem_cons] at hx
    rcases hx with hx | hx | hx
    · exact Nat.le_of_lt (h1 x hx)
    · rw [hx]
    · exact Nat.le_of_lt (h2 x hx))
  unfold Blockchain.longestAppendageLength at hge ⊢
  omega

theorem PrimaryAppendage_unique_longest (c : Blockchain) (l1 l2 : List BlockchainAppendage)
    (a : BlockchainAppendage) (hc : c.Appendages = l1 ++ a :: l2)
    (h1 : ∀ x ∈ l1, x.Length < a.Length) (h2 : ∀ x ∈ l2, x.Length < a.Length) :
    c.PrimaryAppendage = some a := by
  have hL := longestAppendageLength_unique c l1 l2 a hc h1 h2
  have hf : c.LongestAppendages = [a] := by
    unfold Blockchain.LongestAppendages
    rw [hL, hc]
    apply filter_unique
    · intro x hx; have := h1 x hx; simp; omega
    · intro x hx; have := h2 x hx; simp; omega
    · simp
  unfold Blockchain.PrimaryAppendage
  rw [hf]
/-! ## Lemmas on the placement of a block -/

theorem sameHashPointer_congr (s s' : State)
    (h : ∀ q, (s'.blocks q).Hash = (s.blocks q).Hash) (x y : Nat) :
    sameHashPointer s' x y = sameHashPointer s x y := by
  unfold sameHashPointer
  rw [h x, h y]

theorem extendAppendage_hit (s : State) (block P : Nat) (now : Time)
    (apps : List BlockchainAppendage) (i : Nat) (A : BlockchainAppendage) (head : Nat)
    (hA : apps[i]? = some A) (hhead : A.Head = some head)
    (hsame : sameHashPointer s head P = true)
    (hfirst : ∀ j : Nat, j < i → ∀ A' head', apps[j]? = some A' → A'.Head = some head' →
      sameHashPointer s head' P = false) :
    extendAppendage s block P now apps =
      some (apps.set i
        { A with Head := some block, Length := uintAdd A.Length 1, UpdatedAt := now }) := by
  induction apps generalizing i with
  | nil => simp at hA
  | cons a rest ih =>
    cases i with
    | zero =>
      simp at hA
      subst hA
      simp [extendAppendage, hhead, hsame]
    | succ i =>
      have hrest := ih i (by simpa using hA) (fun j hj A' head' h1 h2 =>
        hfirst (j + 1) (by omega) A' head' (by simpa using h1) h2)
      unfold extendAppendage
      cases hh : a.Head with
      | none => simp [hrest]
      | some h0 =>
        have := hfirst 0 (by omega) a h0 (by simp) hh
        simp [this, hrest]

theorem extendAppendage_miss (s : State) (block P : Nat) (now : Time)
    (apps : List BlockchainAppendage)
    (hnone : ∀ A ∈ apps, ∀ head, A.Head = some head → sameHashPointer s head P = false) :
    extendAppendage s block P now apps = none := by
  induction apps with
  | nil => rfl
  | cons a rest ih =>
    have hrest := ih (fun A hA => hnone A (by simp [hA]))
    unfold extendAppendage
    cases hh : a.Head with
    | none => simp [hrest]
    | some h0 =>
      have := hnone a (by simp) h0 hh
      simp [this, hrest]

theorem SameUpToCache.refl (s : State) : SameUpToCache s s :=
  ⟨rfl, fun _ => ⟨rfl, rfl, rfl, rfl, rfl⟩⟩

theorem SameUpToCache.trans {s s' s'' : State} (h1 : SameUpToCache s s')
    (h2 : SameUpToCache s' s'') : SameUpToCache s s'' := by
  obtain ⟨c1, b1⟩ := h1
  obtain ⟨c2, b2⟩ := h2
  refine ⟨c2.trans c1, fun q => ?_⟩
  obtain ⟨a1, a2, a3, a4, a5⟩ := b1 q
  obtain ⟨e1, e2, e3, e4, e5⟩ := b2 q
  rw [c1] at e5
  exact ⟨e1.trans a1, e2.trans a2, e3.trans a3, e4.trans a4, e5.trans a5⟩

theorem SameUpToCache.sameHashPointer {s s' : State} (h : SameUpToCache s s') (x y : Nat) :
    sameHashPointer s' x y = sameHashPointer s x y :=
  sameHashPointer_congr s s' (fun q => (h.2 q).1) x y

theorem SameUpToCache.resolve {s s' : State} (h : SameUpToCache s s') (q : Nat) :
    resolvePrevious s'.chain (s'.blocks q) = resolvePrevious s.chain (s.blocks q) := by
  rw [h.1]; exact (h.2 q).2.2.2.2

theorem SameUpToCache.ancestor {s s' : State} (h : SameUpToCache s s') (k q : Nat) :
    ancestor s' k q = ancestor s k q := by
  induction k generalizing q with
  | zero => rfl
  | succ k ih =>
    unfold BC.ancestor
    rw [h.resolve q]
    cases resolvePrevious s.chain (s.blocks q) with
    | none => rfl
    | some p => exact ih p

/-- Resolving a reference a second time, after the cache was written, gives
the same block. -/
theorem Unwrap_cached (c : Blockchain) (l : LazyBlock) :
    ((l.Unwrap c).2.Unwrap c).1 = (l.Unwrap c).1 := by
  unfold LazyBlock.Unwrap
  cases hr : l.resolvedBlock with
  | some r => simp [hr]
  | none =>
    cases hh : l.Hash with
    | none => simp [hr, hh]
    | some hash =>
      cases hx : c.GetBlockWithHash hash with
      | none => simp [hx, hh]
      | some x => simp [hx]

/-- Writing back the reference that `Unwrap` leaves changes the cache only. -/
theorem SameUpToCache.unwrap (s : State) (q : Nat) (l : LazyBlock)
    (hl : (s.blocks q).Previous = some l) :
    SameUpToCache s (s.setBlock q { s.blocks q with Previous := some (l.Unwrap s.chain).2 }) := by
  refine ⟨rfl, fun p => ?_⟩
  by_cases hp : p = q
  · subst hp
    refine ⟨by simp [State.setBlock], by simp [State.setBlock], by simp [State.setBlock],
      by simp [State.setBlock], ?_⟩
    simp only [State.setBlock, if_true, resolvePrevious, hl]
    exact Unwrap_cached s.chain l
  · refine ⟨?_, ?_, ?_, ?_, ?_⟩ <;> simp [State.setBlock, hp]

theorem resolvePrevious_of_some (c : Blockchain) (b : Block) (l : LazyBlock)
    (hl : b.Previous = some l) : resolvePrevious c b = (l.Unwrap c).1 := by
  simp [resolvePrevious, hl]

theorem resolvePrevious_of_none (c : Blockchain) (b : Block)
    (hl : b.Previous = none) : resolvePrevious c b = none := by
  simp [resolvePrevious, hl]

theorem ancestor_succ_none (s : State) (k q : Nat)
    (h : resolvePrevious s.chain (s.blocks q) = none) : ancestor s (k + 1) q = none := by
  simp [ancestor, h]

theorem ancestor_succ_some (s : State) (k q p : Nat)
    (h : resolvePrevious s.chain (s.blocks q) = some p) :
    ancestor s (k + 1) q = ancestor s k p := by
  simp [ancestor, h]

/-- A walk that ends without meeting `P` returns `nil`, given enough fuel. -/
theorem ancestorWalk_miss (P : Nat) (n : Nat) :
    ∀ (s : State) (cur depth : Nat), ancestor s n cur = none →
      (∀ k : Nat, k < n → ∀ q, ancestor s k cur = some q → sameHashPointer s q P = false) →
      ∀ fuel : Nat, n ≤ fuel →
        ∃ s', ancestorWalk P fuel s cur depth = some (none, s') ∧ SameUpToCache s s' := by
  induction n with
  | zero => intro s cur depth h; simp [ancestor] at h
  | succ n ih =>
    intro s cur depth hend hmiss fuel hfuel
    obtain ⟨f, rfl⟩ : ∃ f, fuel = f + 1 := ⟨fuel - 1, by omega⟩
    have h0 : sameHashPointer s cur P = false := hmiss 0 (by omega) cur rfl
    unfold ancestorWalk
    simp only [h0, Bool.false_eq_true, if_false]
    cases hl : (s.blocks cur).Previous with
    | none => exact ⟨s, rfl, SameUpToCache.refl s⟩
    | some l =>
      have hsame := SameUpToCache.unwrap s cur l hl
      have hres := resolvePrevious_of_some s.chain (s.blocks cur) l hl
      simp only
      cases hr : (l.Unwrap s.chain).1 with
        | none => exact ⟨_, rfl, hsame⟩
        | some nxt =>
          rw [hr] at hres
          simp only
          have hstep : ∀ k, ancestor s (k + 1) cur = ancestor s k nxt :=
            fun k => ancestor_succ_some s k cur nxt hres
          obtain ⟨s', hw, hs'⟩ := ih _ nxt (uintAdd depth 1)
            (by rw [hsame.ancestor, ← hstep]; exact hend)
            (by
              intro k hk q hq
              rw [hsame.sameHashPointer]
              rw [hsame.ancestor, ← hstep] at hq
              exact hmiss (k + 1) (by omega) q hq)
            f (by omega)
          exact ⟨s', hw, hsame.trans hs'⟩

/-- A walk that meets `P` after `d` steps returns the depth counter after `d`
increments, given enough fuel. -/
theorem ancestorWalk_hit (P : Nat) (d : Nat) :
    ∀ (s : State) (cur depth q : Nat), ancestor s d cur = some q →
      sameHashPointer s q P = true →
      (∀ k : Nat, k < d → ∀ q', ancestor s k cur = some q' → sameHashPointer s q' P = false) →
      ∀ fuel : Nat, d < fuel →
        ∃ s', ancestorWalk P fuel s cur depth = some (some (walkDepth depth d), s') ∧
          SameUpToCache s s' := by
  induction d with
  | zero =>
    intro s cur depth q hq hsm _ fuel hfuel
    obtain ⟨f, rfl⟩ : ∃ f, fuel = f + 1 := ⟨fuel - 1, by omega⟩
    simp [ancestor] at hq
    subst hq
    exact ⟨s, by simp [ancestorWalk, hsm, walkDepth], SameUpToCache.refl s⟩
  | succ d ih =>
    intro s cur depth q hq hsm hmiss fuel hfuel
    obtain ⟨f, rfl⟩ : ∃ f, fuel = f + 1 := ⟨fuel - 1, by omega⟩
    have h0 : sameHashPointer s cur P = false := hmiss 0 (by omega) cur rfl
    unfold ancestorWalk
    simp only [h0, Bool.false_eq_true, if_false]
    cases hl : (s.blocks cur).Previous with
    | none =>
      rw [ancestor_succ_none s d cur (resolvePrevious_of_none _ _ hl)] at hq
      exact absurd hq (by simp)
    | some l =>
      have hsame := SameUpToCache.unwrap s cur l hl
      have hres := resolvePrevious_of_some s.chain (s.blocks cur) l hl
      simp only
      cases hr : (l.Unwrap s.chain).1 with
        | none =>
          rw [hr] at hres
          rw [ancestor_succ_none s d cur hres] at hq
          exact absurd hq (by simp)
        | some nxt =>
          rw [hr] at hres
          simp only
          have hstep : ∀ k, ancestor s (k + 1) cur = ancestor s k nxt :=
            fun k => ancestor_succ_some s k cur nxt hres
          obtain ⟨s', hw, hs'⟩ := ih _ nxt (uintAdd depth 1) q
            (by rw [hsame.ancestor, ← hstep]; exact hq)
            (by rw [hsame.sameHashPointer]; exact hsm)
            (by
              intro k hk q' hq'
              rw [hsame.sameHashPointer]
              rw [hsame.ancestor, ← hstep] at hq'
              exact hmiss (k + 1) (by omega) q' hq')
            f (by omega)
          exact ⟨s', by rw [hw]; rfl, hsame.trans hs'⟩

/-- A walk that goes on for ever without meeting `P` has no result, whatever
the fuel. -/
theorem ancestorWalk_diverges (P : Nat) (fuel : Nat) :
    ∀ (s : State) (cur depth : Nat),
      (∀ k : Nat, ∃ q, ancestor s k cur = some q ∧ sameHashPointer s q P = false) →
      ancestorWalk P fuel s cur depth = none := by
  induction fuel with
  | zero => intro s cur depth _; rfl
  | succ f ih =>
    intro s cur depth hall
    have h0 : sameHashPointer s cur P = false := by
      obtain ⟨q, hq, hs⟩ := hall 0
      simp [ancestor] at hq
      rw [hq]; exact hs
    unfold ancestorWalk
    simp only [h0, Bool.false_eq_true, if_false]
    cases hl : (s.blocks cur).Previous with
    | none =>
      obtain ⟨q, hq, _⟩ := hall 1
      rw [ancestor_succ_none s 0 cur (resolvePrevious_of_none _ _ hl)] at hq
      exact absurd hq (by simp)
    | some l =>
      have hsame := SameUpToCache.unwrap s cur l hl
      have hres := resolvePrevious_of_some s.chain (s.blocks cur) l hl
      simp only
      cases hr : (l.Unwrap s.chain).1 with
        | none =>
          rw [hr] at hres
          obtain ⟨q, hq, _⟩ := hall 1
          rw [ancestor_succ_none s 0 cur hres] at hq
          exact absurd hq (by simp)
        | some nxt =>
          rw [hr] at hres
          simp only
          apply ih
          intro k
          obtain ⟨q, hq, hs⟩ := hall (k + 1)
          rw [ancestor_succ_some s k cur nxt hres] at hq
          exact ⟨q, by rw [hsame.ancestor]; exact hq, by rw [hsame.sameHashPointer]; exact hs⟩

theorem walkDepth_eq (depth d : Nat) : walkDepth depth (d + 1) = (depth + (d + 1)) % UINT_MOD := by
  induction d generalizing depth with
  | zero => simp [walkDepth, uintAdd]
  | succ d ih =>
    rw [walkDepth, ih]
    simp only [uintAdd]
    rw [Nat.add_mod, Nat.mod_mod, ← Nat.add_mod]
    congr 1
    omega

theorem walkDepth_zero (d : Nat) : walkDepth 0 d = d % UINT_MOD := by
  cases d with
  | zero => simp [walkDepth]
  | succ d => rw [walkDepth_eq]; simp

theorem uintSub_walkDepth (a d : Nat) : uintSub a (walkDepth 0 d) = uintSub a d := by
  rw [walkDepth_zero]
  simp [uintSub]

theorem SameUpToCache.walkMisses {s s' : State} (h : SameUpToCache s s') (P : Nat)
    (a : BlockchainAppendage) (hm : walkMisses s P a) : walkMisses s' P a := by
  intro H hH
  obtain ⟨n, hend, hmiss⟩ := hm H hH
  refine ⟨n, by rw [h.ancestor]; exact hend, ?_⟩
  intro k hk q hq
  rw [h.sameHashPointer]
  rw [h.ancestor] at hq
  exact hmiss k hk q hq

theorem SameUpToCache.walkMeets {s s' : State} (h : SameUpToCache s s') (P : Nat)
    (a : BlockchainAppendage) (d : Nat) (hm : walkMeets s P a d) : walkMeets s' P a d := by
  obtain ⟨H, q, hH, hq, hsm, hmiss⟩ := hm
  refine ⟨H, q, hH, by rw [h.ancestor]; exact hq, by rw [h.sameHashPointer]; exact hsm, ?_⟩
  intro k hk q' hq'
  rw [h.sameHashPointer]
  rw [h.ancestor] at hq'
  exact hmiss k hk q' hq'

/-- One appendage whose walk misses: the search goes on with the rest of the
list, in a memory that differs in the cache only. -/
theorem forkSearch_skip (P : Nat) (s : State) (a : BlockchainAppendage)
    (rest : List BlockchainAppendage) (n : Nat)
    (hm : ∀ H, a.Head = some H → ancestor s (n + 1) H = none ∧
      ∀ k : Nat, k < n → ∀ q, ancestor s (k + 1) H = some q → sameHashPointer s q P = false)
    (fuel : Nat) (hfuel : n ≤ fuel) :
    ∃ s', SameUpToCache s s' ∧
      forkSearch fuel P s (a :: rest) = forkSearch fuel P s' rest := by
  cases hH : a.Head with
  | none =>
    refine ⟨s, SameUpToCache.refl s, ?_⟩
    simp [forkSearch, hH]
  | some H =>
    obtain ⟨hend, hmiss⟩ := hm H hH
    cases hl : (s.blocks H).Previous with
    | none =>
      refine ⟨s, SameUpToCache.refl s, ?_⟩
      simp [forkSearch, hH, hl]
    | some l =>
      have hsame := SameUpToCache.unwrap s H l hl
      have hres := resolvePrevious_of_some s.chain (s.blocks H) l hl
      cases hr : (l.Unwrap s.chain).1 with
      | none =>
        refine ⟨_, hsame, ?_⟩
        simp [forkSearch, hH, hl, hr]
      | some cur =>
        rw [hr] at hres
        have hstep : ∀ k, ancestor s (k + 1) H = ancestor s k cur :=
          fun k => ancestor_succ_some s k H cur hres
        obtain ⟨s', hw, hs'⟩ := ancestorWalk_miss P n _ cur 0
          (by rw [hsame.ancestor, ← hstep]; exact hend)
          (by
            intro k hk q hq
            rw [hsame.sameHashPointer]
            rw [hsame.ancestor, ← hstep] at hq
            exact hmiss k hk q hq)
          fuel hfuel
        refine ⟨s', hsame.trans hs', ?_⟩
        simp [forkSearch, hH, hl, hr, hw]

/-- The bound of a missing walk, read in a memory that differs in the cache only. -/
theorem walkMisses_bound (s : State) (P : Nat) (a : BlockchainAppendage)
    (hm : walkMisses s P a) :
    ∃ n : Nat, ∀ s1, SameUpToCache s s1 → ∀ H, a.Head = some H →
      ancestor s1 (n + 1) H = none ∧
      ∀ k : Nat, k < n → ∀ q, ancestor s1 (k + 1) H = some q →
        sameHashPointer s1 q P = false := by
  cases hH : a.Head with
  | none => exact ⟨0, fun s1 _ H h => absurd h (by simp)⟩
  | some H =>
    obtain ⟨n, hend, hmiss⟩ := hm H hH
    refine ⟨n, fun s1 h1 H' hH' => ?_⟩
    injection hH' with hH'
    subst hH'
    refine ⟨by rw [h1.ancestor]; exact hend, ?_⟩
    intro k hk q hq
    rw [h1.sameHashPointer]
    rw [h1.ancestor] at hq
    exact hmiss k hk q hq

/-- The search over appendages whose walks all miss ends without a hit. -/
theorem forkSearch_miss (P : Nat) (apps : List BlockchainAppendage) (s : State)
    (hall : ∀ a ∈ apps, walkMisses s P a) :
    ∃ fuel0 : Nat, ∀ s1, SameUpToCache s s1 → ∀ fuel : Nat, fuel0 ≤ fuel →
      ∃ s', forkSearch fuel P s1 apps = some (none, s') ∧ SameUpToCache s s' := by
  induction apps with
  | nil => exact ⟨0, fun s1 h1 fuel _ => ⟨s1, rfl, h1⟩⟩
  | cons a rest ih =>
    obtain ⟨n, hn⟩ := walkMisses_bound s P a (hall a (by simp))
    obtain ⟨f, hf⟩ := ih (fun x hx => hall x (by simp [hx]))
    refine ⟨max n f, fun s1 h1 fuel hfuel => ?_⟩
    obtain ⟨s2, h2, heq⟩ := forkSearch_skip P s1 a rest n (hn s1 h1) fuel
      (le_trans (le_max_left n f) hfuel)
    obtain ⟨s', hs', hsame⟩ := hf s2 (h1.trans h2) fuel (le_trans (le_max_right n f) hfuel)
    exact ⟨s', by rw [heq, hs'], hsame⟩

/-- The appendage whose walk meets `P`, at the head of the list. -/
theorem forkSearch_meet (P : Nat) (s : State) (a : BlockchainAppendage)
    (rest : List BlockchainAppendage) (d : Nat) (hm : walkMeets s P a d)
    (fuel : Nat) (hfuel : d < fuel) :
    ∃ s', forkSearch fuel P s (a :: rest) = some (some (a, walkDepth 0 d), s') ∧
      SameUpToCache s s' := by
  obtain ⟨H, q, hH, hq, hsm, hmiss⟩ := hm
  cases hl : (s.blocks H).Previous with
  | none =>
    rw [ancestor_succ_none s d H (resolvePrevious_of_none _ _ hl)] at hq
    exact absurd hq (by simp)
  | some l =>
    have hsame := SameUpToCache.unwrap s H l hl
    have hres := resolvePrevious_of_some s.chain (s.blocks H) l hl
    cases hr : (l.Unwrap s.chain).1 with
    | none =>
      rw [hr] at hres
      rw [ancestor_succ_none s d H hres] at hq
      exact absurd hq (by simp)
    | some cur =>
      rw [hr] at hres
      have hstep : ∀ k, ancestor s (k + 1) H = ancestor s k cur :=
        fun k => ancestor_succ_some s k H cur hres
      obtain ⟨s', hw, hs'⟩ := ancestorWalk_hit P d _ cur 0 q
        (by rw [hsame.ancestor, ← hstep]; exact hq)
        (by rw [hsame.sameHashPointer]; exact hsm)
        (by
          intro k hk q' hq'
          rw [hsame.sameHashPointer]
          rw [hsame.ancestor, ← hstep] at hq'
          exact hmiss k hk q' hq')
        fuel hfuel
      refine ⟨s', ?_, hsame.trans hs'⟩
      simp [forkSearch, hH, hl, hr, hw]

/-- The search returns the first appendage whose walk meets `P`, when the walks
of the appendages before it end. -/
theorem forkSearch_hit (P : Nat) (l1 : List BlockchainAppendage) (S : BlockchainAppendage)
    (l2 : List BlockchainAppendage) (d : Nat) (s : State)
    (hall : ∀ a ∈ l1, walkMisses s P a) (hS : walkMeets s P S d) :
    ∃ fuel0 : Nat, ∀ s1, SameUpToCache s s1 → ∀ fuel : Nat, fuel0 ≤ fuel →
      ∃ s', forkSearch fuel P s1 (l1 ++ S :: l2) = some (some (S, walkDepth 0 d), s') ∧
        SameUpToCache s s' := by
  induction l1 with
  | nil =>
    refine ⟨d + 1, fun s1 h1 fuel hfuel => ?_⟩
    obtain ⟨s', hs', hsame⟩ := forkSearch_meet P s1 S l2 d (h1.walkMeets P S d hS) fuel
      (by omega)
    exact ⟨s', hs', h1.trans hsame⟩
  | cons a rest ih =>
    obtain ⟨n, hn⟩ := walkMisses_bound s P a (hall a (by simp))
    obtain ⟨f, hf⟩ := ih (fun x hx => hall x (by simp [hx]))
    refine ⟨max n f, fun s1 h1 fuel hfuel => ?_⟩
    obtain ⟨s2, h2, heq⟩ := forkSearch_skip P s1 a (rest ++ S :: l2) n (hn s1 h1) fuel
      (le_trans (le_max_left n f) hfuel)
    obtain ⟨s', hs', hsame⟩ := hf s2 (h1.trans h2) fuel (le_trans (le_max_right n f) hfuel)
    exact ⟨s', by rw [List.cons_append, heq, hs'], hsame⟩

/-- The search has no result when the walk of the first appendage goes on for
ever without meeting `P`. -/
theorem forkSearch_diverges (P : Nat) (s : State) (a : BlockchainAppendage)
    (rest : List BlockchainAppendage) (H : Nat) (hH : a.Head = some H)
    (hall : ∀ k : Nat, ∃ q, ancestor s (k + 1) H = some q ∧ sameHashPointer s q P = false)
    (fuel : Nat) : forkSearch fuel P s (a :: rest) = none := by
  cases hl : (s.blocks H).Previous with
  | none =>
    obtain ⟨q, hq, _⟩ := hall 0
    rw [ancestor_succ_none s 0 H (resolvePrevious_of_none _ _ hl)] at hq
    exact absurd hq (by simp)
  | some l =>
    have hsame := SameUpToCache.unwrap s H l hl
    have hres := resolvePrevious_of_some s.chain (s.blocks H) l hl
    cases hr : (l.Unwrap s.chain).1 with
    | none =>
      rw [hr] at hres
      obtain ⟨q, hq, _⟩ := hall 0
      rw [ancestor_succ_none s 0 H hres] at hq
      exact absurd hq (by simp)
    | some cur =>
      rw [hr] at hres
      have hw := ancestorWalk_diverges P fuel
        (s.setBlock H { s.blocks H with Previous := some (l.Unwrap s.chain).2 }) cur 0
        (by
          intro k
          obtain ⟨q, hq, hs⟩ := hall k
          rw [ancestor_succ_some s k H cur hres] at hq
          exact ⟨q, by rw [hsame.ancestor]; exact hq, by rw [hsame.sameHashPointer]; exact hs⟩)
      simp [forkSearch, hH, hl, hr, hw]

/-- What `InsertBlockAndPlaceIntoAppendage` does once `InsertBlock` has
succeeded and the previous reference has resolved to `P`. -/
theorem place_resolved (fuel : Nat) (now : Time) (s : State) (block : Nat) (hash : BlockHash)
    (P : Nat) (hmined : (s.blocks block).Hash = some hash) (hfresh : s.chain.index hash = none)
    (hprev : resolvePrevious (Blockchain.InsertBlock s block).2.chain (s.blocks block) = some P) :
    ∃ s1, SameUpToCache (Blockchain.InsertBlock s block).2 s1 ∧
      Blockchain.InsertBlockAndPlaceIntoAppendage fuel now s block =
        match extendAppendage s1 block P now s1.chain.Appendages with
        | some appendages =>
          some (true, { s1 with chain := { s1.chain with Appendages := appendages } })
        | none =>
          match forkSearch fuel P s1 s1.chain.Appendages with
          | none => none
          | some (some (a, depth), s2) =>
            some (true, s2.appendAppendage ⟨a.Genesis, some block, uintSub a.Length depth, now⟩)
          | some (none, s2) =>
            some (true, s2.appendAppendage ⟨some block, some block, 1, now⟩) := by
  rw [InsertBlock_fresh s block hash hmined hfresh] at hprev ⊢
  cases hl : (s.blocks block).Previous with
  | none => rw [resolvePrevious_of_none _ _ hl] at hprev; exact absurd hprev (by simp)
  | some l =>
    rw [resolvePrevious_of_some _ _ l hl] at hprev
    have hsame := SameUpToCache.unwrap
      { s with chain := { s.chain with
        index := fun k => if k = hash then some block else s.chain.index k } } block l hl
    refine ⟨_, hsame, ?_⟩
    unfold Blockchain.InsertBlockAndPlaceIntoAppendage
    rw [InsertBlock_fresh s block hash hmined hfresh]
    simp only [hl, hprev]

/-- What `InsertBlockAndPlaceIntoAppendage` does once `InsertBlock` has
succeeded and the previous reference is absent or does not resolve. -/
theorem place_unresolved (fuel : Nat) (now : Time) (s : State) (block : Nat) (hash : BlockHash)
    (hmined : (s.blocks block).Hash = some hash) (hfresh : s.chain.index hash = none)
    (hprev : resolvePrevious (Blockchain.InsertBlock s block).2.chain (s.blocks block) = none) :
    ∃ s1, SameUpToCache (Blockchain.InsertBlock s block).2 s1 ∧
      Blockchain.InsertBlockAndPlaceIntoAppendage fuel now s block =
        some (true, s1.appendAppendage ⟨some block, some block, 1, now⟩) := by
  rw [InsertBlock_fresh s block hash hmined hfresh] at hprev ⊢
  cases hl : (s.blocks block).Previous with
  | none =>
    refine ⟨_, SameUpToCache.refl _, ?_⟩
    unfold Blockchain.InsertBlockAndPlaceIntoAppendage
    rw [InsertBlock_fresh s block hash hmined hfresh]
    simp only [hl]
  | some l =>
    rw [resolvePrevious_of_some _ _ l hl] at hprev
    have hsame := SameUpToCache.unwrap
      { s with chain := { s.chain with
        index := fun k => if k = hash then some block else s.chain.index k } } block l hl
    refine ⟨_, hsame, ?_⟩
    unfold Blockchain.InsertBlockAndPlaceIntoAppendage
    rw [InsertBlock_fresh s block hash hmined hfresh]
    simp only [hl, hprev]

theorem InsertBlock_appendages (s : State) (block : Nat) :
    (Blockchain.InsertBlock s block).2.chain.Appendages = s.chain.Appendages := by
  unfold Blockchain.InsertBlock
  cases (s.blocks block).Hash with
  | none => rfl
  | some h =>
    simp only
    cases s.chain.index h <;> rfl

theorem InsertBlock_hash (s : State) (block q : Nat) :
    ((Blockchain.InsertBlock s block).2.blocks q).Hash = (s.blocks q).Hash := by
  unfold Blockchain.InsertBlock
  cases (s.blocks block).Hash with
  | none => rfl
  | some h =>
    simp only
    cases s.chain.index h <;> rfl

theorem InsertBlock_lookup (s : State) (block : Nat) (hash : BlockHash)
    (hmined : (s.blocks block).Hash = some hash) (hfresh : s.chain.index hash = none) :
    (Blockchain.InsertBlock s block).2.chain.GetBlockWithHash hash = some block := by
  rw [InsertBlock_fresh s block hash hmined hfresh]
  simp [Blockchain.GetBlockWithHash]

theorem ancestor_loop (s : State) (q : Nat)
    (h : resolvePrevious s.chain (s.blocks q) = some q) : ∀ k, ancestor s k q = some q := by
  intro k
  induction k with
  | zero => rfl
  | succ k ih => rw [ancestor_succ_some s k q q h]; exact ih

/-- The placement has no result, whatever the fuel, when no head fits and the
walk of the first appendage goes on for ever without meeting `P`. -/
theorem place_diverges (now : Time) (s : State) (block : Nat) (hash : BlockHash)
    (P : Nat) (a : BlockchainAppendage) (rest : List BlockchainAppendage) (H : Nat)
    (hmined : (s.blocks block).Hash = some hash) (hfresh : s.chain.index hash = none)
    (hprev : resolvePrevious (Blockchain.InsertBlock s block).2.chain (s.blocks block) = some P)
    (hnohead : ∀ A ∈ s.chain.Appendages, ∀ head, A.Head = some head →
      sameHashPointer s head P = false)
    (happs : s.chain.Appendages = a :: rest) (hH : a.Head = some H)
    (hall : ∀ k : Nat, ∃ q, ancestor (Blockchain.InsertBlock s block).2 (k + 1) H = some q ∧
      sameHashPointer s q P = false)
    (fuel : Nat) : Blockchain.InsertBlockAndPlaceIntoAppendage fuel now s block = none := by
  obtain ⟨s1, hs1, heq⟩ := place_resolved fuel now s block hash P hmined hfresh hprev
  have happs1 : s1.chain.Appendages = s.chain.Appendages := by
    rw [hs1.1, InsertBlock_appendages]
  have hptr : ∀ x y, sameHashPointer s1 x y = sameHashPointer s x y := fun x y =>
    sameHashPointer_congr s s1 (fun q => ((hs1.2 q).1).trans (InsertBlock_hash s block q)) x y
  have hext := extendAppendage_miss s1 block P now s.chain.Appendages
    (fun A hA head hh => by rw [hptr]; exact hnohead A hA head hh)
  have hdiv := forkSearch_diverges P s1 a rest H hH (by
    intro k
    obtain ⟨q, hq, hs⟩ := hall k
    exact ⟨q, by rw [hs1.ancestor]; exact hq, by rw [hptr]; exact hs⟩) fuel
  rw [happs1, hext, happs, hdiv] at heq
  exact heq

/-! ## Lemmas on serialization and verification -/

theorem State.ext_blocks (s s' : State) (hc : s'.chain = s.chain)
    (hb : ∀ q, s'.blocks q = s.blocks q) : s' = s := by
  cases s; cases s'
  simp only at hc hb
  subst hc
  congr
  funext q
  exact hb q

theorem setBlock_same (s : State) (p : Nat) (blk : Block) : (s.setBlock p blk).blocks p = blk := by
  simp [State.setBlock]

theorem setBlock_other (s : State) (p q : Nat) (blk : Block) (h : q ≠ p) :
    (s.setBlock p blk).blocks q = s.blocks q := by
  simp [State.setBlock, h]

theorem setBlock_chain (s : State) (p : Nat) (blk : Block) : (s.setBlock p blk).chain = s.chain :=
  rfl

theorem setBlock_setBlock (s : State) (p : Nat) (b1 b2 : Block) :
    (s.setBlock p b1).setBlock p b2 = s.setBlock p b2 := by
  apply State.ext_blocks
  · rfl
  · intro q
    by_cases h : q = p <;> simp [State.setBlock, h]

/-- What `Block.SerializePayload` returns and leaves. -/
theorem SerializePayload_eq (lib : Lib) (s : State) (b : Nat) :
    Block.SerializePayload lib s b = (payloadOutcome lib s b, settled lib s b) := by
  unfold Block.SerializePayload payloadOutcome settled previousHashText resolvePrevious
  cases hT : serializeTransactions lib (s.blocks b).Data with
  | mk o data1 =>
    cases o with
    | error => rfl
    | panic => rfl
    | ok strs =>
      simp only [setBlock_same]
      cases hl : (s.blocks b).Previous with
      | none =>
        simp only [marshalPayload, setBlock_same, Option.map_none']
        cases lib.marshalBlockPayload (s.blocks b).CreatedAt [] strs (s.blocks b).Number <;> rfl
      | some l =>
        simp only [setBlock_setBlock, setBlock_chain, Option.map_some']
        cases hr : (l.Unwrap s.chain).1 with
        | none =>
          simp only [marshalPayload, setBlock_same]
          cases lib.marshalBlockPayload (s.blocks b).CreatedAt [] strs (s.blocks b).Number <;> rfl
        | some u =>
          simp only
          have hu : ∀ blk : Block, blk.Hash = (s.blocks b).Hash →
              ((s.setBlock b blk).blocks u).Hash = (s.blocks u).Hash := by
            intro blk hblk
            by_cases h : u = b
            · subst h; simp [State.setBlock, hblk]
            · simp [State.setBlock, h]
          rw [hu
            { CreatedAt := (s.blocks b).CreatedAt
              Previous := some (l.Unwrap s.chain).2
              Data := data1
              Number := (s.blocks b).Number
              Hash := (s.blocks b).Hash } rfl]
          cases (s.blocks u).Hash with
          | none => rfl
          | some hash =>
            simp only [marshalPayload, setBlock_same]
            cases lib.marshalBlockPayload (s.blocks b).CreatedAt (sprintfHex hash.val) strs
              (s.blocks b).Number <;> rfl

theorem Transaction.Verify_ne_ok_false (lib : Lib) (t : Transaction) :
    t.Verify lib ≠ .ok false := by
  unfold Transaction.Verify
  cases t.SerializePayload lib with
  | error => simp
  | panic => simp
  | ok payload =>
    cases t.SenderPublicKey with
    | none => simp
    | some key =>
      simp only
      split <;> simp

theorem verifyTransactions_ok_true (lib : Lib) (ts : List Transaction) :
    verifyTransactions lib ts = .ok true ↔ ∀ t ∈ ts, t.Verify lib = .ok true := by
  induction ts with
  | nil => simp [verifyTransactions]
  | cons t ts ih =>
    unfold verifyTransactions
    cases hv : t.Verify lib with
    | error => simp [hv]
    | panic => simp [hv]
    | ok v =>
      cases v with
      | false => exact absurd hv (Transaction.Verify_ne_ok_false lib t)
      | true => simp [hv, ih]

theorem verifyTransactions_ne_ok_false (lib : Lib) (ts : List Transaction) :
    verifyTransactions lib ts ≠ .ok false := by
  induction ts with
  | nil => simp [verifyTransactions]
  | cons t ts ih =>
    unfold verifyTransactions
    cases hv : t.Verify lib with
    | error => simp
    | panic => simp
    | ok v =>
      cases v with
      | false => exact absurd hv (Transaction.Verify_ne_ok_false lib t)
      | true => simpa using ih

/-- What `Block.VerifyHash` returns and leaves. -/
theorem VerifyHash_eq (lib : Lib) (s : State) (b : Nat) :
    Block.VerifyHash lib s b =
      (match payloadOutcome lib s b with
        | .ok serialized =>
          if TestHash (lib.sha256Sum256 serialized) then .ok (some (lib.sha256Sum256 serialized))
          else .ok none
        | .error => .error
        | .panic => .panic, settled lib s b) := by
  unfold Block.VerifyHash
  rw [SerializePayload_eq]
  cases payloadOutcome lib s b with
  | error => rfl
  | panic => rfl
  | ok serialized =>
    simp only
    split <;> rfl

theorem VerifyHash_ok_some (lib : Lib) (s : State) (b : Nat) (h : BlockHash) :
    (Block.VerifyHash lib s b).1 = .ok (some h) ↔
      ∃ payload, (Block.SerializePayload lib s b).1 = .ok payload ∧
        lib.sha256Sum256 payload = h ∧ TestHash h = true := by
  rw [VerifyHash_eq, SerializePayload_eq]
  simp only
  cases payloadOutcome lib s b with
  | error => simp
  | panic => simp
  | ok serialized =>
    simp only
    by_cases ht : TestHash (lib.sha256Sum256 serialized) = true
    · simp only [ht, if_true, Outcome.ok.injEq, Option.some.injEq, exists_eq_left']
      constructor
      · rintro rfl; exact ⟨rfl, ht⟩
      · rintro ⟨h1, _⟩; exact h1
    · simp only [ht, Bool.false_eq_true, if_false, Outcome.ok.injEq, exists_eq_left']
      constructor
      · intro h'; exact absurd h' (by simp)
      · rintro ⟨rfl, h2⟩; exact absurd h2 ht

/-- `Block.Verify` returns `(true, nil)` exactly when `VerifyData` does and
`VerifyHash` returns a hash. -/
theorem Verify_ok_true (lib : Lib) (s : State) (b : Nat) :
    (Block.Verify lib s b).1 = .ok true ↔
      Block.VerifyData lib s b = .ok true ∧ ∃ h, (Block.VerifyHash lib s b).1 = .ok (some h) := by
  unfold Block.Verify
  cases hd : Block.VerifyData lib s b with
  | error => simp
  | panic => simp
  | ok v =>
    cases v with
    | false => simp
    | true =>
      simp only [true_and]
      cases hv : Block.VerifyHash lib s b with
      | mk o s1 =>
        cases o with
        | error => simp
        | panic => simp
        | ok oh =>
          cases oh with
          | none => simp
          | some h => simp

theorem Verify_chain (lib : Lib) (s : State) (b : Nat) :
    (Block.Verify lib s b).2.chain = s.chain := by
  unfold Block.Verify
  cases Block.VerifyData lib s b with
  | error => rfl
  | panic => rfl
  | ok v =>
    cases v with
    | false => rfl
    | true =>
      simp only
      have h2 : (Block.VerifyHash lib s b).2.chain = s.chain := by
        rw [VerifyHash_eq]; rfl
      cases hv : Block.VerifyHash lib s b with
      | mk o s1 =>
        rw [hv] at h2
        cases o with
        | error => exact h2
        | panic => exact h2
        | ok oh =>
          cases oh with
          | none => exact h2
          | some h => exact h2

/-! ## Lemmas on mining -/

theorem Transaction.Serialize_idem (lib : Lib) (t : Transaction) :
    (t.Serialize lib).2.Serialize lib = t.Serialize lib := by
  unfold Transaction.Serialize
  cases hs : t.Signature with
  | some sig =>
    simp only
    cases hp : t.SerializePayload lib <;> simp [hs, hp]
  | none =>
    simp only
    unfold Transaction.Sign
    cases hk : t.SenderPrivateKey with
    | none => simp [hs, hk, Transaction.Sign]
    | some key =>
      simp only
      cases hp : t.SerializePayload lib with
      | error => simp [hs, hk, hp, Transaction.Sign]
      | panic => simp [hs, hk, hp, Transaction.Sign]
      | ok payload =>
        simp only
        cases hg : lib.signPKCS1v15 key (lib.sha256Sum256 payload) with
        | none => simp [hs, hk, hp, hg, Transaction.Sign]
        | some signature =>
          have hp' : ∀ t' : Transaction, t'.Id = t.Id → t'.SenderPublicKey = t.SenderPublicKey →
              t'.Cost = t.Cost → t'.Data = t.Data → t'.SerializePayload lib = .ok payload := by
            intro t' h1 h2 h3 h4
            rw [← hp]
            unfold Transaction.SerializePayload
            rw [h1, h2, h3, h4]
          simp [hp']

theorem serializeTransactions_idem (lib : Lib) (ts : List Transaction) :
    serializeTransactions lib (serializeTransactions lib ts).2 = serializeTransactions lib ts := by
  induction ts with
  | nil => rfl
  | cons t ts ih =>
    have ht := Transaction.Serialize_idem lib t
    cases h1 : t.Serialize lib with
    | mk o t1 =>
      rw [h1] at ht
      simp only at ht
      cases o with
      | error =>
        have e : serializeTransactions lib (t :: ts) = (.error, t1 :: ts) := by
          rw [serializeTransactions, h1]
        rw [e]
        simp only
        rw [serializeTransactions, ht]
      | panic =>
        have e : serializeTransactions lib (t :: ts) = (.panic, t1 :: ts) := by
          rw [serializeTransactions, h1]
        rw [e]
        simp only
        rw [serializeTransactions, ht]
      | ok bytes =>
        cases h2 : serializeTransactions lib ts with
        | mk o2 ts1 =>
          rw [h2] at ih
          simp only at ih
          cases o2 with
          | error =>
            have e : serializeTransactions lib (t :: ts) = (.error, t1 :: ts1) := by
              rw [serializeTransactions, h1]; simp only [h2]
            rw [e]
            simp only
            rw [serializeTransactions, ht]; simp only [ih]
          | panic =>
            have e : serializeTransactions lib (t :: ts) = (.panic, t1 :: ts1) := by
              rw [serializeTransactions, h1]; simp only [h2]
            rw [e]
            simp only
            rw [serializeTransactions, ht]; simp only [ih]
          | ok rest =>
            have e : serializeTransactions lib (t :: ts) = (.ok (bytes :: rest), t1 :: ts1) := by
              rw [serializeTransactions, h1]; simp only [h2]
            rw [e]
            simp only
            rw [serializeTransactions, ht]; simp only [ih]

theorem Unwrap_idem (c : Blockchain) (l : LazyBlock) :
    (l.Unwrap c).2.Unwrap c = l.Unwrap c := by
  unfold LazyBlock.Unwrap
  cases hr : l.resolvedBlock with
  | some r => simp [hr]
  | none =>
    cases hh : l.Hash with
    | none => simp [hr, hh]
    | some hash =>
      cases hx : c.GetBlockWithHash hash with
      | none => simp [hx, hh]
      | some x => simp [hx]


theorem resolvePrevious_map_unwrap (c : Blockchain) (blk blk' : Block)
    (h : blk'.Previous = blk.Previous.map fun l => (l.Unwrap c).2) :
    resolvePrevious c blk' = resolvePrevious c blk := by
  unfold resolvePrevious
  rw [h]
  cases blk.Previous with
  | none => rfl
  | some l => simp [Unwrap_idem]

/-- The blocks of `settled`: only block `b` changes, and only in its
transactions and in the cache of its previous reference. -/
theorem settled_blocks (lib : Lib) (s : State) (b q : Nat) :
    ((settled lib s b).blocks q).Hash = (s.blocks q).Hash ∧
    ((settled lib s b).blocks q).CreatedAt = (s.blocks q).CreatedAt ∧
    ((settled lib s b).blocks q).Number = (s.blocks q).Number ∧
    resolvePrevious s.chain ((settled lib s b).blocks q) = resolvePrevious s.chain (s.blocks q) ∧
    (q ≠ b → (settled lib s b).blocks q = s.blocks q) := by
  by_cases h : q = b
  · subst h
    refine ⟨by simp [settled, State.setBlock], by simp [settled, State.setBlock],
      by simp [settled, State.setBlock], ?_, fun h => absurd rfl h⟩
    simp only [settled, setBlock_same]
    cases (serializeTransactions lib (s.blocks q).Data).1 with
    | ok strs => exact resolvePrevious_map_unwrap s.chain _ _ rfl
    | error => rfl
    | panic => rfl
  · refine ⟨?_, ?_, ?_, ?_, fun _ => ?_⟩ <;> simp [settled, State.setBlock, h]

theorem settled_data (lib : Lib) (s : State) (b : Nat) :
    ((settled lib s b).blocks b).Data = (serializeTransactions lib (s.blocks b).Data).2 := by
  simp [settled, State.setBlock]

theorem settled_chain (lib : Lib) (s : State) (b : Nat) : (settled lib s b).chain = s.chain := rfl

theorem previousHashText_congr (s s' : State) (b : Nat) (hc : s'.chain = s.chain)
    (hp : resolvePrevious s.chain (s'.blocks b) = resolvePrevious s.chain (s.blocks b))
    (hh : ∀ u, resolvePrevious s.chain (s.blocks b) = some u →
      (s'.blocks u).Hash = (s.blocks u).Hash) :
    previousHashText s' b = previousHashText s b := by
  unfold previousHashText
  rw [hc, hp]
  cases hr : resolvePrevious s.chain (s.blocks b) with
  | none => rfl
  | some u => simp only; rw [hh u hr]

theorem payloadOutcome_congr (lib : Lib) (s s' : State) (b : Nat)
    (hd : (serializeTransactions lib (s'.blocks b).Data).1 =
      (serializeTransactions lib (s.blocks b).Data).1)
    (hc : (s'.blocks b).CreatedAt = (s.blocks b).CreatedAt)
    (hn : (s'.blocks b).Number = (s.blocks b).Number)
    (hp : previousHashText s' b = previousHashText s b) :
    payloadOutcome lib s' b = payloadOutcome lib s b := by
  unfold payloadOutcome
  rw [hd, hc, hn, hp]

theorem payloadOutcome_settled (lib : Lib) (s : State) (b : Nat) :
    payloadOutcome lib (settled lib s b) b = payloadOutcome lib s b := by
  obtain ⟨_, h2, h3, h4, _⟩ := settled_blocks lib s b b
  apply payloadOutcome_congr
  · rw [settled_data, serializeTransactions_idem]
  · exact h2
  · exact h3
  · exact previousHashText_congr s (settled lib s b) b rfl h4
      (fun u _ => (settled_blocks lib s b u).1)

theorem settled_settled (lib : Lib) (s : State) (b : Nat) :
    settled lib (settled lib s b) b = settled lib s b := by
  apply State.ext_blocks
  · rfl
  · intro q
    by_cases h : q = b
    · subst h
      have hd := serializeTransactions_idem lib (s.blocks q).Data
      simp only [settled, setBlock_same, State.setBlock, if_true, hd]
      congr 1
      cases (serializeTransactions lib (s.blocks q).Data).1 with
      | ok strs =>
        simp only
        cases (s.blocks q).Previous with
        | none => rfl
        | some l => simp [Unwrap_idem]
      | error => rfl
      | panic => rfl
    · simp [settled, State.setBlock, h]

theorem setNumber_setNumber (s : State) (b n m : Nat) :
    (s.setNumber b n).setNumber b m = s.setNumber b m := by
  apply State.ext_blocks
  · rfl
  · intro q
    by_cases h : q = b <;> simp [State.setNumber, State.setBlock, h]

theorem settled_setNumber (lib : Lib) (s : State) (b n : Nat) :
    settled lib (s.setNumber b n) b = (settled lib s b).setNumber b n := by
  apply State.ext_blocks
  · rfl
  · intro q
    by_cases h : q = b <;> simp [settled, State.setNumber, State.setBlock, h]

theorem payloadOutcome_settled_setNumber (lib : Lib) (s : State) (b n : Nat) :
    payloadOutcome lib ((settled lib s b).setNumber b n) b =
      payloadOutcome lib (s.setNumber b n) b := by
  rw [← settled_setNumber, payloadOutcome_settled]

/-- Whether the serialization panics does not depend on the nonce. -/
theorem payloadOutcome_panic_setNumber (lib : Lib) (s : State) (b n m : Nat)
    (h : payloadOutcome lib (s.setNumber b n) b = .panic) :
    payloadOutcome lib (s.setNumber b m) b = .panic := by
  have hp : ∀ k, previousHashText (s.setNumber b k) b = previousHashText s b := by
    intro k
    refine previousHashText_congr s (s.setNumber b k) b rfl ?_ ?_
    · simp [State.setNumber, State.setBlock, resolvePrevious]
    · intro u _
      by_cases hu : u = b <;> simp [State.setNumber, State.setBlock, hu]
  have hd : ∀ k, ((s.setNumber b k).blocks b).Data = (s.blocks b).Data := by
    intro k; simp [State.setNumber, State.setBlock]
  unfold payloadOutcome at h ⊢
  rw [hp, hd] at h ⊢
  cases hT : (serializeTransactions lib (s.blocks b).Data).1 with
  | error => rw [hT] at h; exact absurd h (by simp)
  | panic => rfl
  | ok strs =>
    rw [hT] at h
    simp only at h ⊢
    cases hP : previousHashText s b with
    | error => rw [hP] at h; exact absurd h (by simp)
    | panic => rfl
    | ok prev =>
      rw [hP] at h
      simp only at h
      split at h <;> exact absurd h (by simp)


/-- One iteration of the loop of `Mine`, from the start memory or from a
memory left by an earlier iteration: `VerifyHash` answers as it would on the
start memory with that nonce. -/
theorem mine_step (lib : Lib) (s : State) (b : Nat) (X : State)
    (hX : X = s ∨ ∃ k, X = (settled lib s b).setNumber b k) (n : Nat) :
    Block.VerifyHash lib (X.setNumber b n) b =
      ((Block.VerifyHash lib (s.setNumber b n) b).1, (settled lib s b).setNumber b n) := by
  have h1 : payloadOutcome lib (X.setNumber b n) b = payloadOutcome lib (s.setNumber b n) b := by
    rcases hX with rfl | ⟨k, rfl⟩
    · rfl
    · rw [setNumber_setNumber, payloadOutcome_settled_setNumber]
  have h2 : settled lib (X.setNumber b n) b = (settled lib s b).setNumber b n := by
    rcases hX with rfl | ⟨k, rfl⟩
    · exact settled_setNumber lib _ b n
    · rw [setNumber_setNumber, ← settled_setNumber, settled_settled]
  rw [VerifyHash_eq, VerifyHash_eq, h1, h2]

/-- The loop of `Mine` stops at the first nonce that `VerifyHash` accepts, when
no nonce before it panics. -/
theorem mineLoop_found (lib : Lib) (s : State) (b : Nat) (m0 : Nat) (h : BlockHash)
    (hacc : (Block.VerifyHash lib (s.setNumber b m0) b).1 = .ok (some h)) :
    ∀ (remaining n : Nat) (X : State), (X = s ∨ ∃ k, X = (settled lib s b).setNumber b k) →
      n ≤ m0 → m0 < n + remaining →
      (∀ m, n ≤ m → m < m0 → (Block.VerifyHash lib (s.setNumber b m) b).1 = .ok none ∨
        (Block.VerifyHash lib (s.setNumber b m) b).1 = .error) →
      mineLoop lib b remaining n X =
        (.ok (), ((settled lib s b).setNumber b m0).setHash b (some h)) := by
  intro remaining
  induction remaining with
  | zero => intro n X _ h1 h2; omega
  | succ r ih =>
    intro n X hX h1 h2 hbefore
    unfold mineLoop
    simp only
    rw [mine_step lib s b X hX n]
    by_cases hn : n = m0
    · subst hn
      rw [hacc]
    · have hlt : n < m0 := by omega
      have hnext := ih (n + 1) ((settled lib s b).setNumber b n) (Or.inr ⟨n, rfl⟩)
        (by omega) (by omega) (fun m hm1 hm2 => hbefore m (by omega) hm2)
      rcases hbefore n (Nat.le_refl n) hlt with hv | hv
      · rw [hv]; exact hnext
      · rw [hv]; exact hnext

/-- The memory that `Mine` leaves when some nonce below `MaxUint` is accepted:
the transactions signed, the previous reference resolved, the least accepted
nonce and its digest stored. -/
theorem Mine_found (lib : Lib) (MaxUint : Nat) (s : State) (b : Nat)
    (hfound : ∃ n, n < MaxUint ∧
      ∃ h, (Block.VerifyHash lib (s.setNumber b n) b).1 = .ok (some h)) :
    ∃ m0 h, m0 < MaxUint ∧
      (Block.VerifyHash lib (s.setNumber b m0) b).1 = .ok (some h) ∧
      (∀ m, m < m0 → ∀ h', (Block.VerifyHash lib (s.setNumber b m) b).1 ≠ .ok (some h')) ∧
      Block.Mine lib MaxUint s b =
        (.ok (), ((settled lib s b).setNumber b m0).setHash b (some h)) := by
  classical
  let p : Nat → Prop := fun n => n < MaxUint ∧
      ∃ h, (Block.VerifyHash lib (s.setNumber b n) b).1 = .ok (some h)
  have hex : ∃ n, p n := hfound
  obtain ⟨hlt, h, hacc⟩ := Nat.find_spec hex
  have hmin : ∀ m, m < Nat.find hex → ∀ h',
      (Block.VerifyHash lib (s.setNumber b m) b).1 ≠ .ok (some h') := by
    intro m hm h' hv
    exact Nat.find_min hex hm ⟨by omega, h', hv⟩
  refine ⟨Nat.find hex, h, hlt, hacc, hmin, ?_⟩
  apply mineLoop_found lib s b (Nat.find hex) h hacc MaxUint 0 s (Or.inl rfl) (Nat.zero_le _)
    (by omega)
  intro m _ hm
  have hnp : (Block.VerifyHash lib (s.setNumber b m) b).1 ≠ .panic := by
    intro hp
    rw [VerifyHash_eq] at hp hacc
    simp only at hp hacc
    have hpp : payloadOutcome lib (s.setNumber b m) b = .panic := by
      cases hq : payloadOutcome lib (s.setNumber b m) b with
      | panic => rfl
      | error => rw [hq] at hp; exact absurd hp (by simp)
      | ok pl => rw [hq] at hp; simp only at hp; split at hp <;> exact absurd hp (by simp)
    rw [payloadOutcome_panic_setNumber lib s b m (Nat.find hex) hpp] at hacc
    exact absurd hacc (by simp)
  cases hv : (Block.VerifyHash lib (s.setNumber b m) b).1 with
  | panic => exact absurd hv hnp
  | error => exact Or.inr rfl
  | ok oh =>
    cases oh with
    | none => exact Or.inl rfl
    | some h' => exact absurd hv (hmin m hm h')


/-- After mining, the payload of the block is the payload that was accepted. -/
theorem payloadOutcome_mined (lib : Lib) (s : State) (b m0 : Nat) (x : Option BlockHash)
    (pl : Bytes) (hunmined : (s.blocks b).Hash = none)
    (hok : payloadOutcome lib (s.setNumber b m0) b = .ok pl) :
    payloadOutcome lib (((settled lib s b).setNumber b m0).setHash b x) b = .ok pl := by
  rw [← hok]
  have hsame : ∀ q, q ≠ b → ((((settled lib s b).setNumber b m0).setHash b x).blocks q) =
      s.blocks q := by
    intro q hq
    simp [State.setHash, State.setNumber, State.setBlock, hq, settled]
  have hres : resolvePrevious s.chain ((s.setNumber b m0).blocks b) =
      resolvePrevious s.chain (s.blocks b) := by
    simp [State.setNumber, State.setBlock, resolvePrevious]
  apply payloadOutcome_congr
  · have : ((((settled lib s b).setNumber b m0).setHash b x).blocks b).Data =
        (serializeTransactions lib (s.blocks b).Data).2 := by
      simp [State.setHash, State.setNumber, State.setBlock, settled]
    rw [this, serializeTransactions_idem]
    simp [State.setNumber, State.setBlock]
  · simp [State.setHash, State.setNumber, State.setBlock, settled]
  · simp [State.setHash, State.setNumber, State.setBlock, settled]
  · refine previousHashText_congr (s.setNumber b m0) _ b rfl ?_ ?_
    · show resolvePrevious s.chain _ = resolvePrevious s.chain _
      rw [hres, ← (settled_blocks lib s b b).2.2.2.1]
      simp [State.setHash, State.setNumber, State.setBlock, resolvePrevious]
    · intro u hu
      by_cases hub : u = b
      · exfalso
        subst hub
        have hp : previousHashText (s.setNumber u m0) u = .panic := by
          unfold previousHashText
          have hu' : resolvePrevious (s.setNumber u m0).chain ((s.setNumber u m0).blocks u) =
              some u := hu
          rw [hu']
          simp [State.setNumber, State.setBlock, hunmined]
        unfold payloadOutcome at hok
        rw [hp] at hok
        cases hT : (serializeTransactions lib ((s.setNumber u m0).blocks u).Data).1 with
        | ok strs => rw [hT] at hok; exact absurd hok (by simp)
        | error => rw [hT] at hok; exact absurd hok (by simp)
        | panic => rw [hT] at hok; exact absurd hok (by simp)
      · rw [hsame u hub]
        simp [State.setNumber, State.setBlock, hub]

theorem VerifyHash_ok_some_payload (lib : Lib) (s : State) (b : Nat) (h : BlockHash)
    (hv : (Block.VerifyHash lib s b).1 = .ok (some h)) :
    ∃ pl, payloadOutcome lib s b = .ok pl ∧ lib.sha256Sum256 pl = h ∧ TestHash h = true := by
  obtain ⟨pl, h1, h2, h3⟩ := (VerifyHash_ok_some lib s b h).mp hv
  rw [SerializePayload_eq] at h1
  exact ⟨pl, h1, h2, h3⟩


/-! ## Lemmas on culling -/

/-- The loop of `CullAppendagesShorterThan` after `i` iterations: the front of
the slice holds the survivors among the first `i` appendages, the rest of the
slice is untouched. -/
theorem cullLoop_invariant (minimumLength : Nat) (orig : List BlockchainAppendage) (i : Nat)
    (hi : i ≤ orig.length) :
    ((List.range i).foldl (cullStep minimumLength) (orig, 0)).2 ≤ i ∧
    ((List.range i).foldl (cullStep minimumLength) (orig, 0)).1.length = orig.length ∧
    ((List.range i).foldl (cullStep minimumLength) (orig, 0)).1.take
        ((List.range i).foldl (cullStep minimumLength) (orig, 0)).2 =
      (orig.take i).filter (fun a => decide (a.Length > minimumLength)) ∧
    ((List.range i).foldl (cullStep minimumLength) (orig, 0)).1.drop i = orig.drop i := by
  induction i with
  | zero => simp
  | succ i ih =>
    obtain ⟨h1, h2, h3, h4⟩ := ih (by omega)
    rw [List.range_succ, List.foldl_append]
    simp only [List.foldl_cons, List.foldl_nil]
    generalize (List.range i).foldl (cullStep minimumLength) (orig, 0) = st at h1 h2 h3 h4 ⊢
    obtain ⟨arr, index⟩ := st
    simp only at h1 h2 h3 h4 ⊢
    have hlt : i < orig.length := by omega
    have hget : arr[i]? = some orig[i] := by
      have := congrArg (fun l => l[0]?) h4
      simp only [List.getElem?_drop, Nat.add_zero] at this
      rw [this, List.getElem?_eq_getElem hlt]
    have htake : orig.take (i + 1) = orig.take i ++ [orig[i]] := by
      rw [List.take_succ, List.getElem?_eq_getElem hlt]; rfl
    unfold cullStep
    simp only [hget]
    by_cases hp : orig[i].Length > minimumLength
    · simp only [hp, if_true]
      refine ⟨by omega, by simp [h2], ?_, ?_⟩
      · rw [htake, List.filter_append, ← h3]
        have hidx : index < arr.length := by omega
        rw [List.take_succ, List.set_take]
        have : (arr.take index).set index orig[i] = arr.take index := by
          apply List.set_eq_of_length_le
          simp
        rw [this]
        simp [hidx, hp]
      · rw [List.drop_set_of_lt _ _ (by omega)]
        have e1 := @List.drop_eq_getElem_cons _ i arr (by omega)
        have e2 := @List.drop_eq_getElem_cons _ i orig hlt
        rw [e1, e2] at h4
        exact (List.cons.inj h4).2
    · simp only [hp, if_false]
      refine ⟨by omega, h2, ?_, ?_⟩
      · rw [htake, List.filter_append, ← h3]
        simp [hp]
      · have e1 := @List.drop_eq_getElem_cons _ i arr (by omega)
        have e2 := @List.drop_eq_getElem_cons _ i orig hlt
        rw [e1, e2] at h4
        exact (List.cons.inj h4).2

theorem CullAppendagesShorterThan_eq (c : Blockchain) (minimumLength : Nat) :
    (c.CullAppendagesShorterThan minimumLength).Appendages =
      c.Appendages.filter (fun a => decide (a.Length > minimumLength)) := by
  obtain ⟨_, _, h3, _⟩ := cullLoop_invariant minimumLength c.Appendages c.Appendages.length
    (Nat.le_refl _)
  simp only [Blockchain.CullAppendagesShorterThan]
  rw [h3, List.take_length]

/-! ## Lemmas on the mempool -/

theorem Submit_duplicate (m : MemPool) (txn : Transaction)
    (h : ∃ x ∈ m.Transactions, x.Id = txn.Id) : m.Submit txn = (false, m) := by
  unfold MemPool.Submit
  have : m.Transactions.any (fun t => t.Id == txn.Id) = true := by
    simpa [List.any_eq_true] using h
  simp [this]

theorem Submit_fresh (m : MemPool) (txn : Transaction)
    (h : ∀ x ∈ m.Transactions, x.Id ≠ txn.Id) :
    m.Submit txn = (true, { Transactions := m.Transactions ++ [txn] }) := by
  unfold MemPool.Submit
  have : m.Transactions.any (fun t => t.Id == txn.Id) = false := by
    simpa [List.any_eq_false] using h
  simp [this]

theorem Submit_cases (m : MemPool) (txn : Transaction) :
    ((∃ x ∈ m.Transactions, x.Id = txn.Id) ∧ m.Submit txn = (false, m)) ∨
    ((∀ x ∈ m.Transactions, x.Id ≠ txn.Id) ∧
      m.Submit txn = (true, { Transactions := m.Transactions ++ [txn] })) := by
  by_cases h : ∃ x ∈ m.Transactions, x.Id = txn.Id
  · exact Or.inl ⟨h, Submit_duplicate m txn h⟩
  · have h' : ∀ x ∈ m.Transactions, x.Id ≠ txn.Id := by
      intro x hx hid
      exact h ⟨x, hx, hid⟩
    exact Or.inr ⟨h', Submit_fresh m txn h'⟩

theorem Reachable_nodup (m : MemPool) (h : MemPool.Reachable m) :
    (m.Transactions.map fun t => t.Id).Nodup := by
  induction h with
  | start => simp [NewMemPool]
  | submit m txn _ ih =>
    rcases Submit_cases m txn with ⟨_, he⟩ | ⟨hf, he⟩
    · rw [he]; exact ih
    · rw [he]
      simp only [List.map_append, List.map_cons, List.map_nil]
      rw [List.nodup_append]
      refine ⟨ih, by simp, ?_⟩
      intro a ha hb
      simp only [List.mem_singleton] at hb
      subst hb
      obtain ⟨x, hx, hxa⟩ := List.mem_map.mp ha
      exact hf x hx hxa
  | clear m _ _ => simp [MemPool.Clear]

theorem count_id_nodup (l : List Transaction) (id : UUID)
    (hn : (l.map fun t => t.Id).Nodup) (h : ∃ x ∈ l, x.Id = id) :
    l.countP (fun x => x.Id == id) = 1 := by
  induction l with
  | nil => simp at h
  | cons a l ih =>
    simp only [List.map_cons, List.nodup_cons] at hn
    by_cases ha : a.Id = id
    · have hz : l.countP (fun x => x.Id == id) = 0 := by
        rw [List.countP_eq_zero]
        intro x hx hxe
        have hxe' : x.Id = id := by simpa using hxe
        exact hn.1 (List.mem_map.mpr ⟨x, hx, by rw [hxe', ha]⟩)
      rw [List.countP_cons_of_pos _ _ (by simpa using ha), hz]
    · rw [List.countP_cons_of_neg _ _ (by simpa using ha)]
      apply ih hn.2
      obtain ⟨x, hx, hxe⟩ := h
      rcases List.mem_cons.mp hx with rfl | hx
      · exact absurd hxe ha
      · exact ⟨x, hx, hxe⟩

theorem Submit_twice (m : MemPool) (txn : Transaction) (h : MemPool.Reachable m) :
    ((m.Submit txn).2.Submit txn) = (false, (m.Submit txn).2) ∧
    (m.Submit txn).2.Transactions.countP (fun x => x.Id == txn.Id) = 1 := by
  have hr := Reachable_nodup _ (MemPool.Reachable.submit m txn h)
  have hex : ∃ x ∈ (m.Submit txn).2.Transactions, x.Id = txn.Id := by
    rcases Submit_cases m txn with ⟨hd, he⟩ | ⟨_, he⟩
    · rw [he]; exact hd
    · rw [he]; exact ⟨txn, by simp, rfl⟩
  exact ⟨Submit_duplicate _ _ hex, count_id_nodup _ _ hr hex⟩

/-! ## Lemmas on the peer set -/

theorem Has_iff (ps : PeerSet) (id : PeerId) : ps.Has id = true ↔ id ∈ ps.peers := by
  unfold PeerSet.Has
  rw [← AList.lookup_isSome]
  cases ps.peers.lookup id <;> simp

theorem Has_false_iff (ps : PeerSet) (id : PeerId) : ps.Has id = false ↔ id ∉ ps.peers := by
  rw [← Has_iff]; simp

theorem Untrusted_iff (ps : PeerSet) (id : PeerId) :
    ps.Untrusted id = true ↔ id ∈ ps.untrusted := by
  unfold PeerSet.Untrusted
  simp [List.any_eq_true]

theorem Untrusted_false_iff (ps : PeerSet) (id : PeerId) :
    ps.Untrusted id = false ↔ id ∉ ps.untrusted := by
  rw [← Untrusted_iff]; simp

theorem Insert_refused (ps : PeerSet) (peer : Peer)
    (h : ps.Has peer.Id = true ∨ ps.Untrusted peer.Id = true ∨ peer.Id = ps.Me.Id) :
    ps.Insert peer = (false, ps) := by
  unfold PeerSet.Insert
  by_cases h1 : ps.Has peer.Id = true
  · simp [h1]
  · by_cases h2 : ps.Untrusted peer.Id = true
    · simp [h1, h2]
    · have h3 : peer.Id = ps.Me.Id := by
        rcases h with h | h | h
        · exact absurd h h1
        · exact absurd h h2
        · exact h
      simp [h3]

theorem Insert_accepted (ps : PeerSet) (peer : Peer)
    (h1 : ps.Has peer.Id = false) (h2 : ps.Untrusted peer.Id = false) (h3 : peer.Id ≠ ps.Me.Id) :
    ps.Insert peer = (true, { ps with
      peers := ps.peers.insert peer.Id peer
      rankings := ps.rankings.insert peer.Id NODE_DEFAULT_PEER_RANKING }) := by
  unfold PeerSet.Insert
  simp [h1, h2, h3]

theorem Insert_cases (ps : PeerSet) (peer : Peer) :
    ((ps.Has peer.Id = true ∨ ps.Untrusted peer.Id = true ∨ peer.Id = ps.Me.Id) ∧
      ps.Insert peer = (false, ps)) ∨
    ((ps.Has peer.Id = false ∧ ps.Untrusted peer.Id = false ∧ peer.Id ≠ ps.Me.Id) ∧
      ps.Insert peer = (true, { ps with
        peers := ps.peers.insert peer.Id peer
        rankings := ps.rankings.insert peer.Id NODE_DEFAULT_PEER_RANKING })) := by
  by_cases h1 : ps.Has peer.Id = true
  · exact Or.inl ⟨Or.inl h1, Insert_refused _ _ (Or.inl h1)⟩
  · by_cases h2 : ps.Untrusted peer.Id = true
    · exact Or.inl ⟨Or.inr (Or.inl h2), Insert_refused _ _ (Or.inr (Or.inl h2))⟩
    · by_cases h3 : peer.Id = ps.Me.Id
      · exact Or.inl ⟨Or.inr (Or.inr h3), Insert_refused _ _ (Or.inr (Or.inr h3))⟩
      · have h1' : ps.Has peer.Id = false := by simpa using h1
        have h2' : ps.Untrusted peer.Id = false := by simpa using h2
        exact Or.inr ⟨⟨h1', h2', h3⟩, Insert_accepted _ _ h1' h2' h3⟩

/-- The loop of `Rank` over a list of entries: the entries of ranking zero are erased
and their keys appended to the untrusted list, in the order of the visit. -/
theorem rankLoop (l : List (Sigma fun _ : PeerId => PeerRanking)) (ps : PeerSet) :
    (l.foldl rankStep ps).Me = ps.Me ∧
    (l.foldl rankStep ps).peers = ps.peers ∧
    (l.foldl rankStep ps).untrusted =
      ps.untrusted ++ (l.filter fun e => decide (e.2 = 0)).map (fun e => e.1) ∧
    ∀ id, (l.foldl rankStep ps).rankings.lookup id =
      if (∃ e ∈ l, e.1 = id ∧ e.2 = 0) then none else ps.rankings.lookup id := by
  induction l generalizing ps with
  | nil => simp
  | cons e l ih =>
    rw [List.foldl_cons]
    obtain ⟨i1, i2, i3, i4⟩ := ih (rankStep ps e)
    by_cases he : e.2 = 0
    · have hs : rankStep ps e = { ps with
          untrusted := ps.untrusted ++ [e.1]
          rankings := ps.rankings.erase e.1 } := by
        unfold rankStep; rw [if_pos he]
      rw [hs] at i1 i2 i3 i4 ⊢
      refine ⟨i1, i2, ?_, ?_⟩
      · rw [i3, List.filter_cons_of_pos (by simpa using he)]
        simp
      · intro id
        rw [i4 id]
        by_cases hid : e.1 = id
        · have hex : ∃ e' ∈ e :: l, e'.1 = id ∧ e'.2 = 0 := ⟨e, by simp, hid, he⟩
          rw [if_pos hex]
          subst hid
          simp [AList.lookup_erase]
        · have hne : id ≠ e.1 := fun h => hid h.symm
          have hiff : (∃ e' ∈ l, e'.1 = id ∧ e'.2 = 0) ↔ (∃ e' ∈ e :: l, e'.1 = id ∧ e'.2 = 0) := by
            constructor
            · rintro ⟨e', hm, h⟩
              exact ⟨e', List.mem_cons_of_mem _ hm, h⟩
            · rintro ⟨e', hm, h⟩
              rcases List.mem_cons.mp hm with rfl | hm
              · exact absurd h.1 hid
              · exact ⟨e', hm, h⟩
          simp only [hiff, AList.lookup_erase_ne hne]
    · have hs : rankStep ps e = ps := by
        unfold rankStep; rw [if_neg he]
      rw [hs] at i1 i2 i3 i4 ⊢
      refine ⟨i1, i2, ?_, ?_⟩
      · rw [i3, List.filter_cons_of_neg (by simpa using he)]
      · intro id
        rw [i4 id]
        have hiff : (∃ e' ∈ l, e'.1 = id ∧ e'.2 = 0) ↔ (∃ e' ∈ e :: l, e'.1 = id ∧ e'.2 = 0) := by
          constructor
          · rintro ⟨e', hm, h⟩
            exact ⟨e', List.mem_cons_of_mem _ hm, h⟩
          · rintro ⟨e', hm, h⟩
            rcases List.mem_cons.mp hm with rfl | hm
            · exact absurd h.2 he
            · exact ⟨e', hm, h⟩
        simp only [hiff]

theorem entry_zero_iff (m : PeerMap PeerRanking) (id : PeerId) :
    (∃ e ∈ m.entries, e.1 = id ∧ e.2 = 0) ↔ m.lookup id = some 0 := by
  have hl : m.lookup id = some 0 ↔ (⟨id, 0⟩ : Sigma fun _ : PeerId => PeerRanking) ∈ m.entries :=
    AList.mem_lookup_iff
  rw [hl]
  constructor
  · rintro ⟨⟨k, v⟩, hm, hk, hv⟩
    simp only at hk hv
    subst hk; subst hv
    exact hm
  · intro h
    exact ⟨⟨id, 0⟩, h, rfl, rfl⟩

theorem Rank_Me (ps : PeerSet) : ps.Rank.Me = ps.Me := (rankLoop _ ps).1

theorem Rank_peers (ps : PeerSet) : ps.Rank.peers = ps.peers := (rankLoop _ ps).2.1

theorem Rank_untrusted (ps : PeerSet) :
    ps.Rank.untrusted = ps.untrusted ++
      (ps.rankings.entries.filter fun e => decide (e.2 = 0)).map (fun e => e.1) :=
  (rankLoop _ ps).2.2.1

theorem Rank_lookup (ps : PeerSet) (id : PeerId) :
    ps.Rank.rankings.lookup id =
      if ps.rankings.lookup id = some 0 then none else ps.rankings.lookup id := by
  have h := (rankLoop ps.rankings.entries ps).2.2.2 id
  unfold PeerSet.Rank
  rw [h]
  simp only [entry_zero_iff]

theorem Rank_mem_untrusted (ps : PeerSet) (id : PeerId) :
    id ∈ ps.Rank.untrusted ↔ id ∈ ps.untrusted ∨ ps.rankings.lookup id = some 0 := by
  rw [Rank_untrusted, List.mem_append, ← entry_zero_iff]
  simp only [List.mem_map, List.mem_filter, decide_eq_true_eq]
  constructor
  · rintro (h | ⟨e, ⟨hm, hz⟩, he⟩)
    · exact Or.inl h
    · exact Or.inr ⟨e, hm, he, hz⟩
  · rintro (h | ⟨e, hm, he, hz⟩)
    · exact Or.inl h
    · exact Or.inr ⟨e, ⟨hm, hz⟩, he⟩

theorem Rank_no_zero (ps : PeerSet) (id : PeerId) : ps.Rank.rankings.lookup id ≠ some 0 := by
  rw [Rank_lookup]
  by_cases h : ps.rankings.lookup id = some 0
  · rw [if_pos h]; exact fun h' => Option.noConfusion h'
  · rw [if_neg h]; exact h

theorem Rank_lookup_keep (ps : PeerSet) (id : PeerId) (h : ps.rankings.lookup id ≠ some 0) :
    ps.Rank.rankings.lookup id = ps.rankings.lookup id := by
  rw [Rank_lookup, if_neg h]

theorem Rank_lookup_zero (ps : PeerSet) (id : PeerId) (h : ps.rankings.lookup id = some 0) :
    ps.Rank.rankings.lookup id = none := by
  rw [Rank_lookup, if_pos h]

theorem rankingAt_of_lookup (ps : PeerSet) (id : PeerId) (r : PeerRanking)
    (h : ps.rankings.lookup id = some r) : ps.rankingAt id = r := by
  unfold PeerSet.rankingAt; rw [h]; rfl

theorem Rank_untrusted_sub (ps : PeerSet) (id : PeerId) (h : id ∈ ps.untrusted) :
    id ∈ ps.Rank.untrusted := by
  rw [Rank_mem_untrusted]; exact Or.inl h

/-- A call of a mutator keeps `Me`. -/
theorem applyCall_Me (ps : PeerSet) (c : PeerCall) : (applyCall ps c).Me = ps.Me := by
  cases c with
  | insert peer =>
    rcases Insert_cases ps peer with ⟨_, he⟩ | ⟨_, he⟩ <;> simp only [applyCall, he]
  | increment id change => simp only [applyCall, PeerSet.Increment, Rank_Me]
  | decrement id change =>
    simp only [applyCall, PeerSet.Decrement, Rank_Me]
    split <;> rfl
  | rank => exact Rank_Me ps
  | remove id => rfl

/-- A call of a mutator never takes an id out of the untrusted list. -/
theorem applyCall_untrusted (ps : PeerSet) (c : PeerCall) (id : PeerId)
    (h : id ∈ ps.untrusted) : id ∈ (applyCall ps c).untrusted := by
  cases c with
  | insert peer =>
    rcases Insert_cases ps peer with ⟨_, he⟩ | ⟨_, he⟩ <;> simp only [applyCall, he] <;> exact h
  | increment id' change => exact Rank_untrusted_sub _ id h
  | decrement id' change =>
    apply Rank_untrusted_sub
    split <;> exact h
  | rank => exact Rank_untrusted_sub _ id h
  | remove id' => exact h

theorem applyCalls_untrusted (cs : List PeerCall) (ps : PeerSet) (id : PeerId)
    (h : id ∈ ps.untrusted) : id ∈ (applyCalls ps cs).untrusted := by
  induction cs generalizing ps with
  | nil => exact h
  | cons c cs ih => exact ih _ (applyCall_untrusted ps c id h)

theorem applyCalls_Me (cs : List PeerCall) (ps : PeerSet) : (applyCalls ps cs).Me = ps.Me := by
  induction cs generalizing ps with
  | nil => rfl
  | cons c cs ih =>
    have h := ih (applyCall ps c)
    rw [applyCall_Me] at h
    exact h

theorem applyCalls_append (ps : PeerSet) (cs ds : List PeerCall) :
    applyCalls ps (cs ++ ds) = applyCalls (applyCalls ps cs) ds := by
  unfold applyCalls; rw [List.foldl_append]

theorem uintSub_small (a b : Nat) (hb : b ≤ a) (ha : a < UINT_MOD) : uintSub a b = a - b := by
  unfold uintSub
  have hb' : b % UINT_MOD = b := Nat.mod_eq_of_lt (by omega)
  rw [hb']
  have : a + UINT_MOD - b = (a - b) + UINT_MOD := by omega
  rw [this, Nat.add_mod_right]
  exact Nat.mod_eq_of_lt (by omega)

/-- The ranking of `id` and its place in the untrusted list after `Decrement id 1` on a
peer set that ranks it `r + 1`. -/
theorem Decrement_one (ps : PeerSet) (id : PeerId) (r : Nat) (hr : r + 1 < UINT_MOD)
    (h : ps.rankings.lookup id = some (r + 1)) :
    (ps.Decrement id 1).rankings.lookup id = (if r = 0 then none else some r) ∧
    (id ∈ (ps.Decrement id 1).untrusted ↔ id ∈ ps.untrusted ∨ r = 0) ∧
    (ps.Decrement id 1).peers = ps.peers := by
  have hra := rankingAt_of_lookup ps id _ h
  have hs : uintSub (r + 1) 1 = r := by
    rw [uintSub_small _ _ (by omega) hr]; rfl
  have hd : ps.Decrement id 1 =
      PeerSet.Rank { ps with rankings := ps.rankings.insert id r } := by
    unfold PeerSet.Decrement
    rw [hra, if_pos (show r + 1 > 0 by omega), hs]
  rw [hd]
  refine ⟨?_, ?_, Rank_peers _⟩
  · rw [Rank_lookup]
    simp only [AList.lookup_insert]
    by_cases h0 : r = 0
    · simp [h0]
    · simp [h0]
  · rw [Rank_mem_untrusted]
    simp only [AList.lookup_insert]
    simp

theorem unitDecrements_succ (id : PeerId) (k : Nat) :
    unitDecrements id (k + 1) = unitDecrements id k ++ [PeerCall.decrement id 1] := by
  unfold unitDecrements
  rw [List.replicate_succ']

/-- The ranking of `id` after `k ≤ r` unit decrements on a peer set that ranks it `r`. -/
theorem unitDecrements_run (ps : PeerSet) (id : PeerId) (r : Nat) (hr0 : 0 < r)
    (hr : r < UINT_MOD) (h : ps.rankings.lookup id = some r) (hu : id ∉ ps.untrusted)
    (k : Nat) (hk : k ≤ r) :
    (applyCalls ps (unitDecrements id k)).rankings.lookup id =
      (if k = r then none else some (r - k)) ∧
    (id ∈ (applyCalls ps (unitDecrements id k)).untrusted ↔ k = r) ∧
    (applyCalls ps (unitDecrements id k)).peers = ps.peers := by
  induction k with
  | zero =>
    have h0 : (0 : Nat) ≠ r := by omega
    refine ⟨?_, ?_, rfl⟩
    · rw [if_neg h0]; exact h
    · constructor
      · intro hm; exact absurd hm hu
      · intro h'; exact absurd h' h0
  | succ k ih =>
    obtain ⟨i1, i2, i3⟩ := ih (by omega)
    have hkr : k ≠ r := by omega
    rw [if_neg hkr] at i1
    have hrk : r - k = (r - k - 1) + 1 := by omega
    rw [hrk] at i1
    have hd := Decrement_one _ id (r - k - 1) (by omega) i1
    rw [unitDecrements_succ, applyCalls_append]
    have hstep : ∀ s : PeerSet, applyCalls s [PeerCall.decrement id 1] = s.Decrement id 1 :=
      fun _ => rfl
    rw [hstep]
    obtain ⟨d1, d2, d3⟩ := hd
    refine ⟨?_, ?_, d3.trans i3⟩
    · rw [d1]
      by_cases hz : r - k - 1 = 0
      · rw [if_pos hz, if_pos (by omega)]
      · rw [if_neg hz, if_neg (by omega)]
        congr 1
    · rw [d2, i2]
      constructor
      · rintro (h' | h')
        · exact absurd h' hkr
        · omega
      · intro h'
        exact Or.inr (by omega)

theorem Increment_lookup (ps : PeerSet) (id : PeerId) (change : PeerRanking) :
    (ps.Increment id change).rankings.lookup id =
      (if uintAdd (ps.rankingAt id) change = 0 then none
        else some (uintAdd (ps.rankingAt id) change)) := by
  unfold PeerSet.Increment
  rw [Rank_lookup]
  simp only [AList.lookup_insert]
  by_cases h : uintAdd (ps.rankingAt id) change = 0
  · simp [h]
  · simp [h]

theorem Increment_untrusted (ps : PeerSet) (id : PeerId) (change : PeerRanking)
    (h : id ∈ ps.untrusted) : id ∈ (ps.Increment id change).untrusted :=
  applyCall_untrusted ps (PeerCall.increment id change) id h

theorem rankingAt_of_none (ps : PeerSet) (id : PeerId)
    (h : ps.rankings.lookup id = none) : ps.rankingAt id = 0 := by
  unfold PeerSet.rankingAt; rw [h]; rfl

theorem listLoop_none (rankings : PeerMap PeerRanking) (l : List (Sigma fun _ : PeerId => Peer)) :
    l.foldl (listStep rankings) none = none := by
  induction l with
  | nil => rfl
  | cons e l ih => rw [List.foldl_cons]; exact ih

/-- The filling loop of `PeerSet.List` from a slice whose first `pre.length` places are
written and whose other `m` places hold the zero pair. -/
theorem listLoop (rankings : PeerMap PeerRanking) (l : List (Sigma fun _ : PeerId => Peer))
    (pre : List Pair) (m : Nat) :
    l.foldl (listStep rankings) (some (pre ++ List.replicate m Pair.zero, pre.length)) =
      if (filledPairs rankings l).length ≤ m then
        some (pre ++ filledPairs rankings l ++
          List.replicate (m - (filledPairs rankings l).length) Pair.zero,
          pre.length + (filledPairs rankings l).length)
      else none := by
  induction l generalizing pre m with
  | nil => simp [filledPairs]
  | cons e l ih =>
    rw [List.foldl_cons]
    cases hr : rankings.lookup e.2.Id with
    | none =>
      have hf : filledPairs rankings (e :: l) = filledPairs rankings l := by
        unfold filledPairs
        rw [List.filterMap_cons, hr]
        rfl
      have hs : listStep rankings (some (pre ++ List.replicate m Pair.zero, pre.length)) e =
          some (pre ++ List.replicate m Pair.zero, pre.length) := by
        simp only [listStep, hr]
      rw [hs, hf]
      exact ih pre m
    | some rank =>
      have hf : filledPairs rankings (e :: l) =
          { Key := e.2, Value := rank } :: filledPairs rankings l := by
        unfold filledPairs
        rw [List.filterMap_cons, hr]
        rfl
      rw [hf]
      cases m with
      | zero =>
        have hs : listStep rankings (some (pre ++ List.replicate 0 Pair.zero, pre.length)) e =
            none := by
          simp [listStep, hr]
        rw [hs, listLoop_none]
        simp
      | succ k =>
        have hs : listStep rankings
            (some (pre ++ List.replicate (k + 1) Pair.zero, pre.length)) e =
            some ((pre ++ [(⟨e.2, rank⟩ : Pair)]) ++ List.replicate k Pair.zero,
              (pre ++ [(⟨e.2, rank⟩ : Pair)]).length) := by
          simp [listStep, hr, List.replicate_succ]
        rw [hs, ih]
        simp only [List.length_cons, Nat.add_le_add_iff_right, List.length_append,
          List.length_singleton, List.append_assoc, List.singleton_append, Nat.add_sub_add_right]
        by_cases hle : (filledPairs rankings l).length ≤ k
        · rw [if_pos hle, if_pos hle]
          congr 2
          simp only [List.length_nil]
          omega
        · rw [if_neg hle, if_neg hle]

theorem List_eq (ps : PeerSet) :
    ps.List =
      if (filledPairs ps.rankings ps.peers.entries).length ≤ ps.rankings.entries.length then
        some ((sortPairs (filledPairs ps.rankings ps.peers.entries ++
          List.replicate (ps.rankings.entries.length -
            (filledPairs ps.rankings ps.peers.entries).length) Pair.zero)).map
              fun item => item.Key)
      else none := by
  unfold PeerSet.List
  have h := listLoop ps.rankings ps.peers.entries [] ps.rankings.entries.length
  simp only [List.nil_append, List.length_nil, Nat.zero_add] at h
  rw [h]
  by_cases hle : (filledPairs ps.rankings ps.peers.entries).length ≤ ps.rankings.entries.length
  · rw [if_pos hle, if_pos hle]
  · rw [if_neg hle, if_neg hle]

theorem filledPairs_ids_sublist (rankings : PeerMap PeerRanking)
    (l : List (Sigma fun _ : PeerId => Peer)) :
    List.Sublist ((filledPairs rankings l).map fun p => p.Key.Id) (l.map fun e => e.2.Id) := by
  induction l with
  | nil => exact List.Sublist.slnil
  | cons e l ih =>
    cases hr : rankings.lookup e.2.Id with
    | none =>
      have hf : filledPairs rankings (e :: l) = filledPairs rankings l := by
        unfold filledPairs
        rw [List.filterMap_cons, hr]
        rfl
      rw [hf, List.map_cons]
      exact List.Sublist.cons _ ih
    | some rank =>
      have hf : filledPairs rankings (e :: l) =
          (⟨e.2, rank⟩ : Pair) :: filledPairs rankings l := by
        unfold filledPairs
        rw [List.filterMap_cons, hr]
        rfl
      rw [hf, List.map_cons, List.map_cons]
      exact List.Sublist.cons₂ _ ih

theorem mem_filledPairs (rankings : PeerMap PeerRanking)
    (l : List (Sigma fun _ : PeerId => Peer)) (p : Pair) :
    p ∈ filledPairs rankings l ↔
      ∃ e ∈ l, e.2 = p.Key ∧ rankings.lookup e.2.Id = some p.Value := by
  unfold filledPairs
  rw [List.mem_filterMap]
  constructor
  · rintro ⟨e, he, h⟩
    cases hr : rankings.lookup e.2.Id with
    | none => rw [hr] at h; exact Option.noConfusion h
    | some rank =>
      rw [hr] at h
      have h' : (⟨e.2, rank⟩ : Pair) = p := Option.some.inj h
      subst h'
      exact ⟨e, he, rfl, hr⟩
  · rintro ⟨e, he, hk, hv⟩
    refine ⟨e, he, ?_⟩
    rw [hv]
    cases p
    simp only at hk
    subst hk
    rfl

/-- When every entry of `peers` is filed under the id of its peer, the filling
loop of `PeerSet.List` writes at most `len(rankings)` pairs. -/
theorem filledPairs_length (ps : PeerSet)
    (hk : ∀ k v, ps.peers.lookup k = some v → v.Id = k) :
    (filledPairs ps.rankings ps.peers.entries).length ≤ ps.rankings.entries.length := by
  have hmap : (ps.peers.entries.map fun e => e.2.Id) = ps.peers.keys := by
    unfold AList.keys List.keys
    apply List.map_congr_left
    intro e he
    have hl : ps.peers.lookup e.1 = some e.2 := by
      have : (⟨e.1, e.2⟩ : Sigma fun _ : PeerId => Peer) ∈ ps.peers.entries := he
      exact AList.mem_lookup_iff.mpr this
    exact hk _ _ hl
  have hnd : ((filledPairs ps.rankings ps.peers.entries).map fun p => p.Key.Id).Nodup := by
    have hs := filledPairs_ids_sublist ps.rankings ps.peers.entries
    rw [hmap] at hs
    exact List.Nodup.sublist hs ps.peers.keys_nodup
  have hsub : ((filledPairs ps.rankings ps.peers.entries).map fun p => p.Key.Id) ⊆
      ps.rankings.keys := by
    intro id hid
    obtain ⟨p, hp, hpid⟩ := List.mem_map.mp hid
    obtain ⟨e, _, hek, hev⟩ := (mem_filledPairs _ _ p).mp hp
    rw [← AList.mem_keys, ← AList.lookup_isSome]
    rw [← hpid, ← hek, hev]
    rfl
  have hlen := (List.subperm_of_subset hnd hsub).length_le
  rw [List.length_map] at hlen
  have hkl : ps.rankings.keys.length = ps.rankings.entries.length := by
    unfold AList.keys List.keys
    rw [List.length_map]
  omega

/-- `List` returns, and returns a list that holds `Me`, when every entry of `peers` is
filed under the id of its peer and both maps have an entry for the id of `Me`. -/
theorem List_has_Me (ps : PeerSet) (r : PeerRanking)
    (hk : ∀ k v, ps.peers.lookup k = some v → v.Id = k)
    (hp : ps.peers.lookup ps.Me.Id = some ps.Me)
    (hr : ps.rankings.lookup ps.Me.Id = some r) :
    ∃ l, ps.List = some l ∧ ps.Me ∈ l := by
  rw [List_eq, if_pos (filledPairs_length ps hk)]
  refine ⟨_, rfl, ?_⟩
  rw [List.mem_map]
  refine ⟨⟨ps.Me, r⟩, ?_, rfl⟩
  unfold sortPairs
  rw [(List.perm_insertionSort _ _).mem_iff, List.mem_append]
  left
  rw [mem_filledPairs]
  exact ⟨⟨ps.Me.Id, ps.Me⟩, AList.mem_lookup_iff.mp hp, rfl, hr⟩

/-- A call that spares the id of `Me` keeps: every entry of `peers` filed under the id
of its peer, the entry of `Me` in `peers`, and the ranking 10 of `Me`. -/
theorem applyCall_keeps_Me (ps : PeerSet) (c : PeerCall) (hc : c.spares ps.Me.Id = true)
    (hk : ∀ k v, ps.peers.lookup k = some v → v.Id = k)
    (hp : ps.peers.lookup ps.Me.Id = some ps.Me)
    (hr : ps.rankings.lookup ps.Me.Id = some 10) :
    (∀ k v, (applyCall ps c).peers.lookup k = some v → v.Id = k) ∧
    (applyCall ps c).peers.lookup ps.Me.Id = some ps.Me ∧
    (applyCall ps c).rankings.lookup ps.Me.Id = some 10 := by
  have hnz : ps.rankings.lookup ps.Me.Id ≠ some 0 := by rw [hr]; simp
  cases c with
  | insert peer =>
    rcases Insert_cases ps peer with ⟨_, he⟩ | ⟨⟨_, _, h3⟩, he⟩
    · simp only [applyCall, he]
      exact ⟨hk, hp, hr⟩
    · simp only [applyCall, he]
      have hne : ps.Me.Id ≠ peer.Id := fun h => h3 h.symm
      refine ⟨?_, ?_, ?_⟩
      · intro k v hl
        by_cases hkp : k = peer.Id
        · subst hkp
          rw [AList.lookup_insert] at hl
          rw [← Option.some.inj hl]
        · rw [AList.lookup_insert_ne hkp] at hl
          exact hk k v hl
      · rw [AList.lookup_insert_ne hne]; exact hp
      · rw [AList.lookup_insert_ne hne]; exact hr
  | increment id change =>
    have hne : ps.Me.Id ≠ id := by
      intro h
      simp [PeerCall.spares, h] at hc
    simp only [applyCall, PeerSet.Increment, Rank_peers]
    refine ⟨hk, hp, ?_⟩
    have hl : (ps.rankings.insert id (uintAdd (ps.rankingAt id) change)).lookup ps.Me.Id =
        some 10 := by
      rw [AList.lookup_insert_ne hne]; exact hr
    rw [Rank_lookup_keep _ _ (by simp only [hl]; simp)]
    exact hl
  | decrement id change =>
    have hne : ps.Me.Id ≠ id := by
      intro h
      simp [PeerCall.spares, h] at hc
    simp only [applyCall, PeerSet.Decrement, Rank_peers]
    by_cases hpos : ps.rankingAt id > 0
    · rw [if_pos hpos]
      refine ⟨hk, hp, ?_⟩
      have hl : (ps.rankings.insert id (uintSub (ps.rankingAt id) change)).lookup ps.Me.Id =
          some 10 := by
        rw [AList.lookup_insert_ne hne]; exact hr
      rw [Rank_lookup_keep _ _ (by simp only [hl]; simp)]
      exact hl
    · rw [if_neg hpos]
      refine ⟨hk, hp, ?_⟩
      rw [Rank_lookup_keep _ _ hnz]
      exact hr
  | rank =>
    simp only [applyCall, Rank_peers]
    refine ⟨hk, hp, ?_⟩
    rw [Rank_lookup_keep _ _ hnz]
    exact hr
  | remove id =>
    have hne : ps.Me.Id ≠ id := by
      intro h
      simp [PeerCall.spares, h] at hc
    simp only [applyCall, PeerSet.Remove]
    refine ⟨?_, ?_, ?_⟩
    · intro k v hl
      by_cases hki : k = id
      · subst hki
        rw [AList.lookup_erase] at hl
        exact Option.noConfusion hl
      · rw [AList.lookup_erase_ne hki] at hl
        exact hk k v hl
    · rw [AList.lookup_erase_ne hne]; exact hp
    · rw [AList.lookup_erase_ne hne]; exact hr

theorem applyCalls_keeps_Me (cs : List PeerCall) (ps : PeerSet)
    (hc : ∀ c ∈ cs, PeerCall.spares ps.Me.Id c = true)
    (hk : ∀ k v, ps.peers.lookup k = some v → v.Id = k)
    (hp : ps.peers.lookup ps.Me.Id = some ps.Me)
    (hr : ps.rankings.lookup ps.Me.Id = some 10) :
    (∀ k v, (applyCalls ps cs).peers.lookup k = some v → v.Id = k) ∧
    (applyCalls ps cs).peers.lookup ps.Me.Id = some ps.Me ∧
    (applyCalls ps cs).rankings.lookup ps.Me.Id = some 10 := by
  induction cs generalizing ps with
  | nil => exact ⟨hk, hp, hr⟩
  | cons c cs ih =>
    obtain ⟨k1, p1, r1⟩ := applyCall_keeps_Me ps c (hc c (List.mem_cons_self _ _)) hk hp hr
    have hme := applyCall_Me ps c
    have h := ih (applyCall ps c)
      (by rw [hme]; exact fun c' hc' => hc c' (List.mem_cons_of_mem _ hc'))
      k1 (by rw [hme]; exact p1) (by rw [hme]; exact r1)
    rw [hme] at h
    exact h

theorem NewPeerSet_keyed (newId : UUID) (address : Bytes) :
    (∀ k v, (NewPeerSet newId address).peers.lookup k = some v → v.Id = k) ∧
    (NewPeerSet newId address).peers.lookup newId = some ⟨newId, address⟩ ∧
    (NewPeerSet newId address).rankings.lookup newId = some 10 := by
  have hp : (NewPeerSet newId address).peers.lookup newId = some ⟨newId, address⟩ := by
    apply AList.mem_lookup_iff.mpr
    simp [NewPeerSet, AList.singleton_entries]
  have hr : (NewPeerSet newId address).rankings.lookup newId = some 10 := by
    apply AList.mem_lookup_iff.mpr
    simp [NewPeerSet, AList.singleton_entries, NODE_DEFAULT_PEER_RANKING]
  refine ⟨?_, hp, hr⟩
  intro k v hl
  have hm : (⟨k, v⟩ : Sigma fun _ : PeerId => Peer) ∈ (NewPeerSet newId address).peers.entries :=
    AList.mem_lookup_iff.mp hl
  simp only [NewPeerSet, AList.singleton_entries, List.mem_singleton] at hm
  cases hm
  rfl

/-! ## Lemmas on what a returned placement has done -/

theorem cacheOnly_refl (s : State) : CacheOnly s s :=
  ⟨SameUpToCache.refl s, fun _ h => h⟩

theorem cacheOnly_trans {s s' s'' : State} (h1 : CacheOnly s s') (h2 : CacheOnly s' s'') :
    CacheOnly s s'' :=
  ⟨h1.1.trans h2.1, fun q h => h2.2 q (h1.2 q h)⟩

theorem cacheOnly_unwrap (s : State) (q : Nat) (l : LazyBlock)
    (hl : (s.blocks q).Previous = some l) :
    CacheOnly s (s.setBlock q { s.blocks q with Previous := some (l.Unwrap s.chain).2 }) := by
  refine ⟨SameUpToCache.unwrap s q l hl, fun p hp => ?_⟩
  by_cases hpq : p = q
  · subst hpq
    rw [hl] at hp
    exact Option.noConfusion hp
  · simp [State.setBlock, hpq, hp]

/-- What a walk that has returned tells: the memory differs in the cache only; a
returned depth is the counter after `d` increments, where `d` is the first step at which
the walk meets the hash pointer of `P`; a walk that returned no depth never meets it. -/
theorem ancestorWalk_sound (P : Nat) (fuel : Nat) :
    ∀ (s : State) (cur depth : Nat) (r : Option Nat) (s' : State),
      ancestorWalk P fuel s cur depth = some (r, s') →
      CacheOnly s s' ∧
      (∀ dep, r = some dep → ∃ d q, dep = walkDepth depth d ∧ ancestor s d cur = some q ∧
        sameHashPointer s q P = true ∧
        ∀ k : Nat, k < d → ∀ q', ancestor s k cur = some q' → sameHashPointer s q' P = false) ∧
      (r = none → ∀ (k : Nat) q, ancestor s k cur = some q → sameHashPointer s q P = false) := by
  induction fuel with
  | zero =>
    intro s cur depth r s' h
    simp [ancestorWalk] at h
  | succ f ih =>
    intro s cur depth r s' h
    unfold ancestorWalk at h
    by_cases h0 : sameHashPointer s cur P = true
    · simp only [h0, if_true] at h
      have h' := Option.some.inj h
      have hr : r = some depth := (congrArg Prod.fst h').symm
      have hs : s' = s := (congrArg Prod.snd h').symm
      subst hr; rw [hs]
      refine ⟨cacheOnly_refl _, ?_, fun hn => Option.noConfusion hn⟩
      intro dep hdep
      refine ⟨0, cur, (Option.some.inj hdep).symm, rfl, h0, fun k hk => absurd hk (by omega)⟩
    · have h0' : sameHashPointer s cur P = false := by simpa using h0
      simp only [h0', Bool.false_eq_true, if_false] at h
      cases hl : (s.blocks cur).Previous with
      | none =>
        simp only [hl] at h
        have h' := Option.some.inj h
        have hr : r = none := (congrArg Prod.fst h').symm
        have hs : s' = s := (congrArg Prod.snd h').symm
        subst hr; rw [hs]
        refine ⟨cacheOnly_refl _, fun dep hd => Option.noConfusion hd, fun _ k q hq => ?_⟩
        cases k with
        | zero =>
          simp [ancestor] at hq
          subst hq; exact h0'
        | succ k =>
          rw [ancestor_succ_none s k cur (resolvePrevious_of_none _ _ hl)] at hq
          exact Option.noConfusion hq
      | some l =>
        have hco := cacheOnly_unwrap s cur l hl
        have hsame := hco.1
        have hres := resolvePrevious_of_some s.chain (s.blocks cur) l hl
        simp only [hl] at h
        cases hu : (l.Unwrap s.chain).1 with
        | none =>
          rw [hu] at hres
          simp only [hu] at h
          have h' := Option.some.inj h
          have hr : r = none := (congrArg Prod.fst h').symm
          have hs : s' = _ := (congrArg Prod.snd h').symm
          subst hr; rw [hs]
          refine ⟨hco, fun dep hd => Option.noConfusion hd, fun _ k q hq => ?_⟩
          cases k with
          | zero =>
            simp [ancestor] at hq
            subst hq; exact h0'
          | succ k =>
            rw [ancestor_succ_none s k cur hres] at hq
            exact Option.noConfusion hq
        | some nxt =>
          rw [hu] at hres
          simp only [hu] at h
          have hstep : ∀ k, ancestor s (k + 1) cur = ancestor s k nxt :=
            fun k => ancestor_succ_some s k cur nxt hres
          obtain ⟨c1, c2, c3⟩ := ih _ nxt (uintAdd depth 1) r s' h
          refine ⟨cacheOnly_trans hco c1, ?_, ?_⟩
          · intro dep hdep
            obtain ⟨d, q, e1, e2, e3, e4⟩ := c2 dep hdep
            refine ⟨d + 1, q, e1, ?_, ?_, ?_⟩
            · rw [hstep, ← hsame.ancestor]; exact e2
            · rw [← hsame.sameHashPointer]; exact e3
            · intro k hk q' hq'
              cases k with
              | zero =>
                simp [ancestor] at hq'
                subst hq'; exact h0'
              | succ k =>
                rw [hstep, ← hsame.ancestor] at hq'
                rw [← hsame.sameHashPointer]
                exact e4 k (by omega) q' hq'
          · intro hn k q hq
            cases k with
            | zero =>
              simp [ancestor] at hq
              subst hq; exact h0'
            | succ k =>
              rw [hstep, ← hsame.ancestor] at hq
              rw [← hsame.sameHashPointer]
              exact c3 hn k q hq

theorem walkNeverMeets_back {s s' : State} (h : SameUpToCache s s') (P : Nat)
    (a : BlockchainAppendage) (hm : walkNeverMeets s' P a) : walkNeverMeets s P a := by
  intro H hH k q hq
  rw [← h.sameHashPointer]
  rw [← h.ancestor] at hq
  exact hm H hH k q hq

theorem walkMeets_back {s s' : State} (h : SameUpToCache s s') (P : Nat)
    (a : BlockchainAppendage) (d : Nat) (hm : walkMeets s' P a d) : walkMeets s P a d := by
  obtain ⟨H, q, hH, hq, hsm, hmiss⟩ := hm
  refine ⟨H, q, hH, by rw [← h.ancestor]; exact hq, by rw [← h.sameHashPointer]; exact hsm, ?_⟩
  intro k hk q' hq'
  rw [← h.sameHashPointer]
  rw [← h.ancestor] at hq'
  exact hmiss k hk q' hq'

/-- What a fork search that has returned tells: the memory differs in the cache only; a
returned appendage is one of the list whose walk meets `P`, at the returned depth; when
none is returned, no walk meets `P`. -/
theorem forkSearch_sound (fuel P : Nat) :
    ∀ (apps : List BlockchainAppendage) (s : State)
      (r : Option (BlockchainAppendage × Nat)) (s' : State),
      forkSearch fuel P s apps = some (r, s') →
      CacheOnly s s' ∧
      (∀ a dep, r = some (a, dep) → a ∈ apps ∧ ∃ d, dep = walkDepth 0 d ∧ walkMeets s P a d) ∧
      (r = none → ∀ a ∈ apps, walkNeverMeets s P a) := by
  intro apps
  induction apps with
  | nil =>
    intro s r s' h
    simp only [forkSearch] at h
    have h' := Option.some.inj h
    have hr : r = none := (congrArg Prod.fst h').symm
    have hs : s' = s := (congrArg Prod.snd h').symm
    subst hr; rw [hs]
    exact ⟨cacheOnly_refl _, fun a dep hd => Option.noConfusion hd,
      fun _ a ha => absurd ha (List.not_mem_nil a)⟩
  | cons a rest ih =>
    intro s r s' h
    unfold forkSearch at h
    cases hH : a.Head with
    | none =>
      simp only [hH] at h
      obtain ⟨c1, c2, c3⟩ := ih s r s' h
      refine ⟨c1, ?_, ?_⟩
      · intro x dep hx
        obtain ⟨m, e⟩ := c2 x dep hx
        exact ⟨List.mem_cons_of_mem _ m, e⟩
      · intro hn x hx
        rcases List.mem_cons.mp hx with rfl | hx
        · intro H hH'; rw [hH] at hH'; exact Option.noConfusion hH'
        · exact c3 hn x hx
    | some head =>
      simp only [hH] at h
      have hnever : ∀ l, (s.blocks head).Previous = l →
          resolvePrevious s.chain (s.blocks head) = none → walkNeverMeets s P a := by
        intro l _ hres H hH' k q hq
        rw [hH] at hH'
        have := Option.some.inj hH'
        subst this
        rw [ancestor_succ_none s k head hres] at hq
        exact Option.noConfusion hq
      cases hl : (s.blocks head).Previous with
      | none =>
        simp only [hl] at h
        obtain ⟨c1, c2, c3⟩ := ih s r s' h
        refine ⟨c1, ?_, ?_⟩
        · intro x dep hx
          obtain ⟨m, e⟩ := c2 x dep hx
          exact ⟨List.mem_cons_of_mem _ m, e⟩
        · intro hn x hx
          rcases List.mem_cons.mp hx with rfl | hx
          · exact hnever _ hl (resolvePrevious_of_none _ _ hl)
          · exact c3 hn x hx
      | some l =>
        have hco := cacheOnly_unwrap s head l hl
        have hsame := hco.1
        have hres := resolvePrevious_of_some s.chain (s.blocks head) l hl
        simp only [hl] at h
        cases hu : (l.Unwrap s.chain).1 with
        | none =>
          rw [hu] at hres
          simp only [hu] at h
          obtain ⟨c1, c2, c3⟩ := ih _ r s' h
          refine ⟨cacheOnly_trans hco c1, ?_, ?_⟩
          · intro x dep hx
            obtain ⟨m, d, e1, e2⟩ := c2 x dep hx
            exact ⟨List.mem_cons_of_mem _ m, d, e1, walkMeets_back hsame P x d e2⟩
          · intro hn x hx
            rcases List.mem_cons.mp hx with rfl | hx
            · exact hnever _ hl hres
            · exact walkNeverMeets_back hsame P x (c3 hn x hx)
        | some cur =>
          rw [hu] at hres
          simp only [hu] at h
          have hstep : ∀ k, ancestor s (k + 1) head = ancestor s k cur :=
            fun k => ancestor_succ_some s k head cur hres
          cases hw : ancestorWalk P fuel
              (s.setBlock head { s.blocks head with Previous := some (l.Unwrap s.chain).2 })
              cur 0 with
          | none =>
            simp only [hw] at h
            exact Option.noConfusion h
          | some res =>
            obtain ⟨wr, s2⟩ := res
            obtain ⟨w1, w2, w3⟩ := ancestorWalk_sound P fuel _ cur 0 wr s2 hw
            cases wr with
            | some depth =>
              simp only [hw] at h
              have h' := Option.some.inj h
              have hr : r = some (a, depth) := (congrArg Prod.fst h').symm
              have hs : s' = s2 := (congrArg Prod.snd h').symm
              subst hr; rw [hs]
              refine ⟨cacheOnly_trans hco w1, ?_, fun hn => Option.noConfusion hn⟩
              intro x dep hx
              have hx' := Option.some.inj hx
              have hxa : x = a := (congrArg Prod.fst hx').symm
              have hxd : dep = depth := (congrArg Prod.snd hx').symm
              subst hxa; subst hxd
              obtain ⟨d, q, e1, e2, e3, e4⟩ := w2 dep rfl
              refine ⟨List.mem_cons_self _ _, d, e1, head, q, hH, ?_, ?_, ?_⟩
              · rw [hstep, ← hsame.ancestor]; exact e2
              · rw [← hsame.sameHashPointer]; exact e3
              · intro k hk q' hq'
                rw [hstep, ← hsame.ancestor] at hq'
                rw [← hsame.sameHashPointer]
                exact e4 k hk q' hq'
            | none =>
              simp only [hw] at h
              obtain ⟨c1, c2, c3⟩ := ih _ r s' h
              have hs2 : SameUpToCache s s2 := hsame.trans w1.1
              refine ⟨cacheOnly_trans (cacheOnly_trans hco w1) c1, ?_, ?_⟩
              · intro x dep hx
                obtain ⟨m, d, e1, e2⟩ := c2 x dep hx
                exact ⟨List.mem_cons_of_mem _ m, d, e1, walkMeets_back hs2 P x d e2⟩
              · intro hn x hx
                rcases List.mem_cons.mp hx with rfl | hx
                · intro H hH' k q hq
                  rw [hH] at hH'
                  have := Option.some.inj hH'
                  subst this
                  rw [hstep, ← hsame.ancestor] at hq
                  rw [← hsame.sameHashPointer]
                  exact w3 rfl k q hq
                · exact walkNeverMeets_back hs2 P x (c3 hn x hx)

/-- What the first loop tells: when it finds no appendage, no head has the hash
pointer of `P`; when it returns a list, the list is the old one with one appendage,
whose head has the hash pointer of `P`, extended by `block`. -/
theorem extendAppendage_sound (s : State) (block P : Nat) (now : Time) :
    ∀ (apps : List BlockchainAppendage),
      (extendAppendage s block P now apps = none →
        ∀ A ∈ apps, ∀ head, A.Head = some head → sameHashPointer s head P = false) ∧
      (∀ apps', extendAppendage s block P now apps = some apps' →
        ∃ l1 A l2 head, apps = l1 ++ A :: l2 ∧ A.Head = some head ∧
          sameHashPointer s head P = true ∧
          apps' = l1 ++ { A with
            Head := some block
            Length := uintAdd A.Length 1
            UpdatedAt := now } :: l2) := by
  intro apps
  induction apps with
  | nil =>
    refine ⟨fun _ A hA => absurd hA (List.not_mem_nil A), fun apps' h => ?_⟩
    simp [extendAppendage] at h
  | cons a rest ih =>
    obtain ⟨ih1, ih2⟩ := ih
    cases hH : a.Head with
    | none =>
      have he : extendAppendage s block P now (a :: rest) =
          (extendAppendage s block P now rest).map (a :: ·) := by
        simp [extendAppendage, hH]
      rw [he]
      constructor
      · intro hn A hA head hhead
        have hn' : extendAppendage s block P now rest = none := by
          cases hx : extendAppendage s block P now rest with
          | none => rfl
          | some x => rw [hx] at hn; exact Option.noConfusion hn
        rcases List.mem_cons.mp hA with rfl | hA
        · rw [hH] at hhead; exact Option.noConfusion hhead
        · exact ih1 hn' A hA head hhead
      · intro apps' h
        cases hx : extendAppendage s block P now rest with
        | none => rw [hx] at h; exact Option.noConfusion h
        | some x =>
          rw [hx] at h
          obtain ⟨l1, A, l2, head, e1, e2, e3, e4⟩ := ih2 x hx
          refine ⟨a :: l1, A, l2, head, by rw [e1]; rfl, e2, e3, ?_⟩
          have : a :: x = apps' := Option.some.inj h
          rw [← this, e4]; rfl
    | some h0 =>
      by_cases hs : sameHashPointer s h0 P = true
      · have he : extendAppendage s block P now (a :: rest) =
            some ({ a with
              Head := some block
              Length := uintAdd a.Length 1
              UpdatedAt := now } :: rest) := by
          simp [extendAppendage, hH, hs]
        rw [he]
        constructor
        · intro hn; exact Option.noConfusion hn
        · intro apps' h
          refine ⟨[], a, rest, h0, rfl, hH, hs, ?_⟩
          exact (Option.some.inj h).symm
      · have hs' : sameHashPointer s h0 P = false := by simpa using hs
        have he : extendAppendage s block P now (a :: rest) =
            (extendAppendage s block P now rest).map (a :: ·) := by
          simp [extendAppendage, hH, hs']
        rw [he]
        constructor
        · intro hn A hA head hhead
          have hn' : extendAppendage s block P now rest = none := by
            cases hx : extendAppendage s block P now rest with
            | none => rfl
            | some x => rw [hx] at hn; exact Option.noConfusion hn
          rcases List.mem_cons.mp hA with rfl | hA
          · rw [hH] at hhead
            rw [← Option.some.inj hhead]; exact hs'
          · exact ih1 hn' A hA head hhead
        · intro apps' h
          cases hx : extendAppendage s block P now rest with
          | none => rw [hx] at h; exact Option.noConfusion h
          | some x =>
            rw [hx] at h
            obtain ⟨l1, A, l2, head, e1, e2, e3, e4⟩ := ih2 x hx
            refine ⟨a :: l1, A, l2, head, by rw [e1]; rfl, e2, e3, ?_⟩
            have : a :: x = apps' := Option.some.inj h
            rw [← this, e4]; rfl

theorem place_resolved_cache (fuel : Nat) (now : Time) (s : State) (block : Nat)
    (hash : BlockHash) (P : Nat) (hmined : (s.blocks block).Hash = some hash)
    (hfresh : s.chain.index hash = none)
    (hprev : resolvePrevious (Blockchain.InsertBlock s block).2.chain (s.blocks block) = some P) :
    ∃ s1, CacheOnly (Blockchain.InsertBlock s block).2 s1 ∧
      Blockchain.InsertBlockAndPlaceIntoAppendage fuel now s block =
        match extendAppendage s1 block P now s1.chain.Appendages with
        | some appendages =>
          some (true, { s1 with chain := { s1.chain with Appendages := appendages } })
        | none =>
          match forkSearch fuel P s1 s1.chain.Appendages with
          | none => none
          | some (some (a, depth), s2) =>
            some (true, s2.appendAppendage ⟨a.Genesis, some block, uintSub a.Length depth, now⟩)
          | some (none, s2) =>
            some (true, s2.appendAppendage ⟨some block, some block, 1, now⟩) := by
  rw [InsertBlock_fresh s block hash hmined hfresh] at hprev ⊢
  cases hl : (s.blocks block).Previous with
  | none => rw [resolvePrevious_of_none _ _ hl] at hprev; exact absurd hprev (by simp)
  | some l =>
    rw [resolvePrevious_of_some _ _ l hl] at hprev
    have hsame := cacheOnly_unwrap
      { s with chain := { s.chain with
        index := fun k => if k = hash then some block else s.chain.index k } } block l hl
    refine ⟨_, hsame, ?_⟩
    unfold Blockchain.InsertBlockAndPlaceIntoAppendage
    rw [InsertBlock_fresh s block hash hmined hfresh]
    simp only [hl, hprev]

theorem place_unresolved_cache (fuel : Nat) (now : Time) (s : State) (block : Nat)
    (hash : BlockHash) (hmined : (s.blocks block).Hash = some hash)
    (hfresh : s.chain.index hash = none)
    (hprev : resolvePrevious (Blockchain.InsertBlock s block).2.chain (s.blocks block) = none) :
    ∃ s1, CacheOnly (Blockchain.InsertBlock s block).2 s1 ∧
      Blockchain.InsertBlockAndPlaceIntoAppendage fuel now s block =
        some (true, s1.appendAppendage ⟨some block, some block, 1, now⟩) := by
  rw [InsertBlock_fresh s block hash hmined hfresh] at hprev ⊢
  cases hl : (s.blocks block).Previous with
  | none =>
    refine ⟨_, cacheOnly_refl _, ?_⟩
    unfold Blockchain.InsertBlockAndPlaceIntoAppendage
    rw [InsertBlock_fresh s block hash hmined hfresh]
    simp only [hl]
  | some l =>
    rw [resolvePrevious_of_some _ _ l hl] at hprev
    have hsame := cacheOnly_unwrap
      { s with chain := { s.chain with
        index := fun k => if k = hash then some block else s.chain.index k } } block l hl
    refine ⟨_, hsame, ?_⟩
    unfold Blockchain.InsertBlockAndPlaceIntoAppendage
    rw [InsertBlock_fresh s block hash hmined hfresh]
    simp only [hl, hprev]

/-- What a placement that has returned has done. Refused: nothing. Accepted: the block
is in the index, the memory differs otherwise in the cache only, and the appendage list
is the old one with the new single-block appendage appended (previous reference absent
or unresolved, or no walk meets the predecessor), or with the first appendage whose head
is the predecessor extended, or with a fork of an appendage whose walk meets the
predecessor appended. -/
theorem place_sound (fuel : Nat) (now : Time) (s : State) (block : Nat) (r : Bool) (s' : State)
    (h : Blockchain.InsertBlockAndPlaceIntoAppendage fuel now s block = some (r, s')) :
    (r = false ∧ s' = s ∧ ((s.blocks block).Hash = none ∨
      ∃ hash, (s.blocks block).Hash = some hash ∧ s.chain.index hash ≠ none)) ∨
    (r = true ∧ ∃ hash sc, (s.blocks block).Hash = some hash ∧ s.chain.index hash = none ∧
      CacheOnly (Blockchain.InsertBlock s block).2 sc ∧ s'.blocks = sc.blocks ∧
      s'.chain.index = (fun k => if k = hash then some block else s.chain.index k) ∧
      ((resolvePrevious (Blockchain.InsertBlock s block).2.chain (s.blocks block) = none ∧
          s'.chain.Appendages =
            s.chain.Appendages ++ [⟨some block, some block, 1, now⟩]) ∨
        ∃ P, resolvePrevious (Blockchain.InsertBlock s block).2.chain (s.blocks block) = some P ∧
          ((∃ l1 A l2 head, s.chain.Appendages = l1 ++ A :: l2 ∧ A.Head = some head ∧
              sameHashPointer s head P = true ∧
              s'.chain.Appendages = l1 ++ { A with
                Head := some block
                Length := uintAdd A.Length 1
                UpdatedAt := now } :: l2) ∨
            ((∀ A ∈ s.chain.Appendages, ∀ head, A.Head = some head →
                sameHashPointer s head P = false) ∧
              ∃ A d, A ∈ s.chain.Appendages ∧
                walkMeets (Blockchain.InsertBlock s block).2 P A d ∧
                s'.chain.Appendages = s.chain.Appendages ++
                  [⟨A.Genesis, some block, uintSub A.Length (walkDepth 0 d), now⟩]) ∨
            ((∀ A ∈ s.chain.Appendages, ∀ head, A.Head = some head →
                sameHashPointer s head P = false) ∧
              (∀ A ∈ s.chain.Appendages,
                walkNeverMeets (Blockchain.InsertBlock s block).2 P A) ∧
              s'.chain.Appendages =
                s.chain.Appendages ++ [⟨some block, some block, 1, now⟩])))) := by
  cases hh : (s.blocks block).Hash with
  | none =>
    left
    unfold Blockchain.InsertBlockAndPlaceIntoAppendage at h
    rw [InsertBlock_unmined s block hh] at h
    simp only at h
    have h' := Option.some.inj h
    exact ⟨(congrArg Prod.fst h').symm, (congrArg Prod.snd h').symm, Or.inl rfl⟩
  | some hash =>
    cases hi : s.chain.index hash with
    | some x =>
      left
      unfold Blockchain.InsertBlockAndPlaceIntoAppendage at h
      rw [InsertBlock_indexed s block hash hh (by rw [hi]; simp)] at h
      simp only at h
      have h' := Option.some.inj h
      exact ⟨(congrArg Prod.fst h').symm, (congrArg Prod.snd h').symm,
        Or.inr ⟨hash, rfl, by rw [hi]; simp⟩⟩
    | none =>
      right
      have hidx : (Blockchain.InsertBlock s block).2.chain.index =
          (fun k => if k = hash then some block else s.chain.index k) := by
        rw [InsertBlock_fresh s block hash hh hi]
      have happs := InsertBlock_appendages s block
      have hsp : ∀ (st : State), SameUpToCache (Blockchain.InsertBlock s block).2 st →
          ∀ x y, sameHashPointer st x y = sameHashPointer s x y := by
        intro st hst x y
        rw [hst.sameHashPointer]
        exact sameHashPointer_congr s _ (fun q => InsertBlock_hash s block q) x y
      cases hres : resolvePrevious (Blockchain.InsertBlock s block).2.chain (s.blocks block) with
      | none =>
        obtain ⟨s1, hco, heq⟩ := place_unresolved_cache fuel now s block hash hh hi hres
        rw [heq] at h
        have h' := Option.some.inj h
        have hr : r = true := (congrArg Prod.fst h').symm
        have hs : s' = _ := (congrArg Prod.snd h').symm
        refine ⟨hr, hash, s1, rfl, hi, hco, ?_, ?_, Or.inl ⟨rfl, ?_⟩⟩
        · rw [hs]; rfl
        · rw [hs]; simp only [State.appendAppendage, hco.1.1, hidx]
        · rw [hs]; simp only [State.appendAppendage, hco.1.1, happs]
      | some P =>
        obtain ⟨s1, hco, heq⟩ := place_resolved_cache fuel now s block hash P hh hi hres
        rw [heq] at h
        have happs1 : s1.chain.Appendages = s.chain.Appendages := by rw [hco.1.1, happs]
        obtain ⟨x1, x2⟩ := extendAppendage_sound s1 block P now s1.chain.Appendages
        cases he : extendAppendage s1 block P now s1.chain.Appendages with
        | some apps' =>
          simp only [he] at h
          have h' := Option.some.inj h
          have hr : r = true := (congrArg Prod.fst h').symm
          have hs : s' = _ := (congrArg Prod.snd h').symm
          obtain ⟨l1, A, l2, head, e1, e2, e3, e4⟩ := x2 apps' he
          refine ⟨hr, hash, s1, rfl, hi, hco, ?_, ?_, Or.inr ⟨P, rfl, Or.inl ?_⟩⟩
          · rw [hs]
          · rw [hs]; simp only [hco.1.1, hidx]
          · refine ⟨l1, A, l2, head, by rw [← happs1]; exact e1, e2, ?_, ?_⟩
            · rw [← hsp s1 hco.1]; exact e3
            · rw [hs]; exact e4
        | none =>
          have hheads : ∀ A ∈ s.chain.Appendages, ∀ head, A.Head = some head →
              sameHashPointer s head P = false := by
            intro A hA head hhead
            rw [← hsp s1 hco.1]
            exact x1 he A (by rw [happs1]; exact hA) head hhead
          simp only [he] at h
          cases hf : forkSearch fuel P s1 s1.chain.Appendages with
          | none =>
            simp only [hf] at h
            exact Option.noConfusion h
          | some res =>
            obtain ⟨fr, s2⟩ := res
            obtain ⟨f1, f2, f3⟩ := forkSearch_sound fuel P _ _ fr s2 hf
            have hchain : s2.chain = (Blockchain.InsertBlock s block).2.chain := by
              rw [f1.1.1, hco.1.1]
            cases fr with
            | some ad =>
              obtain ⟨A, depth⟩ := ad
              simp only [hf] at h
              have h' := Option.some.inj h
              have hr : r = true := (congrArg Prod.fst h').symm
              have hs : s' = _ := (congrArg Prod.snd h').symm
              obtain ⟨hA, d, hd, hm⟩ := f2 A depth rfl
              refine ⟨hr, hash, s2, rfl, hi, cacheOnly_trans hco f1, ?_, ?_,
                Or.inr ⟨P, rfl, Or.inr (Or.inl ⟨hheads, A, d, ?_, ?_, ?_⟩)⟩⟩
              · rw [hs]; rfl
              · rw [hs]; simp only [State.appendAppendage, hchain, hidx]
              · rw [← happs1]; exact hA
              · exact walkMeets_back hco.1 P A d hm
              · rw [hs]; simp only [State.appendAppendage, hchain, happs, hd]
            | none =>
              simp only [hf] at h
              have h' := Option.some.inj h
              have hr : r = true := (congrArg Prod.fst h').symm
              have hs : s' = _ := (congrArg Prod.snd h').symm
              refine ⟨hr, hash, s2, rfl, hi, cacheOnly_trans hco f1, ?_, ?_,
                Or.inr ⟨P, rfl, Or.inr (Or.inr ⟨hheads, ?_, ?_⟩)⟩⟩
              · rw [hs]; rfl
              · rw [hs]; simp only [State.appendAppendage, hchain, hidx]
              · intro A hA
                exact walkNeverMeets_back hco.1 P A (f3 rfl A (by rw [happs1]; exact hA))
              · rw [hs]; simp only [State.appendAppendage, hchain, happs]

theorem MinedAndIndexed_mono (s s' : State) (p : Option Nat)
    (hH : ∀ q, (s'.blocks q).Hash = (s.blocks q).Hash)
    (hI : ∀ h q, s.chain.index h = some q → s'.chain.index h = some q)
    (h : MinedAndIndexed s p) : MinedAndIndexed s' p := by
  obtain ⟨q, hash, e1, e2, e3⟩ := h
  exact ⟨q, hash, e1, by rw [hH]; exact e2, hI hash q e3⟩

theorem InsertBlock_index_mono (s : State) (block : Nat) (h : BlockHash) (q : Nat)
    (hq : s.chain.index h = some q) : (Blockchain.InsertBlock s block).2.chain.index h = some q := by
  cases hh : (s.blocks block).Hash with
  | none => rw [InsertBlock_unmined s block hh]; exact hq
  | some hash =>
    cases hi : s.chain.index hash with
    | some x => rw [InsertBlock_indexed s block hash hh (by rw [hi]; simp)]; exact hq
    | none =>
      rw [InsertBlock_fresh s block hash hh hi]
      have hne : h ≠ hash := by
        intro e; rw [e, hi] at hq; exact Option.noConfusion hq
      simp only [hne, if_false]
      exact hq

/-- A returned placement keeps every appendage's head and genesis mined and indexed. -/
theorem place_keeps_indexed (fuel : Nat) (now : Time) (s : State) (block : Nat) (r : Bool)
    (s' : State)
    (h : Blockchain.InsertBlockAndPlaceIntoAppendage fuel now s block = some (r, s'))
    (inv : ∀ a ∈ s.chain.Appendages, MinedAndIndexed s a.Head ∧ MinedAndIndexed s a.Genesis) :
    ∀ a ∈ s'.chain.Appendages, MinedAndIndexed s' a.Head ∧ MinedAndIndexed s' a.Genesis := by
  rcases place_sound fuel now s block r s' h with ⟨_, hs, _⟩ | ⟨_, hash, sc, hh, hi, hco, hb, hidx, hcase⟩
  · rw [hs]; exact inv
  · have hH : ∀ q, (s'.blocks q).Hash = (s.blocks q).Hash := by
      intro q
      rw [hb, (hco.1.2 q).1, InsertBlock_hash]
    have hI : ∀ h q, s.chain.index h = some q → s'.chain.index h = some q := by
      intro h q hq
      rw [hidx]
      have hne : h ≠ hash := by
        intro e; rw [e, hi] at hq; exact Option.noConfusion hq
      simp only [hne, if_false]
      exact hq
    have hblock : MinedAndIndexed s' (some block) := by
      refine ⟨block, hash, rfl, by rw [hH]; exact hh, ?_⟩
      show s'.chain.index hash = some block
      rw [hidx]; simp
    have hold : ∀ a ∈ s.chain.Appendages,
        MinedAndIndexed s' a.Head ∧ MinedAndIndexed s' a.Genesis := fun a ha =>
      ⟨MinedAndIndexed_mono s s' _ hH hI (inv a ha).1,
        MinedAndIndexed_mono s s' _ hH hI (inv a ha).2⟩
    have hnew : ∀ a, a ∈ s.chain.Appendages ++
        [(⟨some block, some block, 1, now⟩ : BlockchainAppendage)] →
        MinedAndIndexed s' a.Head ∧ MinedAndIndexed s' a.Genesis := by
      intro a ha
      rcases List.mem_append.mp ha with ha | ha
      · exact hold a ha
      · rw [List.mem_singleton.mp ha]; exact ⟨hblock, hblock⟩
    rcases hcase with ⟨_, happ⟩ | ⟨P, _, ⟨l1, A, l2, head, e1, _, _, happ⟩ |
      ⟨_, A, d, hA, _, happ⟩ | ⟨_, _, happ⟩⟩
    · rw [happ]; exact hnew
    · rw [happ]
      intro a ha
      have hmem : ∀ x, x ∈ l1 ∨ x = A ∨ x ∈ l2 → x ∈ s.chain.Appendages := by
        intro x hx
        rw [e1, List.mem_append, List.mem_cons]
        exact hx
      rcases List.mem_append.mp ha with ha | ha
      · exact hold a (hmem a (Or.inl ha))
      · rcases List.mem_cons.mp ha with ha | ha
        · rw [ha]
          exact ⟨hblock, (hold A (hmem A (Or.inr (Or.inl rfl)))).2⟩
        · exact hold a (hmem a (Or.inr (Or.inr ha)))
    · rw [happ]
      intro a ha
      rcases List.mem_append.mp ha with ha | ha
      · exact hold a ha
      · rw [List.mem_singleton.mp ha]; exact ⟨hblock, (hold A hA).2⟩
    · rw [happ]; exact hnew

/-! ## Lemmas on chains built in order -/

theorem placeAll_reachable (blocks0 : Nat → Block) (fuel : Nat) :
    ∀ (calls : List (Nat × Time)) (s s' : State), ChainReachable blocks0 s →
      placeAll fuel s calls = some s' → ChainReachable blocks0 s' := by
  intro calls
  induction calls with
  | nil =>
    intro s s' hs h
    simp only [placeAll] at h
    rw [← Option.some.inj h]; exact hs
  | cons c rest ih =>
    intro s s' hs h
    obtain ⟨block, now⟩ := c
    unfold placeAll at h
    cases hp : Blockchain.InsertBlockAndPlaceIntoAppendage fuel now s block with
    | none => simp only [hp] at h; exact Option.noConfusion h
    | some res =>
      obtain ⟨r, s1⟩ := res
      simp only [hp] at h
      exact ih s1 s' (ChainReachable.place s block fuel now r s1 hs hp) h

theorem getD_of_isSome {α : Type} (o : Option α) (d : α) (h : o.isSome = true) :
    o = some (o.getD d) := by
  cases o with
  | none => exact Bool.noConfusion h
  | some x => rfl

theorem sameHashPointer_self (s : State) (p : Nat) (hash : BlockHash)
    (h : (s.blocks p).Hash = some hash) : sameHashPointer s p p = true := by
  simp [sameHashPointer, h]

theorem sameHashPointer_eq (s : State) (x y : Nat) (hash : BlockHash)
    (h : (s.blocks y).Hash = some hash) (hs : sameHashPointer s x y = true) : x = y := by
  unfold sameHashPointer at hs
  rw [h] at hs
  cases hx : (s.blocks x).Hash with
  | none => simp [hx] at hs
  | some _ => simpa [hx] using hs

theorem Unwrap_index_congr (c c' : Blockchain) (l : LazyBlock) (h : c.index = c'.index) :
    l.Unwrap c = l.Unwrap c' := by
  unfold LazyBlock.Unwrap Blockchain.GetBlockWithHash
  rw [h]

theorem resolvePrevious_index_congr (c c' : Blockchain) (b : Block) (h : c.index = c'.index) :
    resolvePrevious c b = resolvePrevious c' b := by
  unfold resolvePrevious
  cases b.Previous with
  | none => rfl
  | some l => simp only [Unwrap_index_congr c c' l h]

theorem resolvePrevious_mono (c c' : Blockchain) (b : Block) (p : Nat)
    (hI : ∀ h q, c.index h = some q → c'.index h = some q)
    (h : resolvePrevious c b = some p) : resolvePrevious c' b = some p := by
  unfold resolvePrevious at h ⊢
  cases hl : b.Previous with
  | none => rw [hl] at h; exact Option.noConfusion h
  | some l =>
    rw [hl] at h
    simp only at h ⊢
    unfold LazyBlock.Unwrap at h ⊢
    cases hr : l.resolvedBlock with
    | some r => simp only [hr] at h ⊢; exact h
    | none =>
      simp only [hr] at h ⊢
      cases hh : l.Hash with
      | none => simp only [hh] at h; exact Option.noConfusion h
      | some hash =>
        simp only [hh] at h ⊢
        exact hI hash p h

theorem ancestor_congr (s s' : State)
    (h : ∀ q, resolvePrevious s'.chain (s'.blocks q) = resolvePrevious s.chain (s.blocks q))
    (k q : Nat) : ancestor s' k q = ancestor s k q := by
  induction k generalizing q with
  | zero => rfl
  | succ k ih =>
    unfold ancestor
    rw [h q]
    cases resolvePrevious s.chain (s.blocks q) with
    | none => rfl
    | some p => exact ih p

theorem ancestor_mono (s s' : State)
    (h : ∀ q p, resolvePrevious s.chain (s.blocks q) = some p →
      resolvePrevious s'.chain (s'.blocks q) = some p)
    (k q p : Nat) (ha : ancestor s k q = some p) : ancestor s' k q = some p := by
  induction k generalizing q with
  | zero => exact ha
  | succ k ih =>
    cases hr : resolvePrevious s.chain (s.blocks q) with
    | none => rw [ancestor_succ_none s k q hr] at ha; exact Option.noConfusion ha
    | some x =>
      rw [ancestor_succ_some s k q x hr] at ha
      rw [ancestor_succ_some s' k q x (h q x hr)]
      exact ih x ha

theorem ancestor_add (s : State) (j k q p : Nat) (h : ancestor s j q = some p) :
    ancestor s (j + k) q = ancestor s k p := by
  induction j generalizing q with
  | zero =>
    simp only [ancestor] at h
    rw [Option.some.inj h, Nat.zero_add]
  | succ j ih =>
    cases hr : resolvePrevious s.chain (s.blocks q) with
    | none => rw [ancestor_succ_none s j q hr] at h; exact Option.noConfusion h
    | some x =>
      rw [ancestor_succ_some s j q x hr] at h
      have e : j + 1 + k = (j + k) + 1 := by omega
      rw [e, ancestor_succ_some s (j + k) q x hr]
      exact ih x h

theorem ancestor_none_le (s : State) (j k q : Nat) (h : ancestor s j q = none) (hjk : j ≤ k) :
    ancestor s k q = none := by
  induction j generalizing q k with
  | zero => simp [ancestor] at h
  | succ j ih =>
    obtain ⟨k', rfl⟩ : ∃ k', k = k' + 1 := ⟨k - 1, by omega⟩
    cases hr : resolvePrevious s.chain (s.blocks q) with
    | none => exact ancestor_succ_none s k' q hr
    | some x =>
      rw [ancestor_succ_some s j q x hr] at h
      rw [ancestor_succ_some s k' q x hr]
      exact ih k' x h (by omega)

theorem uintAdd_small (a b : Nat) (h : a + b < UINT_MOD) : uintAdd a b = a + b := by
  unfold uintAdd
  exact Nat.mod_eq_of_lt h

theorem InsertBlock_blocks (s : State) (block : Nat) :
    (Blockchain.InsertBlock s block).2.blocks = s.blocks := by
  unfold Blockchain.InsertBlock
  cases (s.blocks block).Hash with
  | none => rfl
  | some h =>
    simp only
    cases s.chain.index h <;> rfl

/-- The facts about the memory after an accepted placement that the invariants use. -/
theorem place_memory (s s' sc : State) (block : Nat) (hash : BlockHash)
    (hi : s.chain.index hash = none)
    (hh : (s.blocks block).Hash = some hash)
    (hco : CacheOnly (Blockchain.InsertBlock s block).2 sc) (hb : s'.blocks = sc.blocks)
    (hidx : s'.chain.index = (fun k => if k = hash then some block else s.chain.index k)) :
    (∀ q, (s'.blocks q).Hash = (s.blocks q).Hash) ∧
    (∀ h q, s.chain.index h = some q → s'.chain.index h = some q) ∧
    (∀ q, resolvePrevious s'.chain (s'.blocks q) =
      resolvePrevious (Blockchain.InsertBlock s block).2.chain (s.blocks q)) ∧
    (∀ q p, resolvePrevious s.chain (s.blocks q) = some p →
      resolvePrevious (Blockchain.InsertBlock s block).2.chain (s.blocks q) = some p) ∧
    (∀ q, (s.blocks q).Previous = none → (s'.blocks q).Previous = none) ∧
    (∀ p, Indexed s'.chain p → p = block ∨ Indexed s.chain p) := by
  have h0i : (Blockchain.InsertBlock s block).2.chain.index =
      (fun k => if k = hash then some block else s.chain.index k) := by
    rw [InsertBlock_fresh s block hash hh hi]
  have h0b := InsertBlock_blocks s block
  refine ⟨?_, ?_, ?_, ?_, ?_, ?_⟩
  · intro q
    rw [hb, (hco.1.2 q).1, InsertBlock_hash]
  · intro h q hq
    rw [hidx]
    have hne : h ≠ hash := by
      intro e; rw [e, hi] at hq; exact Option.noConfusion hq
    simp only [hne, if_false]
    exact hq
  · intro q
    rw [resolvePrevious_index_congr s'.chain (Blockchain.InsertBlock s block).2.chain _
      (by rw [hidx, h0i]), hb, (hco.1.2 q).2.2.2.2, h0b]
  · intro q p hq
    apply resolvePrevious_mono s.chain _ _ p _ hq
    intro h x hx
    exact InsertBlock_index_mono s block h x hx
  · intro q hq
    rw [hb]
    exact hco.2 q (by rw [h0b]; exact hq)
  · intro p hp
    obtain ⟨h, hp⟩ := hp
    rw [hidx] at hp
    by_cases e : h = hash
    · simp only [e, if_true] at hp
      exact Or.inl (Option.some.inj hp).symm
    · simp only [e, if_false] at hp
      exact Or.inr ⟨h, hp⟩

/-- A placement in order keeps the invariant of chains built in order, and is accepted. -/
theorem place_keeps_inOrder (n fuel : Nat) (now : Time) (s : State) (block : Nat) (r : Bool)
    (s' : State) (hash : BlockHash) (hn : n + 1 < UINT_MOD) (inv : InOrderInvariant n s)
    (hh : (s.blocks block).Hash = some hash) (hi : s.chain.index hash = none)
    (hp : PredecessorPresent s block)
    (h : Blockchain.InsertBlockAndPlaceIntoAppendage fuel now s block = some (r, s')) :
    r = true ∧ InOrderInvariant (n + 1) s' := by
  obtain ⟨I1, I3, I4⟩ := inv
  rcases place_sound fuel now s block r s' h with
    ⟨_, _, hc⟩ | ⟨hr, hash', sc, hh', hi', hco, hb, hidx, hcase⟩
  · exfalso
    rcases hc with hc | ⟨x, hx, hxi⟩
    · rw [hh] at hc; exact Option.noConfusion hc
    · rw [hh] at hx
      rw [← Option.some.inj hx] at hxi
      exact hxi hi
  · have hhash : hash' = hash := by
      rw [hh] at hh'; exact (Option.some.inj hh').symm
    subst hhash
    obtain ⟨hH, hImono, hres0, hres1, hroot, hnew⟩ :=
      place_memory s s' sc block hash' hi hh hco hb hidx
    have hresmono : ∀ q p, resolvePrevious s.chain (s.blocks q) = some p →
        resolvePrevious s'.chain (s'.blocks q) = some p := by
      intro q p hq
      rw [hres0]; exact hres1 q p hq
    have hanc : ∀ k q p, ancestor s k q = some p → ancestor s' k q = some p :=
      ancestor_mono s s' hresmono
    have hs0b := InsertBlock_blocks s block
    have hanc0 : ∀ k q, ancestor s' k q = ancestor (Blockchain.InsertBlock s block).2 k q := by
      apply ancestor_congr
      intro q
      rw [hres0, hs0b]
    have hanc1 : ∀ k q p, ancestor s k q = some p →
        ancestor (Blockchain.InsertBlock s block).2 k q = some p := by
      intro k q p hq
      rw [← hanc0]; exact hanc k q p hq
    have hsame0 : ∀ x y, sameHashPointer (Blockchain.InsertBlock s block).2 x y =
        sameHashPointer s x y :=
      sameHashPointer_congr s _ (fun q => InsertBlock_hash s block q)
    have hindex' : s'.chain.index hash' = some block := by rw [hidx]; simp
    -- the first invariant
    have J1 : ∀ h p, s'.chain.index h = some p → (s'.blocks p).Hash = some h := by
      intro h p hpi
      rw [hH]
      rw [hidx] at hpi
      by_cases e : h = hash'
      · simp only [e, if_true] at hpi
        rw [← Option.some.inj hpi, e]; exact hh
      · simp only [e, if_false] at hpi
        exact I1 h p hpi
    -- the appendages that stay
    have hold3 : ∀ a ∈ s.chain.Appendages, ∃ H G, a.Head = some H ∧ a.Genesis = some G ∧
        1 ≤ a.Length ∧ a.Length ≤ n + 1 ∧ ancestor s' (a.Length - 1) H = some G ∧
        (s'.blocks G).Previous = none := by
      intro a ha
      obtain ⟨H, G, e1, e2, e3, e4, e5, e6⟩ := I3 a ha
      exact ⟨H, G, e1, e2, e3, by omega, hanc _ _ _ e5, hroot G e6⟩
    -- a new appendage of the block alone
    have hsingle : (s.blocks block).Previous = none →
        s'.chain.Appendages = s.chain.Appendages ++ [⟨some block, some block, 1, now⟩] →
        InOrderInvariant (n + 1) s' := by
      intro hprev happ
      refine ⟨J1, ?_, ?_⟩
      · rw [happ]
        intro a ha
        rcases List.mem_append.mp ha with ha | ha
        · exact hold3 a ha
        · rw [List.mem_singleton.mp ha]
          exact ⟨block, block, rfl, rfl, by simp, by simp, rfl, hroot block hprev⟩
      · intro p hpi
        rw [happ]
        rcases hnew p hpi with e | hpold
        · exact ⟨⟨some block, some block, 1, now⟩, by simp, block, 0, rfl, by rw [e]; rfl⟩
        · obtain ⟨a, ha, H, k, e1, e2⟩ := I4 p hpold
          exact ⟨a, List.mem_append_left _ ha, H, k, e1, hanc _ _ _ e2⟩
    refine ⟨hr, ?_⟩
    rcases hp with hprev | ⟨P, hP, hPi⟩
    · -- no previous reference
      have hnone : resolvePrevious (Blockchain.InsertBlock s block).2.chain (s.blocks block) =
          none := resolvePrevious_of_none _ _ hprev
      rcases hcase with ⟨_, happ⟩ | ⟨P', hP', _⟩
      · exact hsingle hprev happ
      · rw [hnone] at hP'; exact Option.noConfusion hP'
    · -- the predecessor `P` is indexed
      have hP0 := hres1 block P hP
      obtain ⟨hashP, hPidx⟩ := hPi
      have hPhash : (s.blocks P).Hash = some hashP := I1 hashP P hPidx
      have hblockP : resolvePrevious s'.chain (s'.blocks block) = some P := by
        rw [hres0]; exact hP0
      rcases hcase with ⟨hnone, _⟩ | ⟨P', hP', hcase⟩
      · rw [hP0] at hnone; exact Option.noConfusion hnone
      · have hPP : P' = P := by
          rw [hP0] at hP'; exact (Option.some.inj hP').symm
        subst hPP
        rcases hcase with ⟨l1, A, l2, head, e1, eH, esame, happ⟩ |
          ⟨hheads, A, d, hA, hmeets, happ⟩ | ⟨hheads, hnever, _⟩
        · -- the block extends the appendage `A`
          have hhead : head = P' := sameHashPointer_eq s head P' hashP hPhash esame
          subst hhead
          have hAmem : A ∈ s.chain.Appendages := by rw [e1]; simp
          obtain ⟨H, G, a1, a2, a3, a4, a5, a6⟩ := I3 A hAmem
          have hHh : H = head := by
            rw [eH] at a1; exact (Option.some.inj a1).symm
          subst hHh
          have hlen : uintAdd A.Length 1 = A.Length + 1 := uintAdd_small _ _ (by omega)
          have hwalk : ancestor s' A.Length block = some G := by
            have e : A.Length = (A.Length - 1) + 1 := by omega
            rw [e, ancestor_succ_some s' _ block H hblockP]
            exact hanc _ _ _ a5
          refine ⟨J1, ?_, ?_⟩
          · rw [happ]
            intro a ha
            rcases List.mem_append.mp ha with ha | ha
            · exact hold3 a (by rw [e1]; exact List.mem_append_left _ ha)
            · rcases List.mem_cons.mp ha with ha | ha
              · rw [ha]
                refine ⟨block, G, rfl, a2, ?_, ?_, ?_, hroot G a6⟩
                · show 1 ≤ uintAdd A.Length 1
                  rw [hlen]; omega
                · show uintAdd A.Length 1 ≤ n + 1
                  rw [hlen]; omega
                · show ancestor s' (uintAdd A.Length 1 - 1) block = some G
                  rw [hlen, Nat.add_sub_cancel]
                  exact hwalk
              · exact hold3 a (by
                  rw [e1]
                  exact List.mem_append_right _ (List.mem_cons_of_mem _ ha))
          · intro p hpi
            rw [happ]
            rcases hnew p hpi with e | hpold
            · exact ⟨_, List.mem_append_right _ (List.mem_cons_self _ _), block, 0, rfl,
                by rw [e]; rfl⟩
            · obtain ⟨a, ha, H', k, b1, b2⟩ := I4 p hpold
              rw [e1] at ha
              rcases List.mem_append.mp ha with ha | ha
              · exact ⟨a, List.mem_append_left _ ha, H', k, b1, hanc _ _ _ b2⟩
              · rcases List.mem_cons.mp ha with ha | ha
                · subst ha
                  have hH' : H' = H := by
                    rw [eH] at b1; exact (Option.some.inj b1).symm
                  subst hH'
                  refine ⟨_, List.mem_append_right _ (List.mem_cons_self _ _), block, k + 1,
                    rfl, ?_⟩
                  rw [ancestor_succ_some s' k block H' hblockP]
                  exact hanc _ _ _ b2
                · exact ⟨a, List.mem_append_right _ (List.mem_cons_of_mem _ ha), H', k, b1,
                    hanc _ _ _ b2⟩
        · -- the block forks the appendage `A`
          obtain ⟨H, q, m1, m2, m3, _⟩ := hmeets
          have hq : q = P' := by
            rw [hsame0] at m3
            exact sameHashPointer_eq s q P' hashP hPhash m3
          subst hq
          obtain ⟨H', G, a1, a2, a3, a4, a5, a6⟩ := I3 A hA
          have hHH : H' = H := by
            rw [m1] at a1; exact (Option.some.inj a1).symm
          subst hHH
          have hG0 : ancestor (Blockchain.InsertBlock s block).2 (A.Length - 1) H' = some G :=
            hanc1 _ _ _ a5
          have hGroot : ancestor (Blockchain.InsertBlock s block).2 1 G = none :=
            ancestor_succ_none _ 0 G (resolvePrevious_of_none _ _ (by rw [hs0b]; exact a6))
          have hend : ancestor (Blockchain.InsertBlock s block).2 A.Length H' = none := by
            have e : A.Length = (A.Length - 1) + 1 := by omega
            rw [e, ancestor_add _ (A.Length - 1) 1 H' G hG0]
            exact hGroot
          have hd : d + 2 ≤ A.Length := by
            by_contra hc
            have := ancestor_none_le _ A.Length (d + 1) H' hend (by omega)
            rw [this] at m2
            exact Option.noConfusion m2
          have hPG : ancestor (Blockchain.InsertBlock s block).2 (A.Length - d - 2) q = some G := by
            have e : A.Length - 1 = (d + 1) + (A.Length - d - 2) := by omega
            rw [e, ancestor_add _ (d + 1) _ H' q m2] at hG0
            exact hG0
          have hdepth : walkDepth 0 d = d := by
            rw [walkDepth_zero]
            exact Nat.mod_eq_of_lt (by omega)
          have hlen : uintSub A.Length (walkDepth 0 d) = A.Length - d := by
            rw [hdepth]
            exact uintSub_small _ _ (by omega) (by omega)
          refine ⟨J1, ?_, ?_⟩
          · rw [happ]
            intro a ha
            rcases List.mem_append.mp ha with ha | ha
            · exact hold3 a ha
            · rw [List.mem_singleton.mp ha]
              refine ⟨block, G, rfl, a2, ?_, ?_, ?_, hroot G a6⟩
              · show 1 ≤ uintSub A.Length (walkDepth 0 d)
                rw [hlen]; omega
              · show uintSub A.Length (walkDepth 0 d) ≤ n + 1
                rw [hlen]; omega
              · show ancestor s' (uintSub A.Length (walkDepth 0 d) - 1) block = some G
                have e : A.Length - d - 1 = (A.Length - d - 2) + 1 := by omega
                rw [hlen, e, ancestor_succ_some s' _ block q hblockP, hanc0]
                exact hPG
          · intro p hpi
            rw [happ]
            rcases hnew p hpi with e | hpold
            · exact ⟨_, List.mem_append_right _ (List.mem_singleton.mpr rfl), block, 0, rfl,
                by rw [e]; rfl⟩
            · obtain ⟨a, ha, H'', k, b1, b2⟩ := I4 p hpold
              exact ⟨a, List.mem_append_left _ ha, H'', k, b1, hanc _ _ _ b2⟩
        · -- no head and no walk meets `P`: excluded, `P` is reached from a head
          exfalso
          obtain ⟨a, ha, H, k, b1, b2⟩ := I4 P' ⟨hashP, hPidx⟩
          have hself : sameHashPointer s P' P' = true := sameHashPointer_self s P' hashP hPhash
          cases k with
          | zero =>
            simp only [ancestor] at b2
            have hHP : H = P' := Option.some.inj b2
            subst hHP
            have := hheads a ha H b1
            rw [hself] at this
            exact Bool.noConfusion this
          | succ k =>
            have := hnever a ha H b1 k P' (hanc1 _ _ _ b2)
            rw [hsame0, hself] at this
            exact Bool.noConfusion this

theorem predecessorPresent_sound (s : State) (block : Nat)
    (h : predecessorPresent s block = true) : PredecessorPresent s block := by
  unfold predecessorPresent at h
  cases hl : (s.blocks block).Previous with
  | none => exact Or.inl hl
  | some l =>
    right
    simp only [hl] at h
    cases hr : resolvePrevious s.chain (s.blocks block) with
    | none => simp only [hr] at h; exact Bool.noConfusion h
    | some P =>
      simp only [hr] at h
      cases hh : (s.blocks P).Hash with
      | none => simp only [hh] at h; exact Bool.noConfusion h
      | some hash =>
        simp only [hh] at h
        exact ⟨P, rfl, hash, by simpa using h⟩

theorem inOrderRun_reachable (blocks0 : Nat → Block) (fuel : Nat) :
    ∀ (calls : List (Nat × Time)) (n : Nat) (s : State), InOrderReachable blocks0 n s →
      inOrderRun fuel s calls = true →
      ∃ s', placeAll fuel s calls = some s' ∧ InOrderReachable blocks0 (n + calls.length) s' := by
  intro calls
  induction calls with
  | nil => intro n s hs _; exact ⟨s, rfl, hs⟩
  | cons c rest ih =>
    intro n s hs h
    obtain ⟨block, now⟩ := c
    unfold inOrderRun at h
    simp only [Bool.and_eq_true] at h
    obtain ⟨⟨h1, h2⟩, h3⟩ := h
    cases hh : (s.blocks block).Hash with
    | none => simp only [hh] at h1; exact Bool.noConfusion h1
    | some hash =>
      simp only [hh] at h1
      have hi : s.chain.index hash = none := by
        cases hx : s.chain.index hash with
        | none => rfl
        | some x => rw [hx] at h1; exact Bool.noConfusion h1
      cases hp : Blockchain.InsertBlockAndPlaceIntoAppendage fuel now s block with
      | none => simp only [hp] at h3; exact Bool.noConfusion h3
      | some res =>
        obtain ⟨r, s1⟩ := res
        simp only [hp] at h3
        have hs1 := InOrderReachable.place n s block fuel now r s1 hash hs hh hi
          (predecessorPresent_sound s block h2) hp
        obtain ⟨s', e1, e2⟩ := ih (n + 1) s1 hs1 h3
        refine ⟨s', ?_, ?_⟩
        · unfold placeAll
          simp only [hp]
          exact e1
        · have e : n + (rest.length + 1) = n + 1 + rest.length := by omega
          rw [List.length_cons, e]
          exact e2

theorem InOrderReachable_invariant (blocks0 : Nat → Block) (n : Nat) (s : State)
    (h : InOrderReachable blocks0 n s) (hn : n < UINT_MOD) : InOrderInvariant n s := by
  induction h with
  | start =>
    refine ⟨?_, ?_, ?_⟩
    · intro h p hp; exact Option.noConfusion hp
    · intro a ha; exact absurd ha (List.not_mem_nil a)
    · intro p hp
      obtain ⟨h, hp⟩ := hp
      exact Option.noConfusion hp
  | place n s block fuel now r s1 hash _ hh hi hp hplace ih =>
    exact (place_keeps_inOrder n fuel now s block r s1 hash hn (ih (by omega)) hh hi hp
      hplace).2

/-- A walk that ends either misses `P` or meets it at a first depth. -/
theorem walk_misses_or_meets (s : State) (P : Nat) (a : BlockchainAppendage)
    (hend : ∀ H, a.Head = some H → ∃ n : Nat, ancestor s (n + 1) H = none) :
    walkMisses s P a ∨ ∃ d, walkMeets s P a d := by
  classical
  cases hH : a.Head with
  | none =>
    left
    intro H hH'
    rw [hH] at hH'
    exact Option.noConfusion hH'
  | some H =>
    obtain ⟨n, hn⟩ := hend H hH
    by_cases hex : ∃ k : Nat, ∃ q, ancestor s (k + 1) H = some q ∧ sameHashPointer s q P = true
    · right
      obtain ⟨q, hq, hs⟩ := Nat.find_spec hex
      refine ⟨Nat.find hex, H, q, hH, hq, hs, ?_⟩
      intro k hk q' hq'
      have hmin := Nat.find_min hex hk
      cases hsame : sameHashPointer s q' P with
      | false => rfl
      | true => exact absurd ⟨q', hq', hsame⟩ hmin
    · left
      intro H' hH'
      rw [hH] at hH'
      have e : H' = H := (Option.some.inj hH').symm
      subst e
      refine ⟨n, hn, ?_⟩
      intro k _ q hq
      cases hsame : sameHashPointer s q P with
      | false => rfl
      | true => exact absurd ⟨k, q, hq, hsame⟩ hex

theorem list_first_split {α : Type} (p : α → Prop) (l : List α) :
    (∀ a ∈ l, ¬ p a) ∨ ∃ l1 S l2, l = l1 ++ S :: l2 ∧ p S ∧ ∀ a ∈ l1, ¬ p a := by
  classical
  induction l with
  | nil => exact Or.inl (fun a ha => absurd ha (List.not_mem_nil a))
  | cons x rest ih =>
    by_cases hx : p x
    · exact Or.inr ⟨[], x, rest, rfl, hx, fun a ha => absurd ha (List.not_mem_nil a)⟩
    · rcases ih with hall | ⟨l1, S, l2, e, hS, hl1⟩
      · left
        intro a ha
        rcases List.mem_cons.mp ha with rfl | ha
        · exact hx
        · exact hall a ha
      · right
        refine ⟨x :: l1, S, l2, by rw [e]; rfl, hS, ?_⟩
        intro a ha
        rcases List.mem_cons.mp ha with rfl | ha
        · exact hx
        · exact hl1 a ha

/-- On a chain built in order, the placement of a mined block whose hash is not yet
indexed returns true, given enough fuel. -/
theorem place_returns_inOrder (n : Nat) (now : Time) (s : State) (block : Nat)
    (hash : BlockHash) (inv : InOrderInvariant n s)
    (hh : (s.blocks block).Hash = some hash) (hi : s.chain.index hash = none) :
    ∃ fuel0 : Nat, ∀ fuel : Nat, fuel0 ≤ fuel →
      ∃ s', Blockchain.InsertBlockAndPlaceIntoAppendage fuel now s block = some (true, s') := by
  obtain ⟨_, I3, _⟩ := inv
  have happs := InsertBlock_appendages s block
  have hs0b := InsertBlock_blocks s block
  cases hres : resolvePrevious (Blockchain.InsertBlock s block).2.chain (s.blocks block) with
  | none =>
    refine ⟨0, fun fuel _ => ?_⟩
    obtain ⟨s1, _, heq⟩ := place_unresolved fuel now s block hash hh hi hres
    exact ⟨_, heq⟩
  | some P =>
    have hend : ∀ a ∈ (Blockchain.InsertBlock s block).2.chain.Appendages, ∀ H,
        a.Head = some H →
        ∃ m : Nat, ancestor (Blockchain.InsertBlock s block).2 (m + 1) H = none := by
      intro a ha H hH
      rw [happs] at ha
      obtain ⟨H', G, a1, _, a3, _, a5, a6⟩ := I3 a ha
      have e : H' = H := by rw [hH] at a1; exact (Option.some.inj a1).symm
      subst e
      refine ⟨a.Length - 1, ?_⟩
      have hG0 : ancestor (Blockchain.InsertBlock s block).2 (a.Length - 1) H' = some G := by
        apply ancestor_mono s _ _ _ _ _ a5
        intro q p hq
        rw [hs0b]
        exact resolvePrevious_mono s.chain _ _ p (InsertBlock_index_mono s block) hq
      rw [ancestor_add _ (a.Length - 1) 1 H' G hG0]
      exact ancestor_succ_none _ 0 G (resolvePrevious_of_none _ _ (by rw [hs0b]; exact a6))
    have hfork : ∃ fuel0 : Nat, ∀ s1, SameUpToCache (Blockchain.InsertBlock s block).2 s1 →
        ∀ fuel : Nat, fuel0 ≤ fuel → ∃ res s',
          forkSearch fuel P s1 (Blockchain.InsertBlock s block).2.chain.Appendages =
            some (res, s') := by
      rcases list_first_split
        (fun a => ∃ d, walkMeets (Blockchain.InsertBlock s block).2 P a d)
        (Blockchain.InsertBlock s block).2.chain.Appendages with hall | ⟨l1, S, l2, e, ⟨d, hS⟩, hl1⟩
      · have hmiss : ∀ a ∈ (Blockchain.InsertBlock s block).2.chain.Appendages,
            walkMisses (Blockchain.InsertBlock s block).2 P a := by
          intro a ha
          rcases walk_misses_or_meets _ P a (hend a ha) with hm | hm
          · exact hm
          · exact absurd hm (hall a ha)
        obtain ⟨f0, hf0⟩ := forkSearch_miss P _ _ hmiss
        refine ⟨f0, fun s1 h1 fuel hfuel => ?_⟩
        obtain ⟨s', hs', _⟩ := hf0 s1 h1 fuel hfuel
        exact ⟨none, s', hs'⟩
      · have hmiss : ∀ a ∈ l1, walkMisses (Blockchain.InsertBlock s block).2 P a := by
          intro a ha
          rcases walk_misses_or_meets _ P a
            (hend a (by rw [e]; exact List.mem_append_left _ ha)) with hm | hm
          · exact hm
          · exact absurd hm (hl1 a ha)
        obtain ⟨f0, hf0⟩ := forkSearch_hit P l1 S l2 d _ hmiss hS
        refine ⟨f0, fun s1 h1 fuel hfuel => ?_⟩
        obtain ⟨s', hs', _⟩ := hf0 s1 h1 fuel hfuel
        rw [e]
        exact ⟨some (S, walkDepth 0 d), s', hs'⟩
    obtain ⟨f0, hf0⟩ := hfork
    refine ⟨f0, fun fuel hfuel => ?_⟩
    obtain ⟨s1, h1, heq⟩ := place_resolved fuel now s block hash P hh hi hres
    rw [heq]
    cases he : extendAppendage s1 block P now s1.chain.Appendages with
    | some apps' => exact ⟨_, rfl⟩
    | none =>
      simp only
      obtain ⟨res, s2, hf⟩ := hf0 s1 h1 fuel hfuel
      rw [h1.1, hf]
      cases res with
      | none => exact ⟨_, rfl⟩
      | some ad => exact ⟨_, rfl⟩

/-! ## Lemmas on decoding -/

theorem fromHexChar_hexDigit (d : Nat) (h : d < 16) : fromHexChar (hexDigit d) = some d := by
  have hall : ∀ x : Fin 16, fromHexChar (hexDigit x.val) = some x.val := by decide
  exact hall ⟨d, h⟩

theorem hexDigit_ne_dot (d : Nat) (h : d < 16) : hexDigit d ≠ asciiDot := by
  have hall : ∀ x : Fin 16, hexDigit x.val ≠ asciiDot := by decide
  exact hall ⟨d, h⟩

theorem sprintfHex_cons (b : Byte) (bs : Bytes) :
    sprintfHex (b :: bs) = hexDigit (b.val / 16) :: hexDigit (b.val % 16) :: sprintfHex bs := by
  simp [sprintfHex, hexByte]

/-- Go `hex.DecodeString` reads back what `%x` printed. -/
theorem hexDecodeString_sprintfHex (bs : Bytes) : hexDecodeString (sprintfHex bs) = some bs := by
  induction bs with
  | nil => rfl
  | cons b bs ih =>
    rw [sprintfHex_cons, hexDecodeString,
      fromHexChar_hexDigit _ (by have := b.isLt; omega),
      fromHexChar_hexDigit _ (by omega)]
    simp only [ih]
    congr 2
    apply Fin.ext
    simp only [Fin.ofNat]
    have := b.isLt
    omega

theorem dot_not_mem_sprintfHex (bs : Bytes) : asciiDot ∉ sprintfHex bs := by
  induction bs with
  | nil => simp [sprintfHex]
  | cons b bs ih =>
    rw [sprintfHex_cons]
    intro h
    rcases List.mem_cons.mp h with h | h
    · exact hexDigit_ne_dot _ (by have := b.isLt; omega) h.symm
    · rcases List.mem_cons.mp h with h | h
      · exact hexDigit_ne_dot _ (by omega) h.symm
      · exact ih h

theorem sprintfHex_length (bs : Bytes) : (sprintfHex bs).length = 2 * bs.length := by
  induction bs with
  | nil => rfl
  | cons b bs ih => rw [sprintfHex_cons]; simp only [List.length_cons, ih]; omega

/-- The copy loop of `HexToBlockHash` inside the array: the bytes are written behind
those already written, the rest stays zero. -/
theorem copyRawHash_fill (raw : Bytes) :
    ∀ (pre : Bytes) (copy : BlockHash),
      copy.val = pre ++ List.replicate (32 - pre.length) 0 → pre.length + raw.length ≤ 32 →
      ∃ h, copyRawHash raw pre.length copy = some h ∧
        h.val = pre ++ raw ++ List.replicate (32 - pre.length - raw.length) 0 := by
  induction raw with
  | nil =>
    intro pre copy hc _
    exact ⟨copy, rfl, by simpa using hc⟩
  | cons byt rest ih =>
    intro pre copy hc hle
    simp only [List.length_cons] at hle
    obtain ⟨k, hk⟩ : ∃ k, 32 - pre.length = k + 1 := ⟨32 - pre.length - 1, by omega⟩
    have hc' : (setHashByte copy pre.length byt).val =
        (pre ++ [byt]) ++ List.replicate (32 - (pre ++ [byt]).length) 0 := by
      have e : 32 - (pre ++ [byt]).length = k := by
        rw [List.length_append, List.length_singleton]; omega
      rw [e]
      simp only [setHashByte]
      rw [hc, hk]
      simp [List.replicate_succ]
    obtain ⟨h, e1, e2⟩ := ih (pre ++ [byt]) (setHashByte copy pre.length byt) hc'
      (by rw [List.length_append, List.length_singleton]; omega)
    refine ⟨h, ?_, ?_⟩
    · rw [copyRawHash, if_pos (by omega)]
      rw [List.length_append, List.length_singleton] at e1
      exact e1
    · have e : 32 - (pre ++ [byt]).length - rest.length =
          32 - pre.length - (byt :: rest).length := by
        simp only [List.length_append, List.length_cons, List.length_nil]
        omega
      rw [e2, e]
      simp

/-- The copy loop of `HexToBlockHash` past the end of the array. -/
theorem copyRawHash_panic (raw : Bytes) :
    ∀ (index : Nat) (copy : BlockHash), index ≤ 32 → 32 < index + raw.length →
      copyRawHash raw index copy = none := by
  induction raw with
  | nil => intro index copy hi h; simp only [List.length_nil] at h; omega
  | cons byt rest ih =>
    intro index copy _ h
    simp only [List.length_cons] at h
    rw [copyRawHash]
    by_cases hi : index < 32
    · rw [if_pos hi]
      exact ih (index + 1) _ (by omega) (by omega)
    · rw [if_neg hi]

theorem HexToBlockHash_short (s raw : Bytes) (hd : hexDecodeString s = some raw)
    (hl : raw.length ≤ 32) :
    ∃ h, HexToBlockHash s = .ok h ∧ h.val = raw ++ List.replicate (32 - raw.length) 0 := by
  obtain ⟨h, e1, e2⟩ := copyRawHash_fill raw [] zeroHash (by simp [zeroHash])
    (by simpa using hl)
  refine ⟨h, ?_, by simpa using e2⟩
  simp only [List.length_nil] at e1
  simp only [HexToBlockHash, hd, e1]

theorem HexToBlockHash_long (s raw : Bytes) (hd : hexDecodeString s = some raw)
    (hl : 32 < raw.length) : HexToBlockHash s = .panic := by
  simp only [HexToBlockHash, hd, copyRawHash_panic raw 0 zeroHash (by omega) (by omega)]

theorem HexToBlockHash_invalid (s : Bytes) (hd : hexDecodeString s = none) :
    HexToBlockHash s = .error := by
  simp only [HexToBlockHash, hd]

theorem HexToBlockHash_sprintfHex (h : BlockHash) : HexToBlockHash (sprintfHex h.val) = .ok h := by
  obtain ⟨h', e1, e2⟩ := HexToBlockHash_short _ h.val (hexDecodeString_sprintfHex h.val)
    (by rw [h.2])
  rw [e1]
  congr 1
  apply Subtype.ext
  rw [e2, h.2]
  simp

theorem stringsSplit_ne_nil (s : Bytes) : stringsSplit s ≠ [] := by
  induction s with
  | nil => simp [stringsSplit]
  | cons c rest ih =>
    unfold stringsSplit
    by_cases hc : c = asciiDot
    · simp [hc]
    · simp only [hc, if_false]
      cases hs : stringsSplit rest with
      | nil => simp
      | cons first more => simp

theorem stringsSplit_cons_dot (rest : Bytes) :
    stringsSplit (asciiDot :: rest) = [] :: stringsSplit rest := by
  rw [stringsSplit, if_pos rfl]

theorem stringsSplit_cons_other (c : Byte) (rest : Bytes) (hc : c ≠ asciiDot) :
    ∃ first more, stringsSplit rest = first :: more ∧
      stringsSplit (c :: rest) = (c :: first) :: more := by
  cases hs : stringsSplit rest with
  | nil => exact absurd hs (stringsSplit_ne_nil rest)
  | cons first more =>
    refine ⟨first, more, rfl, ?_⟩
    rw [stringsSplit, if_neg hc, hs]

/-- Go `strings.Split(s, ".")` gives one section more than `s` has dots. -/
theorem stringsSplit_length (s : Bytes) : (stringsSplit s).length = s.count asciiDot + 1 := by
  induction s with
  | nil => rfl
  | cons c rest ih =>
    by_cases hc : c = asciiDot
    · subst hc
      rw [stringsSplit_cons_dot, List.length_cons, ih, List.count_cons_self]
    · obtain ⟨first, more, e1, e2⟩ := stringsSplit_cons_other c rest hc
      rw [e2, List.length_cons, List.count_cons_of_ne (fun h => hc h.symm), ← ih, e1,
        List.length_cons]

theorem stringsSplit_no_dot (s : Bytes) (h : asciiDot ∉ s) : stringsSplit s = [s] := by
  induction s with
  | nil => rfl
  | cons c rest ih =>
    have hc : c ≠ asciiDot := fun e => h (by rw [e]; exact List.mem_cons_self _ _)
    obtain ⟨first, more, e1, e2⟩ := stringsSplit_cons_other c rest hc
    rw [ih (fun hm => h (List.mem_cons_of_mem _ hm))] at e1
    rw [e2]
    have := List.cons.inj e1
    rw [← this.1, ← this.2]

theorem stringsSplit_append (a b : Bytes) (h : asciiDot ∉ a) :
    stringsSplit (a ++ asciiDot :: b) = a :: stringsSplit b := by
  induction a with
  | nil => exact stringsSplit_cons_dot b
  | cons c rest ih =>
    have hc : c ≠ asciiDot := fun e => h (by rw [e]; exact List.mem_cons_self _ _)
    obtain ⟨first, more, e1, e2⟩ := stringsSplit_cons_other c (rest ++ asciiDot :: b) hc
    rw [ih (fun hm => h (List.mem_cons_of_mem _ hm))] at e1
    rw [List.cons_append, e2]
    have := List.cons.inj e1
    rw [← this.1, ← this.2]

/-- The two sections of a text with one dot. -/
theorem stringsSplit_two (a b : Bytes) (ha : asciiDot ∉ a) (hb : asciiDot ∉ b) :
    stringsSplit (a ++ asciiDot :: b) = [a, b] := by
  rw [stringsSplit_append a b ha, stringsSplit_no_dot b hb]

/-- A text with exactly one dot is two dot-free sections around it. -/
theorem one_dot_split (s : Bytes) (h : s.count asciiDot = 1) :
    ∃ a b, s = a ++ asciiDot :: b ∧ asciiDot ∉ a ∧ asciiDot ∉ b := by
  induction s with
  | nil => simp at h
  | cons c rest ih =>
    by_cases hc : c = asciiDot
    · subst hc
      rw [List.count_cons_self] at h
      refine ⟨[], rest, rfl, List.not_mem_nil _, ?_⟩
      intro hm
      have := List.count_pos_iff.mpr hm
      omega
    · rw [List.count_cons_of_ne (fun e => hc e.symm)] at h
      obtain ⟨a, b, e, ha, hb⟩ := ih h
      refine ⟨c :: a, b, by rw [e]; rfl, ?_, hb⟩
      intro hm
      rcases List.mem_cons.mp hm with hm | hm
      · exact hc hm.symm
      · exact ha hm

theorem NewTransactionFromBytes_sections (dlib : DecodeLib) (s : Bytes)
    (h : (stringsSplit s).length ≠ 2) : NewTransactionFromBytes dlib s = .error := by
  unfold NewTransactionFromBytes
  split
  · rename_i x y heq
    rw [heq] at h
    exact absurd rfl h
  · rfl

theorem NewBlockFromBytes_sections (dlib : DecodeLib) (s : Bytes)
    (h : (stringsSplit s).length ≠ 2) : NewBlockFromBytes dlib s = .error := by
  unfold NewBlockFromBytes
  split
  · rename_i x y heq
    rw [heq] at h
    exact absurd rfl h
  · rfl

/-- Go `hex.DecodeString` fails exactly on a text of odd length or with a character
that is no hexadecimal digit. -/
theorem hexDecodeString_none_iff (s : Bytes) :
    hexDecodeString s = none ↔ (s.length % 2 = 1 ∨ ∃ c ∈ s, fromHexChar c = none) := by
  induction s using hexDecodeString.induct with
  | case1 => simp [hexDecodeString]
  | case2 c => simp [hexDecodeString]
  | case3 a b rest x y hb ha decoded hd ih =>
    rw [hexDecodeString, ha, hb]
    simp only [hd]
    rw [hd] at ih
    constructor
    · intro h; exact Option.noConfusion h
    · intro h
      exfalso
      have ih' : ¬ (rest.length % 2 = 1 ∨ ∃ c ∈ rest, fromHexChar c = none) := by
        rw [← ih]; simp
      rcases h with h | ⟨c, hc, hn⟩
      · apply ih'
        left
        simp only [List.length_cons] at h
        omega
      · rcases List.mem_cons.mp hc with e | hc
        · rw [e, ha] at hn; exact Option.noConfusion hn
        · rcases List.mem_cons.mp hc with e | hc
          · rw [e, hb] at hn; exact Option.noConfusion hn
          · exact ih' (Or.inr ⟨c, hc, hn⟩)
  | case4 a b rest x y hb ha hd ih =>
    rw [hexDecodeString, ha, hb]
    simp only [hd, true_iff]
    rcases ih.mp hd with h | ⟨c, hc, hn⟩
    · left
      simp only [List.length_cons]
      omega
    · right
      exact ⟨c, List.mem_cons_of_mem _ (List.mem_cons_of_mem _ hc), hn⟩
  | case5 a b rest hno =>
    have hnone : hexDecodeString (a :: b :: rest) = none := by
      rw [hexDecodeString]
      cases hx : fromHexChar a with
      | none => rfl
      | some x =>
        cases hy : fromHexChar b with
        | none => rfl
        | some y => exact absurd hy (hno x y hx)
    simp only [hnone, true_iff]
    right
    cases hx : fromHexChar a with
    | none => exact ⟨a, List.mem_cons_self _ _, hx⟩
    | some x =>
      cases hy : fromHexChar b with
      | none => exact ⟨b, List.mem_cons_of_mem _ (List.mem_cons_self _ _), hy⟩
      | some y => exact absurd hy (hno x y hx)

theorem NewTransactionFromBytes_frame (dlib : DecodeLib) (a b : Bytes)
    (ha : asciiDot ∉ a) (hb : asciiDot ∉ b) :
    NewTransactionFromBytes dlib (a ++ asciiDot :: b) =
      match dlib.base64DecodeString a with
      | none => .error
      | some payload =>
        match hexDecodeString b with
        | none => .error
        | some signature =>
          match dlib.unmarshalTransaction payload with
          | none => .error
          | some (id, publicKey, cost, data) =>
            .ok { Id := id, Signature := some signature, SenderPrivateKey := none,
                  SenderPublicKey := publicKey, Cost := cost, Data := data } := by
  unfold NewTransactionFromBytes
  rw [stringsSplit_two a b ha hb]

theorem NewBlockFromBytes_frame (dlib : DecodeLib) (a b : Bytes)
    (ha : asciiDot ∉ a) (hb : asciiDot ∉ b) :
    NewBlockFromBytes dlib (a ++ asciiDot :: b) =
      match dlib.base64DecodeString a with
      | none => .error
      | some payload =>
        match HexToBlockHash b with
        | .error => .error
        | .panic => .panic
        | .ok hash =>
          match unmarshalBlockRawData dlib payload with
          | none => .error
          | some blockRawData =>
            match HexToBlockHash blockRawData.PreviousHashHex with
            | .error => .error
            | .panic => .panic
            | .ok previousHash =>
              match decodeTransactions dlib blockRawData.TransactionsRaw with
              | .error => .error
              | .panic => .panic
              | .ok transactions =>
                .ok { CreatedAt := blockRawData.CreatedAt
                      Number := blockRawData.Number
                      Previous := some (NewLazyBlockFromHash (some previousHash))
                      Data := transactions
                      Hash := some hash } := by
  unfold NewBlockFromBytes
  rw [stringsSplit_two a b ha hb]

theorem frame_append (a b : Bytes) : a ++ [asciiDot] ++ b = a ++ asciiDot :: b := by
  simp

/-- The frame that `Transaction.Serialize` writes around a signed transaction. -/
theorem Transaction.Serialize_signed (lib : Lib) (t : Transaction) (signature json : Bytes)
    (hsig : t.Signature = some signature)
    (hjson : lib.marshalTransaction t.Id t.SenderPublicKey t.Cost t.Data = some json) :
    t.Serialize lib =
      (.ok (lib.base64EncodeToString json ++ asciiDot :: sprintfHex signature), t) := by
  unfold Transaction.Serialize Transaction.SerializePayload
  simp only [hsig, hjson, Option.getD_some, frame_append]

theorem Transaction.Serialize_dotted (lib : Lib) (t : Transaction) (bytes : Bytes)
    (h : (t.Serialize lib).1 = .ok bytes) : asciiDot ∈ bytes := by
  unfold Transaction.Serialize at h
  generalize (match t.Signature with
    | none => t.Sign lib
    | some _ => (Outcome.ok (), t)) = signed at h
  obtain ⟨o, t1⟩ := signed
  cases o with
  | error => exact Outcome.noConfusion h
  | panic => exact Outcome.noConfusion h
  | ok u =>
    simp only at h
    cases hp : t1.SerializePayload lib with
    | error => rw [hp] at h; exact Outcome.noConfusion h
    | panic => rw [hp] at h; exact Outcome.noConfusion h
    | ok payload =>
      rw [hp] at h
      simp only at h
      injection h with h
      rw [← h]
      simp

theorem serializeTransactions_dotted (lib : Lib) :
    ∀ (ts : List Transaction) (strs : List Bytes),
      (serializeTransactions lib ts).1 = .ok strs →
      strs.length = ts.length ∧ ∀ x ∈ strs, asciiDot ∈ x := by
  intro ts
  induction ts with
  | nil =>
    intro strs h
    simp only [serializeTransactions] at h
    injection h with h
    subst h
    exact ⟨rfl, fun x hx => absurd hx (List.not_mem_nil x)⟩
  | cons t ts ih =>
    intro strs h
    rw [serializeTransactions] at h
    cases h1 : t.Serialize lib with
    | mk o t1 =>
      have hd := Transaction.Serialize_dotted lib t
      rw [h1] at h hd
      cases o with
      | error => exact Outcome.noConfusion h
      | panic => exact Outcome.noConfusion h
      | ok bytes =>
        simp only at h
        cases h2 : serializeTransactions lib ts with
        | mk o2 ts1 =>
          rw [h2] at h ih
          cases o2 with
          | error => exact Outcome.noConfusion h
          | panic => exact Outcome.noConfusion h
          | ok rest =>
            simp only at h
            injection h with h
            subst h
            obtain ⟨l1, l2⟩ := ih rest rfl
            refine ⟨by simp [l1], ?_⟩
            intro x hx
            rcases List.mem_cons.mp hx with e | hx
            · rw [e]; exact hd bytes rfl
            · exact l2 x hx

theorem decodeByteSlices_dotted (dlib : DecodeLib)
    (hdot : ∀ x, asciiDot ∈ x → dlib.base64DecodeString x = none) (strs : List Bytes)
    (hne : strs ≠ []) (hall : ∀ x ∈ strs, asciiDot ∈ x) : decodeByteSlices dlib strs = none := by
  cases strs with
  | nil => exact absurd rfl hne
  | cons x rest =>
    rw [decodeByteSlices, hdot x (hall x (List.mem_cons_self _ _))]

theorem Block.Serialize_eq (lib : Lib) (s : State) (b : Nat) :
    Block.Serialize lib s b =
      match (s.blocks b).Hash with
      | none => (.error, s)
      | some hash =>
        match payloadOutcome lib s b with
        | .ok payload => (.ok (payload ++ asciiDot :: sprintfHex hash.val), settled lib s b)
        | .error => (.error, settled lib s b)
        | .panic => (.panic, settled lib s b) := by
  unfold Block.Serialize
  cases hh : (s.blocks b).Hash with
  | none => rfl
  | some hash =>
    simp only
    rw [SerializePayload_eq]
    cases payloadOutcome lib s b with
    | error => rfl
    | panic => rfl
    | ok payload =>
      simp only
      rw [(settled_blocks lib s b b).1, hh]
      simp only [frame_append]

theorem payloadOutcome_eq (lib : Lib) (s : State) (b : Nat) (strs : List Bytes) (prev : Bytes)
    (hser : (serializeTransactions lib (s.blocks b).Data).1 = .ok strs)
    (hprev : previousHashText s b = .ok prev) :
    payloadOutcome lib s b =
      match lib.marshalBlockPayload (s.blocks b).CreatedAt prev strs (s.blocks b).Number with
      | none => .error
      | some result => .ok (lib.base64EncodeToString result) := by
  unfold payloadOutcome
  rw [hser, hprev]

theorem previousHashText_unresolved (s : State) (b : Nat)
    (h : resolvePrevious s.chain (s.blocks b) = none) : previousHashText s b = .ok [] := by
  unfold previousHashText
  rw [h]

theorem previousHashText_resolved (s : State) (b P : Nat) (hash : BlockHash)
    (h : resolvePrevious s.chain (s.blocks b) = some P) (hh : (s.blocks P).Hash = some hash) :
    previousHashText s b = .ok (sprintfHex hash.val) := by
  unfold previousHashText
  rw [h]
  simp only [hh]

/-- What `NewBlockFromBytes` makes of the bytes that `Block.Serialize` wrote for a mined
block, given that the library reads back the frame and the JSON values it wrote and
that the base64 decoder rejects a text with a dot. -/
theorem decode_serialized_block (lib : Lib) (dlib : DecodeLib) (s : State) (b : Nat)
    (hash : BlockHash) (strs : List Bytes) (prev json : Bytes)
    (hh : (s.blocks b).Hash = some hash)
    (hser : (serializeTransactions lib (s.blocks b).Data).1 = .ok strs)
    (hprev : previousHashText s b = .ok prev)
    (hjson : lib.marshalBlockPayload (s.blocks b).CreatedAt prev strs (s.blocks b).Number =
      some json)
    (hnodot : asciiDot ∉ lib.base64EncodeToString json)
    (h64 : dlib.base64DecodeString (lib.base64EncodeToString json) = some json)
    (hun : dlib.unmarshalBlockJSON json =
      some ⟨(s.blocks b).CreatedAt, prev, strs, (s.blocks b).Number⟩)
    (hdot : ∀ x, asciiDot ∈ x → dlib.base64DecodeString x = none) :
    (Block.Serialize lib s b).1 =
      .ok (lib.base64EncodeToString json ++ asciiDot :: sprintfHex hash.val) ∧
    ((s.blocks b).Data ≠ [] →
      NewBlockFromBytes dlib
        (lib.base64EncodeToString json ++ asciiDot :: sprintfHex hash.val) = .error) ∧
    ((s.blocks b).Data = [] → ∀ previousHash, HexToBlockHash prev = .ok previousHash →
      NewBlockFromBytes dlib
        (lib.base64EncodeToString json ++ asciiDot :: sprintfHex hash.val) =
        .ok { CreatedAt := (s.blocks b).CreatedAt, Previous := some ⟨some previousHash, none⟩,
              Data := [], Number := (s.blocks b).Number, Hash := some hash }) := by
  have hframe := NewBlockFromBytes_frame dlib (lib.base64EncodeToString json)
    (sprintfHex hash.val) hnodot (dot_not_mem_sprintfHex hash.val)
  obtain ⟨hlen, hdots⟩ := serializeTransactions_dotted lib _ strs hser
  refine ⟨?_, ?_, ?_⟩
  · rw [Block.Serialize_eq, hh]
    simp only
    rw [payloadOutcome_eq lib s b strs prev hser hprev, hjson]
  · intro hne
    have hstrs : strs ≠ [] := by
      intro e
      rw [e] at hlen
      exact hne (List.length_eq_zero.mp hlen.symm)
    rw [hframe]
    simp only [h64, HexToBlockHash_sprintfHex, unmarshalBlockRawData, hun,
      decodeByteSlices_dotted dlib hdot strs hstrs hdots]
  · intro he previousHash hph
    have hstrs : strs = [] := by
      rw [he] at hlen
      exact List.length_eq_zero.mp hlen
    rw [hframe]
    simp only [h64, HexToBlockHash_sprintfHex, unmarshalBlockRawData, hun, hstrs,
      decodeByteSlices, hph, decodeTransactions, NewLazyBlockFromHash]

theorem postToPeers_posted (post : Peer → Bytes → PostResult) (byt : Bytes) :
    ∀ (targets : PeerList) (ps : PeerSet) (posted : PeerList),
      (postToPeers post byt targets ps posted).2 = posted ++ targets := by
  intro targets
  induction targets with
  | nil => intro ps posted; simp [postToPeers]
  | cons peer rest ih =>
    intro ps posted
    rw [postToPeers]
    cases post peer byt with
    | failed => simp only [ih, List.append_assoc, List.singleton_append]
    | status code =>
      simp only
      by_cases hc : code ≠ 200
      · rw [if_pos hc, ih, List.append_assoc, List.singleton_append]
      · rw [if_neg hc, ih, List.append_assoc, List.singleton_append]

/-- A reference built from a hash alone resolves to what the index holds under it. -/
theorem resolvePrevious_fromHash (c : Blockchain) (b : Block) (hash : BlockHash)
    (h : b.Previous = some ⟨some hash, none⟩) : resolvePrevious c b = c.index hash := by
  simp [resolvePrevious, h, LazyBlock.Unwrap, Blockchain.GetBlockWithHash]

/-! ## Lemmas on what mining writes -/

/-- What signing leaves of a transaction: it is unchanged, or it had no signature and
now carries one; no other field is written. -/
theorem Sign_keeps_fields (lib : Lib) (t : Transaction) :
    (t.Sign lib).2 = t ∨ ∃ signature, (t.Sign lib).2 = { t with Signature := some signature } := by
  unfold Transaction.Sign
  cases t.SenderPrivateKey with
  | none => exact Or.inl rfl
  | some key =>
    simp only
    cases t.SerializePayload lib with
    | error => exact Or.inl rfl
    | panic => exact Or.inl rfl
    | ok payload =>
      simp only
      cases hs : lib.signPKCS1v15 key (lib.sha256Sum256 payload) with
      | none => exact Or.inl rfl
      | some signature => exact Or.inr ⟨signature, rfl⟩

theorem Serialize_keeps_fields (lib : Lib) (t : Transaction) :
    (t.Serialize lib).2 = t ∨
      (t.Signature = none ∧
        ∃ signature, (t.Serialize lib).2 = { t with Signature := some signature }) := by
  have hsecond : (t.Serialize lib).2 =
      (match t.Signature with
        | none => t.Sign lib
        | some _ => (Outcome.ok (), t)).2 := by
    unfold Transaction.Serialize
    generalize (match t.Signature with
      | none => t.Sign lib
      | some _ => (Outcome.ok (), t)) = signed
    obtain ⟨o, t1⟩ := signed
    cases o with
    | error => rfl
    | panic => rfl
    | ok u =>
      simp only
      cases t1.SerializePayload lib <;> rfl
  rw [hsecond]
  cases hsig : t.Signature with
  | some sig => exact Or.inl rfl
  | none =>
    simp only
    rcases Sign_keeps_fields lib t with h | ⟨signature, h⟩
    · exact Or.inl h
    · exact Or.inr ⟨trivial, signature, h⟩

theorem serializeTransactions_keeps_fields (lib : Lib) (ts : List Transaction) :
    List.Forall₂ (fun t t1 => t1 = t ∨
        (t.Signature = none ∧ ∃ signature, t1 = { t with Signature := some signature }))
      ts (serializeTransactions lib ts).2 := by
  have hrefl : ∀ us : List Transaction, List.Forall₂ (fun t t1 => t1 = t ∨
        (t.Signature = none ∧ ∃ signature, t1 = { t with Signature := some signature }))
      us us := by
    intro us
    induction us with
    | nil => exact List.Forall₂.nil
    | cons u us ih => exact List.Forall₂.cons (Or.inl rfl) ih
  induction ts with
  | nil => exact List.Forall₂.nil
  | cons t ts ih =>
    have ht := Serialize_keeps_fields lib t
    unfold serializeTransactions
    cases h1 : t.Serialize lib with
    | mk o t1 =>
      rw [h1] at ht
      cases o with
      | error => exact List.Forall₂.cons ht (hrefl ts)
      | panic => exact List.Forall₂.cons ht (hrefl ts)
      | ok serializedBytes =>
        simp only
        cases h2 : serializeTransactions lib ts with
        | mk o2 ts1 =>
          rw [h2] at ih
          cases o2 <;> exact List.Forall₂.cons ht ih

theorem Unwrap_keeps_Hash (c : Blockchain) (l : LazyBlock) : (l.Unwrap c).2.Hash = l.Hash := by
  obtain ⟨hash, resolved⟩ := l
  cases resolved with
  | some r => rfl
  | none => cases hash <;> rfl

theorem settled_previous_Hash (lib : Lib) (s : State) (b : Nat) :
    ((settled lib s b).blocks b).Previous.map LazyBlock.Hash =
      (s.blocks b).Previous.map LazyBlock.Hash := by
  simp only [settled, setBlock_same]
  cases (serializeTransactions lib (s.blocks b).Data).1 with
  | error => rfl
  | panic => rfl
  | ok strs =>
    simp only
    cases (s.blocks b).Previous with
    | none => rfl
    | some l => simp [Unwrap_keeps_Hash]

/-! ## Lemmas on walks over a closed index without cycle -/

theorem sameHashPointer_refl (s : State) (p : Nat) : sameHashPointer s p p = true := by
  unfold sameHashPointer
  cases (s.blocks p).Hash <;> simp

/-- A block reached from an indexed block of a closed index is indexed. -/
theorem ancestor_indexed (s : State) (hclosed : IndexClosed s) :
    ∀ (k q x : Nat), Indexed s.chain q → ancestor s k q = some x → Indexed s.chain x := by
  intro k
  induction k with
  | zero =>
    intro q x hq hx
    simp only [ancestor] at hx
    rw [← Option.some.inj hx]; exact hq
  | succ k ih =>
    intro q x hq hx
    cases hr : resolvePrevious s.chain (s.blocks q) with
    | none => rw [ancestor_succ_none s k q hr] at hx; exact absurd hx (by simp)
    | some p =>
      rw [ancestor_succ_some s k q p hr] at hx
      exact ih p x (hclosed q p hq hr) hx

/-- A run of `m` blocks of `held` without repetition has at most as many blocks as `held`. -/
theorem run_le_card (held : Finset Nat) (m : Nat) (y : Nat → Nat)
    (hmem : ∀ k, k < m → y k ∈ held)
    (hinj : ∀ j k, j < k → k < m → y j ≠ y k) : m ≤ held.card := by
  have h : (Finset.range m).card ≤ held.card := Finset.card_le_card_of_injOn y
    (fun a ha => hmem a (Finset.mem_range.mp ha))
    (by
      intro a ha c hc hac
      have ha' := Finset.mem_range.mp ha
      have hc' := Finset.mem_range.mp hc
      by_contra hne
      rcases Nat.lt_or_gt_of_ne hne with hlt | hgt
      · exact hinj a c hlt hc' hac
      · exact hinj c a hgt ha' hac.symm)
  simpa using h

/-- On a closed index without cycle the backward walk from an indexed block ends: the
blocks reached are pairwise different values of the index. -/
theorem walk_ends (s : State) (hclosed : IndexClosed s) (hacyclic : Acyclic s)
    (held : Finset Nat) (hheld : ∀ q, Indexed s.chain q → q ∈ held)
    (H : Nat) (hH : Indexed s.chain H) :
    ∃ (n : Nat) (x : Nat → Nat), n + 1 ≤ held.card ∧ ancestor s (n + 1) H = none ∧
      ∀ k, k ≤ n → ancestor s k H = some (x k) := by
  classical
  have hex : ∃ k, ancestor s k H = none := by
    by_contra hno
    have hall : ∀ k, ∃ v, ancestor s k H = some v := by
      intro k
      cases hk : ancestor s k H with
      | none => exact absurd ⟨k, hk⟩ hno
      | some v => exact ⟨v, rfl⟩
    have hle := run_le_card held (held.card + 1) (fun k => (ancestor s k H).getD 0)
      (by
        intro k _
        obtain ⟨v, hv⟩ := hall k
        simp only [hv, Option.getD_some]
        exact hheld v (ancestor_indexed s hclosed k H v hH hv))
      (by
        intro j k hjk _ heq
        obtain ⟨v, hv⟩ := hall j
        obtain ⟨w, hw⟩ := hall k
        simp only [hv, hw, Option.getD_some] at heq
        subst heq
        exact hacyclic H hH j k v hjk hv hw)
    omega
  have hmin : ∀ k, k < Nat.find hex → ∃ v, ancestor s k H = some v := by
    intro k hk
    cases hv : ancestor s k H with
    | none => exact absurd hv (Nat.find_min hex hk)
    | some v => exact ⟨v, rfl⟩
  have hpos : 0 < Nat.find hex := by
    rcases Nat.eq_zero_or_pos (Nat.find hex) with h0 | h0
    · have := Nat.find_spec hex
      rw [h0] at this
      simp [ancestor] at this
    · exact h0
  obtain ⟨n, hn⟩ : ∃ n, Nat.find hex = n + 1 := ⟨Nat.find hex - 1, by omega⟩
  refine ⟨n, fun k => (ancestor s k H).getD 0, ?_, by rw [← hn]; exact Nat.find_spec hex, ?_⟩
  · apply run_le_card held (n + 1) (fun k => (ancestor s k H).getD 0)
    · intro k hk
      obtain ⟨v, hv⟩ := hmin k (by omega)
      simp only [hv, Option.getD_some]
      exact hheld v (ancestor_indexed s hclosed k H v hH hv)
    · intro j k hjk hk heq
      obtain ⟨v, hv⟩ := hmin j (by omega)
      obtain ⟨w, hw⟩ := hmin k (by omega)
      simp only [hv, hw, Option.getD_some] at heq
      subst heq
      exact hacyclic H hH j k v hjk hv hw
  · intro k hk
    obtain ⟨v, hv⟩ := hmin k (by omega)
    simp only [hv, Option.getD_some]

/-- A previous reference that resolves keeps its block when `InsertBlock` adds a block. -/
theorem InsertBlock_resolve_some (s : State) (block q p : Nat)
    (h : resolvePrevious s.chain (s.blocks q) = some p) :
    resolvePrevious (Blockchain.InsertBlock s block).2.chain
      ((Blockchain.InsertBlock s block).2.blocks q) = some p := by
  rw [InsertBlock_blocks]
  exact resolvePrevious_mono s.chain _ (s.blocks q) p
    (fun h' q' hq' => InsertBlock_index_mono s block h' q' hq') h

/-- A previous reference that did not resolve resolves, after `InsertBlock` has added a
block, to nothing or to that block. -/
theorem InsertBlock_resolve_none (s : State) (block : Nat) (hash : BlockHash) (q : Nat)
    (hmined : (s.blocks block).Hash = some hash) (hfresh : s.chain.index hash = none)
    (h : resolvePrevious s.chain (s.blocks q) = none) :
    resolvePrevious (Blockchain.InsertBlock s block).2.chain
        ((Blockchain.InsertBlock s block).2.blocks q) = none ∨
      resolvePrevious (Blockchain.InsertBlock s block).2.chain
        ((Blockchain.InsertBlock s block).2.blocks q) = some block := by
  rw [InsertBlock_blocks, InsertBlock_fresh s block hash hmined hfresh]
  unfold resolvePrevious at h ⊢
  cases hl : (s.blocks q).Previous with
  | none => exact Or.inl rfl
  | some l =>
    rw [hl] at h
    simp only at h ⊢
    obtain ⟨lh, lr⟩ := l
    cases lr with
    | some r => simp [LazyBlock.Unwrap] at h
    | none =>
      cases lh with
      | none => exact Or.inl rfl
      | some k =>
        simp only [LazyBlock.Unwrap, Blockchain.GetBlockWithHash] at h ⊢
        by_cases hk : k = hash
        · exact Or.inr (by simp [hk])
        · exact Or.inl (by simp [hk, h])

/-- The walk from an indexed head after `InsertBlock` has added `block`, whose previous
reference resolves to `P`: within as many steps as the index now holds blocks it ends or
it meets `P`. -/
theorem walk_ends_or_meets (s : State) (block : Nat) (hash : BlockHash) (P : Nat)
    (hclosed : IndexClosed s) (hacyclic : Acyclic s)
    (hmined : (s.blocks block).Hash = some hash) (hfresh : s.chain.index hash = none)
    (hprev : resolvePrevious (Blockchain.InsertBlock s block).2.chain (s.blocks block) = some P)
    (held : Finset Nat)
    (hheld : ∀ q, Indexed (Blockchain.InsertBlock s block).2.chain q → q ∈ held)
    (H : Nat) (hH : Indexed s.chain H) :
    ∃ m, 1 ≤ m ∧ m ≤ held.card ∧
      (ancestor (Blockchain.InsertBlock s block).2 m H = none ∨
        ∃ q, ancestor (Blockchain.InsertBlock s block).2 m H = some q ∧
          sameHashPointer (Blockchain.InsertBlock s block).2 q P = true) := by
  have hsub : ∀ q, Indexed s.chain q → q ∈ held := fun q ⟨h, hq⟩ =>
    hheld q ⟨h, InsertBlock_index_mono s block h q hq⟩
  have hblock : block ∈ held :=
    hheld block ⟨hash, InsertBlock_lookup s block hash hmined hfresh⟩
  obtain ⟨n, x, hn, hend, hx⟩ := walk_ends s hclosed hacyclic held hsub H hH
  have hx' : ∀ k, k ≤ n → ancestor (Blockchain.InsertBlock s block).2 k H = some (x k) :=
    fun k hk => ancestor_mono s _ (fun q p hq => InsertBlock_resolve_some s block q p hq)
      k H (x k) (hx k hk)
  have hprev' : resolvePrevious (Blockchain.InsertBlock s block).2.chain
      ((Blockchain.InsertBlock s block).2.blocks block) = some P := by
    rw [InsertBlock_blocks]; exact hprev
  have hlast : resolvePrevious s.chain (s.blocks (x n)) = none := by
    have := ancestor_add s n 1 H (x n) (hx n (le_refl n))
    rw [hend] at this
    cases hr : resolvePrevious s.chain (s.blocks (x n)) with
    | none => rfl
    | some p =>
      rw [ancestor_succ_some s 0 (x n) p hr] at this
      simp [ancestor] at this
  have hstep : ∀ k i, i ≤ n →
      ancestor (Blockchain.InsertBlock s block).2 (i + k) H =
        ancestor (Blockchain.InsertBlock s block).2 k (x i) :=
    fun k i hi => ancestor_add _ i k H (x i) (hx' i hi)
  rcases InsertBlock_resolve_none s block hash (x n) hmined hfresh hlast with hnone | hsome
  · refine ⟨n + 1, by omega, hn, Or.inl ?_⟩
    rw [hstep 1 n (le_refl n)]
    exact ancestor_succ_none _ 0 (x n) hnone
  · by_cases hmem : ∃ i, i ≤ n ∧ x i = block
    · obtain ⟨i, hi, hxi⟩ := hmem
      refine ⟨i + 1, by omega, by omega, Or.inr ⟨P, ?_, sameHashPointer_refl _ P⟩⟩
      rw [hstep 1 i hi, hxi, ancestor_succ_some _ 0 block P hprev']
      rfl
    · refine ⟨n + 2, by omega, ?_, Or.inr ⟨P, ?_, sameHashPointer_refl _ P⟩⟩
      · apply run_le_card held (n + 2) (fun k => if k ≤ n then x k else block)
        · intro k hk
          by_cases hkn : k ≤ n
          · simp only [hkn, if_true]
            exact hsub (x k) (ancestor_indexed s hclosed k H (x k) hH (hx k hkn))
          · simp only [hkn, if_false]; exact hblock
        · intro j k hjk hk heq
          have hjn : j ≤ n := by omega
          simp only [hjn, if_true] at heq
          by_cases hkn : k ≤ n
          · simp only [hkn, if_true] at heq
            exact hacyclic H hH j k (x j) hjk (hx j hjn) (by rw [heq]; exact hx k hkn)
          · simp only [hkn, if_false] at heq
            exact hmem ⟨j, hjn, heq⟩
      · have h2 : n + 2 = n + (1 + 1) := by omega
        rw [h2, hstep (1 + 1) n (le_refl n), ancestor_succ_some _ 1 (x n) block hsome,
          ancestor_succ_some _ 0 block P hprev']
        rfl

/-- A walk that ends or meets `P` at its step `m` has a first step at which it does,
and misses `P` before. -/
theorem walk_first_stop (s : State) (P H m : Nat) (hm : 1 ≤ m)
    (h : ancestor s m H = none ∨
      ∃ q, ancestor s m H = some q ∧ sameHashPointer s q P = true) :
    (∃ n, n < m ∧ ancestor s (n + 1) H = none ∧
      ∀ k : Nat, k < n → ∀ q, ancestor s (k + 1) H = some q → sameHashPointer s q P = false) ∨
    (∃ d q, d < m ∧ ancestor s (d + 1) H = some q ∧ sameHashPointer s q P = true ∧
      ∀ k : Nat, k < d → ∀ q', ancestor s (k + 1) H = some q' →
        sameHashPointer s q' P = false) := by
  classical
  by_cases hhit : ∃ d, ∃ q, ancestor s (d + 1) H = some q ∧ sameHashPointer s q P = true
  · have hd := Nat.find_spec hhit
    obtain ⟨q, hq, hsm⟩ := hd
    have hmin : ∀ k : Nat, k < Nat.find hhit → ∀ q', ancestor s (k + 1) H = some q' →
        sameHashPointer s q' P = false := by
      intro k hk q' hq'
      cases hs : sameHashPointer s q' P with
      | false => rfl
      | true => exact absurd ⟨q', hq', hs⟩ (Nat.find_min hhit hk)
    by_cases hlt : Nat.find hhit < m
    · exact Or.inr ⟨Nat.find hhit, q, hlt, hq, hsm, hmin⟩
    · rcases h with hnone | ⟨q2, hq2, hs2⟩
      · have := ancestor_none_le s m (Nat.find hhit + 1) H hnone (by omega)
        rw [this] at hq
        exact absurd hq (by simp)
      · obtain ⟨m', rfl⟩ : ∃ m', m = m' + 1 := ⟨m - 1, by omega⟩
        have hle : Nat.find hhit ≤ m' := Nat.find_min' hhit ⟨q2, hq2, hs2⟩
        omega
  · have hmiss : ∀ (k : Nat) q, ancestor s (k + 1) H = some q →
        sameHashPointer s q P = false := by
      intro k q hq
      cases hs : sameHashPointer s q P with
      | false => rfl
      | true => exact absurd ⟨k, q, hq, hs⟩ hhit
    rcases h with hnone | ⟨q2, hq2, hs2⟩
    · have hex : ∃ n, ancestor s (n + 1) H = none := ⟨m - 1, by
        have : m - 1 + 1 = m := by omega
        rw [this]; exact hnone⟩
      refine Or.inl ⟨Nat.find hex, ?_, Nat.find_spec hex, fun k _ q hq => hmiss k q hq⟩
      have hle : Nat.find hex ≤ m - 1 := Nat.find_min' hex (by
        have : m - 1 + 1 = m := by omega
        rw [this]; exact hnone)
      omega
    · obtain ⟨m', rfl⟩ : ∃ m', m = m' + 1 := ⟨m - 1, by omega⟩
      rw [hmiss m' q2 hq2] at hs2
      exact absurd hs2 (by simp)

/-- The search over appendages each of whose walks ends or meets `P` within `N` steps
returns when it has the fuel `N`. -/
theorem forkSearch_returns (P N : Nat) (apps : List BlockchainAppendage) (s : State)
    (hall : ∀ a ∈ apps, ∀ H, a.Head = some H →
      (∃ n, n < N ∧ ancestor s (n + 1) H = none ∧
        ∀ k : Nat, k < n → ∀ q, ancestor s (k + 1) H = some q →
          sameHashPointer s q P = false) ∨
      (∃ d q, d < N ∧ ancestor s (d + 1) H = some q ∧ sameHashPointer s q P = true ∧
        ∀ k : Nat, k < d → ∀ q', ancestor s (k + 1) H = some q' →
          sameHashPointer s q' P = false)) :
    ∀ s1, SameUpToCache s s1 → ∀ fuel : Nat, N ≤ fuel →
      ∃ r s', forkSearch fuel P s1 apps = some (r, s') ∧ SameUpToCache s s' := by
  induction apps with
  | nil => exact fun s1 h1 fuel _ => ⟨none, s1, rfl, h1⟩
  | cons a rest ih =>
    intro s1 h1 fuel hfuel
    have ih' := ih (fun x hx => hall x (by simp [hx]))
    cases hH : a.Head with
    | none =>
      obtain ⟨s2, h2, heq⟩ := forkSearch_skip P s1 a rest 0
        (fun H hH' => by rw [hH] at hH'; exact absurd hH' (by simp)) fuel (Nat.zero_le _)
      obtain ⟨r, s', hs', hsame⟩ := ih' s2 (h1.trans h2) fuel hfuel
      exact ⟨r, s', by rw [heq, hs'], hsame⟩
    | some H =>
      rcases hall a (by simp) H hH with ⟨n, hn, hend, hmiss⟩ | ⟨d, q, hd, hq, hsm, hmiss⟩
      · obtain ⟨s2, h2, heq⟩ := forkSearch_skip P s1 a rest n
          (fun H' hH' => by
            rw [hH] at hH'
            injection hH' with hH'
            subst hH'
            refine ⟨by rw [h1.ancestor]; exact hend, ?_⟩
            intro k hk q hq
            rw [h1.sameHashPointer]
            rw [h1.ancestor] at hq
            exact hmiss k hk q hq) fuel (by omega)
        obtain ⟨r, s', hs', hsame⟩ := ih' s2 (h1.trans h2) fuel hfuel
        exact ⟨r, s', by rw [heq, hs'], hsame⟩
      · obtain ⟨s', hs', hsame⟩ := forkSearch_meet P s1 a rest d
          (h1.walkMeets P a d ⟨H, q, hH, hq, hsm, hmiss⟩) fuel (by omega)
        exact ⟨_, s', hs', h1.trans hsame⟩

/-- The values of the hash index form a finite set: there are finitely many hashes. -/
theorem index_held (c : Blockchain) : ∃ held : Finset Nat, ∀ q, Indexed c q ↔ q ∈ held := by
  classical
  haveI : Fintype BlockHash := inferInstanceAs (Fintype (Mathlib.Vector Byte 32))
  refine ⟨(Finset.univ.image c.index).biUnion (fun o => o.toFinset), ?_⟩
  intro q
  simp [Indexed]

/-- Previous references that lead to blocks of smaller rank cannot revisit a block. -/
theorem ancestor_rank (s : State) (rank : Nat → Nat)
    (h : ∀ q p, resolvePrevious s.chain (s.blocks q) = some p → rank p < rank q) :
    ∀ (k q x : Nat), ancestor s k q = some x → rank x + k ≤ rank q := by
  intro k
  induction k with
  | zero =>
    intro q x hx
    simp only [ancestor] at hx
    rw [Option.some.inj hx]; omega
  | succ k ih =>
    intro q x hx
    cases hr : resolvePrevious s.chain (s.blocks q) with
    | none => rw [ancestor_succ_none s k q hr] at hx; exact absurd hx (by simp)
    | some p =>
      rw [ancestor_succ_some s k q p hr] at hx
      have h1 := ih p x hx
      have h2 := h q p hr
      omega

theorem acyclic_of_rank (s : State) (rank : Nat → Nat)
    (h : ∀ q p, resolvePrevious s.chain (s.blocks q) = some p → rank p < rank q) :
    Acyclic s := by
  intro q _ j k x hjk hj hk
  obtain ⟨e, rfl⟩ : ∃ e, k = j + e := ⟨k - j, by omega⟩
  rw [ancestor_add s j e q x hj] at hk
  have := ancestor_rank s rank h e x x hk
  omega

theorem cachedState_rank :
    ∀ q p, resolvePrevious cachedState.chain (cachedState.blocks q) = some p → p < q := by
  intro q p h
  have hsmall : ∀ q, q < 6 →
      (resolvePrevious cachedState.chain (cachedState.blocks q)).all (fun p => decide (p < q)) =
        true := by decide
  by_cases hq : q < 6
  · have := hsmall q hq
    rw [h] at this
    simpa using this
  · obtain ⟨e, rfl⟩ : ∃ e, q = e + 6 := ⟨q - 6, by omega⟩
    simp [cachedState, resolvePrevious, plainBlock] at h

theorem chainState_rank :
    ∀ q p, resolvePrevious chainState.chain (chainState.blocks q) = some p → p < q := by
  intro q p h
  have hsmall : ∀ q, q < 9 →
      (resolvePrevious chainState.chain (chainState.blocks q)).all (fun p => decide (p < q)) =
        true := by decide
  by_cases hq : q < 9
  · have := hsmall q hq
    rw [h] at this
    simpa using this
  · obtain ⟨e, rfl⟩ : ∃ e, q = e + 9 := ⟨q - 9, by omega⟩
    simp [chainState, resolvePrevious, plainBlock] at h

theorem chainState_indexed (q : Nat) :
    Indexed chainState.chain q ↔ q = 0 ∨ q = 1 ∨ q = 2 ∨ q = 7 := by
  constructor
  · rintro ⟨h, hq⟩
    simp only [chainState] at hq
    split_ifs at hq <;> simp at hq <;> omega
  · rintro (rfl | rfl | rfl | rfl)
    · exact ⟨acceptedHash 0, by decide⟩
    · exact ⟨acceptedHash 1, by decide⟩
    · exact ⟨acceptedHash 2, by decide⟩
    · exact ⟨acceptedHash 7, by decide⟩

theorem chainState_closed : IndexClosed chainState := by
  intro q p hq hr
  rw [chainState_indexed] at hq ⊢
  have hlt := chainState_rank q p hr
  rcases hq with rfl | rfl | rfl | rfl
  · omega
  · omega
  · have h1 : resolvePrevious chainState.chain (chainState.blocks 2) = some 1 := by decide
    rw [h1] at hr
    injection hr with hr
    omega
  · have h1 : resolvePrevious chainState.chain (chainState.blocks 7) = none := by decide
    rw [h1] at hr
    exact absurd hr (by simp)

theorem chainState_heads : HeadsIndexed chainState := by
  intro A hA H hH
  simp [chainState] at hA
  subst hA
  injection hH with hH
  subst hH
  exact ⟨acceptedHash 2, by decide⟩

/-! ## Lemmas on `List` -/

theorem peers_ids_keys (ps : PeerSet)
    (hk : ∀ k v, ps.peers.lookup k = some v → v.Id = k) :
    (ps.peers.entries.map fun e => e.2.Id) = ps.peers.keys := by
  unfold AList.keys List.keys
  apply List.map_congr_left
  intro e he
  have hl : ps.peers.lookup e.1 = some e.2 := by
    have : (⟨e.1, e.2⟩ : Sigma fun _ : PeerId => Peer) ∈ ps.peers.entries := he
    exact AList.mem_lookup_iff.mpr this
  exact hk _ _ hl

/-- When every ranking belongs to a peer that the set holds, the filling loop of `List`
writes every place of the slice. -/
theorem filledPairs_full (ps : PeerSet)
    (hk : ∀ k v, ps.peers.lookup k = some v → v.Id = k)
    (hr : ∀ id r, ps.rankings.lookup id = some r → ∃ v, ps.peers.lookup id = some v) :
    (filledPairs ps.rankings ps.peers.entries).length = ps.rankings.entries.length := by
  have hle := filledPairs_length ps hk
  have hsub : ps.rankings.keys ⊆
      ((filledPairs ps.rankings ps.peers.entries).map fun p => p.Key.Id) := by
    intro id hid
    rw [← AList.mem_keys, ← AList.lookup_isSome] at hid
    cases hl : ps.rankings.lookup id with
    | none => rw [hl] at hid; exact absurd hid (by simp)
    | some r =>
      obtain ⟨v, hv⟩ := hr id r hl
      have hvid := hk id v hv
      refine List.mem_map.mpr ⟨⟨v, r⟩, ?_, hvid⟩
      rw [mem_filledPairs]
      exact ⟨⟨id, v⟩, AList.mem_lookup_iff.mp hv, rfl, by rw [hvid]; exact hl⟩
  have hlen := (List.subperm_of_subset ps.rankings.keys_nodup hsub).length_le
  rw [List.length_map] at hlen
  have hkl : ps.rankings.keys.length = ps.rankings.entries.length := by
    unfold AList.keys List.keys
    rw [List.length_map]
  omega

/-- What `List` and `ListOthers` return when every entry of `peers` is filed under the id
of its peer and every ranking belongs to a peer that the set holds: the ranked peers,
each once, in ascending order of ranking. -/
theorem List_ranked (ps : PeerSet)
    (hk : ∀ k v, ps.peers.lookup k = some v → v.Id = k)
    (hr : ∀ id r, ps.rankings.lookup id = some r → ∃ v, ps.peers.lookup id = some v) :
    ∃ pairs : List Pair,
      ps.List = some (pairs.map fun item => item.Key) ∧
      List.Sorted (fun a b => a.Value ≤ b.Value) pairs ∧
      (∀ p, p ∈ pairs ↔
        ps.peers.lookup p.Key.Id = some p.Key ∧ ps.rankings.lookup p.Key.Id = some p.Value) ∧
      (pairs.map fun item => item.Key.Id).Nodup ∧
      ps.ListOthers = some ((pairs.map fun item => item.Key).filter fun peer => peer != ps.Me) := by
  haveI : IsTotal Pair (fun a b => a.Value ≤ b.Value) := ⟨fun a b => Nat.le_total _ _⟩
  haveI : IsTrans Pair (fun a b => a.Value ≤ b.Value) := ⟨fun _ _ _ h1 h2 => Nat.le_trans h1 h2⟩
  have hfull := filledPairs_full ps hk hr
  have hperm : (sortPairs (filledPairs ps.rankings ps.peers.entries)).Perm
      (filledPairs ps.rankings ps.peers.entries) := List.perm_insertionSort _ _
  have hlist : ps.List = some ((sortPairs (filledPairs ps.rankings ps.peers.entries)).map
      fun item => item.Key) := by
    rw [List_eq, if_pos (le_of_eq hfull), hfull, Nat.sub_self]
    simp
  refine ⟨sortPairs (filledPairs ps.rankings ps.peers.entries), hlist,
    List.sorted_insertionSort _ _, ?_, ?_, ?_⟩
  · intro p
    rw [hperm.mem_iff, mem_filledPairs]
    constructor
    · rintro ⟨e, he, hek, hev⟩
      have hl : ps.peers.lookup e.1 = some e.2 := AList.mem_lookup_iff.mpr he
      have hid := hk _ _ hl
      rw [← hek, hid]
      exact ⟨hl, by rw [← hid]; exact hev⟩
    · rintro ⟨hp, hv⟩
      exact ⟨⟨p.Key.Id, p.Key⟩, AList.mem_lookup_iff.mp hp, rfl, hv⟩
  · have hs := filledPairs_ids_sublist ps.rankings ps.peers.entries
    rw [peers_ids_keys ps hk] at hs
    have hnd := List.Nodup.sublist hs ps.peers.keys_nodup
    exact (List.Perm.nodup_iff (hperm.map fun item => item.Key.Id)).mpr hnd
  · unfold PeerSet.ListOthers
    rw [hlist]

/-! ## Lemmas on the chain without a primary appendage -/

theorem foldl_longest_mem (l : List BlockchainAppendage) (init : Nat) :
    l.foldl (fun length a => if a.Length > length then a.Length else length) init = init ∨
    ∃ a ∈ l, a.Length =
      l.foldl (fun length a => if a.Length > length then a.Length else length) init := by
  induction l generalizing init with
  | nil => exact Or.inl rfl
  | cons x xs ih =>
    simp only [List.foldl_cons, List.mem_cons, exists_eq_or_imp]
    rcases ih (if x.Length > init then x.Length else init) with h | ⟨a, ha, hl⟩
    · rw [h]
      by_cases hx : x.Length > init
      · simp [hx]
      · simp [hx]
    · exact Or.inr (Or.inr ⟨a, ha, hl⟩)

/-- A chain that has an appendage has a longest one. -/
theorem LongestAppendages_ne_nil (c : Blockchain) (h : c.Appendages ≠ []) :
    c.LongestAppendages ≠ [] := by
  obtain ⟨x, hx⟩ := List.exists_mem_of_ne_nil _ h
  have hmem : ∃ a ∈ c.Appendages, a.Length = c.longestAppendageLength := by
    rcases foldl_longest_mem c.Appendages 0 with h0 | hm
    · refine ⟨x, hx, ?_⟩
      have := longestAppendageLength_ge c x hx
      unfold Blockchain.longestAppendageLength at this ⊢
      omega
    · exact hm
  obtain ⟨a, ha, hl⟩ := hmem
  intro hnil
  have : a ∈ c.LongestAppendages := by
    unfold Blockchain.LongestAppendages
    exact List.mem_filter.mpr ⟨ha, by simp [hl]⟩
  rw [hnil] at this
  exact absurd this (List.not_mem_nil a)

theorem foldl_newest_mem (l : List BlockchainAppendage) (init : Time) :
    l.foldl (fun timestamp a => if a.UpdatedAt.After timestamp then a.UpdatedAt
      else timestamp) init = init ∨
    ∃ a ∈ l, a.UpdatedAt = l.foldl (fun timestamp a =>
      if a.UpdatedAt.After timestamp then a.UpdatedAt else timestamp) init := by
  induction l generalizing init with
  | nil => exact Or.inl rfl
  | cons x xs ih =>
    simp only [List.foldl_cons, List.mem_cons, exists_eq_or_imp]
    rcases ih (if x.UpdatedAt.After init then x.UpdatedAt else init) with h | ⟨a, ha, hl⟩
    · rw [h]
      by_cases hx : x.UpdatedAt.After init = true
      · simp [hx]
      · simp [hx]
    · exact Or.inr (Or.inr ⟨a, ha, hl⟩)

/-- The newest timestamp is `time.Unix(0, 0)` itself or the `UpdatedAt` of an appendage
of the list. -/
theorem newestTimestamp_mem (l : List BlockchainAppendage) :
    newestTimestamp l = Time.unixEpoch ∨ ∃ a ∈ l, a.UpdatedAt = newestTimestamp l :=
  foldl_newest_mem l Time.unixEpoch

theorem foldl_newest_keep (l : List BlockchainAppendage) (init : Time)
    (h : ∀ a ∈ l, a.UpdatedAt.instant ≤ init.instant) :
    l.foldl (fun timestamp a => if a.UpdatedAt.After timestamp then a.UpdatedAt
      else timestamp) init = init := by
  induction l with
  | nil => rfl
  | cons x xs ih =>
    have hx : x.UpdatedAt.After init = false := by
      have := h x (by simp)
      simp [Time.After]; omega
    simp only [List.foldl_cons, hx]
    exact ih (fun a ha => h a (by simp [ha]))

/-- No appendage after the epoch: the newest timestamp stays `time.Unix(0, 0)`. -/
theorem newestTimestamp_epoch (l : List BlockchainAppendage)
    (h : ∀ a ∈ l, a.UpdatedAt.instant ≤ 0) : newestTimestamp l = Time.unixEpoch :=
  foldl_newest_keep l Time.unixEpoch h

/-- When `PrimaryAppendage` returns nil: the chain has no appendage, or it has several
longest appendages, none with an `UpdatedAt` after the epoch and none with the value
`time.Unix(0, 0)` itself. -/
theorem PrimaryAppendage_none_iff (c : Blockchain) :
    c.PrimaryAppendage = none ↔
      c.Appendages = [] ∨
      (2 ≤ c.LongestAppendages.length ∧
        ∀ a ∈ c.LongestAppendages, a.UpdatedAt.instant ≤ 0 ∧ a.UpdatedAt ≠ Time.unixEpoch) := by
  by_cases hA : c.Appendages = []
  · have hL : c.LongestAppendages = [] := by
      unfold Blockchain.LongestAppendages; rw [hA]; rfl
    simp [Blockchain.PrimaryAppendage, hL, hA]
  · have hne := LongestAppendages_ne_nil c hA
    unfold Blockchain.PrimaryAppendage
    cases hL : c.LongestAppendages with
    | nil => exact absurd hL hne
    | cons a t =>
      cases t with
      | nil => simp [hA]
      | cons b rest =>
        simp only [hA, false_or, List.length_cons]
        have hge := newestTimestamp_ge (a :: b :: rest)
        constructor
        · intro h
          have hfil : (a :: b :: rest).filter
              (fun x => x.UpdatedAt == newestTimestamp (a :: b :: rest)) = [] := by
            cases hf : (a :: b :: rest).filter
                (fun x => x.UpdatedAt == newestTimestamp (a :: b :: rest)) with
            | nil => rfl
            | cons y ys => rw [hf] at h; exact absurd h (by simp)
          have hno : ∀ x ∈ a :: b :: rest, x.UpdatedAt ≠ newestTimestamp (a :: b :: rest) := by
            intro x hx heq
            have : x ∈ (a :: b :: rest).filter
                (fun x => x.UpdatedAt == newestTimestamp (a :: b :: rest)) :=
              List.mem_filter.mpr ⟨hx, by simp [heq]⟩
            rw [hfil] at this
            exact absurd this (List.not_mem_nil x)
          have hts : newestTimestamp (a :: b :: rest) = Time.unixEpoch := by
            rcases newestTimestamp_mem (a :: b :: rest) with h0 | ⟨x, hx, hxe⟩
            · exact h0
            · exact absurd hxe (hno x hx)
          refine ⟨by omega, fun x hx => ⟨?_, ?_⟩⟩
          · have := hge x hx
            rw [hts] at this
            exact this
          · have := hno x hx
            rw [hts] at this
            exact this
        · rintro ⟨_, hall⟩
          have hts := newestTimestamp_epoch (a :: b :: rest) (fun x hx => (hall x hx).1)
          have hfil : (a :: b :: rest).filter
              (fun x => x.UpdatedAt == newestTimestamp (a :: b :: rest)) = [] := by
            rw [List.filter_eq_nil_iff]
            intro x hx
            rw [hts]
            simpa using (hall x hx).2
          simp only [hfil]

/-! ## Lemmas on `Decrement` -/

/-- The ranking of `id` after `Decrement(id, change)` on a peer set that ranks it `r > 0`:
the `uint` difference, evicted when it is zero. -/
theorem Decrement_lookup (ps : PeerSet) (id : PeerId) (r change : Nat)
    (h : ps.rankings.lookup id = some r) (hr : 0 < r) :
    (ps.Decrement id change).rankings.lookup id =
      (if uintSub r change = 0 then none else some (uintSub r change)) ∧
    (id ∈ (ps.Decrement id change).untrusted ↔ id ∈ ps.untrusted ∨ uintSub r change = 0) := by
  have hra := rankingAt_of_lookup ps id _ h
  have hd : ps.Decrement id change =
      PeerSet.Rank { ps with rankings := ps.rankings.insert id (uintSub r change) } := by
    unfold PeerSet.Decrement
    rw [hra, if_pos (show r > 0 from hr)]
  rw [hd]
  constructor
  · rw [Rank_lookup]
    simp only [AList.lookup_insert]
    by_cases h0 : uintSub r change = 0
    · simp [h0]
    · simp [h0]
  · rw [Rank_mem_untrusted]
    simp only [AList.lookup_insert]
    simp

/-- Go `a - b` on `uint` for `a < b`: the difference wraps around. -/
theorem uintSub_wrap (a b : Nat) (hab : a < b) (hb : b < UINT_MOD) :
    uintSub a b = a + UINT_MOD - b := by
  unfold uintSub
  have hb' : b % UINT_MOD = b := Nat.mod_eq_of_lt hb
  rw [hb']
  exact Nat.mod_eq_of_lt (by omega)

/-! ## Lemmas on the JSON form of a transaction -/

theorem transaction_fields_lookup (a b c d : JsonValue) :
    List.lookup jsonKeyId
        [(jsonKeyId, a), (jsonKeyPublicKey, b), (jsonKeyCost, c), (jsonKeyData, d)] = some a ∧
    List.lookup jsonKeyPublicKey
        [(jsonKeyId, a), (jsonKeyPublicKey, b), (jsonKeyCost, c), (jsonKeyData, d)] = some b ∧
    List.lookup jsonKeyCost
        [(jsonKeyId, a), (jsonKeyPublicKey, b), (jsonKeyCost, c), (jsonKeyData, d)] = some c ∧
    List.lookup jsonKeyData
        [(jsonKeyId, a), (jsonKeyPublicKey, b), (jsonKeyCost, c), (jsonKeyData, d)] = some d :=
  ⟨rfl, rfl, rfl, rfl⟩

theorem key_fields_lookup (a b : JsonValue) :
    List.lookup jsonKeyN [(jsonKeyE, a), (jsonKeyN, b)] = some b ∧
    List.lookup jsonKeyE [(jsonKeyE, a), (jsonKeyN, b)] = some a :=
  ⟨rfl, rfl⟩

/-- `PublicKey.UnmarshalJSON` reads back the key from the text that `PublicKey.MarshalJSON`
wrote, when the JSON decoder reads back the object, `SetString` reads back the decimal
text of `N`, and `E` is a Go `int`. -/
theorem UnmarshalJSON_MarshalJSON (lib : Lib) (dlib : DecodeLib) (p : PublicKey) (text : Bytes)
    (hm : PublicKey.MarshalJSON lib p = some text)
    (hE : -9223372036854775808 ≤ p.E ∧ p.E < 9223372036854775808)
    (hN : dlib.bigIntSetString (lib.bigIntString p.N) = some p.N)
    (hread : ReadsBack lib dlib
      [(jsonKeyE, .number p.E), (jsonKeyN, .string (lib.bigIntString p.N))]) :
    PublicKey.UnmarshalJSON dlib text = some p := by
  unfold PublicKey.UnmarshalJSON
  rw [hread text hm]
  simp only [jsonStringField, jsonIntField, (key_fields_lookup _ _).1, (key_fields_lookup _ _).2,
    if_pos hE, hN]

/-- `json.Unmarshal` into a `Transaction` reads back the four fields from the text that
`json.Marshal` wrote for them. -/
theorem uuid_field_read (dlib : DecodeLib) (s : Bytes) (b c d : JsonValue) :
    jsonUUIDField dlib
      [(jsonKeyId, .string s), (jsonKeyPublicKey, b), (jsonKeyCost, c), (jsonKeyData, d)]
      jsonKeyId = dlib.uuidUnmarshalText s := by
  simp only [jsonUUIDField, (transaction_fields_lookup _ _ _ _).1]

theorem publicKey_field_null (dlib : DecodeLib) (a c d : JsonValue) :
    jsonPublicKeyField dlib
      [(jsonKeyId, a), (jsonKeyPublicKey, .null), (jsonKeyCost, c), (jsonKeyData, d)]
      jsonKeyPublicKey = some none := by
  simp only [jsonPublicKeyField, (transaction_fields_lookup _ _ _ _).2.1]

theorem publicKey_field_raw (dlib : DecodeLib) (text : Bytes) (a c d : JsonValue) :
    jsonPublicKeyField dlib
      [(jsonKeyId, a), (jsonKeyPublicKey, .raw text), (jsonKeyCost, c), (jsonKeyData, d)]
      jsonKeyPublicKey =
        match PublicKey.UnmarshalJSON dlib text with
        | none => none
        | some p => some (some p) := by
  simp only [jsonPublicKeyField, (transaction_fields_lookup _ _ _ _).2.1]

theorem uint_field_read (cost : Nat) (hcost : cost < UINT_MOD) (a b d : JsonValue) :
    jsonUintField
      [(jsonKeyId, a), (jsonKeyPublicKey, b), (jsonKeyCost, .number cost), (jsonKeyData, d)]
      jsonKeyCost = some cost := by
  have hc : (0 : Int) ≤ (cost : Int) ∧ (cost : Int) < 18446744073709551616 := by
    unfold UINT_MOD at hcost
    constructor <;> omega
  simp only [jsonUintField, (transaction_fields_lookup _ _ _ _).2.2.1, if_pos hc,
    Int.toNat_ofNat]

theorem bytes_field_read (dlib : DecodeLib) (s : Bytes) (a b c : JsonValue) :
    jsonBytesField dlib
      [(jsonKeyId, a), (jsonKeyPublicKey, b), (jsonKeyCost, c), (jsonKeyData, .string s)]
      jsonKeyData = dlib.base64DecodeString s := by
  simp only [jsonBytesField, (transaction_fields_lookup _ _ _ _).2.2.2]

theorem unmarshalTransaction_marshalTransaction (lib : Lib) (dlib : DecodeLib) (id : UUID)
    (publicKey : Option PublicKey) (cost : Nat) (data json : Bytes)
    (hjson : lib.marshalTransaction id publicKey cost data = some json)
    (hcost : cost < UINT_MOD)
    (hE : ∀ p, publicKey = some p → -9223372036854775808 ≤ p.E ∧ p.E < 9223372036854775808)
    (hdata : dlib.base64DecodeString (lib.base64EncodeToString data) = some data)
    (hid : dlib.uuidUnmarshalText (lib.uuidMarshalText id) = some id)
    (hN : ∀ p, publicKey = some p → dlib.bigIntSetString (lib.bigIntString p.N) = some p.N)
    (hkey : ∀ p, publicKey = some p → ReadsBack lib dlib
      [(jsonKeyE, .number p.E), (jsonKeyN, .string (lib.bigIntString p.N))])
    (hobj : ∀ key, marshalPublicKeyField lib publicKey = some key → ReadsBack lib dlib
      [(jsonKeyId, .string (lib.uuidMarshalText id)), (jsonKeyPublicKey, key),
        (jsonKeyCost, .number cost), (jsonKeyData, .string (lib.base64EncodeToString data))]) :
    dlib.unmarshalTransaction json = some (id, publicKey, cost, data) := by
  unfold Lib.marshalTransaction at hjson
  unfold DecodeLib.unmarshalTransaction
  cases hkeyJson : marshalPublicKeyField lib publicKey with
  | none => simp [hkeyJson] at hjson
  | some key =>
    simp only [hkeyJson] at hjson
    rw [hobj key hkeyJson json hjson]
    dsimp only
    cases hp : publicKey with
    | none =>
      rw [hp] at hkeyJson
      simp only [marshalPublicKeyField, Option.some.injEq] at hkeyJson
      subst hkeyJson
      rw [uuid_field_read, publicKey_field_null, uint_field_read cost hcost, bytes_field_read,
        hid, hdata]
    | some p =>
      rw [hp] at hkeyJson
      cases hm : PublicKey.MarshalJSON lib p with
      | none => simp [marshalPublicKeyField, hm] at hkeyJson
      | some text =>
        simp only [marshalPublicKeyField, hm, Option.some.injEq] at hkeyJson
        subst hkeyJson
        have hu := UnmarshalJSON_MarshalJSON lib dlib p text hm (hE p hp) (hN p hp) (hkey p hp)
        rw [uuid_field_read, publicKey_field_raw, uint_field_read cost hcost, bytes_field_read,
          hid, hdata, hu]

/-! ## Lemmas on the order of the newest appendages -/

theorem filter_split_at {α : Type} (p : α → Bool) (l m1 : List α) (a : α) (m2 : List α)
    (h : l.filter p = m1 ++ a :: m2) :
    ∃ l1 l2, l = l1 ++ a :: l2 ∧ l1.filter p = m1 := by
  induction l generalizing m1 with
  | nil => cases m1 <;> simp at h
  | cons y ys ih =>
    by_cases hy : p y = true
    · rw [List.filter_cons_of_pos hy] at h
      cases m1 with
      | nil =>
        simp only [List.nil_append, List.cons.injEq] at h
        exact ⟨[], ys, by rw [h.1]; rfl, rfl⟩
      | cons z m1 =>
        simp only [List.cons_append, List.cons.injEq] at h
        obtain ⟨l1, l2, e1, e2⟩ := ih m1 h.2
        refine ⟨y :: l1, l2, by rw [e1]; rfl, ?_⟩
        rw [List.filter_cons_of_pos hy, e2, h.1]
    · rw [List.filter_cons_of_neg hy] at h
      obtain ⟨l1, l2, e1, e2⟩ := ih m1 h
      refine ⟨y :: l1, l2, by rw [e1]; rfl, ?_⟩
      rw [List.filter_cons_of_neg hy, e2]

theorem foldl_newest_first (l : List BlockchainAppendage) (init : Time) :
    l.foldl (fun timestamp a => if a.UpdatedAt.After timestamp then a.UpdatedAt
      else timestamp) init = init ∨
    ∃ l1 x l2, l = l1 ++ x :: l2 ∧
      x.UpdatedAt = l.foldl (fun timestamp a =>
        if a.UpdatedAt.After timestamp then a.UpdatedAt else timestamp) init ∧
      init.instant < x.UpdatedAt.instant ∧
      ∀ y ∈ l1, y.UpdatedAt.instant < x.UpdatedAt.instant := by
  induction l generalizing init with
  | nil => exact Or.inl rfl
  | cons x xs ih =>
    simp only [List.foldl_cons]
    by_cases hx : x.UpdatedAt.After init = true
    · rw [if_pos hx]
      have hlt : init.instant < x.UpdatedAt.instant := by simpa [Time.After] using hx
      rcases ih x.UpdatedAt with h | ⟨l1, y, l2, e, hy, hlt2, hall⟩
      · exact Or.inr ⟨[], x, xs, rfl, h.symm, hlt, by simp⟩
      · refine Or.inr ⟨x :: l1, y, l2, by rw [e]; rfl, hy, by omega, ?_⟩
        intro z hz
        rcases List.mem_cons.mp hz with rfl | hz
        · exact hlt2
        · exact hall z hz
    · rw [if_neg hx]
      have hle : x.UpdatedAt.instant ≤ init.instant := by
        simp [Time.After] at hx; exact hx
      rcases ih init with h | ⟨l1, y, l2, e, hy, hlt2, hall⟩
      · exact Or.inl h
      · refine Or.inr ⟨x :: l1, y, l2, by rw [e]; rfl, hy, hlt2, ?_⟩
        intro z hz
        rcases List.mem_cons.mp hz with rfl | hz
        · omega
        · exact hall z hz

/-- An appendage that `PrimaryAppendage` returns with an `UpdatedAt` after the epoch is
the first of the list among the longest appendages with the greatest instant: every
longest appendage before it has an earlier instant. -/
theorem PrimaryAppendage_first_newest (c : Blockchain) (a : BlockchainAppendage)
    (h : c.PrimaryAppendage = some a) (hpos : 0 < a.UpdatedAt.instant) :
    ∃ l1 l2, c.Appendages = l1 ++ a :: l2 ∧
      ∀ x ∈ l1, x.Length = c.longestAppendageLength →
        x.UpdatedAt.instant < a.UpdatedAt.instant := by
  have hL : c.LongestAppendages =
      c.Appendages.filter fun x => x.Length == c.longestAppendageLength := rfl
  have key : ∃ m1 m2, c.LongestAppendages = m1 ++ a :: m2 ∧
      ∀ x ∈ m1, x.UpdatedAt.instant < a.UpdatedAt.instant := by
    unfold Blockchain.PrimaryAppendage at h
    split at h
    · exact absurd h (by simp)
    · rename_i a0 heq
      injection h with h
      subst h
      exact ⟨[], [], by rw [heq]; rfl, by simp⟩
    · rename_i L hne1 hne2
      simp only at h
      split at h
      · exact absurd h (by simp)
      · rename_i m rest heq
        injection h with h
        subst h
        have hm := (filter_head_first _ _ _ _ heq).1
        have hts : m.UpdatedAt = newestTimestamp c.LongestAppendages := by simpa using hm
        rcases foldl_newest_first c.LongestAppendages Time.unixEpoch with
          h0 | ⟨l1, y, l2, e, hy, -, hall⟩
        · have : newestTimestamp c.LongestAppendages = Time.unixEpoch := h0
          rw [this] at hts
          rw [hts] at hpos
          exact absurd hpos (by decide)
        · have hy2 : y.UpdatedAt = newestTimestamp c.LongestAppendages := hy
          clear hy hts hm
          generalize newestTimestamp c.LongestAppendages = ts at heq hy2
          rw [e, List.filter_append, List.filter_cons_of_pos (by simp [hy2])] at heq
          have hnil : l1.filter (fun a => a.UpdatedAt == ts) = [] := by
            rw [List.filter_eq_nil_iff]
            intro z hz hzeq
            have hlt := hall z hz
            have hzeq2 : z.UpdatedAt = ts := by simpa using hzeq
            rw [hzeq2, hy2] at hlt
            omega
          rw [hnil] at heq
          injection heq with h1 h2
          subst h1
          exact ⟨l1, l2, e, hall⟩
  obtain ⟨m1, m2, hm, hall⟩ := key
  rw [hL] at hm
  obtain ⟨l1, l2, e1, e2⟩ := filter_split_at _ _ _ _ _ hm
  refine ⟨l1, l2, e1, ?_⟩
  intro x hx hlen
  apply hall x
  rw [← e2]
  simp [List.mem_filter, hx, hlen]

/-! ## Lemmas on the extension of an appendage -/

/-- A mined block that is not indexed yet and whose previous reference resolves to a
block `P` with the hash pointer of the head of an appendage: the call returns true and
the first such appendage is extended by the block, in `uint` arithmetic; the other
appendages stay. -/
theorem place_extends_matching_head (fuel : Nat) (now : Time) (s : State)
    (block : Nat) (hash : BlockHash) (P i : Nat) (A : BlockchainAppendage) (head : Nat)
    (hmined : (s.blocks block).Hash = some hash) (hfresh : s.chain.index hash = none)
    (hprev : resolvePrevious (Blockchain.InsertBlock s block).2.chain (s.blocks block) = some P)
    (hA : s.chain.Appendages[i]? = some A) (hhead : A.Head = some head)
    (hsame : sameHashPointer s head P = true)
    (hfirst : ∀ j : Nat, j < i → ∀ A' head', s.chain.Appendages[j]? = some A' →
      A'.Head = some head' → sameHashPointer s head' P = false) :
    ∃ s', Blockchain.InsertBlockAndPlaceIntoAppendage fuel now s block = some (true, s') ∧
      s'.chain.Appendages = s.chain.Appendages.set i
        { A with Head := some block, Length := uintAdd A.Length 1, UpdatedAt := now } ∧
      s'.chain.Appendages.length = s.chain.Appendages.length ∧
      (∃ A', s'.chain.Appendages[i]? = some A' ∧ A'.Head = some block ∧
        A'.Length = uintAdd A.Length 1 ∧ A'.Genesis = A.Genesis ∧ A'.UpdatedAt = now) ∧
      (A.Length + 1 < UINT_MOD → uintAdd A.Length 1 = A.Length + 1) ∧
      (∀ j : Nat, j ≠ i → s'.chain.Appendages[j]? = s.chain.Appendages[j]?) ∧
      s'.chain.GetBlockWithHash hash = some block := by
  obtain ⟨s1, hs1, heq⟩ := place_resolved fuel now s block hash P hmined hfresh hprev
  have happs : s1.chain.Appendages = s.chain.Appendages := by
    rw [hs1.1, InsertBlock_appendages]
  have hptr : ∀ x y, sameHashPointer s1 x y = sameHashPointer s x y := fun x y =>
    sameHashPointer_congr s s1 (fun q => ((hs1.2 q).1).trans (InsertBlock_hash s block q)) x y
  have hext := extendAppendage_hit s1 block P now s.chain.Appendages i A head hA hhead
    (by rw [hptr]; exact hsame)
    (fun j hj A' head' h1 h2 => by rw [hptr]; exact hfirst j hj A' head' h1 h2)
  rw [happs, hext] at heq
  have hi : i < s.chain.Appendages.length := by
    rcases List.getElem?_eq_some.mp hA with ⟨h, _⟩
    exact h
  refine ⟨_, heq, rfl, by simp, ?_, ?_, ?_, ?_⟩
  · exact ⟨{ A with Head := some block, Length := uintAdd A.Length 1, UpdatedAt := now },
      by simp [List.getElem?_set, hi], rfl, rfl, rfl, rfl⟩
  · intro h
    exact Nat.mod_eq_of_lt h
  · intro j hj
    simp [List.getElem?_set, Ne.symm hj]
  · show s1.chain.GetBlockWithHash hash = some block
    rw [hs1.1]
    exact InsertBlock_lookup s block hash hmined hfresh
/-! ## Claims -/

/-- C1 fails on the code: `Verify` never reads the stored hash.  Replacing the
stored hash of a block by any other value (or by nil) leaves the answer of
`Verify` unchanged, as long as the block is not its own predecessor.  At block
`2` of `candidateState` the stored hash is `acceptedHash 9` while the digest of
the payload is `acceptedHash 0`: `Verify` returns true, and the handler of
`POST /v1/blocks` indexes the block under the stored hash. -/
theorem C1_Verify_ignores_stored_hash :
    (∀ (lib : Lib) (s : State) (b : Nat) (x : Option BlockHash),
      resolvePrevious s.chain (s.blocks b) ≠ some b →
      (Block.Verify lib (s.setHash b x) b).1 = (Block.Verify lib s b).1) ∧
    (candidateState.blocks 2).Hash = some (acceptedHash 9) ∧
    (Block.SerializePayload exampleLib candidateState 2).1 = .ok [2, 0] ∧
    exampleLib.sha256Sum256 [2, 0] = acceptedHash 0 ∧
    acceptedHash 0 ≠ acceptedHash 9 ∧
    (Block.Verify exampleLib candidateState 2).1 = .ok true ∧
    ∃ s', postBlock exampleLib 0 (utc 9) candidateState 2 = some (.ok (.statusOk true), s') ∧
      s'.chain.GetBlockWithHash (acceptedHash 9) = some 2 ∧
      s'.chain.GetBlockWithHash (acceptedHash 0) = none := by
  refine ⟨?_, rfl, by decide, by decide, by decide, by decide, ⟨_, rfl, by decide, by decide⟩⟩
  intro lib s b x hself
  have hd : Block.VerifyData lib (s.setHash b x) b = Block.VerifyData lib s b := by
    simp [Block.VerifyData, State.setHash, State.setBlock]
  have hp : payloadOutcome lib (s.setHash b x) b = payloadOutcome lib s b := by
    apply payloadOutcome_congr
    · simp [State.setHash, State.setBlock]
    · simp [State.setHash, State.setBlock]
    · simp [State.setHash, State.setBlock]
    · refine previousHashText_congr s (s.setHash b x) b rfl ?_ ?_
      · simp [State.setHash, State.setBlock, resolvePrevious]
      · intro u hu
        have hub : u ≠ b := fun h => hself (by rw [hu, h])
        simp [State.setHash, State.setBlock, hub]
  have hv : (Block.VerifyHash lib (s.setHash b x) b).1 = (Block.VerifyHash lib s b).1 := by
    rw [VerifyHash_eq, VerifyHash_eq, hp]
  unfold Block.Verify
  rw [hd]
  cases Block.VerifyData lib s b with
  | error => rfl
  | panic => rfl
  | ok v =>
    cases v with
    | false => rfl
    | true =>
      simp only
      cases h1 : Block.VerifyHash lib (s.setHash b x) b with
      | mk o1 s1 =>
        cases h2 : Block.VerifyHash lib s b with
        | mk o2 s2 =>
          rw [h1, h2] at hv
          simp only at hv
          subst hv
          cases o1 with
          | error => rfl
          | panic => rfl
          | ok oh => cases oh <;> rfl

/-- C2. `Verify` returns `(true, nil)` if and only if every contained
transaction verifies and the payload serializes to bytes whose SHA-256 digest
`TestHash` accepts.  In particular, for a block whose payload serializes to a
digest that `TestHash` rejects, `Verify` does not return true, and the handler
of `POST /v1/blocks` answers with an error and leaves the index and the
appendages of the chain unchanged. -/
theorem C2_Verify_iff_transactions_and_digest (lib : Lib) (s : State) (b : Nat) :
    ((Block.Verify lib s b).1 = .ok true ↔
      (∀ t ∈ (s.blocks b).Data, t.Verify lib = .ok true) ∧
      ∃ payload, (Block.SerializePayload lib s b).1 = .ok payload ∧
        TestHash (lib.sha256Sum256 payload) = true) ∧
    (∀ payload, (Block.SerializePayload lib s b).1 = .ok payload →
      TestHash (lib.sha256Sum256 payload) = false →
      (Block.Verify lib s b).1 ≠ .ok true ∧
      ∀ fuel now, ∃ r s', postBlock lib fuel now s b = some (r, s') ∧
        (r = .ok .errorVerifying ∨ r = .ok .rejected ∨ r = .panic) ∧
        s'.chain.index = s.chain.index ∧ s'.chain.Appendages = s.chain.Appendages) := by
  have hiff : (Block.Verify lib s b).1 = .ok true ↔
      (∀ t ∈ (s.blocks b).Data, t.Verify lib = .ok true) ∧
      ∃ payload, (Block.SerializePayload lib s b).1 = .ok payload ∧
        TestHash (lib.sha256Sum256 payload) = true := by
    rw [Verify_ok_true, Block.VerifyData, verifyTransactions_ok_true]
    constructor
    · rintro ⟨h1, h, hh⟩
      obtain ⟨payload, hp, hs, ht⟩ := (VerifyHash_ok_some lib s b h).mp hh
      exact ⟨h1, payload, hp, by rw [hs]; exact ht⟩
    · rintro ⟨h1, payload, hp, ht⟩
      exact ⟨h1, _, (VerifyHash_ok_some lib s b _).mpr ⟨payload, hp, rfl, ht⟩⟩
  refine ⟨hiff, ?_⟩
  intro payload hp ht
  have hne : (Block.Verify lib s b).1 ≠ .ok true := by
    intro hv
    obtain ⟨_, payload', hp', ht'⟩ := hiff.mp hv
    rw [hp] at hp'
    injection hp' with hp'
    subst hp'
    rw [ht] at ht'
    exact absurd ht' (by simp)
  refine ⟨hne, fun fuel now => ?_⟩
  have hc := Verify_chain lib s b
  unfold postBlock
  cases hv : Block.Verify lib s b with
  | mk o s1 =>
    rw [hv] at hc hne
    simp only at hc hne
    cases o with
    | error => exact ⟨_, _, rfl, Or.inl rfl, by rw [hc], by rw [hc]⟩
    | panic => exact ⟨_, _, rfl, Or.inr (Or.inr rfl), by rw [hc], by rw [hc]⟩
    | ok v =>
      cases v with
      | false => exact ⟨_, _, rfl, Or.inr (Or.inl rfl), by rw [hc], by rw [hc]⟩
      | true => exact absurd rfl hne

/-- C3, amended. For an unmined block for which some nonce below `MaxUint` gives
a payload that serializes to an accepted digest: `Mine` returns, the block then
stores a hash that is the SHA-256 digest of its payload and that `TestHash`
accepts (`VerifyHash` returns it), and `Verify` returns true if and only if
every contained transaction verifies. -/
theorem C3_Mine_establishes_hash (lib : Lib) (MaxUint : Nat) (s : State) (b : Nat)
    (hunmined : (s.blocks b).Hash = none)
    (hfound : ∃ n, n < MaxUint ∧
      ∃ h, (Block.VerifyHash lib (s.setNumber b n) b).1 = .ok (some h)) :
    (Block.Mine lib MaxUint s b).1 = .ok () ∧
    ∃ h payload,
      ((Block.Mine lib MaxUint s b).2.blocks b).Hash = some h ∧
      (Block.SerializePayload lib (Block.Mine lib MaxUint s b).2 b).1 = .ok payload ∧
      lib.sha256Sum256 payload = h ∧ TestHash h = true ∧
      (Block.VerifyHash lib (Block.Mine lib MaxUint s b).2 b).1 = .ok (some h) ∧
      ((Block.Verify lib (Block.Mine lib MaxUint s b).2 b).1 = .ok true ↔
        ∀ t ∈ ((Block.Mine lib MaxUint s b).2.blocks b).Data, t.Verify lib = .ok true) := by
  obtain ⟨m0, h, _, hacc, _, hmine⟩ := Mine_found lib MaxUint s b hfound
  obtain ⟨pl, hpl, hsha, htest⟩ := VerifyHash_ok_some_payload lib _ b h hacc
  have hpay := payloadOutcome_mined lib s b m0 (some h) pl hunmined hpl
  rw [hmine]
  have hser : (Block.SerializePayload lib
      (((settled lib s b).setNumber b m0).setHash b (some h)) b).1 = .ok pl := by
    rw [SerializePayload_eq]; exact hpay
  have hvh : (Block.VerifyHash lib
      (((settled lib s b).setNumber b m0).setHash b (some h)) b).1 = .ok (some h) :=
    (VerifyHash_ok_some lib _ b h).mpr ⟨pl, hser, hsha, htest⟩
  refine ⟨rfl, h, pl, ?_, hser, hsha, htest, hvh, ?_⟩
  · simp [State.setHash, State.setBlock]
  · rw [Verify_ok_true, Block.VerifyData, verifyTransactions_ok_true]
    constructor
    · rintro ⟨h1, _⟩; exact h1
    · intro h1; exact ⟨h1, h, hvh⟩

/-- C3 at block `0` of `candidateState`: the nonce 2 is accepted, the
transaction verifies, and `Verify` returns true after `Mine`. -/
theorem C3_Mine_establishes_hash_witness :
    (candidateState.blocks 0).Hash = none ∧
    (Block.VerifyHash exampleLib (candidateState.setNumber 0 2) 0).1 =
      .ok (some (acceptedHash 1)) ∧
    (Block.Mine exampleLib (2 ^ 64 - 1) candidateState 0).1 = .ok () ∧
    (Block.Verify exampleLib (Block.Mine exampleLib (2 ^ 64 - 1) candidateState 0).2 0).1 =
      .ok true := by
  have hw := C3_Mine_establishes_hash exampleLib (2 ^ 64 - 1) candidateState 0 rfl
    ⟨2, by norm_num, acceptedHash 1, by decide⟩
  refine ⟨rfl, by decide, hw.1, ?_⟩
  obtain ⟨h, payload, _, _, _, _, _, hiff⟩ := hw.2
  rw [hiff]
  decide

/-- C3 as stated fails for a block with a transaction that does not verify:
block `1` of `candidateState` is unmined, `Mine` returns and stores the
accepted digest of the payload with nonce 2, and `Verify` then returns an
error, not true. -/
theorem C3_counterexample_unverified_transaction :
    (candidateState.blocks 1).Hash = none ∧
    (Block.Mine exampleLib (2 ^ 64 - 1) candidateState 1).1 = .ok () ∧
    ((Block.Mine exampleLib (2 ^ 64 - 1) candidateState 1).2.blocks 1).Hash = some (acceptedHash 1) ∧
    ((Block.Mine exampleLib (2 ^ 64 - 1) candidateState 1).2.blocks 1).Number = 2 ∧
    (Block.VerifyHash exampleLib (Block.Mine exampleLib (2 ^ 64 - 1) candidateState 1).2 1).1 =
      .ok (some (acceptedHash 1)) ∧
    (Block.Verify exampleLib (Block.Mine exampleLib (2 ^ 64 - 1) candidateState 1).2 1).1 = .error := by
  refine ⟨rfl, by decide, by decide, by decide, by decide, by decide⟩

/-- C4. For every 32-byte hash `h`, `TestHash h` holds exactly when the first
four characters of the lowercase hex text of `h` are `'0'`, and that holds
exactly when the first two bytes of `h` (its top 16 bits) are zero. -/
theorem C4_TestHash_iff_top16_zero (h : BlockHash) :
    (TestHash h = true ↔
      (sprintfHex h.val).take 4 = [asciiZero, asciiZero, asciiZero, asciiZero]) ∧
    ((sprintfHex h.val).take 4 = [asciiZero, asciiZero, asciiZero, asciiZero] ↔
      (h.val[0]? = some 0 ∧ h.val[1]? = some 0)) := by
  obtain ⟨l, hl⟩ := h
  match l, hl with
  | [], hl => simp at hl
  | [_], hl => simp at hl
  | b0 :: b1 :: rest, hl =>
    have e : (sprintfHex (b0 :: b1 :: rest)).take 4 =
        [hexDigit (b0.val / 16), hexDigit (b0.val % 16),
         hexDigit (b1.val / 16), hexDigit (b1.val % 16)] := by
      simp [sprintfHex, hexByte]
    have t : TestHash ⟨b0 :: b1 :: rest, hl⟩ = true ↔
        ((hexDigit (b0.val / 16) = asciiZero ∧ hexDigit (b0.val % 16) = asciiZero) ∧
         (hexDigit (b1.val / 16) = asciiZero ∧ hexDigit (b1.val % 16) = asciiZero)) := by
      simp [TestHash, HASH_ZERO_PREFIX_LENGTH, sprintfHex, hexByte, List.range_succ, and_assoc]
    refine ⟨?_, ?_⟩
    · rw [t, e]
      simp [and_assoc]
    · rw [e]
      have h0 := hexByte_eq_zeros_iff b0
      have h1 := hexByte_eq_zeros_iff b1
      simp only [List.cons.injEq, and_true, List.getElem?_cons_zero, List.getElem?_cons_succ,
        Option.some.injEq]
      constructor
      · rintro ⟨a, b, c, d⟩
        exact ⟨h0.mp ⟨a, b⟩, h1.mp ⟨c, d⟩⟩
      · rintro ⟨a, b⟩
        obtain ⟨x, y⟩ := h0.mpr a
        obtain ⟨z, w⟩ := h1.mpr b
        exact ⟨x, y, z, w⟩

/-- C5. `InsertBlock` returns false and leaves the hash index unchanged when the
block is unmined or its hash is already a key of the index; otherwise it
returns true, `GetBlockWithHash` of the block's hash then returns the block and
every other key maps to what it mapped to before.  In every case the appendage
list (and the memory of the blocks) is unchanged. -/
theorem C5_InsertBlock_index (s : State) (block : Nat) :
    (((s.blocks block).Hash = none ∨
        ∃ h, (s.blocks block).Hash = some h ∧ s.chain.index h ≠ none) →
      (Blockchain.InsertBlock s block).1 = false ∧
      (Blockchain.InsertBlock s block).2.chain.index = s.chain.index) ∧
    (∀ h, (s.blocks block).Hash = some h → s.chain.index h = none →
      (Blockchain.InsertBlock s block).1 = true ∧
      (Blockchain.InsertBlock s block).2.chain.GetBlockWithHash h = some block ∧
      ∀ k, k ≠ h → (Blockchain.InsertBlock s block).2.chain.GetBlockWithHash k =
        s.chain.GetBlockWithHash k) ∧
    (Blockchain.InsertBlock s block).2.chain.Appendages = s.chain.Appendages ∧
    (Blockchain.InsertBlock s block).2.blocks = s.blocks := by
  refine ⟨?_, ?_, ?_, ?_⟩
  · intro h
    rw [InsertBlock_refused s block h]
    exact ⟨rfl, rfl⟩
  · intro h hh hi
    rw [InsertBlock_fresh s block h hh hi]
    refine ⟨rfl, ?_, ?_⟩
    · simp [Blockchain.GetBlockWithHash]
    · intro k hk
      simp [Blockchain.GetBlockWithHash, hk]
  · cases hh : (s.blocks block).Hash with
    | none => rw [InsertBlock_unmined s block hh]
    | some h =>
      cases hi : s.chain.index h with
      | none => rw [InsertBlock_fresh s block h hh hi]
      | some x => rw [InsertBlock_indexed s block h hh (by simp [hi])]
  · cases hh : (s.blocks block).Hash with
    | none => rw [InsertBlock_unmined s block hh]
    | some h =>
      cases hi : s.chain.index h with
      | none => rw [InsertBlock_fresh s block h hh hi]
      | some x => rw [InsertBlock_indexed s block h hh (by simp [hi])]

/-- C5, evaluated: in `chainState` the unmined block `5` and the indexed block
`1` are refused, the mined block `3` is accepted and then found under its hash. -/
theorem C5_InsertBlock_index_witness :
    (Blockchain.InsertBlock chainState 5).1 = false ∧
    (Blockchain.InsertBlock chainState 1).1 = false ∧
    (Blockchain.InsertBlock chainState 3).1 = true ∧
    (Blockchain.InsertBlock chainState 3).2.chain.GetBlockWithHash (acceptedHash 3) = some 3 :=
  ⟨((C5_InsertBlock_index chainState 5).1 (Or.inl rfl)).1,
   ((C5_InsertBlock_index chainState 1).1
      (Or.inr ⟨acceptedHash 1, rfl, by decide⟩)).1,
   ((C5_InsertBlock_index chainState 3).2.1 (acceptedHash 3) rfl (by decide)).1,
   ((C5_InsertBlock_index chainState 3).2.1 (acceptedHash 3) rfl (by decide)).2.1⟩

/-- C6. For a block that is unmined or whose hash is already indexed,
`InsertBlockAndPlaceIntoAppendage` returns false (whatever the fuel) and the
appendage list, the hash index and the memory are what they were. -/
theorem C6_InsertBlockAndPlace_refused (fuel : Nat) (now : Time) (s : State) (block : Nat)
    (h : (s.blocks block).Hash = none ∨
        ∃ hash, (s.blocks block).Hash = some hash ∧ s.chain.index hash ≠ none) :
    ∃ s', Blockchain.InsertBlockAndPlaceIntoAppendage fuel now s block = some (false, s') ∧
      s'.chain.Appendages = s.chain.Appendages ∧ s'.chain.index = s.chain.index ∧
      s'.blocks = s.blocks := by
  refine ⟨s, ?_, rfl, rfl, rfl⟩
  simp [Blockchain.InsertBlockAndPlaceIntoAppendage, InsertBlock_refused s block h]

/-- C6 at the indexed block `1` of `chainState`. -/
theorem C6_InsertBlockAndPlace_refused_witness :
    (∃ hash, (chainState.blocks 1).Hash = some hash ∧ chainState.chain.index hash ≠ none) ∧
    ∃ s', Blockchain.InsertBlockAndPlaceIntoAppendage 0 (utc 9) chainState 1 = some (false, s') ∧
      s'.chain.Appendages = chainState.chain.Appendages ∧
      s'.chain.index = chainState.chain.index ∧ s'.blocks = chainState.blocks :=
  ⟨⟨acceptedHash 1, rfl, by decide⟩,
   C6_InsertBlockAndPlace_refused 0 (utc 9) chainState 1
     (Or.inr ⟨acceptedHash 1, rfl, by decide⟩)⟩

/-- C7: the first loop of `InsertBlockAndPlaceIntoAppendage` compares the pointers
`appendage.Head.Hash == blockPrevious.Hash`, not the hashes. When the head of an
appendage is the block `P` itself that the previous reference resolves to, the call
returns true, the first such appendage gets `Head = block`, `Length + 1` in `uint`
arithmetic and keeps its `Genesis`, and the other appendages stay. When the head is
another block with the hash of `P` the appendage is not extended: in `copiedHeadState`,
the chain after the sync of the appendages `g <- x <- y` and `g <- x`, the head `4` of the
second appendage is a second decoded copy of the indexed block `2`; block `7` is mined, not
indexed, and its previous reference resolves to block `2`, whose hash is the hash of that
head; the call returns true and leaves both appendages as they are, with a third
appendage of head `7`. And in `wrappedState` the appendage extended by block `5` has the
length `2 ^ 64 - 1`, and its length becomes 0. -/
theorem C7_place_compares_hash_pointers :
    (∀ (fuel : Nat) (now : Time) (s : State) (block : Nat) (hash : BlockHash) (P i : Nat)
      (A : BlockchainAppendage) (head : Nat),
      (s.blocks block).Hash = some hash → s.chain.index hash = none →
      resolvePrevious (Blockchain.InsertBlock s block).2.chain (s.blocks block) = some P →
      s.chain.Appendages[i]? = some A → A.Head = some head →
      sameHashPointer s head P = true →
      (∀ j : Nat, j < i → ∀ A' head', s.chain.Appendages[j]? = some A' →
        A'.Head = some head' → sameHashPointer s head' P = false) →
      ∃ s', Blockchain.InsertBlockAndPlaceIntoAppendage fuel now s block = some (true, s') ∧
        s'.chain.Appendages = s.chain.Appendages.set i
          { A with Head := some block, Length := uintAdd A.Length 1, UpdatedAt := now } ∧
        s'.chain.Appendages.length = s.chain.Appendages.length ∧
        (A.Length + 1 < UINT_MOD → uintAdd A.Length 1 = A.Length + 1) ∧
        (∀ j : Nat, j ≠ i → s'.chain.Appendages[j]? = s.chain.Appendages[j]?)) ∧
    copiedHeadState.chain.Appendages =
      [⟨some 1, some 0, 3, utc 5⟩, ⟨some 5, some 4, 2, utc 6⟩] ∧
    (copiedHeadState.blocks 7).Hash = some (acceptedHash 3) ∧
    copiedHeadState.chain.index (acceptedHash 3) = none ∧
    resolvePrevious (Blockchain.InsertBlock copiedHeadState 7).2.chain
      (copiedHeadState.blocks 7) = some 2 ∧
    (copiedHeadState.blocks 4).Hash = (copiedHeadState.blocks 2).Hash ∧
    (copiedHeadState.blocks 0).Hash ≠ (copiedHeadState.blocks 2).Hash ∧
    sameHashPointer copiedHeadState 4 2 = false ∧
    (∀ now, (Blockchain.InsertBlockAndPlaceIntoAppendage 3 now copiedHeadState 7).map
        (fun r => (r.1, r.2.chain.Appendages)) =
      some (true, [⟨some 1, some 0, 3, utc 5⟩, ⟨some 5, some 4, 2, utc 6⟩,
        ⟨some 1, some 7, 3, now⟩])) ∧
    wrappedState.chain.Appendages =
      [⟨some 4, some 4, 1, utc 1⟩, ⟨some 0, some 2, 3, utc 4⟩,
        ⟨some 4, some 3, 2 ^ 64 - 1, utc 5⟩] ∧
    (wrappedState.blocks 5).Hash = some (acceptedHash 5) ∧
    wrappedState.chain.index (acceptedHash 5) = none ∧
    resolvePrevious (Blockchain.InsertBlock wrappedState 5).2.chain
      (wrappedState.blocks 5) = some 3 ∧
    (Blockchain.InsertBlockAndPlaceIntoAppendage 3 (utc 6) wrappedState 5).map
        (fun r => (r.1, r.2.chain.Appendages)) =
      some (true, [⟨some 4, some 4, 1, utc 1⟩, ⟨some 0, some 2, 3, utc 4⟩,
        ⟨some 4, some 5, 0, utc 6⟩]) := by
  refine ⟨?_, by decide, by decide, by decide, by decide, by decide, by decide, by decide,
    ?_, by decide, by decide, by decide, by decide, by decide⟩
  · intro fuel now s block hash P i A head hmined hfresh hprev hA hhead hsame hfirst
    obtain ⟨s', h1, h2, h3, -, h5, h6, -⟩ := place_extends_matching_head fuel now s block hash
      P i A head hmined hfresh hprev hA hhead hsame hfirst
    exact ⟨s', h1, h2, h3, h5, h6⟩
  · intro now
    rfl
/-- C8, amended. For a mined block that is not indexed yet and whose previous
reference resolves (against the index that now holds the block) to a block `P`
that has the hash pointer of no appendage head: when `S` is the first
appendage whose backward walk (from the predecessor of its head) meets `P`,
after `d` steps, and the walks of the appendages before `S` all end, then with
enough fuel `InsertBlockAndPlaceIntoAppendage` returns true and the appendage
list is the old one followed by one new appendage with `Genesis = S.Genesis`,
`Head = block` and `Length = S.Length - d` in `uint` arithmetic (the plain
difference when `d ≤ S.Length`). -/
theorem C8_place_forks_from_first_meeting_walk (now : Time) (s : State) (block : Nat)
    (hash : BlockHash) (P : Nat) (l1 : List BlockchainAppendage) (S : BlockchainAppendage)
    (l2 : List BlockchainAppendage) (d : Nat)
    (hmined : (s.blocks block).Hash = some hash) (hfresh : s.chain.index hash = none)
    (hprev : resolvePrevious (Blockchain.InsertBlock s block).2.chain (s.blocks block) = some P)
    (hnohead : ∀ A ∈ s.chain.Appendages, ∀ head, A.Head = some head →
      sameHashPointer s head P = false)
    (happs : s.chain.Appendages = l1 ++ S :: l2)
    (hbefore : ∀ a ∈ l1, walkMisses (Blockchain.InsertBlock s block).2 P a)
    (hS : walkMeets (Blockchain.InsertBlock s block).2 P S d) :
    ∃ fuel0 : Nat, ∀ fuel : Nat, fuel0 ≤ fuel →
      ∃ s', Blockchain.InsertBlockAndPlaceIntoAppendage fuel now s block = some (true, s') ∧
        s'.chain.Appendages =
          s.chain.Appendages ++ [⟨S.Genesis, some block, uintSub S.Length d, now⟩] ∧
        (d ≤ S.Length → S.Length < UINT_MOD → uintSub S.Length d = S.Length - d) ∧
        s'.chain.GetBlockWithHash hash = some block := by
  obtain ⟨f0, hf0⟩ := forkSearch_hit P l1 S l2 d _ hbefore hS
  refine ⟨f0, fun fuel hfuel => ?_⟩
  obtain ⟨s1, hs1, heq⟩ := place_resolved fuel now s block hash P hmined hfresh hprev
  have happs1 : s1.chain.Appendages = s.chain.Appendages := by
    rw [hs1.1, InsertBlock_appendages]
  have hptr : ∀ x y, sameHashPointer s1 x y = sameHashPointer s x y := fun x y =>
    sameHashPointer_congr s s1 (fun q => ((hs1.2 q).1).trans (InsertBlock_hash s block q)) x y
  have hext := extendAppendage_miss s1 block P now s.chain.Appendages
    (fun A hA head hh => by rw [hptr]; exact hnohead A hA head hh)
  obtain ⟨s2, hfork, hs2⟩ := hf0 s1 hs1 fuel hfuel
  rw [happs1, hext, happs, hfork] at heq
  refine ⟨_, heq, ?_, ?_, ?_⟩
  · show s2.chain.Appendages ++ _ = _
    rw [hs2.1, InsertBlock_appendages, uintSub_walkDepth]
  · intro hd hS
    unfold uintSub
    unfold UINT_MOD at hS ⊢
    have hdm : d % 2 ^ 64 = d := Nat.mod_eq_of_lt (by omega)
    rw [hdm]
    have : S.Length + 2 ^ 64 - d = (S.Length - d) + 2 ^ 64 := by omega
    rw [this, Nat.add_mod_right]
    exact Nat.mod_eq_of_lt (by omega)
  · show s2.chain.GetBlockWithHash hash = some block
    rw [hs2.1]
    exact InsertBlock_lookup s block hash hmined hfresh

/-- C8 at block `4` of `chainState`, mined on top of block `0`, which the walk
from the head `2` meets after one step: a second appendage of length 2 with
the genesis of the first. -/
theorem C8_place_forks_from_first_meeting_walk_witness :
    (chainState.blocks 4).Hash = some (acceptedHash 4) ∧
    chainState.chain.index (acceptedHash 4) = none ∧
    resolvePrevious (Blockchain.InsertBlock chainState 4).2.chain (chainState.blocks 4) = some 0 ∧
    walkMeets (Blockchain.InsertBlock chainState 4).2 0 ⟨some 0, some 2, 3, utc 5⟩ 1 ∧
    ∃ fuel0 : Nat, ∀ fuel : Nat, fuel0 ≤ fuel →
      ∃ s', Blockchain.InsertBlockAndPlaceIntoAppendage fuel (utc 9) chainState 4 =
          some (true, s') ∧
        s'.chain.Appendages = [⟨some 0, some 2, 3, utc 5⟩, ⟨some 0, some 4, 2, utc 9⟩] := by
  have hmeets : walkMeets (Blockchain.InsertBlock chainState 4).2 0
      ⟨some 0, some 2, 3, utc 5⟩ 1 := by
    refine ⟨2, 0, rfl, by decide, by decide, ?_⟩
    intro k hk q' hq'
    obtain rfl : k = 0 := by omega
    have h1 : ancestor (Blockchain.InsertBlock chainState 4).2 1 2 = some 1 := by decide
    rw [h1] at hq'
    injection hq' with hq'
    subst hq'
    decide
  refine ⟨rfl, by decide, by decide, hmeets, ?_⟩
  obtain ⟨f0, hf0⟩ := C8_place_forks_from_first_meeting_walk (utc 9) chainState 4
    (acceptedHash 4) 0 [] ⟨some 0, some 2, 3, utc 5⟩ [] 1 rfl (by decide) (by decide)
    (by
      intro A hA head hh
      simp [chainState] at hA
      subst hA
      injection hh with hh
      subst hh
      decide)
    rfl (by simp) hmeets
  refine ⟨f0, fun fuel hfuel => ?_⟩
  obtain ⟨s', h1, h2, _⟩ := hf0 fuel hfuel
  exact ⟨s', h1, by rw [h2]; decide⟩

/-- C8 as stated fails on a chain with a cycle of previous references: in
`cyclicState [cyclicAppendage, soundAppendage]` the block `3` is mined, not
indexed, and its previous reference resolves to block `2`, which is the head of
no appendage and is met by the walk of `soundAppendage` (at depth 0) and by no
walk of `cyclicAppendage`; yet the call returns nothing, whatever the fuel: the
walk of `cyclicAppendage` never ends. -/
theorem C8_counterexample_cyclic_walk :
    (cyclicState [cyclicAppendage, soundAppendage]).blocks 3 =
      plainBlock (some ⟨some (acceptedHash 2), none⟩) 2 (some (acceptedHash 3)) ∧
    (cyclicState [cyclicAppendage, soundAppendage]).chain.index (acceptedHash 3) = none ∧
    resolvePrevious
      (Blockchain.InsertBlock (cyclicState [cyclicAppendage, soundAppendage]) 3).2.chain
      ((cyclicState [cyclicAppendage, soundAppendage]).blocks 3) = some 2 ∧
    sameHashPointer (cyclicState [cyclicAppendage, soundAppendage]) 1 2 = false ∧
    sameHashPointer (cyclicState [cyclicAppendage, soundAppendage]) 4 2 = false ∧
    walkMeets (Blockchain.InsertBlock (cyclicState [cyclicAppendage, soundAppendage]) 3).2 2
      soundAppendage 0 ∧
    (∀ d, ¬ walkMeets (Blockchain.InsertBlock (cyclicState [cyclicAppendage, soundAppendage]) 3).2
      2 cyclicAppendage d) ∧
    ∀ fuel now, Blockchain.InsertBlockAndPlaceIntoAppendage fuel now
      (cyclicState [cyclicAppendage, soundAppendage]) 3 = none := by
  have hloop : ∀ k, ancestor
      (Blockchain.InsertBlock (cyclicState [cyclicAppendage, soundAppendage]) 3).2 (k + 1) 1 =
        some 0 := by
    intro k
    rw [ancestor_succ_some _ k 1 0 (by decide)]
    exact ancestor_loop _ 0 (by decide) k
  refine ⟨rfl, by decide, by decide, by decide, by decide, ?_, ?_, ?_⟩
  · exact ⟨4, 2, rfl, by decide, by decide, fun k hk => absurd hk (Nat.not_lt_zero k)⟩
  · rintro d ⟨H, q, hH, hq, hsm, _⟩
    injection hH with hH
    subst hH
    rw [hloop d] at hq
    injection hq with hq
    subst hq
    revert hsm
    decide
  · intro fuel now
    exact place_diverges now _ 3 (acceptedHash 3) 2 cyclicAppendage [soundAppendage] 1 rfl
      (by decide) (by decide)
      (by
        intro A hA head hh
        simp [cyclicState] at hA
        rcases hA with rfl | rfl
        · injection hh with hh; subst hh; decide
        · injection hh with hh; subst hh; decide)
      rfl rfl
      (fun k => ⟨0, hloop k, by decide⟩) fuel

/-- C9, amended. For a mined block that is not indexed yet: when its previous
reference is absent, or does not resolve (against the index that now holds the
block), or resolves to a block `P` that has the hash pointer of no appendage
head and that no backward walk meets, every such walk ending, then with enough
fuel `InsertBlockAndPlaceIntoAppendage` returns true and the appendage list is
the old one followed by one new appendage with `Genesis = Head = block` and
`Length = 1`.  In particular a mined block without predecessor and without
transactions, inserted into `NewBlockchain`, gives exactly one appendage, of
length 1, whose genesis is its head (whatever the fuel). -/
theorem C9_place_starts_new_appendage (now : Time) :
    (∀ (s : State) (block : Nat) (hash : BlockHash),
      (s.blocks block).Hash = some hash → s.chain.index hash = none →
      ((s.blocks block).Previous = none ∨
        resolvePrevious (Blockchain.InsertBlock s block).2.chain (s.blocks block) = none ∨
        ∃ P, resolvePrevious (Blockchain.InsertBlock s block).2.chain (s.blocks block) = some P ∧
          (∀ A ∈ s.chain.Appendages, ∀ head, A.Head = some head →
            sameHashPointer s head P = false) ∧
          ∀ A ∈ s.chain.Appendages, walkMisses (Blockchain.InsertBlock s block).2 P A) →
      ∃ fuel0 : Nat, ∀ fuel : Nat, fuel0 ≤ fuel →
        ∃ s', Blockchain.InsertBlockAndPlaceIntoAppendage fuel now s block = some (true, s') ∧
          s'.chain.Appendages = s.chain.Appendages ++ [⟨some block, some block, 1, now⟩] ∧
          s'.chain.GetBlockWithHash hash = some block) ∧
    (∀ (blocks : Nat → Block) (block : Nat) (hash : BlockHash) (fuel : Nat),
      (blocks block).Hash = some hash → (blocks block).Previous = none →
      (blocks block).Data = [] →
      ∃ s', Blockchain.InsertBlockAndPlaceIntoAppendage fuel now ⟨blocks, NewBlockchain⟩ block =
          some (true, s') ∧
        s'.chain.Appendages = [⟨some block, some block, 1, now⟩]) := by
  have hnone : ∀ (s : State) (block : Nat) (hash : BlockHash) (fuel : Nat),
      (s.blocks block).Hash = some hash → s.chain.index hash = none →
      resolvePrevious (Blockchain.InsertBlock s block).2.chain (s.blocks block) = none →
      ∃ s', Blockchain.InsertBlockAndPlaceIntoAppendage fuel now s block = some (true, s') ∧
          s'.chain.Appendages = s.chain.Appendages ++ [⟨some block, some block, 1, now⟩] ∧
          s'.chain.GetBlockWithHash hash = some block := by
    intro s block hash fuel hmined hfresh hprev
    obtain ⟨s1, hs1, heq⟩ := place_unresolved fuel now s block hash hmined hfresh hprev
    refine ⟨_, heq, ?_, ?_⟩
    · show s1.chain.Appendages ++ _ = _
      rw [hs1.1, InsertBlock_appendages]
    · show s1.chain.GetBlockWithHash hash = some block
      rw [hs1.1]
      exact InsertBlock_lookup s block hash hmined hfresh
  constructor
  · intro s block hash hmined hfresh hcase
    rcases hcase with hp | hp | ⟨P, hprev, hnohead, hwalks⟩
    · exact ⟨0, fun fuel _ => hnone s block hash fuel hmined hfresh
        (resolvePrevious_of_none _ _ hp)⟩
    · exact ⟨0, fun fuel _ => hnone s block hash fuel hmined hfresh hp⟩
    · obtain ⟨f0, hf0⟩ := forkSearch_miss P s.chain.Appendages _ hwalks
      refine ⟨f0, fun fuel hfuel => ?_⟩
      obtain ⟨s1, hs1, heq⟩ := place_resolved fuel now s block hash P hmined hfresh hprev
      have happs1 : s1.chain.Appendages = s.chain.Appendages := by
        rw [hs1.1, InsertBlock_appendages]
      have hptr : ∀ x y, sameHashPointer s1 x y = sameHashPointer s x y := fun x y =>
        sameHashPointer_congr s s1
          (fun q => ((hs1.2 q).1).trans (InsertBlock_hash s block q)) x y
      have hext := extendAppendage_miss s1 block P now s.chain.Appendages
        (fun A hA head hh => by rw [hptr]; exact hnohead A hA head hh)
      obtain ⟨s2, hfork, hs2⟩ := hf0 s1 hs1 fuel hfuel
      rw [happs1, hext, hfork] at heq
      refine ⟨_, heq, ?_, ?_⟩
      · show s2.chain.Appendages ++ _ = _
        rw [hs2.1, InsertBlock_appendages]
      · show s2.chain.GetBlockWithHash hash = some block
        rw [hs2.1]
        exact InsertBlock_lookup s block hash hmined hfresh
  · intro blocks block hash fuel hmined hprev _
    obtain ⟨s', h1, h2, _⟩ := hnone ⟨blocks, NewBlockchain⟩ block hash fuel hmined rfl
      (resolvePrevious_of_none _ _ hprev)
    exact ⟨s', h1, h2⟩

/-- C9 at the blocks `8` and `6` of `chainState`: block `8` is mined on top of
the indexed block `7`, which no walk meets; block `6` names an unknown
predecessor.  Each starts an appendage of its own. -/
theorem C9_place_starts_new_appendage_witness :
    (∃ fuel0 : Nat, ∀ fuel : Nat, fuel0 ≤ fuel →
      ∃ s', Blockchain.InsertBlockAndPlaceIntoAppendage fuel (utc 9) chainState 8 =
          some (true, s') ∧
        s'.chain.Appendages = [⟨some 0, some 2, 3, utc 5⟩, ⟨some 8, some 8, 1, utc 9⟩]) ∧
    (∃ fuel0 : Nat, ∀ fuel : Nat, fuel0 ≤ fuel →
      ∃ s', Blockchain.InsertBlockAndPlaceIntoAppendage fuel (utc 9) chainState 6 =
          some (true, s') ∧
        s'.chain.Appendages = [⟨some 0, some 2, 3, utc 5⟩, ⟨some 6, some 6, 1, utc 9⟩]) := by
  constructor
  · obtain ⟨f0, hf0⟩ := (C9_place_starts_new_appendage (utc 9)).1 chainState 8 (acceptedHash 8)
      rfl (by decide) (Or.inr (Or.inr ⟨7, by decide, by
        intro A hA head hh
        simp [chainState] at hA
        subst hA
        injection hh with hh
        subst hh
        decide, by
        intro A hA H hH
        simp [chainState] at hA
        subst hA
        injection hH with hH
        subst hH
        refine ⟨2, by decide, ?_⟩
        intro k hk q hq
        have hk' : k = 0 ∨ k = 1 := by omega
        rcases hk' with rfl | rfl
        · have h1 : ancestor (Blockchain.InsertBlock chainState 8).2 1 2 = some 1 := by decide
          rw [h1] at hq
          injection hq with hq
          subst hq
          decide
        · have h1 : ancestor (Blockchain.InsertBlock chainState 8).2 2 2 = some 0 := by decide
          rw [h1] at hq
          injection hq with hq
          subst hq
          decide⟩))
    refine ⟨f0, fun fuel hfuel => ?_⟩
    obtain ⟨s', h1, h2, _⟩ := hf0 fuel hfuel
    exact ⟨s', h1, h2⟩
  · obtain ⟨f0, hf0⟩ := (C9_place_starts_new_appendage (utc 9)).1 chainState 6 (acceptedHash 6)
      rfl (by decide) (Or.inr (Or.inl (by decide)))
    refine ⟨f0, fun fuel hfuel => ?_⟩
    obtain ⟨s', h1, h2, _⟩ := hf0 fuel hfuel
    exact ⟨s', h1, h2⟩

/-- C9 as stated fails on a chain with a cycle of previous references: in
`cyclicState [cyclicAppendage]` the block `3` is mined, not indexed, and its
previous reference resolves to block `2`, which is neither the head `1` of the
appendage nor met by its backward walk; yet the call returns nothing, whatever
the fuel: the walk never ends. -/
theorem C9_counterexample_cyclic_walk :
    (cyclicState [cyclicAppendage]).blocks 3 =
      plainBlock (some ⟨some (acceptedHash 2), none⟩) 2 (some (acceptedHash 3)) ∧
    (cyclicState [cyclicAppendage]).chain.index (acceptedHash 3) = none ∧
    resolvePrevious (Blockchain.InsertBlock (cyclicState [cyclicAppendage]) 3).2.chain
      ((cyclicState [cyclicAppendage]).blocks 3) = some 2 ∧
    sameHashPointer (cyclicState [cyclicAppendage]) 1 2 = false ∧
    (∀ k q, ancestor (Blockchain.InsertBlock (cyclicState [cyclicAppendage]) 3).2 (k + 1) 1 =
      some q → q ≠ 2 ∧ sameHashPointer (cyclicState [cyclicAppendage]) q 2 = false) ∧
    ∀ fuel now, Blockchain.InsertBlockAndPlaceIntoAppendage fuel now
      (cyclicState [cyclicAppendage]) 3 = none := by
  have hloop : ∀ k, ancestor
      (Blockchain.InsertBlock (cyclicState [cyclicAppendage]) 3).2 (k + 1) 1 = some 0 := by
    intro k
    rw [ancestor_succ_some _ k 1 0 (by decide)]
    exact ancestor_loop _ 0 (by decide) k
  refine ⟨rfl, by decide, by decide, by decide, ?_, ?_⟩
  · intro k q hq
    rw [hloop k] at hq
    injection hq with hq
    subst hq
    exact ⟨by decide, by decide⟩
  · intro fuel now
    exact place_diverges now _ 3 (acceptedHash 3) 2 cyclicAppendage [] 1 rfl
      (by decide) (by decide)
      (by
        intro A hA head hh
        simp [cyclicState] at hA
        subst hA
        injection hh with hh; subst hh; decide)
      rfl rfl
      (fun k => ⟨0, hloop k, by decide⟩) fuel

/-- C10: whenever `PrimaryAppendage` returns an appendage `a`, `a` is an appendage of the
chain and no appendage is longer; no appendage of that maximal length has an `UpdatedAt`
after that of `a`; `a` is the first appendage in list order among those of maximal length
whose `UpdatedAt` equals (Go `==`) that of `a`; and when the `UpdatedAt` of `a` is after
the epoch, every appendage of maximal length before `a` in the list has an earlier
instant. An appendage that is the only one of maximal length is the one returned: of two
branches of lengths 3 and 4 the one of length 4, and the other one once it has length 5.
With no `UpdatedAt` after the epoch the newest timestamp stays at its start
`time.Unix(0, 0)`, which is in the local location, and the Go `==` tells locations apart:
after the sync of two appendages of one block each, the first with the epoch in UTC and
the second with the epoch in the local location, both are longest and have the same
instant, and `PrimaryAppendage` returns the second. -/
theorem C10_PrimaryAppendage_first_of_newest_after_epoch :
    (∀ (c : Blockchain) a, c.PrimaryAppendage = some a →
      a ∈ c.Appendages ∧
      (∀ x ∈ c.Appendages, x.Length ≤ a.Length) ∧
      (∀ x ∈ c.Appendages, x.Length = a.Length → x.UpdatedAt.After a.UpdatedAt = false) ∧
      (∃ i : Nat, c.Appendages[i]? = some a ∧
        ∀ j : Nat, j < i → ∀ x, c.Appendages[j]? = some x →
          ¬ (x.Length = a.Length ∧ x.UpdatedAt = a.UpdatedAt)) ∧
      (0 < a.UpdatedAt.instant →
        ∃ l1 l2, c.Appendages = l1 ++ a :: l2 ∧
          ∀ x ∈ l1, x.Length = a.Length → x.UpdatedAt.instant < a.UpdatedAt.instant)) ∧
    (∀ (c : Blockchain) l1 a l2, c.Appendages = l1 ++ a :: l2 →
      (∀ x ∈ l1, x.Length < a.Length) →
      (∀ x ∈ l2, x.Length < a.Length) → c.PrimaryAppendage = some a) ∧
    (∀ g h1 h2 h3 t1 t2 t3 index,
      Blockchain.PrimaryAppendage ⟨[⟨g, h1, 3, t1⟩, ⟨g, h2, 4, t2⟩], index⟩ =
        some ⟨g, h2, 4, t2⟩ ∧
      Blockchain.PrimaryAppendage ⟨[⟨g, h3, 5, t3⟩, ⟨g, h2, 4, t2⟩], index⟩ =
        some ⟨g, h3, 5, t3⟩) ∧
    (syncedState (utc 0) Time.unixEpoch).chain.Appendages =
      [⟨some 1, some 0, 1, utc 0⟩, ⟨some 3, some 2, 1, Time.unixEpoch⟩] ∧
    (utc 0).instant = Time.unixEpoch.instant ∧
    (syncedState (utc 0) Time.unixEpoch).chain.PrimaryAppendage =
      some ⟨some 3, some 2, 1, Time.unixEpoch⟩ ∧
    (syncedState (utc 7) ⟨7, 1⟩).chain.PrimaryAppendage = some ⟨some 1, some 0, 1, utc 7⟩ := by
  refine ⟨?_, ?_, ?_, by decide, by decide, by decide, by decide⟩
  · intro c a h
    obtain ⟨⟨rest, hf⟩, hnew⟩ := PrimaryAppendage_some c a h
    obtain ⟨hp, i, hi, hfirst⟩ := filter_head_first _ _ _ _ hf
    have hlen : a.Length = c.longestAppendageLength := by simpa using hp
    have hmem : a ∈ c.Appendages := List.getElem?_mem hi
    refine ⟨hmem, ?_, ?_, ⟨i, hi, ?_⟩, ?_⟩
    · intro x hx
      rw [hlen]
      exact longestAppendageLength_ge c x hx
    · intro x hx hxl
      have := hnew x hx (by rw [hxl, hlen])
      simp [Time.After]
      exact this
    · intro j hj x hx hboth
      have := hfirst j hj x hx
      simp [hboth.1, hboth.2, hlen] at this
    · intro hpos
      obtain ⟨l1, l2, e, hall⟩ := PrimaryAppendage_first_newest c a h hpos
      exact ⟨l1, l2, e, fun x hx hxl => hall x hx (by rw [hxl, hlen])⟩
  · intro c l1 a l2 hc h1 h2
    exact PrimaryAppendage_unique_longest c l1 l2 a hc h1 h2
  · intro g h1 h2 h3 t1 t2 t3 index
    constructor
    · exact PrimaryAppendage_unique_longest _ [⟨g, h1, 3, t1⟩] [] ⟨g, h2, 4, t2⟩ rfl
        (by simp) (by simp)
    · exact PrimaryAppendage_unique_longest _ [] [⟨g, h2, 4, t2⟩] ⟨g, h3, 5, t3⟩ rfl
        (by simp) (by simp)
/-- C11. After `CullAppendagesShorterThan n` the appendage list is the previous
list filtered by `Length > n`: a sublist of the previous list (same relative
order) that holds exactly the appendages with `Length > n`, each as often as
before; the hash index is unchanged. -/
theorem C11_CullAppendagesShorterThan_filters (c : Blockchain) (n : Nat) :
    (c.CullAppendagesShorterThan n).Appendages =
      c.Appendages.filter (fun a => decide (a.Length > n)) ∧
    List.Sublist (c.CullAppendagesShorterThan n).Appendages c.Appendages ∧
    (∀ a, a ∈ (c.CullAppendagesShorterThan n).Appendages ↔ a ∈ c.Appendages ∧ a.Length > n) ∧
    (∀ a, a.Length ≤ n → a ∉ (c.CullAppendagesShorterThan n).Appendages) ∧
    (∀ a, a.Length > n →
      (c.CullAppendagesShorterThan n).Appendages.count a = c.Appendages.count a) ∧
    (c.CullAppendagesShorterThan n).index = c.index := by
  have h := CullAppendagesShorterThan_eq c n
  refine ⟨h, ?_, ?_, ?_, ?_, rfl⟩
  · rw [h]; exact List.filter_sublist _
  · intro a; rw [h]; simp [List.mem_filter]
  · intro a ha; rw [h]; simp [List.mem_filter]; intro _; omega
  · intro a ha
    rw [h, List.count_filter]
    simpa using ha

/-- C11 at `forkedChain` (lengths 4, 4, 2) with threshold 2: the two appendages
of length 4 stay, in their order. -/
theorem C11_CullAppendagesShorterThan_filters_witness :
    (forkedChain.CullAppendagesShorterThan 2).Appendages =
      [⟨some 0, some 1, 4, utc 5⟩, ⟨some 0, some 2, 4, utc 7⟩] ∧
    (forkedChain.CullAppendagesShorterThan 4).Appendages = [] := by
  rw [(C11_CullAppendagesShorterThan_filters forkedChain 2).1,
    (C11_CullAppendagesShorterThan_filters forkedChain 4).1]
  decide

/-- C12: in every state that calls of `InsertBlock`, `InsertBlockAndPlaceIntoAppendage` and
`CullAppendagesShorterThan` build from `NewBlockchain()`, the `Head` and the `Genesis` of
every appendage are not nil, point to mined blocks, and `GetBlockWithHash` of the hash of
each of the two blocks returns that block. -/
theorem C12_heads_and_geneses_indexed (blocks0 : Nat → Block) (s : State)
    (h : ChainReachable blocks0 s) :
    ∀ a ∈ s.chain.Appendages, MinedAndIndexed s a.Head ∧ MinedAndIndexed s a.Genesis := by
  induction h with
  | start => intro a ha; exact absurd ha (List.not_mem_nil a)
  | insertBlock s block _ ih =>
    intro a ha
    rw [InsertBlock_appendages] at ha
    exact ⟨MinedAndIndexed_mono s _ _ (InsertBlock_hash s block)
        (InsertBlock_index_mono s block) (ih a ha).1,
      MinedAndIndexed_mono s _ _ (InsertBlock_hash s block)
        (InsertBlock_index_mono s block) (ih a ha).2⟩
  | place s block fuel now r s1 _ hp ih => exact place_keeps_indexed fuel now s block r s1 hp ih
  | cull s n _ ih =>
    intro a ha
    have ha' : a ∈ s.chain.Appendages := by
      have hsub : a ∈ (s.chain.CullAppendagesShorterThan n).Appendages := ha
      rw [CullAppendagesShorterThan_eq] at hsub
      exact (List.mem_filter.mp hsub).1
    exact ⟨MinedAndIndexed_mono s _ _ (fun _ => rfl) (fun _ _ hq => hq) (ih a ha').1,
      MinedAndIndexed_mono s _ _ (fun _ => rfl) (fun _ _ hq => hq) (ih a ha').2⟩

theorem C12_heads_and_geneses_indexed_witness :
    ChainReachable orphanBlocks lateState ∧
    ∀ a ∈ lateState.chain.Appendages,
      MinedAndIndexed lateState a.Head ∧ MinedAndIndexed lateState a.Genesis :=
  have hr : ChainReachable orphanBlocks lateState :=
    placeAll_reachable orphanBlocks 3 _ orphanState lateState ChainReachable.start
      (getD_of_isSome _ orphanState (by decide))
  ⟨hr, C12_heads_and_geneses_indexed orphanBlocks lateState hr⟩

/-- C13: the fork appendage gets `Length: appendage.Length - depth`, and the walk of the
second search does not stop at the genesis of the appendage it walks. In `orphanBlocks`
all blocks are mined. Placing `2` (its predecessor `1` is not there yet), `0`, `1`, `3`:
the walk from `2` finds the predecessor `0` of block `3` at depth 1 in the appendage of
length 1 that block `2` started, and the new appendage has length 0. Placing `4`, `0`,
`1`, `2`, `3`: the walk from `4` finds `0` at depth 2 and the length wraps to
`2 ^ 64 - 1`. -/
theorem C13_fork_length_below_one :
    (∀ p ∈ [0, 1, 2, 3, 4], (orphanBlocks p).Hash ≠ none) ∧
    (placeAll 3 orphanState [(2, utc 1), (0, utc 2), (1, utc 3), (3, utc 4)]).map
      (fun s => s.chain.Appendages) =
      some [⟨some 2, some 2, 1, utc 1⟩, ⟨some 0, some 1, 2, utc 3⟩,
        ⟨some 2, some 3, 0, utc 4⟩] ∧
    (placeAll 3 orphanState [(4, utc 1), (0, utc 2), (1, utc 3), (2, utc 4), (3, utc 5)]).map
      (fun s => s.chain.Appendages) =
      some [⟨some 4, some 4, 1, utc 1⟩, ⟨some 0, some 2, 3, utc 4⟩,
        ⟨some 4, some 3, 2 ^ 64 - 1, utc 5⟩] ∧
    ∃ a ∈ lateState.chain.Appendages, a.Length = 0 := by
  refine ⟨by decide, by decide, by decide, ⟨some 2, some 3, 0, utc 4⟩, by decide, rfl⟩

/-- C14: in every state that fewer than `2 ^ 64` placements in order build from
`NewBlockchain()` (each on a mined block whose hash is not yet indexed and whose previous
reference is absent or resolves to an indexed block), every appendage has a head and a
genesis, a length of at least 1, and following previous references from the head
`Length - 1` times reaches the genesis. Such states are reached: from each of them a
further placement in order returns true, given enough fuel. -/
theorem C14_head_reaches_genesis_in_order (blocks0 : Nat → Block) (n : Nat) (s : State)
    (h : InOrderReachable blocks0 n s) (hn : n < UINT_MOD) :
    (∀ a ∈ s.chain.Appendages, ∃ H G, a.Head = some H ∧ a.Genesis = some G ∧
      1 ≤ a.Length ∧ ancestor s (uintSub a.Length 1) H = some G) ∧
    (∀ (block : Nat) (hash : BlockHash) (now : Time), (s.blocks block).Hash = some hash →
      s.chain.index hash = none → PredecessorPresent s block →
      ∃ fuel0 : Nat, ∀ fuel : Nat, fuel0 ≤ fuel →
        ∃ s', Blockchain.InsertBlockAndPlaceIntoAppendage fuel now s block = some (true, s') ∧
          InOrderReachable blocks0 (n + 1) s') := by
  have inv := InOrderReachable_invariant blocks0 n s h hn
  constructor
  · intro a ha
    obtain ⟨H, G, e1, e2, e3, e4, e5, _⟩ := inv.2.1 a ha
    refine ⟨H, G, e1, e2, e3, ?_⟩
    rw [uintSub_small _ _ e3 (by omega)]
    exact e5
  · intro block hash now hh hi hp
    obtain ⟨f0, hf0⟩ := place_returns_inOrder n now s block hash inv hh hi
    refine ⟨f0, fun fuel hfuel => ?_⟩
    obtain ⟨s', hs'⟩ := hf0 fuel hfuel
    exact ⟨s', hs', InOrderReachable.place n s block fuel now true s' hash h hh hi hp hs'⟩

theorem C14_head_reaches_genesis_in_order_witness :
    InOrderReachable orphanBlocks 4 inOrderState ∧ 4 < UINT_MOD ∧
    inOrderState.chain.Appendages = [⟨some 0, some 2, 3, utc 3⟩, ⟨some 0, some 3, 2, utc 4⟩] ∧
    ancestor inOrderState 2 2 = some 0 ∧ ancestor inOrderState 1 3 = some 0 ∧
    ∀ a ∈ inOrderState.chain.Appendages, ∃ H G, a.Head = some H ∧ a.Genesis = some G ∧
      1 ≤ a.Length ∧ ancestor inOrderState (uintSub a.Length 1) H = some G :=
  have hr : InOrderReachable orphanBlocks 4 inOrderState := by
    obtain ⟨s', e1, e2⟩ := inOrderRun_reachable orphanBlocks 3
      [(0, utc 1), (1, utc 2), (2, utc 3), (3, utc 4)] 0 orphanState InOrderReachable.start
      (by decide)
    have e : inOrderState = s' := by
      unfold inOrderState
      rw [e1]; rfl
    rw [e]; exact e2
  ⟨hr, by decide, by decide, by decide, by decide,
    (C14_head_reaches_genesis_in_order orphanBlocks 4 inOrderState hr (by decide)).1⟩

/-- C15: `Submit` refuses a transaction whose `Id` an entry already has and leaves
the list as it was; otherwise it answers true and appends the transaction at the end.
Hence the ids of a mempool built from `NewMemPool` by `Submit` and `Clear` calls are
pairwise distinct, and submitting a transaction twice to such a mempool leaves exactly
one entry with its id (the second call is refused and changes nothing). -/
theorem C15_Submit_no_duplicate_ids :
    (∀ (m : MemPool) (t : Transaction), (∃ x ∈ m.Transactions, x.Id = t.Id) →
      m.Submit t = (false, m)) ∧
    (∀ (m : MemPool) (t : Transaction), (∀ x ∈ m.Transactions, x.Id ≠ t.Id) →
      (m.Submit t).1 = true ∧ (m.Submit t).2.Transactions = m.Transactions ++ [t]) ∧
    (∀ m : MemPool, m.Clear.Transactions = []) ∧
    (∀ m : MemPool, MemPool.Reachable m →
      (m.Transactions.map fun t => t.Id).Nodup ∧
      ∀ i j : Nat, ∀ x y : Transaction, m.Transactions[i]? = some x →
        m.Transactions[j]? = some y → x.Id = y.Id → i = j) ∧
    (∀ (m : MemPool) (t : Transaction), MemPool.Reachable m →
      ((m.Submit t).2.Submit t).1 = false ∧
      ((m.Submit t).2.Submit t).2 = (m.Submit t).2 ∧
      ((m.Submit t).2.Submit t).2.Transactions.countP (fun x => x.Id == t.Id) = 1) := by
  refine ⟨Submit_duplicate, ?_, fun _ => rfl, ?_, ?_⟩
  · intro m t h
    rw [Submit_fresh m t h]
    exact ⟨rfl, rfl⟩
  · intro m h
    have hn := Reachable_nodup m h
    refine ⟨hn, ?_⟩
    intro i j x y hi hj hxy
    have hi' : (m.Transactions.map fun t => t.Id)[i]? = some x.Id := by
      rw [List.getElem?_map, hi]; rfl
    have hj' : (m.Transactions.map fun t => t.Id)[j]? = some x.Id := by
      rw [List.getElem?_map, hj, hxy]; rfl
    have hil : i < (m.Transactions.map fun t => t.Id).length := by
      by_contra hc
      rw [List.getElem?_eq_none (by omega)] at hi'
      exact Option.noConfusion hi'
    exact List.getElem?_inj hil hn (by rw [hi', hj'])
  · intro m t h
    have h2 := Submit_twice m t h
    rw [h2.1]
    exact ⟨rfl, rfl, h2.2⟩

/-- C16: `Insert` answers false and changes nothing when the peer's id is a key of
`peers` (`Has`), is in the untrusted list (`Untrusted`) or is the id of `Me`. In every
other case it answers true, `peers` maps the id to the peer, `rankings` maps it to 10
(`NODE_DEFAULT_PEER_RANKING`), and every other entry of the two maps, the untrusted
list and `Me` are as before. -/
theorem C16_Insert_refuses_or_registers (ps : PeerSet) (p : Peer) :
    (ps.Has p.Id = true ↔ p.Id ∈ ps.peers.keys) ∧
    (ps.Untrusted p.Id = true ↔ p.Id ∈ ps.untrusted) ∧
    ((ps.Has p.Id = true ∨ ps.Untrusted p.Id = true ∨ p.Id = ps.Me.Id) →
      ps.Insert p = (false, ps)) ∧
    (¬ (ps.Has p.Id = true ∨ ps.Untrusted p.Id = true ∨ p.Id = ps.Me.Id) →
      (ps.Insert p).1 = true ∧
      (ps.Insert p).2.peers.lookup p.Id = some p ∧
      (ps.Insert p).2.rankings.lookup p.Id = some NODE_DEFAULT_PEER_RANKING ∧
      NODE_DEFAULT_PEER_RANKING = 10 ∧
      (∀ id, id ≠ p.Id →
        (ps.Insert p).2.peers.lookup id = ps.peers.lookup id ∧
        (ps.Insert p).2.rankings.lookup id = ps.rankings.lookup id) ∧
      (ps.Insert p).2.untrusted = ps.untrusted ∧
      (ps.Insert p).2.Me = ps.Me) := by
  refine ⟨?_, Untrusted_iff ps p.Id, Insert_refused ps p, ?_⟩
  · rw [Has_iff, AList.mem_keys]
  · intro h
    rcases Insert_cases ps p with ⟨h', _⟩ | ⟨_, he⟩
    · exact absurd h' h
    · rw [he]
      refine ⟨rfl, AList.lookup_insert _, AList.lookup_insert _, rfl, ?_, rfl, rfl⟩
      intro id hid
      exact ⟨AList.lookup_insert_ne hid, AList.lookup_insert_ne hid⟩

/-- C17: `Increment` writes `rankings[id]` without looking at the untrusted list, so an
id that `Rank` moved to the untrusted list is ranked again by the next `Increment`
that leaves it a non-zero ranking. From `NewPeerSet`: insert a peer, decrement it ten
times by one (it is then unranked and untrusted), increment it by
`NODE_PEER_NEW_VALID_PEER_INCREMENT`: its id is a key of `rankings`, with ranking 2, and
is in the untrusted list. -/
theorem C17_Increment_ranks_untrusted_id :
    (∀ (ps : PeerSet) (id : PeerId) (change : PeerRanking), ps.Untrusted id = true →
      uintAdd (ps.rankingAt id) change ≠ 0 →
      id ∈ (ps.Increment id change).rankings.keys ∧
      (ps.Increment id change).Untrusted id = true) ∧
    (∀ (newId : UUID) (address : Bytes) (p : Peer), p.Id ≠ newId →
      (applyCalls (NewPeerSet newId address)
        (PeerCall.insert p :: unitDecrements p.Id 10)).rankings.lookup p.Id = none ∧
      (applyCalls (NewPeerSet newId address)
        (PeerCall.insert p :: unitDecrements p.Id 10)).Untrusted p.Id = true ∧
      (applyCalls (NewPeerSet newId address)
        (PeerCall.insert p :: (unitDecrements p.Id 10 ++
          [PeerCall.increment p.Id NODE_PEER_NEW_VALID_PEER_INCREMENT]))).rankings.lookup p.Id
        = some 2 ∧
      p.Id ∈ (applyCalls (NewPeerSet newId address)
        (PeerCall.insert p :: (unitDecrements p.Id 10 ++
          [PeerCall.increment p.Id NODE_PEER_NEW_VALID_PEER_INCREMENT]))).rankings.keys ∧
      (applyCalls (NewPeerSet newId address)
        (PeerCall.insert p :: (unitDecrements p.Id 10 ++
          [PeerCall.increment p.Id NODE_PEER_NEW_VALID_PEER_INCREMENT]))).Untrusted p.Id
        = true) ∧
    (applyCalls freshPeerSet [PeerCall.insert otherPeer, PeerCall.decrement otherPeer.Id 10,
        PeerCall.increment otherPeer.Id 2]).rankings.lookup otherPeer.Id = some 2 ∧
    (applyCalls freshPeerSet [PeerCall.insert otherPeer, PeerCall.decrement otherPeer.Id 10,
        PeerCall.increment otherPeer.Id 2]).Untrusted otherPeer.Id = true := by
  refine ⟨?_, ?_, by decide, by decide⟩
  · intro ps id change hu hc
    have hl := Increment_lookup ps id change
    rw [if_neg hc] at hl
    constructor
    · rw [← AList.mem_keys, ← AList.lookup_isSome, hl]; rfl
    · rw [Untrusted_iff] at hu ⊢
      exact Increment_untrusted ps id change hu
  · intro newId address p hp
    have hins : ((NewPeerSet newId address).Insert p).1 = true := by
      rcases Insert_cases (NewPeerSet newId address) p with ⟨h', _⟩ | ⟨_, he⟩
      · exfalso
        rcases h' with h' | h' | h'
        · rw [Has_iff] at h'
          have : p.Id ∈ (AList.singleton newId (⟨newId, address⟩ : Peer)).keys := AList.mem_keys.mp h'
          rw [AList.keys_singleton] at this
          exact hp (List.mem_singleton.mp this)
        · rw [Untrusted_iff] at h'
          exact absurd h' (List.not_mem_nil _)
        · exact hp h'
      · rw [he]
    have hl : ((NewPeerSet newId address).Insert p).2.rankings.lookup p.Id = some 10 := by
      rcases Insert_cases (NewPeerSet newId address) p with ⟨_, he⟩ | ⟨_, he⟩
      · rw [he] at hins; exact Bool.noConfusion hins
      · rw [he]; exact AList.lookup_insert _
    have hu : p.Id ∉ ((NewPeerSet newId address).Insert p).2.untrusted := by
      rcases Insert_cases (NewPeerSet newId address) p with ⟨_, he⟩ | ⟨_, he⟩
      · rw [he] at hins; exact Bool.noConfusion hins
      · rw [he]; exact List.not_mem_nil _
    obtain ⟨r1, r2, _⟩ := unitDecrements_run _ p.Id 10 (by omega) (by unfold UINT_MOD; omega)
      hl hu 10 (by omega)
    rw [if_pos rfl] at r1
    have hc1 : ∀ cs, applyCalls (NewPeerSet newId address) (PeerCall.insert p :: cs) =
        applyCalls ((NewPeerSet newId address).Insert p).2 cs := fun _ => rfl
    have hinc : ∀ s : PeerSet, applyCalls s
        [PeerCall.increment p.Id NODE_PEER_NEW_VALID_PEER_INCREMENT] =
        s.Increment p.Id NODE_PEER_NEW_VALID_PEER_INCREMENT := fun _ => rfl
    have hadd : uintAdd ((applyCalls ((NewPeerSet newId address).Insert p).2
        (unitDecrements p.Id 10)).rankingAt p.Id) NODE_PEER_NEW_VALID_PEER_INCREMENT = 2 := by
      rw [rankingAt_of_none _ _ r1]; decide
    have hl2 := Increment_lookup (applyCalls ((NewPeerSet newId address).Insert p).2
        (unitDecrements p.Id 10)) p.Id NODE_PEER_NEW_VALID_PEER_INCREMENT
    rw [hadd, if_neg (by omega)] at hl2
    rw [hc1, hc1, applyCalls_append, hinc]
    refine ⟨r1, ?_, hl2, ?_, ?_⟩
    · rw [Untrusted_iff, r2]
    · rw [← AList.mem_keys, ← AList.lookup_isSome, hl2]; rfl
    · rw [Untrusted_iff]
      exact Increment_untrusted _ _ _ (r2.mpr rfl)

/-- C18, as stated, fails: `Remove` of the id of `Me` deletes `Me` from both maps, and a
`Decrement` of that id by 10 takes its ranking away, so `List` no longer returns `Me`. -/
theorem C18_counterexample_Remove_Me :
    (applyCalls freshPeerSet [PeerCall.remove freshPeerSet.Me.Id]).Has freshPeerSet.Me.Id = false ∧
    (applyCalls freshPeerSet [PeerCall.remove freshPeerSet.Me.Id]).rankings.lookup
      freshPeerSet.Me.Id = none ∧
    (applyCalls freshPeerSet [PeerCall.remove freshPeerSet.Me.Id]).List = some [] ∧
    (applyCalls freshPeerSet [PeerCall.decrement freshPeerSet.Me.Id 10]).rankings.lookup
      freshPeerSet.Me.Id = none ∧
    (applyCalls freshPeerSet [PeerCall.decrement freshPeerSet.Me.Id 10]).List = some [] := by
  decide

/-- C18, amended: in every peer set that calls of `Insert`, `Increment`, `Decrement`,
`Rank` and `Remove` build from `NewPeerSet`, none of the `Increment`, `Decrement` and
`Remove` calls being on the id of `Me`, the local peer is still present: `Me` is the
peer `NewPeerSet` made, `Has(Me.Id)` is true, `Me` is ranked (with ranking 10), and
`List()` returns a list that holds `Me`. -/
theorem C18_Me_kept_when_spared (newId : UUID) (address : Bytes) (cs : List PeerCall)
    (h : ∀ c ∈ cs, PeerCall.spares newId c = true) :
    (applyCalls (NewPeerSet newId address) cs).Me = ⟨newId, address⟩ ∧
    (applyCalls (NewPeerSet newId address) cs).Has newId = true ∧
    (applyCalls (NewPeerSet newId address) cs).peers.lookup newId = some ⟨newId, address⟩ ∧
    newId ∈ (applyCalls (NewPeerSet newId address) cs).rankings.keys ∧
    (applyCalls (NewPeerSet newId address) cs).rankings.lookup newId = some 10 ∧
    ∃ l, (applyCalls (NewPeerSet newId address) cs).List = some l ∧
      (⟨newId, address⟩ : Peer) ∈ l := by
  obtain ⟨k0, p0, r0⟩ := NewPeerSet_keyed newId address
  have hme : (applyCalls (NewPeerSet newId address) cs).Me = ⟨newId, address⟩ :=
    applyCalls_Me cs _
  obtain ⟨k1, p1, r1⟩ := applyCalls_keeps_Me cs (NewPeerSet newId address) h k0 p0 r0
  have p1' : (applyCalls (NewPeerSet newId address) cs).peers.lookup newId =
      some ⟨newId, address⟩ := p1
  have r1' : (applyCalls (NewPeerSet newId address) cs).rankings.lookup newId = some 10 := r1
  refine ⟨hme, ?_, p1', ?_, r1', ?_⟩
  · rw [Has_iff, ← AList.lookup_isSome, p1']; rfl
  · rw [← AList.mem_keys, ← AList.lookup_isSome, r1']; rfl
  · have hl := List_has_Me (applyCalls (NewPeerSet newId address) cs) 10 k1
      (by rw [hme]; exact p1') (by rw [hme]; exact r1')
    rw [hme] at hl
    exact hl

theorem C18_Me_kept_when_spared_witness :
    (∀ c ∈ [PeerCall.insert otherPeer, PeerCall.decrement otherPeer.Id 10, PeerCall.rank,
        PeerCall.increment otherPeer.Id 2, PeerCall.remove otherPeer.Id],
      PeerCall.spares (uuidOf 1) c = true) ∧
    (applyCalls (NewPeerSet (uuidOf 1) [104])
      [PeerCall.insert otherPeer, PeerCall.decrement otherPeer.Id 10, PeerCall.rank,
        PeerCall.increment otherPeer.Id 2, PeerCall.remove otherPeer.Id]).Has (uuidOf 1) = true :=
  ⟨by decide, (C18_Me_kept_when_spared (uuidOf 1) [104] _ (by decide)).2.1⟩

/-- C19: after `Rank` no id is ranked 0: an id that was ranked 0 is no longer a key
of `rankings` and is in the untrusted list, an id with a non-zero ranking keeps it, no
id becomes ranked, the untrusted list gains exactly the ids that were ranked 0, and
`peers` and `Me` are as before. `Increment` and `Decrement` end with `Rank`, so no id
is ranked 0 after them either. -/
theorem C19_Rank_evicts_zero_rankings (ps : PeerSet) :
    (∀ id, ps.Rank.rankings.lookup id ≠ some 0) ∧
    (∀ id, ps.rankings.lookup id = some 0 →
      id ∉ ps.Rank.rankings.keys ∧ ps.Rank.Untrusted id = true) ∧
    (∀ id r, ps.rankings.lookup id = some r → r ≠ 0 →
      ps.Rank.rankings.lookup id = some r ∧ id ∈ ps.Rank.rankings.keys) ∧
    (∀ id, id ∉ ps.rankings.keys → id ∉ ps.Rank.rankings.keys) ∧
    (∀ id, ps.Rank.Untrusted id = true ↔
      (ps.Untrusted id = true ∨ ps.rankings.lookup id = some 0)) ∧
    ps.Rank.untrusted = ps.untrusted ++
      (ps.rankings.entries.filter fun e => decide (e.2 = 0)).map (fun e => e.1) ∧
    ps.Rank.peers = ps.peers ∧
    ps.Rank.Me = ps.Me ∧
    (∀ id change k, (ps.Increment id change).rankings.lookup k ≠ some 0 ∧
      (ps.Decrement id change).rankings.lookup k ≠ some 0) := by
  refine ⟨Rank_no_zero ps, ?_, ?_, ?_, ?_, Rank_untrusted ps, Rank_peers ps, Rank_Me ps, ?_⟩
  · intro id h
    constructor
    · rw [← AList.mem_keys, ← AList.lookup_eq_none]
      exact Rank_lookup_zero ps id h
    · rw [Untrusted_iff, Rank_mem_untrusted]
      exact Or.inr h
  · intro id r h hr
    have hk : ps.Rank.rankings.lookup id = some r := by
      rw [Rank_lookup_keep ps id (by rw [h]; simpa using hr), h]
    refine ⟨hk, ?_⟩
    rw [← AList.mem_keys, ← AList.lookup_isSome, hk]
    rfl
  · intro id h
    rw [← AList.mem_keys, ← AList.lookup_eq_none] at h ⊢
    rw [Rank_lookup, h]
    simp
  · intro id
    rw [Untrusted_iff, Untrusted_iff, Rank_mem_untrusted]
  · intro id change k
    exact ⟨Rank_no_zero _ k, Rank_no_zero _ k⟩

/-- C20: a peer that a successful `Insert` registered is ranked `10 - k` and is not
untrusted after `k < 10` calls `Decrement(p.Id, 1)`; after the tenth call its id is no
longer a key of `rankings` and is in the untrusted list; from then on, whatever calls
follow, `Insert` of a peer with that id answers false and changes nothing. -/
theorem C20_ten_decrements_evict (ps : PeerSet) (p : Peer) (h : (ps.Insert p).1 = true) :
    (∀ k, k < 10 →
      (applyCalls (ps.Insert p).2 (unitDecrements p.Id k)).rankings.lookup p.Id = some (10 - k) ∧
      p.Id ∈ (applyCalls (ps.Insert p).2 (unitDecrements p.Id k)).rankings.keys ∧
      (applyCalls (ps.Insert p).2 (unitDecrements p.Id k)).Untrusted p.Id = false) ∧
    ((applyCalls (ps.Insert p).2 (unitDecrements p.Id 10)).rankings.lookup p.Id = none ∧
      p.Id ∉ (applyCalls (ps.Insert p).2 (unitDecrements p.Id 10)).rankings.keys ∧
      (applyCalls (ps.Insert p).2 (unitDecrements p.Id 10)).Untrusted p.Id = true) ∧
    (∀ (cs : List PeerCall) (q : Peer), q.Id = p.Id →
      (applyCalls (applyCalls (ps.Insert p).2 (unitDecrements p.Id 10)) cs).Insert q =
        (false, applyCalls (applyCalls (ps.Insert p).2 (unitDecrements p.Id 10)) cs)) := by
  rcases Insert_cases ps p with ⟨_, he⟩ | ⟨⟨h1, h2, h3⟩, he⟩
  · rw [he] at h; exact Bool.noConfusion h
  · have hl : (ps.Insert p).2.rankings.lookup p.Id = some 10 := by
      rw [he]; exact AList.lookup_insert _
    have hu : p.Id ∉ (ps.Insert p).2.untrusted := by
      rw [he]; exact (Untrusted_false_iff ps p.Id).mp h2
    have run := unitDecrements_run (ps.Insert p).2 p.Id 10 (by omega) (by unfold UINT_MOD; omega)
      hl hu
    refine ⟨?_, ?_, ?_⟩
    · intro k hk
      obtain ⟨r1, r2, _⟩ := run k (by omega)
      rw [if_neg (by omega)] at r1
      refine ⟨r1, ?_, ?_⟩
      · rw [← AList.mem_keys, ← AList.lookup_isSome, r1]; rfl
      · rw [Untrusted_false_iff, r2]; omega
    · obtain ⟨r1, r2, _⟩ := run 10 (by omega)
      rw [if_pos rfl] at r1
      refine ⟨r1, ?_, ?_⟩
      · rw [← AList.mem_keys, ← AList.lookup_eq_none]; exact r1
      · rw [Untrusted_iff, r2]
    · intro cs q hq
      obtain ⟨_, r2, _⟩ := run 10 (by omega)
      apply Insert_refused
      refine Or.inr (Or.inl ?_)
      rw [Untrusted_iff, hq]
      exact applyCalls_untrusted cs _ p.Id (r2.mpr rfl)

theorem C20_ten_decrements_evict_witness :
    (freshPeerSet.Insert otherPeer).1 = true ∧
    (applyCalls (freshPeerSet.Insert otherPeer).2
      (unitDecrements otherPeer.Id 3)).rankings.lookup otherPeer.Id = some (10 - 3) ∧
    (applyCalls (freshPeerSet.Insert otherPeer).2
      (unitDecrements otherPeer.Id 10)).Untrusted otherPeer.Id = true ∧
    (applyCalls (applyCalls (freshPeerSet.Insert otherPeer).2 (unitDecrements otherPeer.Id 10))
      [PeerCall.remove otherPeer.Id]).Insert otherPeer =
        (false, applyCalls (applyCalls (freshPeerSet.Insert otherPeer).2
          (unitDecrements otherPeer.Id 10)) [PeerCall.remove otherPeer.Id]) :=
  ⟨by decide,
    ((C20_ten_decrements_evict freshPeerSet otherPeer (by decide)).1 3 (by omega)).1,
    (C20_ten_decrements_evict freshPeerSet otherPeer (by decide)).2.1.2.2,
    (C20_ten_decrements_evict freshPeerSet otherPeer (by decide)).2.2
      [PeerCall.remove otherPeer.Id] otherPeer rfl⟩

/-- C21: a ranking without a peer makes `List` return a peer that is none. When every
entry of `peers` is filed under the id of its peer and every ranking belongs to a peer
that the set holds, `List` returns the ranked peers, each once, in ascending order of
ranking, and `ListOthers` that list without `Me`. But the slice is made with one place
for each ranking and filled with the peers that have one, so a place that is not filled
keeps the zero pair, and `Increment` of an identifier that the peer set does not hold
writes a ranking without a peer. After `Increment(uuidOf 2, 5)` on a fresh peer set,
`List` returns the zero peer (zero identifier, empty address) before `Me`, and
`ListOthers` returns the zero peer; after `Insert`, `Remove` and `Increment` of the same
peer the list is the same. -/
theorem C21_List_returns_zero_peer :
    (∀ ps : PeerSet, (∀ k v, ps.peers.lookup k = some v → v.Id = k) →
      (∀ id r, ps.rankings.lookup id = some r → ∃ v, ps.peers.lookup id = some v) →
      ∃ pairs : List Pair,
        ps.List = some (pairs.map fun item => item.Key) ∧
        List.Sorted (fun a b => a.Value ≤ b.Value) pairs ∧
        (∀ p, p ∈ pairs ↔
          ps.peers.lookup p.Key.Id = some p.Key ∧
            ps.rankings.lookup p.Key.Id = some p.Value) ∧
        (pairs.map fun item => item.Key.Id).Nodup ∧
        ps.ListOthers =
          some ((pairs.map fun item => item.Key).filter fun peer => peer != ps.Me)) ∧
    (applyCalls freshPeerSet [PeerCall.increment (uuidOf 2) 5]).peers.lookup (uuidOf 2) = none ∧
    (applyCalls freshPeerSet [PeerCall.increment (uuidOf 2) 5]).rankings.lookup (uuidOf 2) =
      some 5 ∧
    (applyCalls freshPeerSet [PeerCall.increment (uuidOf 2) 5]).List =
      some [Pair.zero.Key, freshPeerSet.Me] ∧
    (applyCalls freshPeerSet [PeerCall.increment (uuidOf 2) 5]).ListOthers =
      some [Pair.zero.Key] ∧
    Pair.zero.Key ≠ freshPeerSet.Me ∧
    (applyCalls freshPeerSet [PeerCall.increment (uuidOf 2) 5]).peers.lookup Pair.zero.Key.Id =
      none ∧
    (applyCalls freshPeerSet [PeerCall.insert otherPeer, PeerCall.remove otherPeer.Id,
      PeerCall.increment otherPeer.Id 2]).List = some [Pair.zero.Key, freshPeerSet.Me] := by
  refine ⟨List_ranked, by decide, by decide, by decide, by decide, by decide, by decide,
    by decide⟩
/-- C22: `NewTransactionFromBytes` and `NewBlockFromBytes` return an error when the
input does not hold exactly one dot (`strings.Split` then gives a number of sections
other than two), and, for an input `a.b` with one dot, when `a` is rejected by the base64
decoder or `b` is no hexadecimal text (it has odd length or a character that is no
hexadecimal digit). -/
theorem C22_decoders_reject_bad_frames (dlib : DecodeLib) (s : Bytes) :
    (stringsSplit s).length = s.count asciiDot + 1 ∧
    (s.count asciiDot ≠ 1 →
      NewTransactionFromBytes dlib s = .error ∧ NewBlockFromBytes dlib s = .error) ∧
    (s.count asciiDot = 1 →
      ∃ a b, s = a ++ asciiDot :: b ∧ stringsSplit s = [a, b] ∧
        (dlib.base64DecodeString a = none →
          NewTransactionFromBytes dlib s = .error ∧ NewBlockFromBytes dlib s = .error) ∧
        (hexDecodeString b = none →
          NewTransactionFromBytes dlib s = .error ∧ NewBlockFromBytes dlib s = .error) ∧
        (hexDecodeString b = none ↔
          (b.length % 2 = 1 ∨ ∃ c ∈ b, fromHexChar c = none))) := by
  refine ⟨stringsSplit_length s, ?_, ?_⟩
  · intro h
    have hl : (stringsSplit s).length ≠ 2 := by
      rw [stringsSplit_length]; omega
    exact ⟨NewTransactionFromBytes_sections dlib s hl, NewBlockFromBytes_sections dlib s hl⟩
  · intro h
    obtain ⟨a, b, e, ha, hb⟩ := one_dot_split s h
    refine ⟨a, b, e, by rw [e]; exact stringsSplit_two a b ha hb, ?_, ?_,
      hexDecodeString_none_iff b⟩
    · intro h64
      rw [e, NewTransactionFromBytes_frame dlib a b ha hb,
        NewBlockFromBytes_frame dlib a b ha hb]
      simp only [h64, and_self]
    · intro hhex
      rw [e, NewTransactionFromBytes_frame dlib a b ha hb,
        NewBlockFromBytes_frame dlib a b ha hb]
      cases h64 : dlib.base64DecodeString a with
      | none => exact ⟨rfl, rfl⟩
      | some payload =>
        simp only [hhex, HexToBlockHash_invalid b hhex, and_self]

/-- C23, amended. Neither decoder asks whether the JSON object names its fields. On a
well-framed input `a.b` (no dot in `a` or `b`, `a` base64 of `payload`, `b` hexadecimal of
`signature`): `NewTransactionFromBytes` returns an error exactly when `json.Unmarshal`
rejects the payload, and otherwise the transaction with whatever `json.Unmarshal` left in
the fields; for an object that names none of `id`, `public_key`, `cost` and `data` this is
the transaction with the zero value in each of them. When `b` holds at most 32 bytes, it
reads as a hash, `NewBlockFromBytes` returns an error when `json.Unmarshal` rejects the
payload, and for values without transactions whose previous hash text decodes it returns
the block with those values. -/
theorem C23_decoders_follow_Unmarshal (dlib : DecodeLib) (a b payload signature : Bytes)
    (ha : asciiDot ∉ a) (hb : asciiDot ∉ b)
    (h64 : dlib.base64DecodeString a = some payload)
    (hhex : hexDecodeString b = some signature) :
    (NewTransactionFromBytes dlib (a ++ asciiDot :: b) = .error ↔
      dlib.unmarshalTransaction payload = none) ∧
    (∀ id publicKey cost data,
      dlib.unmarshalTransaction payload = some (id, publicKey, cost, data) →
      NewTransactionFromBytes dlib (a ++ asciiDot :: b) =
        .ok { Id := id, Signature := some signature, SenderPrivateKey := none,
              SenderPublicKey := publicKey, Cost := cost, Data := data }) ∧
    (∀ fields, dlib.unmarshalObject payload = some fields →
      fields.lookup jsonKeyId = none → fields.lookup jsonKeyPublicKey = none →
      fields.lookup jsonKeyCost = none → fields.lookup jsonKeyData = none →
      NewTransactionFromBytes dlib (a ++ asciiDot :: b) =
        .ok { Id := ⟨List.replicate 16 0, by simp⟩, Signature := some signature,
              SenderPrivateKey := none, SenderPublicKey := none, Cost := 0, Data := [] }) ∧
    (signature.length ≤ 32 →
      (∃ hash, HexToBlockHash b = .ok hash) ∧
      (unmarshalBlockRawData dlib payload = none →
        NewBlockFromBytes dlib (a ++ asciiDot :: b) = .error) ∧
      (∀ (values : BlockRawData) (previousHash : BlockHash),
        dlib.unmarshalBlockJSON payload = some values → values.TransactionsRaw = [] →
        HexToBlockHash values.PreviousHashHex = .ok previousHash →
        ∃ hash, HexToBlockHash b = .ok hash ∧
          NewBlockFromBytes dlib (a ++ asciiDot :: b) =
            .ok { CreatedAt := values.CreatedAt, Previous := some ⟨some previousHash, none⟩,
                  Data := [], Number := values.Number, Hash := some hash })) := by
  rw [NewTransactionFromBytes_frame dlib a b ha hb, NewBlockFromBytes_frame dlib a b ha hb]
  simp only [h64, hhex]
  refine ⟨?_, ?_, ?_, ?_⟩
  · cases hun : dlib.unmarshalTransaction payload with
    | none => simp
    | some values =>
      obtain ⟨id, publicKey, cost, data⟩ := values
      simp
  · intro id publicKey cost data hun
    simp only [hun]
  · intro fields hfields hid hkey hcost hdata
    simp only [DecodeLib.unmarshalTransaction, hfields, jsonUUIDField, jsonPublicKeyField,
      jsonUintField, jsonBytesField, hid, hkey, hcost, hdata]
  · intro hlen
    obtain ⟨hash, hhash, -⟩ := HexToBlockHash_short b signature hhex hlen
    refine ⟨⟨hash, hhash⟩, ?_, ?_⟩
    · intro hun
      simp only [hhash, hun]
    · intro values previousHash hun htx hprev
      refine ⟨hash, hhash, ?_⟩
      simp only [hhash, unmarshalBlockRawData, hun, htx, decodeByteSlices, hprev,
        decodeTransactions, NewLazyBlockFromHash]

/-- C23, amended, at the payload `{}` with the digest `acceptedHash 2`: both decoders
return a value. -/
theorem C23_decoders_follow_Unmarshal_witness :
    NewTransactionFromBytes frameDecodeLib ([123, 125] ++ asciiDot :: sprintfHex (acceptedHash 2).val) =
      .ok { Id := ⟨List.replicate 16 0, by simp⟩, Signature := some (acceptedHash 2).val,
            SenderPrivateKey := none, SenderPublicKey := none, Cost := 0, Data := [] } ∧
    ∃ hash, HexToBlockHash (sprintfHex (acceptedHash 2).val) = .ok hash ∧
      NewBlockFromBytes frameDecodeLib
          ([123, 125] ++ asciiDot :: sprintfHex (acceptedHash 2).val) =
        .ok { CreatedAt := zeroTime, Previous := some ⟨some zeroHash, none⟩, Data := [],
              Number := 0, Hash := some hash } := by
  have hw := C23_decoders_follow_Unmarshal frameDecodeLib [123, 125]
    (sprintfHex (acceptedHash 2).val) [123, 125] (acceptedHash 2).val
    (by decide) (by decide) (by decide) (by decide)
  exact ⟨hw.2.2.1 [] (by decide) rfl rfl rfl rfl,
    (hw.2.2.2 (by decide)).2.2 ⟨zeroTime, [], [], 0⟩ zeroHash (by decide) rfl (by decide)⟩

/-- C23 as stated fails at the payload `{}`, which names no field: `json.Unmarshal`
returns no error on it and leaves every field at its zero value, and
`NewTransactionFromBytes` returns a transaction without id, key, cost and data, and
`NewBlockFromBytes` a block without transactions, with the zero time and the nonce 0. -/
theorem C23_counterexample_empty_object :
    frameDecodeLib.unmarshalObject [123, 125] = some [] ∧
    frameDecodeLib.unmarshalTransaction [123, 125] =
      some (⟨List.replicate 16 0, by simp⟩, none, 0, []) ∧
    frameDecodeLib.unmarshalBlockJSON [123, 125] = some ⟨zeroTime, [], [], 0⟩ ∧
    NewTransactionFromBytes frameDecodeLib [123, 125, 46] =
      .ok { Id := ⟨List.replicate 16 0, by simp⟩, Signature := some [],
            SenderPrivateKey := none, SenderPublicKey := none, Cost := 0, Data := [] } ∧
    NewBlockFromBytes frameDecodeLib ([123, 125, 46] ++ sprintfHex (acceptedHash 2).val) =
      .ok { CreatedAt := zeroTime, Previous := some ⟨some zeroHash, none⟩, Data := [],
            Number := 0, Hash := some (acceptedHash 2) } := by
  refine ⟨by decide, by decide, by decide, by decide, by decide⟩
/-- C24: for a signed transaction `t`, `Serialize` returns `payload.hex(signature)` and
leaves `t` as it is, and `NewTransactionFromBytes` of these bytes returns `t` without
the private key: the same `Id`, public key (`N` and `E`), `Cost`, `Data` and `Signature`.
The reading of the JSON text goes through the embedded `PublicKey.MarshalJSON` and
`PublicKey.UnmarshalJSON`. What is assumed is the range of the Go types (`Cost` is a
`uint`, `E` an `int`) and facts about the library at the values of `t`: `json.Marshal`
returns a text; base64 decoding reads back what base64 encoding wrote (of the JSON text and
of `Data`) and a base64 text holds no dot; the text of the identifier and the decimal text
of `N` are read back; `json.Unmarshal` reads back the fields that `json.Marshal` wrote, for
the object of the key and for the object of the transaction. -/
theorem C24_transaction_round_trip (lib : Lib) (dlib : DecodeLib) (t : Transaction)
    (signature json : Bytes) (hsig : t.Signature = some signature)
    (hjson : lib.marshalTransaction t.Id t.SenderPublicKey t.Cost t.Data = some json)
    (hcost : t.Cost < UINT_MOD)
    (hE : ∀ p, t.SenderPublicKey = some p →
      -9223372036854775808 ≤ p.E ∧ p.E < 9223372036854775808)
    (h64 : dlib.base64DecodeString (lib.base64EncodeToString json) = some json)
    (hdot : asciiDot ∉ lib.base64EncodeToString json)
    (hdata : dlib.base64DecodeString (lib.base64EncodeToString t.Data) = some t.Data)
    (hid : dlib.uuidUnmarshalText (lib.uuidMarshalText t.Id) = some t.Id)
    (hN : ∀ p, t.SenderPublicKey = some p →
      dlib.bigIntSetString (lib.bigIntString p.N) = some p.N)
    (hkey : ∀ p, t.SenderPublicKey = some p → ReadsBack lib dlib
      [(jsonKeyE, .number p.E), (jsonKeyN, .string (lib.bigIntString p.N))])
    (hobj : ∀ key, marshalPublicKeyField lib t.SenderPublicKey = some key → ReadsBack lib dlib
      [(jsonKeyId, .string (lib.uuidMarshalText t.Id)), (jsonKeyPublicKey, key),
        (jsonKeyCost, .number t.Cost),
        (jsonKeyData, .string (lib.base64EncodeToString t.Data))]) :
    ∃ bytes decoded, t.Serialize lib = (.ok bytes, t) ∧
      NewTransactionFromBytes dlib bytes = .ok decoded ∧
      decoded = { t with SenderPrivateKey := none } ∧
      decoded.Id = t.Id ∧ decoded.SenderPublicKey = t.SenderPublicKey ∧
      decoded.Cost = t.Cost ∧ decoded.Data = t.Data ∧ decoded.Signature = some signature := by
  have hun := unmarshalTransaction_marshalTransaction lib dlib t.Id t.SenderPublicKey t.Cost
    t.Data json hjson hcost hE hdata hid hN hkey hobj
  refine ⟨_, { t with SenderPrivateKey := none },
    Transaction.Serialize_signed lib t signature json hsig hjson, ?_, rfl, rfl, rfl, rfl, rfl,
    hsig⟩
  rw [NewTransactionFromBytes_frame dlib _ _ hdot (dot_not_mem_sprintfHex signature)]
  simp only [h64, hexDecodeString_sprintfHex, hun, hsig]

theorem C24_transaction_round_trip_witness :
    signedTransaction.Signature = some [171, 205] ∧
    (∃ bytes decoded, signedTransaction.Serialize codecLib = (.ok bytes, signedTransaction) ∧
      NewTransactionFromBytes codecDecodeLib bytes = .ok decoded ∧
      decoded = { signedTransaction with SenderPrivateKey := none } ∧
      decoded.Id = signedTransaction.Id ∧
      decoded.SenderPublicKey = signedTransaction.SenderPublicKey ∧
      decoded.Cost = signedTransaction.Cost ∧
      decoded.Data = signedTransaction.Data ∧ decoded.Signature = some [171, 205]) :=
  ⟨rfl,
    C24_transaction_round_trip codecLib codecDecodeLib signedTransaction [171, 205] _
      rfl rfl (by decide)
      (by intro p hp; cases hp; decide)
      (hexDecodeString_sprintfHex _) (dot_not_mem_sprintfHex _)
      (hexDecodeString_sprintfHex _) (by decide)
      (by intro p hp; cases hp; decide)
      (by intro p hp; cases hp; intro text h; cases h; decide)
      (by intro key hk; cases hk; intro text h; cases h; decide)⟩
/-- C25: the decoded block is not the encoded one. A mined block that holds a
transaction does not decode at all: `Block.SerializePayload` writes each transaction
as the text `payload.signature`, `json.Unmarshal` reads the elements of `transactions`
into `[]byte`, that is as base64, and a text with a dot is no base64, so
`NewBlockFromBytes` returns an error. A mined block without transactions decodes to a
block with the same `CreatedAt`, `Number` and `Hash`, but its previous reference always
stores a hash: the hash of the predecessor when there is one, and the zero hash, not
nil, when the block has none (`HexToBlockHash("")` returns a pointer to a zero array). -/
theorem C25_decoded_block_differs :
    (∀ (lib : Lib) (dlib : DecodeLib) (s : State) (b : Nat) (hash : BlockHash)
        (strs : List Bytes) (prev json : Bytes),
      (s.blocks b).Hash = some hash →
      (serializeTransactions lib (s.blocks b).Data).1 = .ok strs →
      previousHashText s b = .ok prev →
      lib.marshalBlockPayload (s.blocks b).CreatedAt prev strs (s.blocks b).Number =
        some json →
      asciiDot ∉ lib.base64EncodeToString json →
      dlib.base64DecodeString (lib.base64EncodeToString json) = some json →
      dlib.unmarshalBlockJSON json =
        some ⟨(s.blocks b).CreatedAt, prev, strs, (s.blocks b).Number⟩ →
      (∀ x, asciiDot ∈ x → dlib.base64DecodeString x = none) →
      (Block.Serialize lib s b).1 =
        .ok (lib.base64EncodeToString json ++ asciiDot :: sprintfHex hash.val) ∧
      ((s.blocks b).Data ≠ [] →
        NewBlockFromBytes dlib
          (lib.base64EncodeToString json ++ asciiDot :: sprintfHex hash.val) = .error) ∧
      ((s.blocks b).Data = [] → resolvePrevious s.chain (s.blocks b) = none →
        prev = [] ∧
        NewBlockFromBytes dlib
          (lib.base64EncodeToString json ++ asciiDot :: sprintfHex hash.val) =
          .ok { CreatedAt := (s.blocks b).CreatedAt, Previous := some ⟨some zeroHash, none⟩,
                Data := [], Number := (s.blocks b).Number, Hash := some hash }) ∧
      ((s.blocks b).Data = [] → ∀ P hashP, resolvePrevious s.chain (s.blocks b) = some P →
        (s.blocks P).Hash = some hashP →
        prev = sprintfHex hashP.val ∧
        NewBlockFromBytes dlib
          (lib.base64EncodeToString json ++ asciiDot :: sprintfHex hash.val) =
          .ok { CreatedAt := (s.blocks b).CreatedAt, Previous := some ⟨some hashP, none⟩,
                Data := [], Number := (s.blocks b).Number, Hash := some hash })) ∧
    (frameState.blocks 2).Data = [exampleTransaction [1]] ∧
    (Block.VerifyHash frameLib frameState 2).1 = .ok (some (acceptedHash 2)) ∧
    (Block.Serialize frameLib frameState 2).1 =
      .ok ([2, 1] ++ asciiDot :: sprintfHex (acceptedHash 2).val) ∧
    NewBlockFromBytes frameDecodeLib ([2, 1] ++ asciiDot :: sprintfHex (acceptedHash 2).val) =
      .error ∧
    (frameState.blocks 0).Previous = none ∧
    (Block.VerifyHash frameLib frameState 0).1 = .ok (some (acceptedHash 2)) ∧
    (Block.Serialize frameLib frameState 0).1 =
      .ok ([2, 0] ++ asciiDot :: sprintfHex (acceptedHash 2).val) ∧
    NewBlockFromBytes frameDecodeLib ([2, 0] ++ asciiDot :: sprintfHex (acceptedHash 2).val) =
      .ok { CreatedAt := utc 1, Previous := some ⟨some zeroHash, none⟩, Data := [],
            Number := 2, Hash := some (acceptedHash 2) } := by
  refine ⟨?_, rfl, by decide, by decide, by decide, rfl, by decide, by decide, by decide⟩
  intro lib dlib s b hash strs prev json hh hser hprev hjson hnodot h64 hun hdot
  obtain ⟨d1, d2, d3⟩ := decode_serialized_block lib dlib s b hash strs prev json hh hser hprev
    hjson hnodot h64 hun hdot
  refine ⟨d1, d2, ?_, ?_⟩
  · intro he hres
    have hp : prev = [] := by
      rw [previousHashText_unresolved s b hres] at hprev
      injection hprev with hprev
      exact hprev.symm
    refine ⟨hp, d3 he zeroHash ?_⟩
    rw [hp]
    decide
  · intro he P hashP hres hP
    have hp : prev = sprintfHex hashP.val := by
      rw [previousHashText_resolved s b P hashP hres hP] at hprev
      injection hprev with hprev
      exact hprev.symm
    refine ⟨hp, d3 he hashP ?_⟩
    rw [hp]
    exact HexToBlockHash_sprintfHex hashP

/-- C26: the handler of `POST /v1/transactions` never calls `Verify`. Whatever the
signature, a body that decodes to a transaction whose id is not in the mempool is
appended to the mempool and posted to every peer of `ListOthers()`. The bytes `hi.09`
decode to a transaction whose signature does not verify; on a fresh mempool and a peer
set with one other peer the handler stores it and posts it to that peer. -/
theorem C26_ingest_skips_verification :
    (∀ (dlib : DecodeLib) (post : Peer → Bytes → PostResult) (memPool : MemPool)
        (peerSet : PeerSet) (byt : Bytes) (t : Transaction) (others : PeerList),
      NewTransactionFromBytes dlib byt = .ok t →
      (∀ x ∈ memPool.Transactions, x.Id ≠ t.Id) →
      peerSet.ListOthers = some others →
      (postTransaction dlib post memPool peerSet byt).1 = .ok .done ∧
      (postTransaction dlib post memPool peerSet byt).2.1.Transactions =
        memPool.Transactions ++ [t] ∧
      (postTransaction dlib post memPool peerSet byt).2.2.2 = others) ∧
    NewTransactionFromBytes frameDecodeLib [104, 105, 46, 48, 57] =
      .ok (exampleTransaction [9]) ∧
    (exampleTransaction [9]).Verify frameLib = .error ∧
    (freshPeerSet.Insert otherPeer).2.ListOthers = some [otherPeer] ∧
    (postTransaction frameDecodeLib (fun _ _ => PostResult.status 200) NewMemPool
      (freshPeerSet.Insert otherPeer).2 [104, 105, 46, 48, 57]).1 = .ok .done ∧
    (postTransaction frameDecodeLib (fun _ _ => PostResult.status 200) NewMemPool
      (freshPeerSet.Insert otherPeer).2 [104, 105, 46, 48, 57]).2.1.Transactions =
      [exampleTransaction [9]] ∧
    (postTransaction frameDecodeLib (fun _ _ => PostResult.status 200) NewMemPool
      (freshPeerSet.Insert otherPeer).2 [104, 105, 46, 48, 57]).2.2.2 = [otherPeer] := by
  refine ⟨?_, by decide, by decide, by decide, by decide, by decide, by decide⟩
  intro dlib post memPool peerSet byt t others hdec hfresh hothers
  unfold postTransaction
  rw [hdec]
  simp only [Submit_fresh memPool t hfresh, hothers, postToPeers_posted, List.nil_append,
    and_self]

/-- C27: a decoded block writes into its payload the hash of the block that its
previous reference resolves to in the receiving chain, not the hash it stores. For a
mined block without transactions on top of a block with hash `hashP`: the sender's
payload names `hashP`; the payload of the decoded block names it too when the
receiving chain indexes a block under `hashP`, but has an empty `previous_hash` when
it does not, so the bytes and their digest are not those that were mined. Block `1` of
`frameState` decoded on a node with a fresh chain: its payload is `[2, 0]`, without
the 64 digits of the previous hash, and its digest is not the stored hash. -/
theorem C27_reserialized_payload_differs :
    (∀ (lib : Lib) (s : State) (b P : Nat) (hashP hash : BlockHash) (r : State) (a : Nat),
      (s.blocks b).Data = [] →
      resolvePrevious s.chain (s.blocks b) = some P → (s.blocks P).Hash = some hashP →
      r.blocks a = { CreatedAt := (s.blocks b).CreatedAt, Previous := some ⟨some hashP, none⟩,
                     Data := [], Number := (s.blocks b).Number, Hash := some hash } →
      (Block.SerializePayload lib s b).1 =
        (match lib.marshalBlockPayload (s.blocks b).CreatedAt (sprintfHex hashP.val) []
            (s.blocks b).Number with
          | none => .error
          | some result => .ok (lib.base64EncodeToString result)) ∧
      (r.chain.index hashP = none →
        (Block.SerializePayload lib r a).1 =
          (match lib.marshalBlockPayload (s.blocks b).CreatedAt [] [] (s.blocks b).Number with
            | none => .error
            | some result => .ok (lib.base64EncodeToString result))) ∧
      (∀ q, r.chain.index hashP = some q → (r.blocks q).Hash = some hashP →
        (Block.SerializePayload lib r a).1 = (Block.SerializePayload lib s b).1)) ∧
    (Block.SerializePayload frameLib frameState 1).1 =
      .ok ([2, 0] ++ sprintfHex (acceptedHash 2).val) ∧
    (Block.VerifyHash frameLib frameState 1).1 = .ok (some (acceptedHash 66)) ∧
    (Block.Serialize frameLib frameState 1).1 =
      .ok ([2, 0] ++ sprintfHex (acceptedHash 2).val ++ asciiDot ::
        sprintfHex (acceptedHash 66).val) ∧
    NewBlockFromBytes frameDecodeLib ([2, 0] ++ sprintfHex (acceptedHash 2).val ++ asciiDot ::
        sprintfHex (acceptedHash 66).val) =
      .ok decodedFrameBlock ∧
    (Block.SerializePayload frameLib (receiverState decodedFrameBlock) 9).1 = .ok [2, 0] ∧
    (Block.VerifyHash frameLib (receiverState decodedFrameBlock) 9).1 =
      .ok (some (acceptedHash 2)) ∧
    ((receiverState decodedFrameBlock).blocks 9).Hash = some (acceptedHash 66) := by
  refine ⟨?_, by decide, by decide, by decide, by decide, by decide, by decide, rfl⟩
  intro lib s b P hashP hash r a hdata hres hP hr
  have hs : (serializeTransactions lib (s.blocks b).Data).1 = .ok [] := by
    rw [hdata]; rfl
  have hrd : (serializeTransactions lib (r.blocks a).Data).1 = .ok [] := by
    rw [hr]; rfl
  have hrres : resolvePrevious r.chain (r.blocks a) = r.chain.index hashP :=
    resolvePrevious_fromHash r.chain (r.blocks a) hashP (by rw [hr])
  have hsend : (Block.SerializePayload lib s b).1 =
      (match lib.marshalBlockPayload (s.blocks b).CreatedAt (sprintfHex hashP.val) []
          (s.blocks b).Number with
        | none => .error
        | some result => .ok (lib.base64EncodeToString result)) := by
    rw [SerializePayload_eq]
    exact payloadOutcome_eq lib s b [] _ hs (previousHashText_resolved s b P hashP hres hP)
  have hc : (r.blocks a).CreatedAt = (s.blocks b).CreatedAt := by rw [hr]
  have hn : (r.blocks a).Number = (s.blocks b).Number := by rw [hr]
  refine ⟨hsend, ?_, ?_⟩
  · intro hidx
    rw [SerializePayload_eq]
    have := payloadOutcome_eq lib r a [] [] hrd
      (previousHashText_unresolved r a (by rw [hrres]; exact hidx))
    rw [hc, hn] at this
    exact this
  · intro q hidx hq
    rw [hsend, SerializePayload_eq]
    have := payloadOutcome_eq lib r a [] _ hrd
      (previousHashText_resolved r a q hashP (by rw [hrres]; exact hidx) hq)
    rw [hc, hn] at this
    exact this
/-- C28: for an unmined block for which some nonce below `MaxUint` gives a payload
that serializes to a digest accepted by `TestHash`, `Mine` returns, and afterwards:
the payload with the stored `Number` serializes to an accepted digest, no smaller
nonce does, `Hash` is that digest, and it is the digest of the payload of the block
as it now stands. `CreatedAt` is as before; the previous reference carries the same
hash and resolves to the same block (the lookup is cached); `Data` holds the same
transactions in the same order, those that had no signature now signed
(`SerializePayload` signs them on the way); no other block and nothing of the chain
is written. -/
theorem C28_Mine_stores_least_nonce (lib : Lib) (MaxUint : Nat) (s : State) (b : Nat)
    (hunmined : (s.blocks b).Hash = none)
    (hfound : ∃ n, n < MaxUint ∧ ∃ payload,
      (Block.SerializePayload lib (s.setNumber b n) b).1 = .ok payload ∧
      TestHash (lib.sha256Sum256 payload) = true) :
    (Block.Mine lib MaxUint s b).1 = .ok () ∧
    ∃ payload,
      ((Block.Mine lib MaxUint s b).2.blocks b).Number < MaxUint ∧
      (Block.SerializePayload lib
        (s.setNumber b ((Block.Mine lib MaxUint s b).2.blocks b).Number) b).1 = .ok payload ∧
      TestHash (lib.sha256Sum256 payload) = true ∧
      (∀ m, m < ((Block.Mine lib MaxUint s b).2.blocks b).Number → ∀ other,
        (Block.SerializePayload lib (s.setNumber b m) b).1 = .ok other →
        TestHash (lib.sha256Sum256 other) = false) ∧
      ((Block.Mine lib MaxUint s b).2.blocks b).Hash = some (lib.sha256Sum256 payload) ∧
      (Block.SerializePayload lib (Block.Mine lib MaxUint s b).2 b).1 = .ok payload ∧
      ((Block.Mine lib MaxUint s b).2.blocks b).CreatedAt = (s.blocks b).CreatedAt ∧
      ((Block.Mine lib MaxUint s b).2.blocks b).Previous.map LazyBlock.Hash =
        (s.blocks b).Previous.map LazyBlock.Hash ∧
      resolvePrevious s.chain ((Block.Mine lib MaxUint s b).2.blocks b) =
        resolvePrevious s.chain (s.blocks b) ∧
      List.Forall₂ (fun t t1 => t1 = t ∨
          (t.Signature = none ∧ ∃ signature, t1 = { t with Signature := some signature }))
        (s.blocks b).Data ((Block.Mine lib MaxUint s b).2.blocks b).Data ∧
      (∀ q, q ≠ b → (Block.Mine lib MaxUint s b).2.blocks q = s.blocks q) ∧
      (Block.Mine lib MaxUint s b).2.chain = s.chain := by
  have hfound1 : ∃ n, n < MaxUint ∧
      ∃ h, (Block.VerifyHash lib (s.setNumber b n) b).1 = .ok (some h) := by
    obtain ⟨n, hn, payload, hp, ht⟩ := hfound
    exact ⟨n, hn, _, (VerifyHash_ok_some lib _ b _).mpr ⟨payload, hp, rfl, ht⟩⟩
  obtain ⟨m0, h, hlt, hacc, hmin, hmine⟩ := Mine_found lib MaxUint s b hfound1
  obtain ⟨pl, hpl, hsha, htest⟩ := VerifyHash_ok_some_payload lib _ b h hacc
  have hpay := payloadOutcome_mined lib s b m0 (some h) pl hunmined hpl
  rw [hmine]
  have hblk : ((((settled lib s b).setNumber b m0).setHash b (some h)).blocks b) =
      { (settled lib s b).blocks b with Number := m0, Hash := some h } := by
    simp [State.setHash, State.setNumber, State.setBlock]
  have hnum : ((((settled lib s b).setNumber b m0).setHash b (some h)).blocks b).Number = m0 := by
    rw [hblk]
  obtain ⟨_, hcreated, _, hres, _⟩ := settled_blocks lib s b b
  refine ⟨rfl, pl, ?_, ?_, ?_, ?_, ?_, ?_, ?_, ?_, ?_, ?_, ?_, rfl⟩
  · simp only [hnum]; exact hlt
  · simp only [hnum]; rw [SerializePayload_eq]; exact hpl
  · rw [hsha]; exact htest
  · simp only [hnum]
    intro m hm other hother
    cases htm : TestHash (lib.sha256Sum256 other) with
    | false => rfl
    | true =>
      exact absurd ((VerifyHash_ok_some lib _ b _).mpr ⟨other, hother, rfl, htm⟩) (hmin m hm _)
  · rw [hblk, hsha]
  · rw [SerializePayload_eq]; exact hpay
  · rw [hblk]; exact hcreated
  · rw [hblk]; exact settled_previous_Hash lib s b
  · rw [hblk]
    exact hres
  · rw [hblk]
    have := serializeTransactions_keeps_fields lib (s.blocks b).Data
    rw [← settled_data] at this
    exact this
  · intro q hq
    simp [State.setHash, State.setNumber, State.setBlock, settled, hq]

/-- C28 at block `0` of `candidateState`: the nonces 0 and 1 are rejected, the nonce 2
is accepted, and `Mine` stores 2 and the digest `acceptedHash 1`. -/
theorem C28_Mine_stores_least_nonce_witness :
    (candidateState.blocks 0).Hash = none ∧
    (Block.SerializePayload exampleLib (candidateState.setNumber 0 2) 0).1 = .ok [2, 1] ∧
    TestHash (exampleLib.sha256Sum256 [2, 1]) = true ∧
    (Block.Mine exampleLib (2 ^ 64 - 1) candidateState 0).1 = .ok () ∧
    ((Block.Mine exampleLib (2 ^ 64 - 1) candidateState 0).2.blocks 0).Number = 2 ∧
    ((Block.Mine exampleLib (2 ^ 64 - 1) candidateState 0).2.blocks 0).Hash =
      some (acceptedHash 1) := by
  have hw := C28_Mine_stores_least_nonce exampleLib (2 ^ 64 - 1) candidateState 0 rfl
    ⟨2, by norm_num, [2, 1], by decide, by decide⟩
  exact ⟨rfl, by decide, by decide, hw.1, by decide, by decide⟩
/-- C29: `HexToBlockHash` returns an error when its argument is no hexadecimal text, and
the 32 bytes of a hash when it is the `%x` text of one. It does not check the length
of what it decodes: a text of more than 32 bytes runs the copy loop out of the range
of the array (a run-time panic, not an error), and a text of fewer than 32 bytes, the
empty text included, is accepted and padded with zero bytes. -/
theorem C29_HexToBlockHash_length_unchecked :
    (∀ s, hexDecodeString s = none → HexToBlockHash s = .error) ∧
    (∀ h : BlockHash, HexToBlockHash (sprintfHex h.val) = .ok h) ∧
    (∀ s raw, hexDecodeString s = some raw → 32 < raw.length → HexToBlockHash s = .panic) ∧
    (∀ s raw, hexDecodeString s = some raw → raw.length ≤ 32 →
      ∃ h, HexToBlockHash s = .ok h ∧ h.val = raw ++ List.replicate (32 - raw.length) 0) ∧
    hexDecodeString (sprintfHex (List.replicate 33 7)) = some (List.replicate 33 7) ∧
    HexToBlockHash (sprintfHex (List.replicate 33 7)) = .panic ∧
    HexToBlockHash [97, 98] = .ok ⟨171 :: List.replicate 31 0, by simp⟩ ∧
    HexToBlockHash [] = .ok zeroHash := by
  refine ⟨HexToBlockHash_invalid, HexToBlockHash_sprintfHex, HexToBlockHash_long,
    HexToBlockHash_short, by decide, by decide, by decide, by decide⟩

/-- C30, amended. On a chain whose appendage heads are values of the hash index, whose
indexed blocks have previous references that resolve to indexed blocks only, and on
which following previous references from an indexed block never revisits a block, a call
of `InsertBlockAndPlaceIntoAppendage` for any block returns when its fuel is the number
of blocks that the index holds once the block is inserted; and each backward walk from
the predecessor of an appendage head stops within that many blocks, at the first block
that has the hash pointer of the predecessor of the inserted block or whose predecessor
is absent or does not resolve. -/
theorem C30_place_returns_within_index (now : Time) (s : State) (block : Nat)
    (hheads : HeadsIndexed s) (hclosed : IndexClosed s) (hacyclic : Acyclic s) :
    ∃ held : Finset Nat,
      (∀ q, Indexed (Blockchain.InsertBlock s block).2.chain q ↔ q ∈ held) ∧
      (∀ fuel : Nat, held.card ≤ fuel →
        ∃ r, Blockchain.InsertBlockAndPlaceIntoAppendage fuel now s block = some r) ∧
      (∀ P, (Blockchain.InsertBlock s block).1 = true →
        resolvePrevious (Blockchain.InsertBlock s block).2.chain (s.blocks block) = some P →
        ∀ A ∈ s.chain.Appendages, ∀ H, A.Head = some H →
          (∃ n, n < held.card ∧ ancestor (Blockchain.InsertBlock s block).2 (n + 1) H = none ∧
            ∀ k : Nat, k < n → ∀ q,
              ancestor (Blockchain.InsertBlock s block).2 (k + 1) H = some q →
              sameHashPointer (Blockchain.InsertBlock s block).2 q P = false) ∨
          (∃ d q, d < held.card ∧
            ancestor (Blockchain.InsertBlock s block).2 (d + 1) H = some q ∧
            sameHashPointer (Blockchain.InsertBlock s block).2 q P = true ∧
            ∀ k : Nat, k < d → ∀ q',
              ancestor (Blockchain.InsertBlock s block).2 (k + 1) H = some q' →
              sameHashPointer (Blockchain.InsertBlock s block).2 q' P = false)) := by
  obtain ⟨held, hheld⟩ := index_held (Blockchain.InsertBlock s block).2.chain
  have hwalks : ∀ (hash : BlockHash) P, (s.blocks block).Hash = some hash →
      s.chain.index hash = none →
      resolvePrevious (Blockchain.InsertBlock s block).2.chain (s.blocks block) = some P →
      ∀ A ∈ s.chain.Appendages, ∀ H, A.Head = some H →
        (∃ n, n < held.card ∧ ancestor (Blockchain.InsertBlock s block).2 (n + 1) H = none ∧
          ∀ k : Nat, k < n → ∀ q,
            ancestor (Blockchain.InsertBlock s block).2 (k + 1) H = some q →
            sameHashPointer (Blockchain.InsertBlock s block).2 q P = false) ∨
        (∃ d q, d < held.card ∧
          ancestor (Blockchain.InsertBlock s block).2 (d + 1) H = some q ∧
          sameHashPointer (Blockchain.InsertBlock s block).2 q P = true ∧
          ∀ k : Nat, k < d → ∀ q',
            ancestor (Blockchain.InsertBlock s block).2 (k + 1) H = some q' →
            sameHashPointer (Blockchain.InsertBlock s block).2 q' P = false) := by
    intro hash P hmined hfresh hprev A hA H hH
    obtain ⟨m, hm1, hm, hstop⟩ := walk_ends_or_meets s block hash P hclosed hacyclic hmined
      hfresh hprev held (fun q hq => (hheld q).mp hq) H (hheads A hA H hH)
    rcases walk_first_stop _ P H m hm1 hstop with ⟨n, hn, h1, h2⟩ | ⟨d, q, hd, h1, h2, h3⟩
    · exact Or.inl ⟨n, by omega, h1, h2⟩
    · exact Or.inr ⟨d, q, by omega, h1, h2, h3⟩
  refine ⟨held, hheld, ?_, ?_⟩
  · intro fuel hfuel
    cases hmined : (s.blocks block).Hash with
    | none =>
      refine ⟨(false, s), ?_⟩
      simp [Blockchain.InsertBlockAndPlaceIntoAppendage, InsertBlock_unmined s block hmined]
    | some hash =>
      cases hfresh : s.chain.index hash with
      | some x =>
        refine ⟨(false, s), ?_⟩
        simp [Blockchain.InsertBlockAndPlaceIntoAppendage,
          InsertBlock_indexed s block hash hmined (by rw [hfresh]; simp)]
      | none =>
        cases hprev : resolvePrevious (Blockchain.InsertBlock s block).2.chain (s.blocks block) with
        | none =>
          obtain ⟨s1, _, heq⟩ := place_unresolved fuel now s block hash hmined hfresh hprev
          exact ⟨_, heq⟩
        | some P =>
          obtain ⟨s1, hs1, heq⟩ := place_resolved fuel now s block hash P hmined hfresh hprev
          rw [heq]
          cases extendAppendage s1 block P now s1.chain.Appendages with
          | some appendages => exact ⟨_, rfl⟩
          | none =>
            have happs : s1.chain.Appendages = s.chain.Appendages := by
              rw [hs1.1, InsertBlock_appendages]
            obtain ⟨r, s2, hfork, _⟩ := forkSearch_returns P held.card s1.chain.Appendages
              (Blockchain.InsertBlock s block).2
              (fun a ha H hH => hwalks hash P hmined hfresh hprev a (by rw [← happs]; exact ha)
                H hH)
              s1 hs1 fuel hfuel
            simp only [hfork]
            cases r with
            | none => exact ⟨_, rfl⟩
            | some hit => exact ⟨_, rfl⟩
  · intro P hok hprev A hA H hH
    cases hmined : (s.blocks block).Hash with
    | none =>
      rw [InsertBlock_unmined s block hmined] at hok
      exact absurd hok (by simp)
    | some hash =>
      cases hfresh : s.chain.index hash with
      | some x =>
        rw [InsertBlock_indexed s block hash hmined (by rw [hfresh]; simp)] at hok
        exact absurd hok (by simp)
      | none => exact hwalks hash P hmined hfresh hprev A hA H hH

/-- C30, amended, at block `4` of `chainState`, mined on top of the block `0`: the
call returns with the fuel 5 (the index then holds the blocks `0`, `1`, `2`, `7` and
`4`). -/
theorem C30_place_returns_within_index_witness :
    HeadsIndexed chainState ∧ IndexClosed chainState ∧ Acyclic chainState ∧
    (Blockchain.InsertBlockAndPlaceIntoAppendage 5 (utc 9) chainState 4).isSome = true ∧
    ∃ held : Finset Nat,
      (∀ q, Indexed (Blockchain.InsertBlock chainState 4).2.chain q ↔ q ∈ held) ∧
      (∀ fuel : Nat, held.card ≤ fuel →
        ∃ r, Blockchain.InsertBlockAndPlaceIntoAppendage fuel (utc 9) chainState 4 = some r) := by
  have hacyclic : Acyclic chainState := acyclic_of_rank chainState id chainState_rank
  obtain ⟨held, h1, h2, _⟩ := C30_place_returns_within_index (utc 9) chainState 4
    chainState_heads chainState_closed hacyclic
  exact ⟨chainState_heads, chainState_closed, hacyclic, by decide, held, h1, h2⟩

/-- C30 as stated fails where a previous reference of an indexed block carries a
resolved pointer to a block that is not in the index. In `cachedState` following
previous references never revisits a block and the head `3` of the one appendage is
indexed; with the block `5` inserted the index holds the two blocks `3` and `5`; the
previous reference of the block `5` resolves to the block `4`, and the backward walk
from the predecessor of the head visits the three blocks `2`, `1` and `0`, none with the
hash pointer of the block `4`: the call has not returned after two blocks of the walk,
and returns after three. -/
theorem C30_counterexample_cached_walk :
    Acyclic cachedState ∧ HeadsIndexed cachedState ∧
    (∀ q, Indexed (Blockchain.InsertBlock cachedState 5).2.chain q ↔ q = 3 ∨ q = 5) ∧
    resolvePrevious (Blockchain.InsertBlock cachedState 5).2.chain (cachedState.blocks 5) =
      some 4 ∧
    ancestor (Blockchain.InsertBlock cachedState 5).2 1 3 = some 2 ∧
    ancestor (Blockchain.InsertBlock cachedState 5).2 2 3 = some 1 ∧
    ancestor (Blockchain.InsertBlock cachedState 5).2 3 3 = some 0 ∧
    ancestor (Blockchain.InsertBlock cachedState 5).2 4 3 = none ∧
    sameHashPointer (Blockchain.InsertBlock cachedState 5).2 2 4 = false ∧
    sameHashPointer (Blockchain.InsertBlock cachedState 5).2 1 4 = false ∧
    sameHashPointer (Blockchain.InsertBlock cachedState 5).2 0 4 = false ∧
    Blockchain.InsertBlockAndPlaceIntoAppendage 2 (utc 9) cachedState 5 = none ∧
    (Blockchain.InsertBlockAndPlaceIntoAppendage 3 (utc 9) cachedState 5).isSome = true := by
  refine ⟨acyclic_of_rank cachedState id cachedState_rank, ?_, ?_, by decide, by decide,
    by decide, by decide, by decide, by decide, by decide, by decide,
    Option.isNone_iff_eq_none.mp (by decide), by decide⟩
  · intro A hA H hH
    simp [cachedState] at hA
    subst hA
    injection hH with hH
    subst hH
    exact ⟨acceptedHash 3, by decide⟩
  · intro q
    rw [InsertBlock_fresh cachedState 5 (acceptedHash 5) (by decide) (by decide)]
    constructor
    · rintro ⟨h, hq⟩
      simp only [cachedState] at hq
      split_ifs at hq <;> simp at hq <;> omega
    · rintro (rfl | rfl)
      · exact ⟨acceptedHash 3, by decide⟩
      · exact ⟨acceptedHash 5, by decide⟩
/-- C31: `PrimaryAppendage` returns nil on a chain that has appendages when several
of them are longest and none has an `UpdatedAt` that is after the epoch or is the value
`time.Unix(0, 0)` itself: the newest timestamp then stays at its start `time.Unix(0, 0)`,
no appendage has an `UpdatedAt` equal (Go `==`) to it, and the list of matches is empty.
These are the only chains with appendages on which it returns nil. The chain sync
records the `UpdatedAt` of the peer's response: after the sync of a response with two
appendages of one block each that carry the zero time (or the epoch in UTC), the chain
has two appendages and `PrimaryAppendage` returns nil; with timestamps after the epoch
it returns the newer one. -/
theorem C31_PrimaryAppendage_nil_with_appendages :
    (∀ c : Blockchain, c.PrimaryAppendage = none ↔
      c.Appendages = [] ∨
      (2 ≤ c.LongestAppendages.length ∧
        ∀ a ∈ c.LongestAppendages,
          a.UpdatedAt.instant ≤ 0 ∧ a.UpdatedAt ≠ Time.unixEpoch)) ∧
    (syncedState zeroTime zeroTime).chain.Appendages =
      [⟨some 1, some 0, 1, zeroTime⟩, ⟨some 3, some 2, 1, zeroTime⟩] ∧
    (syncedState zeroTime zeroTime).chain.PrimaryAppendage = none ∧
    (syncedState (utc 0) (utc 0)).chain.PrimaryAppendage = none ∧
    (syncedState (utc (-5)) zeroTime).chain.PrimaryAppendage = none ∧
    (syncedState (utc 5) (utc 7)).chain.PrimaryAppendage = some ⟨some 3, some 2, 1, utc 7⟩ ∧
    (syncedState (utc 5) zeroTime).chain.PrimaryAppendage = some ⟨some 1, some 0, 1, utc 5⟩ := by
  refine ⟨PrimaryAppendage_none_iff, by decide, by decide, by decide, by decide, by decide,
    by decide⟩
/-- C32: `Decrement` guards the subtraction with `ps.rankings[id] > 0` only. For a change
that is at most the ranking the claim holds: the id is evicted (its ranking deleted, the
id appended to the untrusted list) or keeps a ranking that is not above the old one. For
a change above a positive ranking the `uint` difference wraps around: the id stays ranked,
with the ranking `r + 2 ^ 64 - c`, which is above `r`. After `Insert` of a peer (ranking
10) and `Decrement` of its id by 11 the ranking is `2 ^ 64 - 1`. -/
theorem C32_Decrement_wraps_around :
    (∀ (ps : PeerSet) (id : PeerId) (r c : Nat),
      ps.rankings.lookup id = some r → r < UINT_MOD → c ≤ r →
      ((ps.Decrement id c).rankings.lookup id = none ∧ id ∈ (ps.Decrement id c).untrusted) ∨
      ∃ r' : Nat, (ps.Decrement id c).rankings.lookup id = some r' ∧ r' ≤ r) ∧
    (∀ (ps : PeerSet) (id : PeerId) (r c : Nat),
      ps.rankings.lookup id = some r → 0 < r → r < c → c < UINT_MOD →
      (ps.Decrement id c).rankings.lookup id = some (r + UINT_MOD - c) ∧
      r < r + UINT_MOD - c ∧
      (id ∈ (ps.Decrement id c).untrusted ↔ id ∈ ps.untrusted)) ∧
    (applyCalls freshPeerSet [PeerCall.insert otherPeer]).rankings.lookup otherPeer.Id =
      some 10 ∧
    (applyCalls freshPeerSet [PeerCall.insert otherPeer,
      PeerCall.decrement otherPeer.Id 11]).rankings.lookup otherPeer.Id =
      some 18446744073709551615 ∧
    (applyCalls freshPeerSet [PeerCall.insert otherPeer,
      PeerCall.decrement otherPeer.Id 11]).untrusted = [] ∧
    (applyCalls freshPeerSet [PeerCall.insert otherPeer,
      PeerCall.decrement otherPeer.Id 10]).rankings.lookup otherPeer.Id = none := by
  refine ⟨?_, ?_, by decide, by decide, by decide, by decide⟩
  · intro ps id r c h hr hc
    rcases Nat.eq_zero_or_pos r with h0 | hpos
    · subst h0
      have hra := rankingAt_of_lookup ps id _ h
      have hd : ps.Decrement id c = ps.Rank := by
        unfold PeerSet.Decrement
        rw [hra, if_neg (show ¬ (0 : Nat) > 0 by omega)]
      rw [hd]
      exact Or.inl ⟨Rank_lookup_zero ps id h, (Rank_mem_untrusted ps id).mpr (Or.inr h)⟩
    · obtain ⟨hl, hu⟩ := Decrement_lookup ps id r c h hpos
      have hs : uintSub r c = r - c := uintSub_small r c hc hr
      by_cases hz : uintSub r c = 0
      · exact Or.inl ⟨by rw [hl, if_pos hz], hu.mpr (Or.inr hz)⟩
      · exact Or.inr ⟨uintSub r c, by rw [hl, if_neg hz], by rw [hs]; omega⟩
  · intro ps id r c h hpos hrc hc
    obtain ⟨hl, hu⟩ := Decrement_lookup ps id r c h hpos
    have hs : uintSub r c = r + UINT_MOD - c := uintSub_wrap r c hrc hc
    have hz : uintSub r c ≠ 0 := by rw [hs]; omega
    refine ⟨by rw [hl, if_neg hz, hs], by omega, ?_⟩
    rw [hu]
    constructor
    · rintro (h1 | h1)
      · exact h1
      · exact absurd h1 hz
    · exact Or.inl
end BC
